import Mathlib

/-!
# mathastc: lexer, precedence-climbing parser, evaluator and printer

A shallow embedding of the Go package `mathastc` (files `token.go`, `parser.go`,
`operator.go`, `def.go`, `expr_node.go`, `ast.go`, `helper.go`, `parameter.go`,
`calculate.go`) together with theorems about it.

Conventions of the embedding.

* A Go `string` is a sequence of bytes; it is modelled by `GoString = List Char`,
  one `Char` per byte. For ASCII text `"1+2".toList` is exactly the byte sequence.
* A Go `float64` is modelled by `F64`: a finite value is a dyadic number
  `m * 2^e` kept in normal form, and there are the two infinities and NaN.
  The sign of zero is not modelled.
* A Go function that may panic, or whose recursion is not bounded by its input,
  returns `Run α`: a value, a panic, or exhaustion of the explicit fuel.
* Package-level mutable tables (`defConst`, `defFunc`) are an explicit `Registry`.
-/

namespace Mathastc

/-- A Go string: a sequence of bytes, one `Char` per byte. -/
abbrev GoString := List Char

deriving instance DecidableEq for Except

/-! ## Outcome of a Go call -/

/-- Outcome of running a Go function: it returns, it panics, or the model ran out of
fuel before the call completed. -/
inductive Run (α : Type) where
  | done (a : α)
  | panicked (msg : String)
  | outOfFuel
  deriving Repr, DecidableEq

namespace Run

/-- Sequencing: a panic or fuel exhaustion in the first call ends the computation. -/
def bind {α β : Type} (x : Run α) (f : α → Run β) : Run β :=
  match x with
  | done a => f a
  | panicked m => panicked m
  | outOfFuel => outOfFuel

instance : Monad Run where
  pure := Run.done
  bind := Run.bind

/-- The call returned (no panic, fuel sufficed). -/
def returns {α : Type} (x : Run α) : Bool :=
  match x with
  | done _ => true
  | _ => false

/-- The call panicked. -/
def panics {α : Type} (x : Run α) : Bool :=
  match x with
  | panicked _ => true
  | _ => false

end Run

/-! ## float64 -/

/-- A `float64` value. `fin m e` is the finite value `m * 2^e`; in normal form `m` is odd,
or `m = 0` and `e = 0`. -/
inductive F64 where
  | fin (m : Int) (e : Int)
  | posInf
  | negInf
  | NaN
  deriving Repr, DecidableEq

namespace F64

/-- Number of trailing zero bits of a positive natural number (fuel bounded by the number). -/
def trailingZeros : Nat → Nat → Nat
  | 0, _ => 0
  | fuel + 1, n => if n = 0 then 0 else if n % 2 = 1 then 0 else trailingZeros fuel (n / 2) + 1

/-- Position of the highest set bit of a positive natural number, `⌊log₂ n⌋` (fuel bounded
by the number); `0` for `0`. -/
def log2 : Nat → Nat → Nat
  | 0, _ => 0
  | fuel + 1, n => if n ≤ 1 then 0 else log2 fuel (n / 2) + 1

/-- Normal form of the dyadic `m * 2^e`: strip the trailing zero bits of `m`. -/
def norm (m : Int) (e : Int) : F64 :=
  if m = 0 then fin 0 0
  else
    let k := trailingZeros m.natAbs m.natAbs
    fin (m / (2 ^ k : Nat)) (e + k)

/-- Zero. -/
def zero : F64 := fin 0 0

/-- Round the non-negative ratio `n / d` to the nearest integer, ties to even. -/
def roundHalfEven (n d : Nat) : Nat :=
  let q := n / d
  let r := n % d
  if 2 * r < d then q
  else if d < 2 * r then q + 1
  else if q % 2 = 0 then q else q + 1

/-- The exponent `k` with `2^k ≤ n / d < 2^(k+1)`, for positive `n` and `d`. -/
def floorLog2 (n d : Nat) : Int :=
  let k : Int := (log2 n n : Int) - (log2 d d : Int)
  if 0 ≤ k then
    (if d * 2 ^ k.toNat ≤ n then k else k - 1)
  else
    (if d ≤ n * 2 ^ (-k).toNat then k else k - 1)

/-- Round the positive ratio `n / d` to a multiple `m * 2^q` of the quantum `2^q`, where
`q` leaves at most `bits` significant bits and is at least `qmin` when that is given
(to nearest, ties to even). Returns `(m, q)`. -/
def roundRatio (bits : Nat) (qmin : Option Int) (n d : Nat) : Nat × Int :=
  let q0 : Int := floorLog2 n d - (bits - 1 : Nat)
  let q : Int := match qmin with
    | some lo => max q0 lo
    | none => q0
  if 0 ≤ q then (roundHalfEven n (d * 2 ^ q.toNat), q)
  else (roundHalfEven (n * 2 ^ (-q).toNat) d, q)

/-- The float64 nearest to the signed ratio `(-1)^neg * n / d` (ties to even): 53 significant
bits, quantum at least `2^-1074`, and an infinity from `2^1024` on. -/
def ofRatio (neg : Bool) (n d : Nat) : F64 :=
  if n = 0 ∨ d = 0 then zero
  else
    let (m, q) := roundRatio 53 (some (-1074)) n d
    if 0 ≤ q ∧ 2 ^ 1024 ≤ m * 2 ^ q.toNat then (if neg then negInf else posInf)
    else norm (if neg then -(m : Int) else (m : Int)) q

/-- Go `float64(t)` for an integer `t`: the nearest float64. -/
def ofInt (t : Int) : F64 := ofRatio (decide (t < 0)) t.natAbs 1

/-- Rounding of the exact ratio `(-1)^neg * n / d` as `math/big` does for a `Float` of
precision 53 followed by `Float64()`: first to 53 significant bits with unbounded exponent,
then to float64. -/
def ofBigRatio (neg : Bool) (n d : Nat) : F64 :=
  if n = 0 ∨ d = 0 then zero
  else
    let (m1, q1) := roundRatio 53 none n d
    if 0 ≤ q1 then ofRatio neg (m1 * 2 ^ q1.toNat) 1
    else ofRatio neg m1 (2 ^ (-q1).toNat)

/-- The same rounding for the exact dyadic `m * 2^e`. -/
def ofBig (m : Int) (e : Int) : F64 :=
  if 0 ≤ e then ofBigRatio (decide (m < 0)) (m.natAbs * 2 ^ e.toNat) 1
  else ofBigRatio (decide (m < 0)) m.natAbs (2 ^ (-e).toNat)

/-- Go `x == 0` on float64. -/
def isZero : F64 → Bool
  | fin m _ => decide (m = 0)
  | _ => false

/-- The integer part of a finite value: truncation toward zero. -/
def trunc : F64 → Option Int
  | fin m e => some (if 0 ≤ e then m * 2 ^ e.toNat else Int.tdiv m (2 ^ (-e).toNat))
  | _ => none

/-- The integer lies in the range of the Go type `int` (64 bits). -/
def intInRange (t : Int) : Prop := -(2 ^ 63) ≤ t ∧ t < 2 ^ 63

instance (t : Int) : Decidable (intInRange t) := by
  unfold intInRange
  infer_instance

/-- Go `int(x)` on amd64: truncation toward zero; a NaN, an infinity or a value outside
the int64 range converts to the smallest int64. -/
def toInt (x : F64) : Int :=
  match x.trunc with
  | some t => if intInRange t then t else -(2 ^ 63)
  | none => -(2 ^ 63)

/-- The value is NaN. -/
def isNaN : F64 → Bool
  | NaN => true
  | _ => false

/-- The value is one of the two infinities. -/
def isInf : F64 → Bool
  | posInf => true
  | negInf => true
  | _ => false

/-- The value is negative. -/
def isNeg : F64 → Bool
  | fin m _ => decide (m < 0)
  | negInf => true
  | _ => false

/-- The infinity of the given sign. -/
def infOf (neg : Bool) : F64 := if neg then negInf else posInf

/-- Exact sum of two dyadics, as a dyadic `(m, e)`. -/
def exactAdd (m1 e1 m2 e2 : Int) : Int × Int :=
  let e := min e1 e2
  (m1 * 2 ^ (e1 - e).toNat + m2 * 2 ^ (e2 - e).toNat, e)

/-- `new(big.Float).Add(big.NewFloat(a), big.NewFloat(b)).Float64()`. `NewFloat` panics on a
NaN and `Add` panics on infinities of opposite signs (`big.ErrNaN`). -/
def bigAdd (a b : F64) : Run F64 :=
  match a, b with
  | NaN, _ => .panicked "big.ErrNaN: NewFloat(NaN)"
  | _, NaN => .panicked "big.ErrNaN: NewFloat(NaN)"
  | fin m1 e1, fin m2 e2 =>
    let r := exactAdd m1 e1 m2 e2
    .done (ofBig r.1 r.2)
  | fin _ _, posInf => .done posInf
  | fin _ _, negInf => .done negInf
  | posInf, fin _ _ => .done posInf
  | negInf, fin _ _ => .done negInf
  | posInf, posInf => .done posInf
  | negInf, negInf => .done negInf
  | posInf, negInf => .panicked "big.ErrNaN: addition of infinities with opposite signs"
  | negInf, posInf => .panicked "big.ErrNaN: addition of infinities with opposite signs"

/-- `new(big.Float).Sub(big.NewFloat(a), big.NewFloat(b)).Float64()`. `NewFloat` panics on a
NaN and `Sub` panics on infinities of equal signs. -/
def bigSub (a b : F64) : Run F64 :=
  match a, b with
  | NaN, _ => .panicked "big.ErrNaN: NewFloat(NaN)"
  | _, NaN => .panicked "big.ErrNaN: NewFloat(NaN)"
  | fin m1 e1, fin m2 e2 =>
    let r := exactAdd m1 e1 (-m2) e2
    .done (ofBig r.1 r.2)
  | fin _ _, posInf => .done negInf
  | fin _ _, negInf => .done posInf
  | posInf, fin _ _ => .done posInf
  | negInf, fin _ _ => .done negInf
  | posInf, negInf => .done posInf
  | negInf, posInf => .done negInf
  | posInf, posInf => .panicked "big.ErrNaN: subtraction of infinities with equal signs"
  | negInf, negInf => .panicked "big.ErrNaN: subtraction of infinities with equal signs"

/-- `new(big.Float).Mul(x.SetFloat64(a), y.SetFloat64(b)).Float64()`. `SetFloat64` panics on
a NaN and `Mul` panics on zero times infinity. -/
def bigMul (a b : F64) : Run F64 :=
  match a, b with
  | NaN, _ => .panicked "big.ErrNaN: SetFloat64(NaN)"
  | _, NaN => .panicked "big.ErrNaN: SetFloat64(NaN)"
  | fin m1 e1, fin m2 e2 => .done (ofBig (m1 * m2) (e1 + e2))
  | x, y =>
    if x.isZero ∨ y.isZero then .panicked "big.ErrNaN: multiplication of zero with infinity"
    else .done (infOf (x.isNeg != y.isNeg))

/-- `new(big.Float).Quo(x.SetFloat64(a), y.SetFloat64(b)).Float64()`. `SetFloat64` panics on
a NaN and `Quo` panics when both operands are zero or both are infinities. -/
def bigQuo (a b : F64) : Run F64 :=
  match a, b with
  | NaN, _ => .panicked "big.ErrNaN: SetFloat64(NaN)"
  | _, NaN => .panicked "big.ErrNaN: SetFloat64(NaN)"
  | fin m1 e1, fin m2 e2 =>
    if m2 = 0 then
      (if m1 = 0 then .panicked "big.ErrNaN: division of zero by zero"
       else .done (infOf (decide (m1 < 0))))
    else
      let neg := (decide (m1 < 0)) != (decide (m2 < 0))
      let e := e1 - e2
      if 0 ≤ e then .done (ofBigRatio neg (m1.natAbs * 2 ^ e.toNat) m2.natAbs)
      else .done (ofBigRatio neg m1.natAbs (m2.natAbs * 2 ^ (-e).toNat))
  | fin _ _, _ => .done zero
  | x, fin m2 _ => .done (infOf (x.isNeg != decide (m2 < 0)))
  | _, _ => .panicked "big.ErrNaN: division of infinity by infinity"

end F64

/-! ## Standard-library conversions between text and float64 -/

/-- Value of a decimal digit. -/
def digitVal (c : Char) : Option Nat :=
  if '0' ≤ c ∧ c ≤ '9' then some (c.toNat - 48) else none

/-- State of the mantissa scan of `strconv.ParseFloat`. -/
structure Mantissa where
  sawdot : Bool := false
  sawdigits : Bool := false
  digits : Nat := 0
  frac : Nat := 0
  deriving Repr, DecidableEq

/-- The mantissa scan: digits with at most one point. Returns the state and the unread
rest, which starts at the first byte that is neither a digit nor the first point. -/
def readMantissa : Mantissa → GoString → Mantissa × GoString
  | st, [] => (st, [])
  | st, c :: cs =>
    if c = '.' then
      (if st.sawdot then (st, c :: cs) else readMantissa { st with sawdot := true } cs)
    else
      match digitVal c with
      | some d =>
        readMantissa { st with sawdigits := true, digits := st.digits * 10 + d,
                               frac := if st.sawdot then st.frac + 1 else st.frac } cs
      | none => (st, c :: cs)

/-- The digits of the exponent, read to the end of the text; the accumulated value stops
growing once it has reached 10000, as in the Go code. `none` when a byte is not a digit. -/
def readExpDigits : Nat → GoString → Option Nat
  | e, [] => some e
  | e, c :: cs =>
    match digitVal c with
    | some d => readExpDigits (if e < 10000 then e * 10 + d else e) cs
    | none => none

/-- The exponent part after the marker: an optional sign and at least one digit, up to the
end of the text. -/
def readExponent (s : GoString) : Option Int :=
  match s with
  | [] => none
  | c :: cs =>
    let neg := decide (c = '-')
    let ds := if c = '+' ∨ c = '-' then cs else c :: cs
    match ds with
    | [] => none
    | d :: _ =>
      if (digitVal d).isSome then
        (readExpDigits 0 ds).map (fun e => if neg then -(e : Int) else (e : Int))
      else none

/-- A decimal text without sign: mantissa and optional exponent, the whole text. The value
is `digits * 10^exp10`. -/
def readDecimal (s : GoString) : Option (Nat × Int) :=
  let r := readMantissa {} s
  if r.1.sawdigits then
    match r.2 with
    | [] => some (r.1.digits, -(r.1.frac : Int))
    | c :: cs =>
      if c = 'e' ∨ c = 'E' then
        (readExponent cs).map (fun e => (r.1.digits, e - (r.1.frac : Int)))
      else none
  else none

/-- The float64 nearest to `(-1)^neg * digits * 10^exp10`. -/
def decimalToF64 (neg : Bool) (digits : Nat) (exp10 : Int) : F64 :=
  if 0 ≤ exp10 then F64.ofRatio neg (digits * 10 ^ exp10.toNat) 1
  else F64.ofRatio neg digits (10 ^ (-exp10).toNat)

/-- ASCII lower case of a byte. -/
def lowerByte (c : Char) : Char :=
  if 'A' ≤ c ∧ c ≤ 'Z' then Char.ofNat (c.toNat + 32) else c

/-- The special texts of `strconv.ParseFloat`, after the sign, case ignored. -/
def readSpecial (signed : Bool) (neg : Bool) (s : GoString) : Option F64 :=
  let t := s.map lowerByte
  if t = "inf".toList ∨ t = "infinity".toList then some (F64.infOf neg)
  else if t = "nan".toList ∧ ¬ signed then some F64.NaN
  else none

/-- `strconv.ParseFloat(s, 64)` of the Go standard library, on decimal texts: `some v` when
it returns the value `v` with a nil error, `none` when it returns an error (malformed
text, or a value out of range). The value is the float64 nearest to the decimal number.
Hexadecimal texts (which need the letter x) and underscores between digits are outside
this model; the lexer of this package produces neither. -/
def ParseFloat (s : GoString) : Option F64 :=
  let signed := match s with
    | c :: _ => decide (c = '+' ∨ c = '-')
    | [] => false
  let neg := match s with
    | c :: _ => decide (c = '-')
    | [] => false
  let body := if signed then s.drop 1 else s
  match readSpecial signed neg body with
  | some v => some v
  | none =>
    match readDecimal body with
    | none => none
    | some (digits, exp10) =>
      let v := decimalToF64 neg digits exp10
      if v.isInf then none else some v

/-- Decimal digits of a natural number. -/
def natDigits (n : Nat) : GoString := Nat.toDigits 10 n

/-- The last `k` decimal digits of `n`, padded with zeros on the left. -/
def fracDigits : Nat → Nat → GoString
  | 0, _ => []
  | k + 1, n => fracDigits k (n / 10) ++ [Char.ofNat (48 + n % 10)]

/-- Fixed-point formatting with `prec` decimals: `strconv.FormatFloat(v, 'f', prec, 64)`,
which is also the verb `%f` of `fmt` for `prec = 6`. The exact binary value is rounded to
`prec` decimals, ties to even. -/
def formatFixed (prec : Nat) (v : F64) : GoString :=
  match v with
  | .NaN => "NaN".toList
  | .posInf => "+Inf".toList
  | .negInf => "-Inf".toList
  | .fin m e =>
    let n := m.natAbs * 10 ^ prec
    let scaled := if 0 ≤ e then n * 2 ^ e.toNat else F64.roundHalfEven n (2 ^ (-e).toNat)
    let sign : GoString := if m < 0 then ['-'] else []
    let intPart := natDigits (scaled / 10 ^ prec)
    if prec = 0 then sign ++ intPart
    else sign ++ intPart ++ ['.'] ++ fracDigits prec (scaled % 10 ^ prec)

/-- The verb `%d` of `fmt` on an integer. -/
def formatInt (t : Int) : GoString :=
  if t < 0 then '-' :: natDigits t.natAbs else natDigits t.natAbs

/-! ## token.go -/

/-- Kind of a token (`TokenType`). -/
inductive TokenType where
  | IdentifierType
  | LiteralType
  | OperatorType
  | CommaType
  deriving Repr, DecidableEq

export TokenType (IdentifierType LiteralType OperatorType CommaType)

/-- A token: its raw characters, its kind (field `Type`), the unused `Flag` and its byte
offset. -/
structure Token where
  Value : GoString
  Typ : TokenType
  Flag : Int := 0
  Offset : Nat
  deriving Repr, DecidableEq

/-! ## operator.go -/

/-- The implementations of `OperatorItem` held by the table `Operators`. -/
inductive OperatorItem where
  | LBrackets
  | RBrackets
  | Plus
  | Minus
  | Mul
  | Div
  | Pow
  | Mod
  deriving Repr, DecidableEq

/-- `NonePrecedence`. -/
def NonePrecedence : Int := -1

/-- `NoneResult`. -/
def NoneResult : F64 := F64.zero

/-- The table `Operators`, a map from a byte to its operator. -/
def Operators (c : Char) : Option OperatorItem :=
  if c = '(' then some .LBrackets
  else if c = ')' then some .RBrackets
  else if c = '+' then some .Plus
  else if c = '-' then some .Minus
  else if c = '*' then some .Mul
  else if c = '/' then some .Div
  else if c = '^' then some .Pow
  else if c = '%' then some .Mod
  else none

namespace OperatorItem

/-- Method `Name`. -/
def Name : OperatorItem → Char
  | LBrackets => '('
  | RBrackets => ')'
  | Plus => '+'
  | Minus => '-'
  | Mul => '*'
  | Div => '/'
  | Pow => '^'
  | Mod => '%'

/-- Method `Precedence`. -/
def Precedence : OperatorItem → Int
  | LBrackets => NonePrecedence
  | RBrackets => NonePrecedence
  | Plus => 20
  | Minus => 20
  | Mul => 40
  | Div => 40
  | Pow => 60
  | Mod => 40

/-- Method `Result`. The function `pow` stands for `math.Pow` of the Go standard library,
which is not part of this package. A panic of the Go code is the outcome `panicked`. -/
def Result (pow : F64 → F64 → F64) (o : OperatorItem) (a b : F64) : Run F64 :=
  match o with
  | LBrackets => .done NoneResult
  | RBrackets => .done NoneResult
  | Plus => F64.bigAdd a b
  | Minus => F64.bigSub a b
  | Mul => F64.bigMul a b
  | Div =>
    if b.isZero then .panicked "violation of arithmetic specification: a division by zero"
    else F64.bigQuo a b
  | Pow => .done (pow a b)
  | Mod =>
    if b.isZero then .panicked "violation of arithmetic specification: a division by zero"
    else if b.toInt = 0 then .panicked "runtime error: integer divide by zero"
    else .done (F64.ofInt (Int.tmod a.toInt b.toInt))

/-- Method `ToExprStr`. -/
def ToExprStr (o : OperatorItem) (a b : GoString) : GoString :=
  match o with
  | LBrackets => []
  | RBrackets => []
  | Plus => a ++ " + ".toList ++ b
  | Minus => a ++ " - ".toList ++ b
  | Mul => a ++ " * ".toList ++ b
  | Div => a ++ "/".toList ++ b
  | Pow => a ++ "^".toList ++ b
  | Mod => "(".toList ++ a ++ " % ".toList ++ b ++ ")".toList

end OperatorItem

/-! ## Errors -/

/-- The `error` values this package creates. Each constructor stands for one format string
of the Go code and carries the data formatted into it; the trailing caret diagram
`ErrPos(source, offset)` is determined by the source and the offset carried. -/
inductive GoError where
  /-- `symbol error: unknown '%v', pos [%v:]` (lexer). -/
  | unknownSymbol (ch : Char) (pos : Nat)
  /-- `empty token` (`NewAST`). -/
  | emptyToken
  /-- `bad expression, reaching the end or missing the operator` (`AST.ParseExpression`). -/
  | badExpression (offset : Nat)
  /-- `want '(' or '0-9' but get '%s'` after the `strconv.ParseFloat` error (`parseNumber`). -/
  | notANumber (value : GoString) (offset : Nat)
  /-- `function %s is undefined`. -/
  | undefinedFunction (name : GoString) (offset : Nat)
  /-- `wrong way calling function %s, parameters want %d but get %d`. -/
  | wrongArgc (name : GoString) (want : Int) (got : Nat) (offset : Nat)
  /-- `want '(' or '0-9' but get EOF` (`parseOperator` after an opening bracket, and
  `parseBinOpRHS` after an operator). -/
  | unexpectedEOF (offset : Nat)
  /-- `want ')' but get %s`. -/
  | wantRBracket (value : GoString) (offset : Nat)
  /-- `want '0-9' but get '-'`. -/
  | minusAtEnd (offset : Nat)
  /-- `want '(' or '0-9' but get %s` (`parsePrimary` on a comma). -/
  | unexpectedComma (value : GoString) (offset : Nat)
  /-- `RegFunction name is not empty`, `RegConst name is not empty`. -/
  | regEmptyName
  /-- `RegFunction argc should be -1, 0, or a positive integer`. -/
  | regBadArgc
  /-- `RegFunction name is already exist`, `RegConst name is already exist`. -/
  | regDuplicate
  deriving Repr, DecidableEq

/-! ## parser.go: the lexer -/

/-- The lexer state (`Parser`). -/
structure Parser where
  Source : GoString
  ch : Char
  offset : Nat
  err : Option GoError
  deriving Repr, DecidableEq

namespace Parser

/-- Method `isWhitespace`. -/
def isWhitespace (c : Char) : Bool :=
  c == ' ' || c == '\t' || c == '\n' || c == Char.ofNat 11 || c == Char.ofNat 12 || c == '\r'

/-- Method `isDigitNum`. -/
def isDigitNum (c : Char) : Bool :=
  ('0' ≤ c && c ≤ '9') || c == '.' || c == '_' || c == 'e' || c == '-' || c == '+'

/-- Method `isChar`. -/
def isChar (c : Char) : Bool :=
  ('a' ≤ c && c ≤ 'z') || ('A' ≤ c && c ≤ 'Z') || c == Char.ofNat 39 || c == '$' || c == '#'

/-- Method `isWordChar`. -/
def isWordChar (c : Char) : Bool :=
  isChar c || ('0' ≤ c && c ≤ '9') || c == '$' || c == '#'

/-- Method `nextCh`: advance the offset and load the byte there. The flag is `true` when
the Go method returns the error `EOF` (the byte `ch` is then left as it was). -/
def nextCh (p : Parser) : Parser × Bool :=
  let p1 := { p with offset := p.offset + 1 }
  if p1.offset < p1.Source.length then
    ({ p1 with ch := p1.Source.getD p1.offset ' ' }, false)
  else (p1, true)

/-- The loop `for p.isWhitespace(p.ch) && err == nil { err = p.nextCh() }` of `nextTok`. -/
def skipWhitespace : Nat → Parser → Parser
  | 0, p => p
  | fuel + 1, p =>
    if isWhitespace p.ch then
      let r := nextCh p
      if r.2 then r.1 else skipWhitespace fuel r.1
    else p

/-- The loop of `IsLiteral`:
`for p.isDigitNum(p.ch) && p.nextCh() == nil { if (p.ch == '-' || p.ch == '+') &&
p.Source[p.offset-1] != 'e' { break } }`. -/
def literalLoop : Nat → Parser → Parser
  | 0, p => p
  | fuel + 1, p =>
    if isDigitNum p.ch then
      let r := nextCh p
      if r.2 then r.1
      else if (r.1.ch == '-' || r.1.ch == '+') && r.1.Source.getD (r.1.offset - 1) ' ' != 'e'
      then r.1
      else literalLoop fuel r.1
    else p

/-- Method `IsLiteral`: on a digit, scan the literal and answer `true`. -/
def IsLiteral (p : Parser) (v : Char) : Bool × Parser :=
  if '0' ≤ v && v ≤ '9' then (true, literalLoop p.Source.length p)
  else (false, p)

/-- The loop `for p.isWordChar(p.ch) && p.nextCh() == nil {}` of `nextTok`. -/
def wordLoop : Nat → Parser → Parser
  | 0, p => p
  | fuel + 1, p =>
    if isWordChar p.ch then
      let r := nextCh p
      if r.2 then r.1 else wordLoop fuel r.1
    else p

/-- The Go slice `s[i:j]`. -/
def slice (s : GoString) (i j : Nat) : GoString := (s.drop i).take (j - i)

/-- `strings.ReplaceAll(s, "_", "")`. -/
def removeUnderscores (s : GoString) : GoString := s.filter (fun c => c != '_')

/-- Method `nextTok`: the next token (`none` for the Go `nil`) and the state after it. -/
def nextTok (p : Parser) : Option Token × Parser :=
  if p.offset ≥ p.Source.length || p.err.isSome then (none, p)
  else
    let p := skipWhitespace p.Source.length p
    let start := p.offset
    match Operators p.ch with
    | some ounit =>
      (some { Value := [ounit.Name], Typ := OperatorType, Offset := start }, (nextCh p).1)
    | none =>
      let lit := IsLiteral p p.ch
      if lit.1 then
        let p := lit.2
        (some { Value := removeUnderscores (slice p.Source start p.offset),
                Typ := LiteralType, Offset := start }, p)
      else
        let p := lit.2
        if p.ch == ',' then
          (some { Value := [p.ch], Typ := CommaType, Offset := start }, (nextCh p).1)
        else if isChar p.ch then
          let p := wordLoop p.Source.length p
          (some { Value := slice p.Source start p.offset, Typ := IdentifierType,
                  Offset := start }, p)
        else if p.ch != ' ' then
          (none, { p with err := some (GoError.unknownSymbol p.ch start) })
        else (none, p)

/-- Method `parse`: collect tokens until `nextTok` answers `nil`. -/
def parse : Nat → Parser → List Token × Parser
  | 0, p => ([], p)
  | fuel + 1, p =>
    match nextTok p with
    | (none, p1) => ([], p1)
    | (some tok, p1) =>
      let r := parse fuel p1
      (tok :: r.1, r.2)

end Parser

/-- Function `Parse`: tokenize a source. Indexing `s[0]` panics on the empty string. -/
def Parse (s : GoString) : Run (Except GoError (List Token)) :=
  match s with
  | [] => .panicked "runtime error: index out of range [0] with length 0"
  | c :: _ =>
    let p : Parser := { Source := s, ch := c, offset := 0, err := none }
    let r := Parser.parse (s.length + 1) p
    match r.2.err with
    | some e => .done (.error e)
    | none => .done (.ok r.1)

/-! ## expr_node.go, parameter.go, def.go -/

/-- An expression tree (`ExprNode`). `nil` is the nil interface value, which the parser
returns on some errors. -/
inductive ExprNode where
  | nil
  | NumberExprNode (Val : F64) (Str : GoString)
  | OperatorExprNode (Op : GoString) (Lhs : ExprNode) (Rhs : ExprNode) (Flag : Bool)
  | FunCallerExprNode (Name : GoString) (Arg : List ExprNode)
  | VariableExprNode (Val : GoString)
  | ConstExprNode (Name : GoString) (Str : GoString) (Val : F64)
  deriving Repr

export ExprNode (NumberExprNode OperatorExprNode FunCallerExprNode VariableExprNode
  ConstExprNode)

/-- Go `e == nil` on an `ExprNode`. -/
def ExprNode.isNil : ExprNode → Bool
  | .nil => true
  | _ => false

/-- A value bound to a variable name in `Parameter.Vars` (a Go `any`): a string, a tree,
a signed or unsigned integer of any width, a float of either width, or a value of another
type. -/
inductive Value where
  | str (s : GoString)
  | node (e : ExprNode)
  | int (t : Int)
  | uint (t : Nat)
  | float32 (t : F64)
  | float64 (t : F64)
  | other
  deriving Repr

/-- The bindings of a request (`Parameter`). -/
structure Parameter where
  Vars : GoString → Option Value
  Diff : List GoString

/-- Method `HasDiffVar`. -/
def Parameter.HasDiffVar (p : Parameter) (v : GoString) : Bool := p.Diff.contains v

/-- A `context.Context` as far as this package reads it: the `*Parameter` stored under the
key `parameter`, or `none` when the key is absent or holds a value of another type. -/
abbrev Context := Option Parameter

/-- Function `GetCtxParameter`. -/
def GetCtxParameter (ctx : Context) : Option Parameter := ctx

/-- A registered function (`DefFunc`): its arity and the two callbacks. -/
structure DefFunc where
  Argc : Int
  Calculate : Context → List ExprNode → Run F64
  ToExprStr : Context → List ExprNode → Run GoString

/-- The package-level tables `defConst` and `defFunc`. -/
structure Registry where
  defConst : GoString → Option F64
  defFunc : GoString → Option DefFunc

/-- The value `math.Pi`. -/
def mathPi : F64 := F64.fin 884279719003555 (-48)

/-- The value `math.E`. -/
def mathE : F64 := F64.fin 6121026514868073 (-51)

/-- The tables as the package initialises them: three constants, no function. -/
def defaultRegistry : Registry where
  defConst := fun name =>
    if name = "pi".toList then some mathPi
    else if name = "e".toList then some mathE
    else if name = "infty".toList then some F64.zero
    else none
  defFunc := fun _ => none

/-! ## ast.go: the parser -/

/-- The parser state (`AST`). `currTok` is a pointer and `none` is its nil value. -/
structure AST where
  source : GoString
  currTok : Option Token
  currIndex : Nat
  depth : Int
  Tokens : List Token
  Err : Option GoError
  deriving Repr, DecidableEq

/-- Function `NewAST`. -/
def NewAST (toks : List Token) (s : GoString) : AST :=
  match toks with
  | [] => { source := s, currTok := none, currIndex := 0, depth := 0, Tokens := toks,
            Err := some GoError.emptyToken }
  | t :: _ => { source := s, currTok := some t, currIndex := 0, depth := 0, Tokens := toks,
                Err := none }

namespace AST

/-- Dereference of `a.currTok`, which panics on the nil pointer. -/
def tok (a : AST) : Run Token :=
  match a.currTok with
  | some t => .done t
  | none => .panicked "runtime error: invalid memory address or nil pointer dereference"

/-- Method `getNextToken`: the state after the call and the pointer returned. Past the end
the index still grows and `currTok` keeps the last token. -/
def getNextToken (a : AST) : AST × Option Token :=
  let a1 := { a with currIndex := a.currIndex + 1 }
  match a1.Tokens.get? a1.currIndex with
  | some t => ({ a1 with currTok := some t }, some t)
  | none => (a1, none)

/-- Method `getTokPrecedence`. Indexing `Value[0]` panics on an empty value. -/
def getTokPrecedence (a : AST) : Run Int := do
  let t ← a.tok
  match t.Value with
  | [] => .panicked "runtime error: index out of range [0] with length 0"
  | key :: _ =>
    match Operators key with
    | some p => pure p.Precedence
    | none => pure (-1)

/-- Method `parseNumber`. -/
def parseNumber (a : AST) : Run (ExprNode × AST) := do
  let t ← a.tok
  match ParseFloat t.Value with
  | none =>
    pure (NumberExprNode F64.zero [], { a with Err := some (.notANumber t.Value t.Offset) })
  | some f64 => pure (NumberExprNode f64 t.Value, a.getNextToken.1)

/-- Method `parseVariable`. -/
def parseVariable (a : AST) : Run (ExprNode × AST) := do
  let t ← a.tok
  pure (VariableExprNode t.Value, a.getNextToken.1)

/-- The constant-or-variable tail of `parseFunCallerOrConst`. -/
def constOrVariable (reg : Registry) (name : GoString) : ExprNode :=
  match reg.defConst name with
  | some v => ConstExprNode name (formatFixed 0 v) v
  | none => VariableExprNode name

/-- The end of `AST.ParseExpression`: `a.depth--`, then the error for tokens left over
when the outermost call returns. -/
def leave (a : AST) : Run AST := do
  let a := { a with depth := a.depth - 1 }
  if a.depth = 0 ∧ a.currIndex ≠ a.Tokens.length ∧ a.Err = none then
    let t ← a.tok
    pure { a with Err := some (.badExpression t.Offset) }
  else pure a

/-- The end of a call in `parseFunCallerOrConst`: the check of the number of arguments
against `def.Argc()`, the step over the closing token, and the node. -/
def finishCall (a : AST) (name : GoString) (d : DefFunc) (exprs : List ExprNode) :
    Run (ExprNode × AST) := do
  let t ← a.tok
  let a :=
    if 0 ≤ d.Argc ∧ (exprs.length : Int) ≠ d.Argc then
      { a with Err := some (.wrongArgc name d.Argc exprs.length t.Offset) }
    else a
  let a := a.getNextToken.1
  pure (FunCallerExprNode name exprs, a)

mutual

/-- Method `ParseExpression` of `AST`. -/
def ParseExpression (reg : Registry) : Nat → AST → Run (ExprNode × AST)
  | 0, _ => .outOfFuel
  | fuel + 1, a => do
    let a := { a with depth := a.depth + 1 }
    let (lhs, a) ← parsePrimary reg fuel a
    let (r, a) ← parseBinOpRHS reg fuel 0 lhs a
    let a ← a.leave
    pure (r, a)

/-- Method `parseFunCallerOrConst`. -/
def parseFunCallerOrConst (reg : Registry) : Nat → AST → Run (ExprNode × AST)
  | 0, _ => .outOfFuel
  | fuel + 1, a => do
    let t ← a.tok
    let name := t.Value
    let a := a.getNextToken.1
    let t ← a.tok
    if t.Value = ['('] then
      match reg.defFunc name with
      | none =>
        pure (FunCallerExprNode [] [], { a with Err := some (.undefinedFunction name t.Offset) })
      | some d =>
        let a := a.getNextToken.1
        let t ← a.tok
        let (exprs, a) ←
          if t.Value = [')'] then pure ([], a)
          else do
            let (e, a) ← ParseExpression reg fuel a
            parseArgs reg fuel [e] a
        a.finishCall name d exprs
    else pure (constOrVariable reg name, a)

/-- The argument loop of `parseFunCallerOrConst`:
`for a.currTok.Value != ")" && a.getNextToken() != nil { if a.currTok.Type == CommaType
{ continue }; exprs = append(exprs, a.ParseExpression()) }`. -/
def parseArgs (reg : Registry) : Nat → List ExprNode → AST → Run (List ExprNode × AST)
  | 0, _, _ => .outOfFuel
  | fuel + 1, exprs, a => do
    let t ← a.tok
    if t.Value ≠ [')'] then
      let r := a.getNextToken
      match r.2 with
      | none => pure (exprs, r.1)
      | some t1 =>
        if t1.Typ = CommaType then parseArgs reg fuel exprs r.1
        else do
          let (e, a) ← ParseExpression reg fuel r.1
          parseArgs reg fuel (exprs ++ [e]) a
    else pure (exprs, a)

/-- Method `parseOperator`. -/
def parseOperator (reg : Registry) : Nat → AST → Run (ExprNode × AST)
  | 0, _ => .outOfFuel
  | fuel + 1, a => do
    let t ← a.tok
    if t.Value = ['('] then
      let r := a.getNextToken
      match r.2 with
      | none =>
        let t ← r.1.tok
        pure (ExprNode.nil, { r.1 with Err := some (.unexpectedEOF t.Offset) })
      | some _ =>
        let (e, a) ← ParseExpression reg fuel r.1
        if e.isNil then pure (ExprNode.nil, a)
        else
          let t ← a.tok
          if t.Value ≠ [')'] then
            pure (ExprNode.nil, { a with Err := some (.wantRBracket t.Value t.Offset) })
          else pure (e, a.getNextToken.1)
    else if t.Value = ['-'] then
      let r := a.getNextToken
      match r.2 with
      | none =>
        let t ← r.1.tok
        pure (ExprNode.nil, { r.1 with Err := some (.minusAtEnd t.Offset) })
      | some _ =>
        let (rhs, a) ← parsePrimary reg fuel r.1
        pure (OperatorExprNode ['-'] (NumberExprNode F64.zero []) rhs false, a)
    else parseNumber a

/-- Method `parsePrimary`. -/
def parsePrimary (reg : Registry) : Nat → AST → Run (ExprNode × AST)
  | 0, _ => .outOfFuel
  | fuel + 1, a => do
    let t ← a.tok
    match t.Typ with
    | IdentifierType => parseFunCallerOrConst reg fuel a
    | LiteralType => parseNumber a
    | OperatorType => parseOperator reg fuel a
    | CommaType =>
      pure (ExprNode.nil, { a with Err := some (.unexpectedComma t.Value t.Offset) })

/-- Method `parseBinOpRHS`; an iteration of its loop is a recursive call. -/
def parseBinOpRHS (reg : Registry) : Nat → Int → ExprNode → AST → Run (ExprNode × AST)
  | 0, _, _, _ => .outOfFuel
  | fuel + 1, execPrec, lhs, a => do
    let tokPrec ← a.getTokPrecedence
    if tokPrec < execPrec then pure (lhs, a)
    else
      let t ← a.tok
      let binOp := t.Value
      let r := a.getNextToken
      match r.2 with
      | none =>
        let t ← r.1.tok
        pure (ExprNode.nil, { r.1 with Err := some (.unexpectedEOF t.Offset) })
      | some _ =>
        let (rhs, a) ← parsePrimary reg fuel r.1
        if rhs.isNil then pure (ExprNode.nil, a)
        else
          let nextPrec ← a.getTokPrecedence
          if tokPrec < nextPrec then
            let (rhs, a) ← parseBinOpRHS reg fuel (tokPrec + 1) rhs a
            if rhs.isNil then pure (ExprNode.nil, a)
            else parseBinOpRHS reg fuel execPrec (OperatorExprNode binOp lhs rhs false) a
          else parseBinOpRHS reg fuel execPrec (OperatorExprNode binOp lhs rhs false) a

end

end AST

/-! ## helper.go -/

/-- Fuel given to the parser for a list of `n` tokens. -/
def parseFuel (n : Nat) : Nat := 4 * n + 4

/-- Function `ParseExpression` of the package: tokenize and parse a source. The deferred
`recover` is installed after the calls that can panic, so a panic propagates. -/
def ParseExpression (reg : Registry) (s : GoString) : Run (Except GoError ExprNode) := do
  let r ← Parse s
  match r with
  | .error err => pure (.error err)
  | .ok toks =>
    let ast := NewAST toks s
    match ast.Err with
    | some e => pure (.error e)
    | none =>
      let (ar, ast) ← AST.ParseExpression reg (parseFuel toks.length) ast
      match ast.Err with
      | some e => pure (.error e)
      | none => pure (.ok ar)

/-- Function `GetDefFunc`. -/
def GetDefFunc (reg : Registry) (name : GoString) : Option DefFunc := reg.defFunc name

/-- Function `GetOperator`. -/
def GetOperator (name : Char) : Option OperatorItem := Operators name

/-- Function `GetDefConst`; a missing name gives the zero value. -/
def GetDefConst (reg : Registry) (name : GoString) : F64 := (reg.defConst name).getD F64.zero

/-- Function `RegDefFunc`: the error returned (`none` for `nil`) and the tables after the
call. -/
def RegDefFunc (reg : Registry) (name : GoString) (df : DefFunc) :
    Option GoError × Registry :=
  if name.length = 0 then (some .regEmptyName, reg)
  else if df.Argc < -1 then (some .regBadArgc, reg)
  else
    match reg.defFunc name with
    | some _ => (some .regDuplicate, reg)
    | none =>
      (none, { reg with defFunc := fun n => if n = name then some df else reg.defFunc n })

/-- Function `RegConst`: the error returned (`none` for `nil`) and the tables after the
call. -/
def RegConst (reg : Registry) (name : GoString) (value : F64) : Option GoError × Registry :=
  if name.length = 0 then (some .regEmptyName, reg)
  else
    match reg.defConst name with
    | some _ => (some .regDuplicate, reg)
    | none =>
      (none, { reg with defConst := fun n => if n = name then some value else reg.defConst n })

/-! ## calculate.go -/

/-- Function `Calculate`. The fuel bounds the depth of the recursion, which the Go code
does not bound when a variable is bound to a string; `pow` stands for `math.Pow`. A call
of `log.Panicf` and a run-time panic are the outcome `panicked`. -/
def Calculate (reg : Registry) (pow : F64 → F64 → F64) :
    Nat → ExprNode → Context → Run F64
  | 0, _, _ => .outOfFuel
  | fuel + 1, expr, ctx =>
    match expr with
    | .OperatorExprNode op lhs rhs _ => do
      let l ← Calculate reg pow fuel lhs ctx
      let r ← Calculate reg pow fuel rhs ctx
      match op with
      | [] => .panicked "runtime error: index out of range [0] with length 0"
      | c :: _ =>
        match GetOperator c with
        | none => .panicked "runtime error: invalid memory address or nil pointer dereference"
        | some o => o.Result pow l r
    | .NumberExprNode val _ => pure val
    | .ConstExprNode _ _ val => pure val
    | .VariableExprNode val =>
      match GetCtxParameter ctx with
      | none => .panicked "no parameter found"
      | some parameter =>
        match parameter.Vars val with
        | none => .panicked "no parameter value found"
        | some value =>
          match value with
          | .str t => do
            let r ← ParseExpression reg t
            match r with
            | .error _ => .panicked "Convert to expression node exception"
            | .ok expression => Calculate reg pow fuel expression ctx
          | .node t => Calculate reg pow fuel t ctx
          | .int t => pure (F64.ofInt t)
          | .uint t => pure (F64.ofInt t)
          | .float32 t => pure t
          | .float64 t => pure t
          | .other => .panicked "unknown expr type"
    | .FunCallerExprNode name args =>
      match GetDefFunc reg name with
      | none => .panicked "runtime error: invalid memory address or nil pointer dereference"
      | some d => d.Calculate ctx args
    | .nil => pure F64.zero

/-- Function `ToExprStr`, with the same fuel as `Calculate`. -/
def ToExprStr (reg : Registry) : Nat → ExprNode → Context → Run GoString
  | 0, _, _ => .outOfFuel
  | fuel + 1, expr, ctx =>
    match expr with
    | .OperatorExprNode op lhs rhs flag => do
      let l ← ToExprStr reg fuel lhs ctx
      let r ← ToExprStr reg fuel rhs ctx
      match op with
      | [] => .panicked "runtime error: index out of range [0] with length 0"
      | c :: _ =>
        match GetOperator c with
        | none => .panicked "runtime error: invalid memory address or nil pointer dereference"
        | some operator =>
          if flag then pure (['('] ++ operator.ToExprStr l r ++ [')'])
          else pure (operator.ToExprStr l r)
    | .NumberExprNode _ str => pure str
    | .ConstExprNode _ str _ => pure str
    | .VariableExprNode val =>
      match GetCtxParameter ctx with
      | none => .panicked "no parameter found"
      | some parameter =>
        match parameter.Vars val with
        | none => pure val
        | some value =>
          match value with
          | .str t => do
            let r ← ParseExpression reg t
            match r with
            | .error _ => pure val
            | .ok expression => ToExprStr reg fuel expression ctx
          | .node t => ToExprStr reg fuel t ctx
          | .int t => pure (formatInt t)
          | .uint t => pure (formatInt t)
          | .float32 t => pure (formatFixed 6 t)
          | .float64 t => pure (formatFixed 6 t)
          | .other => pure val
    | .FunCallerExprNode name args =>
      match GetDefFunc reg name with
      | none => .panicked "runtime error: invalid memory address or nil pointer dereference"
      | some d => d.ToExprStr ctx args
    | .nil => pure []

/-! ## Vocabulary of the statements -/

/-- The bytes that continue a numeric literal after the byte `prev`, as the scan of
`IsLiteral` accepts them: digits, `.`, `_`, `e`, and a sign only directly after `e`. -/
def literalTail : Char → GoString → Bool
  | _, [] => true
  | prev, c :: cs =>
    Parser.isDigitNum c && !((c == '-' || c == '+') && prev != 'e') && literalTail c cs

/-- The scan of `IsLiteral` stops in front of `rest` when the literal ends with the byte
`l`: at the end of the source, at a sign that does not follow `e`, or at a byte that is not
a literal byte. -/
def literalStops (l : Char) : GoString → Bool
  | [] => true
  | r :: _ => ((r == '-' || r == '+') && l != 'e') || !Parser.isDigitNum r

/-- A number literal of the source language with value `v`: it starts with a digit,
continues with literal bytes, and `strconv.ParseFloat` reads its text, underscores removed,
as `v`. -/
def NumberLiteral (a : GoString) (v : F64) : Prop :=
  ∃ c cs, a = c :: cs ∧ ('0' ≤ c ∧ c ≤ '9') ∧ literalTail c cs = true ∧
    ParseFloat (Parser.removeUnderscores a) = some v

/-- The node the parser builds for the number literal `a` of value `v`. -/
def literalNode (a : GoString) (v : F64) : ExprNode :=
  NumberExprNode v (Parser.removeUnderscores a)

/-- The six binary operator symbols. -/
def binaryOps : List Char := ['+', '-', '*', '/', '%', '^']

/-- Precedence of an operator symbol in the table, `-1` for any other byte. -/
def precOf (c : Char) : Int :=
  match Operators c with
  | some o => o.Precedence
  | none => -1

/-- The token is a numeric literal that `strconv.ParseFloat` reads as `v`. -/
def Token.IsLiteral (t : Token) (v : F64) : Prop :=
  t.Typ = LiteralType ∧ ParseFloat t.Value = some v ∧
    ∃ d ds, t.Value = d :: ds ∧ Operators d = none

/-- The token is a binary operator of precedence `p`. -/
def Token.IsBinary (t : Token) (p : Int) : Prop :=
  t.Typ = OperatorType ∧ 0 ≤ p ∧
    ∃ c o, t.Value = [c] ∧ Operators c = some o ∧ o.Precedence = p

/-- A piece of source text: a numeric literal `c :: cs` or a single operator symbol, which
the lexer turns into one token each, or a space, which it skips. -/
inductive Lexeme where
  | lit (c : Char) (cs : GoString)
  | op (c : Char)
  | sp

/-- The source text of a lexeme. -/
def Lexeme.text : Lexeme → GoString
  | .lit c cs => c :: cs
  | .op c => [c]
  | .sp => [' ']

/-- The token of a lexeme that starts at byte offset `off`; a space gives none. -/
def Lexeme.token (off : Nat) : Lexeme → Option Token
  | .lit c cs =>
    some { Value := Parser.removeUnderscores (c :: cs), Typ := LiteralType, Offset := off }
  | .op c => some { Value := [c], Typ := OperatorType, Offset := off }
  | .sp => none

/-- The lexeme is well formed in front of the text `next`. -/
def Lexeme.ok (next : GoString) : Lexeme → Prop
  | .lit c cs => ('0' ≤ c ∧ c ≤ '9') ∧ literalTail c cs = true ∧
      literalStops ((c :: cs).getLast (by simp)) next = true
  | .op c => (Operators c).isSome = true
  | .sp => next ≠ []

/-- Concatenated text of a list of lexemes. -/
def textOf : List Lexeme → GoString
  | [] => []
  | l :: ls => l.text ++ textOf ls

/-- Tokens of a list of lexemes laid out from byte offset `off`. -/
def tokensOf (off : Nat) : List Lexeme → List Token
  | [] => []
  | l :: ls =>
    match l.token off with
    | some t => t :: tokensOf (off + l.text.length) ls
    | none => tokensOf (off + l.text.length) ls

/-- Every lexeme of the list is well formed in front of the text that follows it. -/
def lexemesOk : List Lexeme → Prop
  | [] => True
  | l :: ls => l.ok (textOf ls) ∧ lexemesOk ls

/-- `Calculate(ParseExpression(s))`: parse a source and evaluate the tree; a parse error
is passed on. -/
def CalculateSource (reg : Registry) (pow : F64 → F64 → F64) (fuel : Nat) (s : GoString)
    (ctx : Context) : Run (Except GoError F64) := do
  let r ← ParseExpression reg s
  match r with
  | .error e => pure (.error e)
  | .ok t => do
    let v ← Calculate reg pow fuel t ctx
    pure (.ok v)

/-- `ToExprStr(ParseExpression(s))`: parse a source and print the tree; a parse error is
passed on. -/
def ToExprStrSource (reg : Registry) (fuel : Nat) (s : GoString) (ctx : Context) :
    Run (Except GoError GoString) := do
  let r ← ParseExpression reg s
  match r with
  | .error e => pure (.error e)
  | .ok t => do
    let v ← ToExprStr reg fuel t ctx
    pure (.ok v)

/-- A function that agrees with `math.Pow` on a non-negative integer base and a small
non-negative integer exponent, where the power is computed exactly; it instantiates the
parameter `pow` in examples. -/
def examplePow (a b : F64) : F64 :=
  match a, b with
  | .fin m1 e1, .fin m2 e2 =>
    if 0 ≤ m1 ∧ 0 ≤ e1 ∧ 0 ≤ m2 ∧ 0 ≤ e2 then
      F64.ofInt ((m1 * 2 ^ e1.toNat) ^ (m2 * 2 ^ e2.toNat).toNat)
    else F64.NaN
  | _, _ => F64.NaN

/-- The empty bindings: a `Parameter` without variables. -/
def emptyParameter : Parameter := { Vars := fun _ => none, Diff := [] }

/-! ### The runs of the parser as a relation

`Parsed reg c a e es a1` says that the call `c` of the parser, started in state `a`,
returns in state `a1` with the node `e` (for the argument loop: with the list `es`).
There is one rule for each path through the code of `ast.go`. -/

/-- The recursive methods of the parser, with their arguments. -/
inductive Call where
  | expression
  | primary
  | funCallerOrConst
  | args (exprs : List ExprNode)
  | operator
  | binOpRHS (execPrec : Int) (lhs : ExprNode)

/-- The terminating runs of the parser. -/
inductive Parsed (reg : Registry) : Call → AST → ExprNode → List ExprNode → AST → Prop where
  | expression (a a2 a3 a4 : AST) (lhs r : ExprNode) :
    Parsed reg .primary { a with depth := a.depth + 1 } lhs [] a2 →
    Parsed reg (.binOpRHS 0 lhs) a2 r [] a3 →
    a3.leave = .done a4 →
    Parsed reg .expression a r [] a4
  | primary_identifier (a a1 : AST) (t : Token) (e : ExprNode) :
    a.currTok = some t → t.Typ = IdentifierType →
    Parsed reg .funCallerOrConst a e [] a1 →
    Parsed reg .primary a e [] a1
  | primary_literal (a a1 : AST) (t : Token) (e : ExprNode) :
    a.currTok = some t → t.Typ = LiteralType →
    a.parseNumber = .done (e, a1) →
    Parsed reg .primary a e [] a1
  | primary_operator (a a1 : AST) (t : Token) (e : ExprNode) :
    a.currTok = some t → t.Typ = OperatorType →
    Parsed reg .operator a e [] a1 →
    Parsed reg .primary a e [] a1
  | primary_comma (a : AST) (t : Token) :
    a.currTok = some t → t.Typ = CommaType →
    Parsed reg .primary a .nil []
      { a with Err := some (.unexpectedComma t.Value t.Offset) }
  | call_const (a : AST) (t t1 : Token) :
    a.currTok = some t → a.getNextToken.1.currTok = some t1 → t1.Value ≠ ['('] →
    Parsed reg .funCallerOrConst a (AST.constOrVariable reg t.Value) [] a.getNextToken.1
  | call_undefined (a : AST) (t t1 : Token) :
    a.currTok = some t → a.getNextToken.1.currTok = some t1 → t1.Value = ['('] →
    reg.defFunc t.Value = none →
    Parsed reg .funCallerOrConst a (FunCallerExprNode [] []) []
      { a.getNextToken.1 with Err := some (.undefinedFunction t.Value t1.Offset) }
  | call_noArgs (a a1 : AST) (t t1 t2 : Token) (d : DefFunc) (e : ExprNode) :
    a.currTok = some t → a.getNextToken.1.currTok = some t1 → t1.Value = ['('] →
    reg.defFunc t.Value = some d →
    a.getNextToken.1.getNextToken.1.currTok = some t2 → t2.Value = [')'] →
    a.getNextToken.1.getNextToken.1.finishCall t.Value d [] = .done (e, a1) →
    Parsed reg .funCallerOrConst a e [] a1
  | call_args (a a3 a4 a1 : AST) (t t1 t2 : Token) (d : DefFunc) (e0 e : ExprNode)
      (exprs : List ExprNode) :
    a.currTok = some t → a.getNextToken.1.currTok = some t1 → t1.Value = ['('] →
    reg.defFunc t.Value = some d →
    a.getNextToken.1.getNextToken.1.currTok = some t2 → t2.Value ≠ [')'] →
    Parsed reg .expression a.getNextToken.1.getNextToken.1 e0 [] a3 →
    Parsed reg (.args [e0]) a3 .nil exprs a4 →
    a4.finishCall t.Value d exprs = .done (e, a1) →
    Parsed reg .funCallerOrConst a e [] a1
  | args_done (exprs : List ExprNode) (a : AST) (t : Token) :
    a.currTok = some t → t.Value = [')'] →
    Parsed reg (.args exprs) a .nil exprs a
  | args_eof (exprs : List ExprNode) (a : AST) (t : Token) :
    a.currTok = some t → t.Value ≠ [')'] → a.getNextToken.2 = none →
    Parsed reg (.args exprs) a .nil exprs a.getNextToken.1
  | args_comma (exprs exprs1 : List ExprNode) (a a1 : AST) (t t1 : Token) :
    a.currTok = some t → t.Value ≠ [')'] → a.getNextToken.2 = some t1 →
    t1.Typ = CommaType →
    Parsed reg (.args exprs) a.getNextToken.1 .nil exprs1 a1 →
    Parsed reg (.args exprs) a .nil exprs1 a1
  | args_expression (exprs exprs1 : List ExprNode) (a a2 a1 : AST) (t t1 : Token)
      (e : ExprNode) :
    a.currTok = some t → t.Value ≠ [')'] → a.getNextToken.2 = some t1 →
    t1.Typ ≠ CommaType →
    Parsed reg .expression a.getNextToken.1 e [] a2 →
    Parsed reg (.args (exprs ++ [e])) a2 .nil exprs1 a1 →
    Parsed reg (.args exprs) a .nil exprs1 a1
  | bracket_eof (a : AST) (t t1 : Token) :
    a.currTok = some t → t.Value = ['('] → a.getNextToken.2 = none →
    a.getNextToken.1.currTok = some t1 →
    Parsed reg .operator a .nil []
      { a.getNextToken.1 with Err := some (.unexpectedEOF t1.Offset) }
  | bracket_nil (a a2 : AST) (t t1 : Token) (e : ExprNode) :
    a.currTok = some t → t.Value = ['('] → a.getNextToken.2 = some t1 →
    Parsed reg .expression a.getNextToken.1 e [] a2 → e.isNil = true →
    Parsed reg .operator a .nil [] a2
  | bracket_unclosed (a a2 : AST) (t t1 t2 : Token) (e : ExprNode) :
    a.currTok = some t → t.Value = ['('] → a.getNextToken.2 = some t1 →
    Parsed reg .expression a.getNextToken.1 e [] a2 → e.isNil = false →
    a2.currTok = some t2 → t2.Value ≠ [')'] →
    Parsed reg .operator a .nil []
      { a2 with Err := some (.wantRBracket t2.Value t2.Offset) }
  | bracket (a a2 : AST) (t t1 t2 : Token) (e : ExprNode) :
    a.currTok = some t → t.Value = ['('] → a.getNextToken.2 = some t1 →
    Parsed reg .expression a.getNextToken.1 e [] a2 → e.isNil = false →
    a2.currTok = some t2 → t2.Value = [')'] →
    Parsed reg .operator a e [] a2.getNextToken.1
  | minus_eof (a : AST) (t t1 : Token) :
    a.currTok = some t → t.Value ≠ ['('] → t.Value = ['-'] → a.getNextToken.2 = none →
    a.getNextToken.1.currTok = some t1 →
    Parsed reg .operator a .nil []
      { a.getNextToken.1 with Err := some (.minusAtEnd t1.Offset) }
  | minus (a a2 : AST) (t t1 : Token) (rhs : ExprNode) :
    a.currTok = some t → t.Value ≠ ['('] → t.Value = ['-'] → a.getNextToken.2 = some t1 →
    Parsed reg .primary a.getNextToken.1 rhs [] a2 →
    Parsed reg .operator a (OperatorExprNode ['-'] (NumberExprNode F64.zero []) rhs false) [] a2
  | operator_number (a a1 : AST) (t : Token) (e : ExprNode) :
    a.currTok = some t → t.Value ≠ ['('] → t.Value ≠ ['-'] →
    a.parseNumber = .done (e, a1) →
    Parsed reg .operator a e [] a1
  | binOp_stop (execPrec : Int) (lhs : ExprNode) (a : AST) (p : Int) :
    a.getTokPrecedence = .done p → p < execPrec →
    Parsed reg (.binOpRHS execPrec lhs) a lhs [] a
  | binOp_eof (execPrec : Int) (lhs : ExprNode) (a : AST) (p : Int) (t1 : Token) :
    a.getTokPrecedence = .done p → ¬ p < execPrec → a.getNextToken.2 = none →
    a.getNextToken.1.currTok = some t1 →
    Parsed reg (.binOpRHS execPrec lhs) a .nil []
      { a.getNextToken.1 with Err := some (.unexpectedEOF t1.Offset) }
  | binOp_nil (execPrec : Int) (lhs rhs : ExprNode) (a a2 : AST) (p : Int) (t1 : Token) :
    a.getTokPrecedence = .done p → ¬ p < execPrec → a.getNextToken.2 = some t1 →
    Parsed reg .primary a.getNextToken.1 rhs [] a2 → rhs.isNil = true →
    Parsed reg (.binOpRHS execPrec lhs) a .nil [] a2
  | binOp_climb_nil (execPrec : Int) (lhs rhs rhs1 : ExprNode) (a a2 a3 : AST) (p np : Int)
      (t1 : Token) :
    a.getTokPrecedence = .done p → ¬ p < execPrec → a.getNextToken.2 = some t1 →
    Parsed reg .primary a.getNextToken.1 rhs [] a2 → rhs.isNil = false →
    a2.getTokPrecedence = .done np → p < np →
    Parsed reg (.binOpRHS (p + 1) rhs) a2 rhs1 [] a3 → rhs1.isNil = true →
    Parsed reg (.binOpRHS execPrec lhs) a .nil [] a3
  | binOp_climb (execPrec : Int) (lhs rhs rhs1 r : ExprNode) (a a2 a3 a4 : AST) (p np : Int)
      (t t1 : Token) :
    a.getTokPrecedence = .done p → ¬ p < execPrec → a.currTok = some t →
    a.getNextToken.2 = some t1 →
    Parsed reg .primary a.getNextToken.1 rhs [] a2 → rhs.isNil = false →
    a2.getTokPrecedence = .done np → p < np →
    Parsed reg (.binOpRHS (p + 1) rhs) a2 rhs1 [] a3 → rhs1.isNil = false →
    Parsed reg (.binOpRHS execPrec (OperatorExprNode t.Value lhs rhs1 false)) a3 r [] a4 →
    Parsed reg (.binOpRHS execPrec lhs) a r [] a4
  | binOp_fold (execPrec : Int) (lhs rhs r : ExprNode) (a a2 a3 : AST) (p np : Int)
      (t t1 : Token) :
    a.getTokPrecedence = .done p → ¬ p < execPrec → a.currTok = some t →
    a.getNextToken.2 = some t1 →
    Parsed reg .primary a.getNextToken.1 rhs [] a2 → rhs.isNil = false →
    a2.getTokPrecedence = .done np → ¬ p < np →
    Parsed reg (.binOpRHS execPrec (OperatorExprNode t.Value lhs rhs false)) a2 r [] a3 →
    Parsed reg (.binOpRHS execPrec lhs) a r [] a3

mutual
/-- Every node of the tree, the arguments of calls included, satisfies `P`. -/
def ExprNode.All (P : ExprNode → Prop) : ExprNode → Prop
  | .OperatorExprNode op l r f =>
    P (.OperatorExprNode op l r f) ∧ ExprNode.All P l ∧ ExprNode.All P r
  | .FunCallerExprNode name args =>
    P (.FunCallerExprNode name args) ∧ ExprNode.AllList P args
  | .nil => P .nil
  | .NumberExprNode v s => P (.NumberExprNode v s)
  | .VariableExprNode v => P (.VariableExprNode v)
  | .ConstExprNode n s v => P (.ConstExprNode n s v)
/-- Every node of every tree of the list satisfies `P`. -/
def ExprNode.AllList (P : ExprNode → Prop) : List ExprNode → Prop
  | [] => True
  | e :: es => ExprNode.All P e ∧ ExprNode.AllList P es
end

/-- A node as a successful parse builds it: it is not nil; an operator node carries a symbol
of the table with a precedence and no grouping flag; a call names a registered function
whose arity is variadic or equals the number of arguments; a constant node carries the
registered value and its rendering. -/
def NodeOk (reg : Registry) : ExprNode → Prop
  | .nil => False
  | .OperatorExprNode op _ _ flag =>
    flag = false ∧ ∃ c cs o, op = c :: cs ∧ Operators c = some o ∧ 0 ≤ o.Precedence
  | .FunCallerExprNode name args =>
    ∃ d, reg.defFunc name = some d ∧ (d.Argc < 0 ∨ (args.length : Int) = d.Argc)
  | .ConstExprNode name str v => reg.defConst name = some v ∧ str = formatFixed 0 v
  | .NumberExprNode _ _ => True
  | .VariableExprNode _ => True

/-- Height of a tree along its operator nodes; the arguments of a call do not count, as
`Calculate` and `ToExprStr` hand them to the registered function. -/
def ExprNode.height : ExprNode → Nat
  | .OperatorExprNode _ l r _ => max l.height r.height + 1
  | _ => 1

/-- The bound value is a number or a value of another type: not a string to parse again,
not a tree. -/
def Value.isPlain : Value → Bool
  | .str _ => false
  | .node _ => false
  | _ => true

/-- The bindings that give the variable `x` the integer 5, and nothing else. -/
def exampleParameter : Parameter :=
  { Vars := fun n => if n = ['x'] then some (.int 5) else none, Diff := [] }

/-- A registered function of the given arity whose callbacks return zero and the empty
string; it stands for a function of the caller in examples. -/
def exampleFunc (argc : Int) : DefFunc :=
  { Argc := argc, Calculate := fun _ _ => .done F64.zero, ToExprStr := fun _ _ => .done [] }

/-- The default tables with one function registered under `name`. -/
def registryWith (name : GoString) (d : DefFunc) : Registry :=
  { defConst := defaultRegistry.defConst
    defFunc := fun n => if n = name then some d else none }

/-! ### States that differ only in offsets and source text -/

/-- Two tokens with the same text and kind; the offsets may differ. -/
def Token.Same (t t1 : Token) : Prop := t.Value = t1.Value ∧ t.Typ = t1.Typ

/-- Both pointers are nil, or they point to tokens with the same text and kind. -/
def Token.SameOpt : Option Token → Option Token → Prop
  | none, none => True
  | some t, some t1 => Token.Same t t1
  | _, _ => False

/-- Two parser states at the same position of token lists with the same texts and kinds,
both with or both without a recorded error. -/
def AST.Same (a a1 : AST) : Prop :=
  a.currIndex = a1.currIndex ∧ a.depth = a1.depth ∧ Token.SameOpt a.currTok a1.currTok ∧
    List.Forall₂ Token.Same a.Tokens a1.Tokens ∧ a.Err.isSome = a1.Err.isSome

/-- Two outcomes of the same kind whose values, if any, are related by `R`. -/
def Run.Same {α : Type} (R : α → α → Prop) : Run α → Run α → Prop
  | .done x, .done y => R x y
  | .panicked _, .panicked _ => True
  | .outOfFuel, .outOfFuel => True
  | _, _ => False

/-- The same node in states that are the same up to offsets. -/
def AST.SameResult (r r1 : ExprNode × AST) : Prop := r.1 = r1.1 ∧ AST.Same r.2 r1.2

/-- The same list of nodes in states that are the same up to offsets. -/
def AST.SameArgs (r r1 : List ExprNode × AST) : Prop := r.1 = r1.1 ∧ AST.Same r.2 r1.2

/-! ### Sources without brackets and names -/

/-- The operator symbols that `ToExprStr` prints without brackets of its own. -/
def plainOps : List Char := ['+', '-', '*', '/', '^']

/-- The text of a literal as the lexer leaves it in a token: it starts with a digit,
continues with literal bytes, and has no underscore. -/
def PlainLiteral (s : GoString) : Prop :=
  ∃ c cs, s = c :: cs ∧ ('0' ≤ c ∧ c ≤ '9') ∧ literalTail c cs = true ∧
    Parser.removeUnderscores s = s

/-- A piece of source text other than a bracket and the symbol `%`. -/
def Lexeme.Plain : Lexeme → Prop
  | .op c => c ∈ plainOps
  | _ => True

/-- Every lexeme of the list is plain. -/
def plainLexemes : List Lexeme → Prop
  | [] => True
  | l :: ls => l.Plain ∧ plainLexemes ls

/-- Text and kind of a token, without its offset. -/
def Token.key (t : Token) : GoString × TokenType := (t.Value, t.Typ)

/-- A literal token or one of the operator tokens `+ - * / ^`. -/
def Token.Plain (t : Token) : Prop :=
  (t.Typ = LiteralType ∧ PlainLiteral t.Value) ∨
    (t.Typ = OperatorType ∧ ∃ c, c ∈ plainOps ∧ t.Value = [c])

/-- Texts and kinds of the tokens of a tree of numbers and operators, from left to right;
the zero that the parser puts in front of a unary minus has no token. -/
def ExprNode.tokens : ExprNode → List (GoString × TokenType)
  | .NumberExprNode _ [] => []
  | .NumberExprNode _ (c :: cs) => [(c :: cs, LiteralType)]
  | .OperatorExprNode op l r _ => l.tokens ++ (op, OperatorType) :: r.tokens
  | _ => []

/-- A tree of number literals and the operators `+ - * / ^` without grouping flag, where
the left operand of a minus may be the zero without text of a unary minus. -/
def ExprNode.Plain : ExprNode → Prop
  | .NumberExprNode _ s => PlainLiteral s
  | .OperatorExprNode op l r flag =>
    flag = false ∧ (∃ c, c ∈ plainOps ∧ op = [c]) ∧
      (l.Plain ∨ (op = ['-'] ∧ ∃ v, l = NumberExprNode v [])) ∧ r.Plain
  | _ => False

/-- The lexemes that `ToExprStr` of `OperatorItem` puts between its operands. -/
def separator (c : Char) : List Lexeme :=
  if c = '/' ∨ c = '^' then [.op c] else [.sp, .op c, .sp]

/-- The printed form of a tree of numbers and operators, as lexemes. -/
def renderLex : ExprNode → List Lexeme
  | .NumberExprNode _ [] => []
  | .NumberExprNode _ (c :: cs) => [.lit c cs]
  | .OperatorExprNode op l r _ => renderLex l ++ separator (op.headD ' ') ++ renderLex r
  | _ => []

/-- Texts and kinds of the tokens of a list of lexemes. -/
def keysOf : List Lexeme → List (GoString × TokenType)
  | [] => []
  | .lit c cs :: ls => (Parser.removeUnderscores (c :: cs), LiteralType) :: keysOf ls
  | .op c :: ls => ([c], OperatorType) :: keysOf ls
  | .sp :: ls => keysOf ls

/-- Every lexeme of the list is well formed in front of the text that follows it, where
`next` follows the list. -/
def lexemesOkBefore (next : GoString) : List Lexeme → Prop
  | [] => True
  | l :: ls => l.ok (textOf ls ++ next) ∧ lexemesOkBefore next ls

/-- The current token is a token of the list, and it is the one at the current index when
the index is inside the list. -/
def AST.Sync (a : AST) : Prop :=
  (∀ t, a.currTok = some t → t ∈ a.Tokens) ∧
    (a.currIndex < a.Tokens.length → a.Tokens.get? a.currIndex = a.currTok)

/-- Texts and kinds of the tokens in front of the current index. -/
def AST.keys (a : AST) : List (GoString × TokenType) :=
  (a.Tokens.take a.currIndex).map Token.key

/-- A call that started in `a` and returned `e` in `a1` consumed the tokens of `e`. -/
def AST.Consumed (a : AST) (e : ExprNode) (a1 : AST) : Prop :=
  a1.Tokens = a.Tokens ∧ a1.Sync ∧ a1.depth = a.depth ∧ e.Plain ∧
    a1.keys = a.keys ++ e.tokens

/-! ### The pieces of a source -/

/-- A piece of source text as the lexer reads it: a numeric literal `c :: cs`, an operator
symbol, a comma, an identifier `c :: cs`, or a whitespace byte in front of more text. -/
inductive Piece where
  | lit (c : Char) (cs : GoString)
  | op (c : Char)
  | comma
  | ident (c : Char) (cs : GoString)
  | ws (c : Char)

/-- The source text of a piece. -/
def Piece.text : Piece → GoString
  | .lit c cs => c :: cs
  | .op c => [c]
  | .comma => [',']
  | .ident c cs => c :: cs
  | .ws c => [c]

/-- The token of a piece that starts at byte offset `off`; whitespace gives none. -/
def Piece.token (off : Nat) : Piece → Option Token
  | .lit c cs =>
    some { Value := Parser.removeUnderscores (c :: cs), Typ := LiteralType, Offset := off }
  | .op c => some { Value := [c], Typ := OperatorType, Offset := off }
  | .comma => some { Value := [','], Typ := CommaType, Offset := off }
  | .ident c cs => some { Value := c :: cs, Typ := IdentifierType, Offset := off }
  | .ws _ => none

/-- The scan of an identifier stops in front of `rest`: at the end of the source or at a
byte that is not a word byte. -/
def wordStops : GoString → Bool
  | [] => true
  | r :: _ => !Parser.isWordChar r

/-- The piece is what the lexer reads in front of the text `next`: a literal starts with a
digit, continues with literal bytes and stops in front of `next`; an operator symbol is in
the table; an identifier starts with a letter byte, continues with word bytes and stops in
front of `next`; a whitespace byte is followed by more text. -/
def Piece.ok (next : GoString) : Piece → Prop
  | .lit c cs => ('0' ≤ c ∧ c ≤ '9') ∧ literalTail c cs = true ∧
      literalStops ((c :: cs).getLast (by simp)) next = true
  | .op c => (Operators c).isSome = true
  | .comma => True
  | .ident c cs => Parser.isChar c = true ∧ cs.all Parser.isWordChar = true ∧
      wordStops next = true
  | .ws c => Parser.isWhitespace c = true ∧ next ≠ []

/-- Concatenated text of a list of pieces. -/
def piecesText : List Piece → GoString
  | [] => []
  | p :: ps => p.text ++ piecesText ps

/-- Tokens of a list of pieces laid out from byte offset `off`. -/
def piecesTokens (off : Nat) : List Piece → List Token
  | [] => []
  | p :: ps =>
    match p.token off with
    | some t => t :: piecesTokens (off + p.text.length) ps
    | none => piecesTokens (off + p.text.length) ps

/-- Every piece of the list is what the lexer reads in front of the text that follows it,
where `next` follows the list. -/
def piecesOk (next : GoString) : List Piece → Prop
  | [] => True
  | p :: ps => p.ok (piecesText ps ++ next) ∧ piecesOk next ps

/-- A byte at which no token starts: not whitespace, not an operator symbol, not a digit,
not a comma, not a letter byte. -/
def unknownByte (c : Char) : Bool :=
  !Parser.isWhitespace c && (Operators c).isNone && !('0' ≤ c && c ≤ '9') && c != ',' &&
    !Parser.isChar c

/-- What follows the last token of a source: nothing, whitespace up to the end, or a byte
at which no token starts followed by any text. -/
inductive SourceEnd where
  | done
  | blank (c : Char) (cs : GoString)
  | bad (c : Char) (rest : GoString)

/-- The text of the end of a source. -/
def SourceEnd.text : SourceEnd → GoString
  | .done => []
  | .blank c cs => c :: cs
  | .bad c rest => c :: rest

/-- The end of a source is what it says: whitespace bytes only, or an unknown byte first. -/
def SourceEnd.ok : SourceEnd → Prop
  | .done => True
  | .blank c cs => Parser.isWhitespace c = true ∧ cs.all Parser.isWhitespace = true
  | .bad c _ => unknownByte c = true

/-- The error of the lexer at the end of a source that starts at byte offset `off`: none at
the end of the text; at trailing whitespace the error names the last byte and the length of
the source, unless that byte is a space; at an unknown byte it names the byte and its
offset. -/
def SourceEnd.error (off : Nat) : SourceEnd → Option GoError
  | .done => none
  | .blank c cs =>
    if (c :: cs).getLast (by simp) != ' ' then
      some (GoError.unknownSymbol ((c :: cs).getLast (by simp)) (off + 1 + cs.length))
    else none
  | .bad c _ => some (GoError.unknownSymbol c off)

/-- A token as the lexer makes it: an operator token holds one symbol of the table, a
literal token starts with a digit, a comma token is a comma, an identifier token starts
with a letter byte. -/
def Token.Lexed (t : Token) : Prop :=
  match t.Typ with
  | OperatorType => ∃ c o, t.Value = [c] ∧ Operators c = some o
  | LiteralType => ∃ c cs, t.Value = c :: cs ∧ ('0' ≤ c ∧ c ≤ '9')
  | CommaType => t.Value = [',']
  | IdentifierType => ∃ c cs, t.Value = c :: cs ∧ Parser.isChar c = true

/-- Texts and kinds of the tokens of a list of pieces. -/
def piecesKeys : List Piece → List (GoString × TokenType)
  | [] => []
  | .lit c cs :: ps => (Parser.removeUnderscores (c :: cs), LiteralType) :: piecesKeys ps
  | .op c :: ps => ([c], OperatorType) :: piecesKeys ps
  | .comma :: ps => ([','], CommaType) :: piecesKeys ps
  | .ident c cs :: ps => (c :: cs, IdentifierType) :: piecesKeys ps
  | .ws _ :: ps => piecesKeys ps

/-- The whitespace bytes of `w` as pieces. -/
def blanks (w : GoString) : List Piece := w.map Piece.ws

/-- The state `a1` comes after the state `a` of the same parse: the tokens are the same,
the index has not gone back, and the current token is still in step with the index if it
was. -/
def AST.Follows (a a1 : AST) : Prop :=
  a1.Tokens = a.Tokens ∧ a.currIndex ≤ a1.currIndex ∧ (a.Sync → a1.Sync)

/-- The number of tokens from the current index to the end of the list. -/
def AST.rem (a : AST) : Nat := a.Tokens.length - a.currIndex

/-- The current token is not nil and is a token of the list. -/
def AST.Live (a : AST) : Prop := ∃ t, a.currTok = some t ∧ t ∈ a.Tokens

/-- Tokens on which the parser neither panics nor recurses without advancing: the text of
a token is not empty, and an identifier token is not `(`. -/
def TokensSafe (toks : List Token) : Prop :=
  ∀ t ∈ toks, t.Value ≠ [] ∧ (t.Typ = IdentifierType → t.Value ≠ ['('])

/-- The call `x`, started in state `a`, returns: it ends with a result in a state with the
same tokens, an index that has not gone back, and a current token of the list. -/
def AST.Returns {α : Type} (a : AST) (x : Run (α × AST)) : Prop :=
  ∃ r a1, x = .done (r, a1) ∧ a1.Tokens = a.Tokens ∧ a.currIndex ≤ a1.currIndex ∧ a1.Live

/-- The bracket depth after the tokens, starting from depth `d`; none when a closing
bracket comes at depth zero. -/
def bracketDepth : Nat → List Token → Option Nat
  | d, [] => some d
  | d, t :: ts =>
    if t.Value = ['('] then bracketDepth (d + 1) ts
    else if t.Value = [')'] then
      if d = 0 then none else bracketDepth (d - 1) ts
    else bracketDepth d ts

/-- The brackets of the tokens are balanced and properly nested. -/
def Balanced (toks : List Token) : Prop := bracketDepth 0 toks = some 0

/-- A run of tokens whose brackets are balanced and properly nested at any depth. -/
def Nested (seg : List Token) : Prop := ∀ d, bracketDepth d seg = some d

/-- An operator node is well formed: its symbol is one of the six binary operators and
both operands are present. Other nodes carry no condition. -/
def OperatorOk : ExprNode → Prop
  | .OperatorExprNode op l r _ =>
    (∃ c, c ∈ binaryOps ∧ op = [c]) ∧ l.isNil = false ∧ r.isNil = false
  | _ => True

/-- An identifier token whose text is the opening bracket; the lexer makes no such token,
a caller of `NewAST` can. -/
def bracketNameToken : Token := { Value := ['('], Typ := IdentifierType, Offset := 0 }

/-- The default tables after `RegDefFunc("(", f)` for a variadic function `f`. -/
def bracketNameRegistry : Registry := (RegDefFunc defaultRegistry ['('] (exampleFunc (-1))).2

/-- The run `y` is the run `x` with more fuel: `x` ran out of fuel, or both end the same
way. -/
def Run.Below {α : Type} (x y : Run α) : Prop := x = .outOfFuel ∨ x = y

/-- The text holds no bracket. -/
def NoParen (s : GoString) : Prop := ∀ c ∈ s, c ≠ '(' ∧ c ≠ ')'

/-- A leaf of a tree is made from a token of the list: the text of a number node is the
text of a token that `strconv.ParseFloat` reads (or empty, in the placeholder of the unary
minus and after an error), and the name of a variable or constant node is the text of an
identifier token. Other nodes carry no condition. -/
def LeafOk (toks : List Token) : ExprNode → Prop
  | .NumberExprNode _ s => s = [] ∨ ∃ t ∈ toks, t.Value = s ∧ (ParseFloat s).isSome = true
  | .VariableExprNode n => ∃ t ∈ toks, t.Typ = IdentifierType ∧ t.Value = n
  | .ConstExprNode n _ _ => ∃ t ∈ toks, t.Typ = IdentifierType ∧ t.Value = n
  | _ => True

/-- The number of `%` nodes of a tree; the arguments of a call do not count. -/
def ExprNode.modCount : ExprNode → Nat
  | .OperatorExprNode op l r _ => (if op = ['%'] then 1 else 0) + l.modCount + r.modCount
  | _ => 0

/-- The grouping flag of an operator node is not set. Other nodes carry no condition. -/
def FlagOff : ExprNode → Prop
  | .OperatorExprNode _ _ _ flag => flag = false
  | _ => True

/-! ### The printed form of a tree and its tokens -/

/-- The node is the zero without text that the parser puts in front of a unary minus. -/
def ExprNode.isBlank : ExprNode → Bool
  | .NumberExprNode _ [] => true
  | _ => false

/-- The precedence with which the printed form of a tree binds: the precedence of its
operator for an operator node that `ToExprStr` prints without brackets, 100 for a tree
that is printed as one operand (a number, a name, a unary minus, a `%` node in its
brackets). -/
def ExprNode.printPrec : ExprNode → Int
  | .OperatorExprNode op l _ _ =>
    if l.isBlank then 100
    else if op = ['%'] then 100
    else precOf (op.headD ' ')
  | _ => 100

/-- A tree as the parser builds it from a source without brackets, under the bindings of
`ctx`: number literals that `strconv.ParseFloat` reads, names that are no registered
constant and that `ToExprStr` prints as they are (no binding, or a binding of a type that
it does not print), the unary minus in front of an operand, and operator nodes without
grouping flag whose left operand binds at least as tightly as the operator and whose right
operand binds more tightly. -/
inductive Printable (reg : Registry) (ctx : Context) : ExprNode → Prop where
  | num (v : F64) (s : GoString) :
    PlainLiteral s → ParseFloat s = some v → Printable reg ctx (NumberExprNode v s)
  | var (c : Char) (cs : GoString) (p : Parameter) :
    Parser.isChar c = true → cs.all Parser.isWordChar = true →
    reg.defConst (c :: cs) = none → ctx = some p →
    (p.Vars (c :: cs) = none ∨ p.Vars (c :: cs) = some Value.other) →
    Printable reg ctx (VariableExprNode (c :: cs))
  | neg (x : ExprNode) :
    Printable reg ctx x → x.printPrec = 100 →
    Printable reg ctx (OperatorExprNode ['-'] (NumberExprNode F64.zero []) x false)
  | bin (o : Char) (l r : ExprNode) :
    o ∈ binaryOps → Printable reg ctx l → Printable reg ctx r →
    precOf o ≤ l.printPrec → precOf o < r.printPrec →
    Printable reg ctx (OperatorExprNode [o] l r false)

/-- The printed form of a tree as pieces of text: `ToExprStr` of `OperatorItem` puts
spaces around `+ - * %`, none around `/` and `^`, and brackets around a `%` node. -/
def renderPieces : ExprNode → List Piece
  | .NumberExprNode _ [] => []
  | .NumberExprNode _ (c :: cs) => [.lit c cs]
  | .VariableExprNode [] => []
  | .VariableExprNode (c :: cs) => [.ident c cs]
  | .OperatorExprNode op l r _ =>
    if op = ['%'] then
      [.op '('] ++ renderPieces l ++ [.ws ' ', .op '%', .ws ' '] ++ renderPieces r ++ [.op ')']
    else if op = ['/'] ∨ op = ['^'] then renderPieces l ++ [.op (op.headD ' ')] ++ renderPieces r
    else renderPieces l ++ [.ws ' ', .op (op.headD ' '), .ws ' '] ++ renderPieces r
  | _ => []

/-- Texts and kinds of the tokens of the printed form of a tree. -/
def ExprNode.printKeys : ExprNode → List (GoString × TokenType)
  | .NumberExprNode _ [] => []
  | .NumberExprNode _ (c :: cs) => [(c :: cs, LiteralType)]
  | .VariableExprNode n => [(n, IdentifierType)]
  | .OperatorExprNode op l r _ =>
    if op = ['%'] then
      (['('], OperatorType) :: l.printKeys ++ (['%'], OperatorType) :: r.printKeys ++
        [([')'], OperatorType)]
    else l.printKeys ++ (op, OperatorType) :: r.printKeys
  | _ => []

/-- The token that the parser holds as current token when its index is `j`: the token at
`j`, and past the end of the list still the last token. -/
def curAt (toks : List Token) (j : Nat) : Option Token := toks.get? (min j (toks.length - 1))

/-- The precedence that `getTokPrecedence` finds when the index is `j`. -/
def precAt (toks : List Token) (j : Nat) : Int :=
  match curAt toks j with
  | some t =>
    match t.Value with
    | c :: _ => precOf c
    | [] => -1
  | none => -1

/-- The state of a parse of `toks` without error, at index `j` and depth `d`. -/
def AST.stateAt (s : GoString) (toks : List Token) (j : Nat) (d : Int) : AST :=
  { source := s, currTok := curAt toks j, currIndex := j, depth := d, Tokens := toks,
    Err := none }

/-- What the parser does at index `i` when the tokens from `i` on are those of the printed
form of `T`: `parsePrimary` returns the first operand `P` of `T` at an index `j`, and from
there `parseBinOpRHS`, at any level `e` up to the precedence of `T`, goes on as it does
with `T` itself after the tokens of `T`. Either `T` is that operand, or the token at `j`
is an operator that binds at least as tightly as `T` does. The number `k` counts the
passes of the loop, and `f0` is fuel that is enough for the calls inside. -/
def ParsesAt (reg : Registry) (s : GoString) (toks : List Token) (T : ExprNode) (i : Nat)
    (d : Int) : Prop :=
  ∃ (P : ExprNode) (j k f0 : Nat),
    P.isNil = false ∧
    (∀ fuel, f0 ≤ fuel →
      AST.parsePrimary reg fuel (AST.stateAt s toks i d) = .done (P, AST.stateAt s toks j d)) ∧
    (∀ (e : Int), e ≤ T.printPrec → ∀ lhsFuel, f0 ≤ lhsFuel →
      AST.parseBinOpRHS reg (lhsFuel + k) e P (AST.stateAt s toks j d) =
        AST.parseBinOpRHS reg lhsFuel e T
          (AST.stateAt s toks (i + T.printKeys.length) d)) ∧
    ((T.printPrec = 100 ∧ P = T ∧ j = i + T.printKeys.length ∧ k = 0) ∨
      T.printPrec ≤ precAt toks j)

/-- The text `next` starts with no byte that would continue a literal or a word. -/
def Breaks (next : GoString) : Prop :=
  ∀ c rest, next = c :: rest → Parser.isDigitNum c = false ∧ Parser.isWordChar c = false

/-- A token as the lexer makes it, with the whole of its text: an operator token holds one
symbol of the table, a literal token holds a literal without underscore, a comma token is
a comma, an identifier token starts with a letter byte and continues with word bytes. -/
def Token.Formed (t : Token) : Prop :=
  match t.Typ with
  | OperatorType => ∃ c o, t.Value = [c] ∧ Operators c = some o
  | LiteralType => PlainLiteral t.Value
  | CommaType => t.Value = [',']
  | IdentifierType => ∃ c cs, t.Value = c :: cs ∧ Parser.isChar c = true ∧
      cs.all Parser.isWordChar = true

/-- A token of a source without brackets whose names are printed as they are: it is no
bracket, and when it is an identifier it names no registered constant and `ctx` carries
bindings that have none for it, or one of a type that `ToExprStr` does not print. -/
def Token.Bare (reg : Registry) (ctx : Context) (t : Token) : Prop :=
  t.Value ≠ ['('] ∧ t.Value ≠ [')'] ∧
    (t.Typ = IdentifierType → reg.defConst t.Value = none ∧
      ∃ p, ctx = some p ∧ (p.Vars t.Value = none ∨ p.Vars t.Value = some Value.other))

/-- The bindings that give the variable `x` the tree of `1+2`, and nothing else. -/
def treeParameter : Parameter :=
  { Vars := fun n =>
      if n = ['x'] then
        some (.node (OperatorExprNode ['+'] (NumberExprNode (F64.ofInt 1) ['1'])
          (NumberExprNode (F64.ofInt 2) ['2']) false))
      else none
    Diff := [] }

/-- The bindings that give the variable `x` the float64 `2^-30`, and nothing else. -/
def smallParameter : Parameter :=
  { Vars := fun n => if n = ['x'] then some (.float64 (F64.fin 1 (-30))) else none
    Diff := [] }

/-! ## Basic lemmas -/

@[simp] theorem Run.bind_done {α β : Type} (a : α) (f : α → Run β) :
    (Run.done a >>= f) = f a := rfl

@[simp] theorem Run.bind_done2 {α β : Type} (a : α) (f : α → Run β) :
    (Run.done a).bind f = f a := rfl

@[simp] theorem Run.pure_eq {α : Type} (a : α) : (pure a : Run α) = Run.done a := rfl

theorem getD_append_length {α : Type} (pre : List α) (x : α) (xs : List α) (d : α) :
    (pre ++ x :: xs).getD pre.length d = x := by
  induction pre with
  | nil => rfl
  | cons y ys ih => simpa using ih

theorem getD_append_length_succ {α : Type} (pre : List α) (x : α) (xs : List α) (d : α) :
    (pre ++ x :: xs).getD (pre.length + 1) d = xs.headD d := by
  induction pre with
  | nil => cases xs <;> rfl
  | cons y ys ih => simpa using ih

/-! ## The lexer on literals and operators -/

namespace Parser

theorem literalLoop_stop (fuel : Nat) (S : GoString) (c : Char) (k : Nat)
    (e : Option GoError) (h : isDigitNum c = false) :
    literalLoop fuel ⟨S, c, k, e⟩ = ⟨S, c, k, e⟩ := by
  cases fuel with
  | zero => rw [literalLoop]
  | succ n => rw [literalLoop]; simp only [h, Bool.false_eq_true, if_false]

theorem literalLoop_succ (f : Nat) (S : GoString) (c : Char) (k : Nat) (e : Option GoError)
    (hc : isDigitNum c = true) :
    literalLoop (f + 1) ⟨S, c, k, e⟩ =
      if k + 1 < S.length then
        (if ((S.getD (k + 1) ' ' == '-' || S.getD (k + 1) ' ' == '+') && S.getD k ' ' != 'e')
         then ⟨S, S.getD (k + 1) ' ', k + 1, e⟩
         else literalLoop f ⟨S, S.getD (k + 1) ' ', k + 1, e⟩)
      else ⟨S, c, k + 1, e⟩ := by
  rw [literalLoop]
  simp only [hc, nextCh, if_true]
  by_cases h : k + 1 < S.length
  · simp only [h, if_true, Bool.false_eq_true, if_false, Nat.add_sub_cancel]
  · simp only [h, if_false, if_true]

/-- The literal scan, started on the first byte of a literal `c :: cs` that is followed by
`rest`, stops right after the literal. -/
theorem literalLoop_spec (cs : GoString) : ∀ (pre : GoString) (c : Char) (rest : GoString)
    (fuel : Nat) (e : Option GoError),
    isDigitNum c = true → literalTail c cs = true →
    literalStops ((c :: cs).getLast (by simp)) rest = true → cs.length < fuel →
    literalLoop fuel ⟨pre ++ c :: (cs ++ rest), c, pre.length, e⟩ =
      ⟨pre ++ c :: (cs ++ rest), rest.headD ((c :: cs).getLast (by simp)),
        pre.length + 1 + cs.length, e⟩ := by
  induction cs with
  | nil =>
    intro pre c rest fuel e hc _ hstop hf
    obtain ⟨f, rfl⟩ : ∃ f, fuel = f + 1 := ⟨fuel - 1, by simp at hf; omega⟩
    rw [literalLoop_succ _ _ _ _ _ hc]
    cases rest with
    | nil => simp
    | cons r rs =>
      have hS : (pre ++ c :: ([] ++ r :: rs)).getD (pre.length + 1) ' ' = r := by
        rw [getD_append_length_succ]; simp
      have hS0 : (pre ++ c :: ([] ++ r :: rs)).getD pre.length ' ' = c :=
        getD_append_length _ _ _ _
      have hlt : pre.length + 1 < (pre ++ c :: ([] ++ r :: rs)).length := by simp
      simp only [literalStops, List.getLast_singleton] at hstop
      rw [if_pos hlt, hS, hS0]
      by_cases hbr : ((r == '-' || r == '+') && c != 'e') = true
      · rw [if_pos hbr]; simp
      · rw [if_neg hbr]
        have hnd : isDigitNum r = false := by
          simp only [Bool.not_eq_true] at hbr
          simpa [hbr] using hstop
        rw [literalLoop_stop _ _ _ _ _ hnd]
        simp
  | cons c2 cs ih =>
    intro pre c rest fuel e hc htail hstop hf
    obtain ⟨f, rfl⟩ : ∃ f, fuel = f + 1 := ⟨fuel - 1, by simp at hf; omega⟩
    simp only [literalTail, Bool.and_eq_true, Bool.not_eq_true'] at htail
    obtain ⟨⟨hc2, hnb⟩, htail2⟩ := htail
    have hS : (pre ++ c :: (c2 :: cs ++ rest)).getD (pre.length + 1) ' ' = c2 := by
      rw [getD_append_length_succ]; simp
    have hS0 : (pre ++ c :: (c2 :: cs ++ rest)).getD pre.length ' ' = c :=
      getD_append_length _ _ _ _
    have hlen : pre.length + 1 < (pre ++ c :: (c2 :: cs ++ rest)).length := by
      simp
    have key := ih (pre ++ [c]) c2 rest f e hc2 htail2
      (by simpa [List.getLast_cons] using hstop) (by simp at hf; omega)
    rw [literalLoop_succ _ _ _ _ _ hc, if_pos hlen, hS, hS0, hnb]
    simp only [Bool.false_eq_true, if_false]
    have e1 : pre ++ c :: (c2 :: cs ++ rest) = pre ++ [c] ++ c2 :: (cs ++ rest) := by simp
    rw [e1]
    have e2 : pre.length + 1 = (pre ++ [c]).length := by simp
    rw [e2, key]
    simp [List.getLast_cons]
    omega

theorem digit_isDigitNum (c : Char) (h : '0' ≤ c ∧ c ≤ '9') : isDigitNum c = true := by
  simp [isDigitNum, h.1, h.2]

theorem digit_not_whitespace (c : Char) (h : '0' ≤ c ∧ c ≤ '9') : isWhitespace c = false := by
  have h1 := h.1
  simp only [isWhitespace, Bool.or_eq_false_iff, beq_eq_false_iff_ne, ne_eq]
  refine ⟨⟨⟨⟨⟨?_, ?_⟩, ?_⟩, ?_⟩, ?_⟩, ?_⟩ <;> (rintro rfl; revert h1; decide)

theorem digit_not_operator (c : Char) (h : '0' ≤ c ∧ c ≤ '9') : Operators c = none := by
  have h1 := h.1
  have h2 := h.2
  have n1 : c ≠ '(' := by rintro rfl; revert h1; decide
  have n2 : c ≠ ')' := by rintro rfl; revert h1; decide
  have n3 : c ≠ '+' := by rintro rfl; revert h1; decide
  have n4 : c ≠ '-' := by rintro rfl; revert h1; decide
  have n5 : c ≠ '*' := by rintro rfl; revert h1; decide
  have n6 : c ≠ '/' := by rintro rfl; revert h1; decide
  have n7 : c ≠ '^' := by rintro rfl; revert h2; decide
  have n8 : c ≠ '%' := by rintro rfl; revert h1; decide
  simp [Operators, n1, n2, n3, n4, n5, n6, n7, n8]

theorem digit_ne_underscore (c : Char) (h : '0' ≤ c ∧ c ≤ '9') : c ≠ '_' := by
  have h2 := h.2
  rintro rfl; revert h2; decide

theorem operator_cases (c : Char) (o : OperatorItem) (h : Operators c = some o) :
    c = o.Name ∧ (c = '(' ∨ c = ')' ∨ c = '+' ∨ c = '-' ∨ c = '*' ∨ c = '/' ∨ c = '^' ∨ c = '%') := by
  unfold Operators at h
  split_ifs at h with h1 h2 h3 h4 h5 h6 h7 h8 <;> cases h <;> subst_vars <;> simp [OperatorItem.Name]

theorem operator_not_whitespace (c : Char) (o : OperatorItem) (h : Operators c = some o) :
    isWhitespace c = false := by
  rcases (operator_cases c o h).2 with h | h | h | h | h | h | h | h <;> subst h <;> decide

theorem skipWhitespace_stop (fuel : Nat) (S : GoString) (c : Char) (k : Nat)
    (e : Option GoError) (h : isWhitespace c = false) :
    skipWhitespace fuel ⟨S, c, k, e⟩ = ⟨S, c, k, e⟩ := by
  cases fuel with
  | zero => rw [skipWhitespace]
  | succ n => rw [skipWhitespace]; simp only [h, Bool.false_eq_true, if_false]

theorem slice_append (pre a rest : GoString) :
    slice (pre ++ a ++ rest) pre.length (pre.length + a.length) = a := by
  simp [slice]

theorem nextCh_cons (pre : GoString) (c r : Char) (rs : GoString) (c0 : Char)
    (e : Option GoError) :
    nextCh ⟨pre ++ c :: r :: rs, c0, pre.length, e⟩ =
      (⟨pre ++ c :: r :: rs, r, pre.length + 1, e⟩, false) := by
  have h1 : pre.length + 1 < (pre ++ c :: r :: rs).length := by simp
  have h2 := getD_append_length_succ pre c (r :: rs) ' '
  simp only [nextCh, h1, if_true, h2, List.headD_cons]

theorem nextCh_end (pre : GoString) (c : Char) (c0 : Char) (e : Option GoError) :
    nextCh ⟨pre ++ [c], c0, pre.length, e⟩ = (⟨pre ++ [c], c0, pre.length + 1, e⟩, true) := by
  have h1 : ¬ (pre.length + 1 < (pre ++ [c]).length) := by simp
  simp only [nextCh, h1, if_false]

theorem skipWhitespace_fuel (f : Nat) : ∀ (p : Parser), p.offset < p.Source.length →
    p.Source.length ≤ p.offset + f → skipWhitespace f p = skipWhitespace (f + 1) p := by
  induction f with
  | zero => intro p h1 h2; omega
  | succ n ih =>
    intro p h1 h2
    rw [skipWhitespace, skipWhitespace]
    by_cases hw : isWhitespace p.ch = true
    · simp only [hw, if_true]
      by_cases he : (nextCh p).2 = true
      · simp only [he, if_true]
      · simp only [he, Bool.false_eq_true, if_false]
        have hoff : (nextCh p).1.offset = p.offset + 1 ∧
            (nextCh p).1.Source = p.Source ∧ p.offset + 1 < p.Source.length := by
          unfold nextCh at he ⊢
          simp only at he ⊢
          split at he
          · rename_i hlt
            simp only [hlt, if_true]
            simp
          · simp at he
        exact ih _ (by rw [hoff.1, hoff.2.1]; exact hoff.2.2) (by rw [hoff.1, hoff.2.1]; omega)
    · simp only [hw, Bool.false_eq_true, if_false]

/-- A space in front of another byte is skipped: the token scanned is the one scanned from
the next byte. -/
theorem nextTok_space (pre : GoString) (c : Char) (rest : GoString) :
    nextTok ⟨pre ++ ' ' :: c :: rest, ' ', pre.length, none⟩ =
      nextTok ⟨pre ++ ' ' :: c :: rest, c, pre.length + 1, none⟩ := by
  have hlen : (pre ++ ' ' :: c :: rest).length = pre.length + rest.length + 1 + 1 := by
    simp; omega
  have h1 : skipWhitespace (pre ++ ' ' :: c :: rest).length
      ⟨pre ++ ' ' :: c :: rest, ' ', pre.length, none⟩ =
      skipWhitespace (pre ++ ' ' :: c :: rest).length
        ⟨pre ++ ' ' :: c :: rest, c, pre.length + 1, none⟩ := by
    rw [hlen, skipWhitespace]
    have hws : isWhitespace ' ' = true := by decide
    simp only [hws, if_true, nextCh_cons, Bool.false_eq_true, if_false]
    exact skipWhitespace_fuel _ _ (by simp) (by simp; omega)
  rw [nextTok, nextTok]
  have g1 : ¬ (pre.length ≥ (pre ++ ' ' :: c :: rest).length) := by simp
  have g2 : ¬ (pre.length + 1 ≥ (pre ++ ' ' :: c :: rest).length) := by simp
  simp only [g1, g2, decide_False, Bool.false_or, h1, Option.isSome_none, Bool.false_eq_true,
    if_false]

/-- The token scanned at an operator symbol. -/
theorem nextTok_operator (pre : GoString) (c : Char) (rest : GoString) (o : OperatorItem)
    (h : Operators c = some o) :
    nextTok ⟨pre ++ c :: rest, c, pre.length, none⟩ =
      (some { Value := [c], Typ := OperatorType, Offset := pre.length },
        ⟨pre ++ c :: rest, rest.headD c, pre.length + 1, none⟩) := by
  have hn := (operator_cases c o h).1
  have hlen : ¬ (pre.length ≥ (pre ++ c :: rest).length) := by simp
  rw [nextTok]
  simp only [hlen, decide_False, Option.isSome_none, Bool.or_self, Bool.false_eq_true, if_false]
  rw [skipWhitespace_stop _ _ _ _ _ (operator_not_whitespace c o h)]
  simp only [h, ← hn]
  congr 1
  cases rest with
  | nil => rw [nextCh_end]; rfl
  | cons r rs => rw [nextCh_cons]; rfl

/-- The token scanned at a numeric literal `c :: cs` followed by `rest`. -/
theorem nextTok_literal (pre : GoString) (c : Char) (cs rest : GoString)
    (hd : '0' ≤ c ∧ c ≤ '9') (htail : literalTail c cs = true)
    (hstop : literalStops ((c :: cs).getLast (by simp)) rest = true) :
    nextTok ⟨pre ++ c :: (cs ++ rest), c, pre.length, none⟩ =
      (some { Value := removeUnderscores (c :: cs), Typ := LiteralType, Offset := pre.length },
        ⟨pre ++ c :: (cs ++ rest), rest.headD ((c :: cs).getLast (by simp)),
          pre.length + 1 + cs.length, none⟩) := by
  have hlen : ¬ (pre.length ≥ (pre ++ c :: (cs ++ rest)).length) := by simp
  have hfuel : cs.length < (pre ++ c :: (cs ++ rest)).length := by simp; omega
  have hsl : slice (pre ++ c :: (cs ++ rest)) pre.length (pre.length + 1 + cs.length) = c :: cs := by
    have := slice_append pre (c :: cs) rest
    simpa [Nat.add_assoc, Nat.add_comm 1] using this
  rw [nextTok]
  simp only [hlen, decide_False, Option.isSome_none, Bool.or_self, Bool.false_eq_true, if_false]
  rw [skipWhitespace_stop _ _ _ _ _ (digit_not_whitespace c hd)]
  simp only [digit_not_operator c hd, IsLiteral, hd.1, hd.2, decide_True, Bool.and_self, if_true]
  rw [literalLoop_spec cs pre c rest _ none (digit_isDigitNum c hd) htail hstop hfuel]
  simp only [hsl]

end Parser

/-! ## `strconv.ParseFloat` and the exponent marker -/

theorem digitVal_e : digitVal 'e' = none := by decide

theorem readExpDigits_snoc (y : GoString) : ∀ e, readExpDigits e (y ++ ['e']) = none := by
  induction y with
  | nil => intro e; simp [readExpDigits, digitVal_e]
  | cons c y ih =>
    intro e
    simp only [List.cons_append, readExpDigits]
    cases digitVal c with
    | none => rfl
    | some d => exact ih _

theorem readExponent_snoc (x : GoString) : readExponent (x ++ ['e']) = none := by
  cases x with
  | nil => decide
  | cons c x =>
    simp only [List.cons_append, readExponent]
    by_cases hs : c = '+' ∨ c = '-'
    · simp only [hs, if_true]
      cases x with
      | nil => simp [digitVal_e]
      | cons d x =>
        simp only [List.cons_append]
        have := readExpDigits_snoc (d :: x) 0
        simp only [List.cons_append] at this
        split <;> simp [this]
    · simp only [hs, if_false]
      have := readExpDigits_snoc (c :: x) 0
      simp only [List.cons_append] at this
      split <;> simp [this]

theorem readMantissa_snoc (u : GoString) :
    ∀ st, ∃ st1 w, readMantissa st (u ++ ['e']) = (st1, w ++ ['e']) := by
  induction u with
  | nil =>
    intro st
    refine ⟨st, [], ?_⟩
    simp [readMantissa, digitVal_e]
  | cons c u ih =>
    intro st
    simp only [List.cons_append, readMantissa]
    by_cases hc : c = '.'
    · simp only [hc, if_true]
      by_cases hd : st.sawdot = true
      · exact ⟨st, '.' :: u, by simp [hd]⟩
      · simp only [hd, Bool.false_eq_true, if_false]
        exact ih _
    · simp only [hc, if_false]
      cases digitVal c with
      | none => exact ⟨st, c :: u, rfl⟩
      | some d => exact ih _

theorem readDecimal_snoc (u : GoString) : readDecimal (u ++ ['e']) = none := by
  obtain ⟨st1, w, h⟩ := readMantissa_snoc u {}
  simp only [readDecimal, h]
  split
  · cases w with
    | nil => simp [readExponent]
    | cons c w =>
      simp only [List.cons_append]
      split
      · simp [readExponent_snoc]
      · rfl
  · rfl

theorem lowerByte_e : lowerByte 'e' = 'e' := by decide

theorem readSpecial_snoc (signed neg : Bool) (u : GoString) :
    readSpecial signed neg (u ++ ['e']) = none := by
  have key : ∀ l : GoString, l.getLast? ≠ some 'e' → List.map lowerByte (u ++ ['e']) ≠ l := by
    intro l hl h
    apply hl
    rw [← h]
    simp [lowerByte_e]
  have h1 := key "inf".toList (by decide)
  have h2 := key "infinity".toList (by decide)
  have h3 := key "nan".toList (by decide)
  simp only [readSpecial, h1, h2, h3, false_or, false_and, if_false]

/-- `strconv.ParseFloat` rejects a text that ends with the exponent marker. -/
theorem ParseFloat_snoc_e (t : GoString) : ParseFloat (t ++ ['e']) = none := by
  cases t with
  | nil => decide
  | cons c t =>
    simp only [ParseFloat, List.cons_append]
    by_cases hs : c = '+' ∨ c = '-'
    · simp only [hs, decide_True, if_true, List.drop_succ_cons, List.drop_zero]
      rw [readSpecial_snoc, readDecimal_snoc]
    · simp only [hs, decide_False, Bool.false_eq_true, if_false]
      have h1 := readSpecial_snoc false (decide (c = '-')) (c :: t)
      have h2 := readDecimal_snoc (c :: t)
      simp only [List.cons_append] at h1 h2
      rw [h1, h2]

theorem removeUnderscores_snoc_e (t : GoString) :
    Parser.removeUnderscores (t ++ ['e']) = Parser.removeUnderscores t ++ ['e'] := by
  simp [Parser.removeUnderscores, List.filter_append]

/-- A number literal does not end with the exponent marker. -/
theorem NumberLiteral.last_ne_e {a : GoString} {v : F64} (h : NumberLiteral a v)
    (hne : a ≠ []) : a.getLast hne ≠ 'e' := by
  obtain ⟨c, cs, rfl, _, _, hpf⟩ := h
  intro hl
  have hsplit := List.dropLast_append_getLast hne
  rw [hl] at hsplit
  rw [← hsplit, removeUnderscores_snoc_e, ParseFloat_snoc_e] at hpf
  cases hpf

namespace Parser

theorem parse_cons (fuel : Nat) (p p1 : Parser) (tok : Token)
    (h : nextTok p = (some tok, p1)) :
    parse (fuel + 1) p = (tok :: (parse fuel p1).1, (parse fuel p1).2) := by
  rw [parse, h]

theorem parse_end (fuel : Nat) (S : GoString) (c : Char) (e : Option GoError) :
    parse fuel ⟨S, c, S.length, e⟩ = ([], ⟨S, c, S.length, e⟩) := by
  cases fuel with
  | zero => rw [parse]
  | succ n =>
    have : nextTok ⟨S, c, S.length, e⟩ = (none, ⟨S, c, S.length, e⟩) := by
      rw [nextTok]; simp
    rw [parse, this]

theorem parse_lexemes (ls : List Lexeme) : ∀ (pre : GoString) (stale : Char) (fuel : Nat),
    lexemesOk ls → ls.length < fuel →
    ∃ c, parse fuel ⟨pre ++ textOf ls, (textOf ls).headD stale, pre.length, none⟩ =
      (tokensOf pre.length ls, ⟨pre ++ textOf ls, c, (pre ++ textOf ls).length, none⟩) := by
  induction ls with
  | nil =>
    intro pre stale fuel _ _
    refine ⟨stale, ?_⟩
    simp only [textOf, List.append_nil, List.headD_nil, tokensOf]
    exact parse_end fuel pre stale none
  | cons l ls ih =>
    intro pre stale fuel hok hf
    obtain ⟨f, rfl⟩ : ∃ f, fuel = f + 1 := ⟨fuel - 1, by simp at hf; omega⟩
    obtain ⟨hl, hls⟩ := hok
    cases l with
    | lit c cs =>
      obtain ⟨hd, htail, hstop⟩ := hl
      obtain ⟨c1, hc1⟩ := ih (pre ++ c :: cs) ((c :: cs).getLast (by simp)) f hls
        (by simp at hf; omega)
      refine ⟨c1, ?_⟩
      have hS : pre ++ textOf (Lexeme.lit c cs :: ls) = pre ++ c :: (cs ++ textOf ls) := by
        simp [textOf, Lexeme.text]
      have hS2 : pre ++ c :: cs ++ textOf ls = pre ++ c :: (cs ++ textOf ls) := by simp
      have hlen : (pre ++ c :: cs).length = pre.length + 1 + cs.length := by
        simp; omega
      rw [hS2, hlen] at hc1
      rw [hS]
      have hh : (textOf (Lexeme.lit c cs :: ls)).headD stale = c := by
        simp [textOf, Lexeme.text]
      rw [hh, parse_cons f _ _ _ (nextTok_literal pre c cs (textOf ls) hd htail hstop), hc1]
      simp [tokensOf, Lexeme.token, Lexeme.text, Nat.add_assoc, Nat.add_comm 1]
    | op c =>
      obtain ⟨o, ho⟩ := Option.isSome_iff_exists.mp hl
      obtain ⟨c1, hc1⟩ := ih (pre ++ [c]) c f hls (by simp at hf; omega)
      refine ⟨c1, ?_⟩
      have hS : pre ++ textOf (Lexeme.op c :: ls) = pre ++ c :: textOf ls := by
        simp [textOf, Lexeme.text]
      have hS2 : pre ++ [c] ++ textOf ls = pre ++ c :: textOf ls := by simp
      have hlen : (pre ++ [c]).length = pre.length + 1 := by simp
      rw [hS2, hlen] at hc1
      rw [hS]
      have hh : (textOf (Lexeme.op c :: ls)).headD stale = c := by
        simp [textOf, Lexeme.text]
      rw [hh, parse_cons f _ _ _ (nextTok_operator pre c (textOf ls) o ho), hc1]
      simp [tokensOf, Lexeme.token, Lexeme.text]
    | sp =>
      obtain ⟨c1, hc1⟩ := ih (pre ++ [' ']) ' ' (f + 1) hls (by simp at hf; omega)
      refine ⟨c1, ?_⟩
      have hne : textOf ls ≠ [] := hl
      obtain ⟨c, rest, hcr⟩ : ∃ c rest, textOf ls = c :: rest := by
        cases h : textOf ls with
        | nil => exact absurd h hne
        | cons c rest => exact ⟨c, rest, rfl⟩
      have hS : pre ++ textOf (Lexeme.sp :: ls) = pre ++ ' ' :: c :: rest := by
        simp [textOf, Lexeme.text, hcr]
      have hS2 : pre ++ [' '] ++ textOf ls = pre ++ ' ' :: c :: rest := by simp [hcr]
      have hlen : (pre ++ [' ']).length = pre.length + 1 := by simp
      rw [hS2, hlen, hcr] at hc1
      simp only [List.headD_cons] at hc1
      rw [hS]
      have hh : (textOf (Lexeme.sp :: ls)).headD stale = ' ' := by
        simp [textOf, Lexeme.text]
      rw [hh, parse, nextTok_space pre c rest, ← parse, hc1]
      simp [tokensOf, Lexeme.token, Lexeme.text]

end Parser

theorem textOf_length (ls : List Lexeme) : ls.length ≤ (textOf ls).length := by
  induction ls with
  | nil => simp [textOf]
  | cons l ls ih => cases l <;> simp [textOf, Lexeme.text] <;> omega

/-- Tokenizing a non-empty sequence of well-formed lexemes gives their tokens. -/
theorem Parse_lexemes (ls : List Lexeme) (hok : lexemesOk ls) (hne : ls ≠ []) :
    Parse (textOf ls) = .done (.ok (tokensOf 0 ls)) := by
  have hlen := textOf_length ls
  cases hs : textOf ls with
  | nil =>
    cases ls with
    | nil => exact absurd rfl hne
    | cons l ls => cases l <;> simp [textOf, Lexeme.text] at hs
  | cons c rest =>
    obtain ⟨c1, h⟩ := Parser.parse_lexemes ls [] c ((textOf ls).length + 1) hok (by omega)
    simp only [List.nil_append, hs, List.headD_cons, List.length_nil] at h
    unfold Parse
    simp only [List.length_cons] at h ⊢
    rw [h]


/-! ## Steps of the parser -/

namespace AST

theorem parseBinOpRHS_stop (reg : Registry) (f : Nat) (execPrec p : Int) (lhs : ExprNode)
    (a : AST) (h : a.getTokPrecedence = .done p) (hp : p < execPrec) :
    parseBinOpRHS reg (f + 1) execPrec lhs a = .done (lhs, a) := by
  rw [parseBinOpRHS, h]
  simp [hp]

theorem parseBinOpRHS_step (reg : Registry) (f : Nat) (execPrec p np : Int) (lhs rhs : ExprNode)
    (a a1 a2 : AST) (t t1 : Token)
    (h : a.getTokPrecedence = .done p) (hp : ¬ p < execPrec) (ht : a.currTok = some t)
    (hn : a.getNextToken = (a1, some t1))
    (hprim : parsePrimary reg f a1 = .done (rhs, a2)) (hnil : rhs.isNil = false)
    (hnp : a2.getTokPrecedence = .done np) :
    parseBinOpRHS reg (f + 1) execPrec lhs a =
      if p < np then
        (parseBinOpRHS reg f (p + 1) rhs a2).bind (fun r =>
          if r.1.isNil then .done (ExprNode.nil, r.2)
          else parseBinOpRHS reg f execPrec (OperatorExprNode t.Value lhs r.1 false) r.2)
      else parseBinOpRHS reg f execPrec (OperatorExprNode t.Value lhs rhs false) a2 := by
  rw [parseBinOpRHS, h]
  simp [hp, AST.tok, ht, hn, hprim, hnil, hnp]
  split <;> rfl

theorem parsePrimary_literal (reg : Registry) (f : Nat) (a : AST) (t : Token) (v : F64)
    (ht : a.currTok = some t) (hty : t.Typ = LiteralType) (hv : ParseFloat t.Value = some v) :
    parsePrimary reg (f + 1) a = .done (NumberExprNode v t.Value, a.getNextToken.1) := by
  rw [parsePrimary]
  simp [AST.tok, ht, hty, parseNumber, hv]

theorem prec_literal (a : AST) (t : Token) (v : F64) (ht : a.currTok = some t)
    (h : t.IsLiteral v) : a.getTokPrecedence = .done (-1) := by
  obtain ⟨_, _, d, ds, hv, ho⟩ := h
  simp [getTokPrecedence, AST.tok, ht, hv, ho]

theorem prec_binary (a : AST) (t : Token) (p : Int) (ht : a.currTok = some t)
    (h : t.IsBinary p) : a.getTokPrecedence = .done p := by
  obtain ⟨_, _, c, o, hv, ho, hp⟩ := h
  simp [getTokPrecedence, AST.tok, ht, hv, ho, hp]

/-- Parsing the five tokens `a op1 b op2 c`. -/
theorem parse_five_tokens (reg : Registry) (s : GoString) (ta t1 tb t2 tc : Token)
    (va vb vc : F64) (p1 p2 : Int)
    (ha : ta.IsLiteral va) (hb : tb.IsLiteral vb) (hc : tc.IsLiteral vc)
    (h1 : t1.IsBinary p1) (h2 : t2.IsBinary p2) (fuel : Nat) :
    AST.ParseExpression reg (fuel + 6) (NewAST [ta, t1, tb, t2, tc] s) =
      .done (if p1 < p2 then
          OperatorExprNode t1.Value (NumberExprNode va ta.Value)
            (OperatorExprNode t2.Value (NumberExprNode vb tb.Value)
              (NumberExprNode vc tc.Value) false) false
        else
          OperatorExprNode t2.Value
            (OperatorExprNode t1.Value (NumberExprNode va ta.Value)
              (NumberExprNode vb tb.Value) false)
            (NumberExprNode vc tc.Value) false,
        ⟨s, some tc, 5, 0, [ta, t1, tb, t2, tc], none⟩) := by
  have e1 : parsePrimary reg (fuel + 5) ⟨s, some ta, 0, 1, [ta, t1, tb, t2, tc], none⟩ =
      .done (NumberExprNode va ta.Value, ⟨s, some t1, 1, 1, [ta, t1, tb, t2, tc], none⟩) :=
    parsePrimary_literal reg _ _ ta va rfl ha.1 ha.2.1
  have e2 : parsePrimary reg (fuel + 4) ⟨s, some tb, 2, 1, [ta, t1, tb, t2, tc], none⟩ =
      .done (NumberExprNode vb tb.Value, ⟨s, some t2, 3, 1, [ta, t1, tb, t2, tc], none⟩) :=
    parsePrimary_literal reg _ _ tb vb rfl hb.1 hb.2.1
  have e3 : parsePrimary reg (fuel + 3) ⟨s, some tc, 4, 1, [ta, t1, tb, t2, tc], none⟩ =
      .done (NumberExprNode vc tc.Value, ⟨s, some tc, 5, 1, [ta, t1, tb, t2, tc], none⟩) :=
    parsePrimary_literal reg _ _ tc vc rfl hc.1 hc.2.1
  have q1 := prec_binary ⟨s, some t1, 1, 1, [ta, t1, tb, t2, tc], none⟩ t1 p1 rfl h1
  have q2 := prec_binary ⟨s, some t2, 3, 1, [ta, t1, tb, t2, tc], none⟩ t2 p2 rfl h2
  have q3 := prec_literal ⟨s, some tc, 5, 1, [ta, t1, tb, t2, tc], none⟩ tc vc rfl hc
  have hp1 := h1.2.1
  have hp2 := h2.2.1
  rw [AST.ParseExpression]
  simp only [NewAST, zero_add, e1, Run.bind_done]
  rw [parseBinOpRHS_step reg (fuel + 4) 0 p1 p2 _ _ _ _ _ t1 tb q1 (by omega) rfl rfl e2 rfl q2]
  by_cases hlt : p1 < p2
  · simp only [hlt, if_true]
    rw [parseBinOpRHS_step reg (fuel + 3) (p1 + 1) p2 (-1) _ _ _ _ _ t2 tc q2 (by omega) rfl rfl e3
      rfl q3]
    simp only [show ¬ (p2 < (-1 : Int)) by omega, if_false]
    rw [parseBinOpRHS_stop reg _ _ (-1) _ _ q3 (by omega)]
    simp only [Run.bind_done2, ExprNode.isNil]
    rw [parseBinOpRHS_stop reg _ _ (-1) _ _ q3 (by omega)]
    simp [leave]
  · simp only [hlt, if_false]
    rw [parseBinOpRHS_step reg (fuel + 3) 0 p2 (-1) _ _ _ _ _ t2 tc q2 (by omega) rfl rfl e3
      rfl q3]
    simp only [show ¬ (p2 < (-1 : Int)) by omega, if_false]
    rw [parseBinOpRHS_stop reg _ _ (-1) _ _ q3 (by omega)]
    simp [leave]

end AST

namespace AST

theorem parsePrimary_paren (reg : Registry) (f : Nat) (a a1 a2 : AST) (t t1 t2 : Token)
    (e : ExprNode)
    (ht : a.currTok = some t) (hty : t.Typ = OperatorType) (hv : t.Value = ['('])
    (hn : a.getNextToken = (a1, some t1))
    (he : ParseExpression reg f a1 = .done (e, a2)) (hnil : e.isNil = false)
    (ht2 : a2.currTok = some t2) (hv2 : t2.Value = [')']) :
    parsePrimary reg (f + 2) a = .done (e, a2.getNextToken.1) := by
  rw [parsePrimary]
  simp only [AST.tok, ht, hty, Run.bind_done]
  rw [parseOperator]
  simp [AST.tok, ht, hv, hn, he, hnil, ht2, hv2]

theorem ParseExpression_inner (reg : Registry) (f : Nat) (a a2 a3 : AST) (lhs r : ExprNode)
    (hp : parsePrimary reg f { a with depth := a.depth + 1 } = .done (lhs, a2))
    (hb : parseBinOpRHS reg f 0 lhs a2 = .done (r, a3))
    (hd : ¬ (a3.depth - 1 = 0 ∧ a3.currIndex ≠ a3.Tokens.length ∧ a3.Err = none)) :
    ParseExpression reg (f + 1) a = .done (r, { a3 with depth := a3.depth - 1 }) := by
  rw [ParseExpression]
  simp only [hp, Run.bind_done, hb, leave]
  simp only [hd, if_false, Run.pure_eq, Run.bind_done]

/-- Parsing the seven tokens `( a op1 b ) op2 c`. -/
theorem parse_seven_tokens (reg : Registry) (s : GoString) (lp ta t1 tb rp t2 tc : Token)
    (va vb vc : F64) (p1 p2 : Int)
    (hlp : lp.Typ = OperatorType ∧ lp.Value = ['('])
    (hrp : rp.Typ = OperatorType ∧ rp.Value = [')'])
    (ha : ta.IsLiteral va) (hb : tb.IsLiteral vb) (hc : tc.IsLiteral vc)
    (h1 : t1.IsBinary p1) (h2 : t2.IsBinary p2) (fuel : Nat) :
    AST.ParseExpression reg (fuel + 6) (NewAST [lp, ta, t1, tb, rp, t2, tc] s) =
      .done (OperatorExprNode t2.Value
            (OperatorExprNode t1.Value (NumberExprNode va ta.Value)
              (NumberExprNode vb tb.Value) false)
            (NumberExprNode vc tc.Value) false,
        ⟨s, some tc, 7, 0, [lp, ta, t1, tb, rp, t2, tc], none⟩) := by
  have e1 : parsePrimary reg (fuel + 2) ⟨s, some ta, 1, 2, [lp, ta, t1, tb, rp, t2, tc], none⟩ =
      .done (NumberExprNode va ta.Value, ⟨s, some t1, 2, 2, [lp, ta, t1, tb, rp, t2, tc], none⟩) :=
    parsePrimary_literal reg _ _ ta va rfl ha.1 ha.2.1
  have e2 : parsePrimary reg (fuel + 1) ⟨s, some tb, 3, 2, [lp, ta, t1, tb, rp, t2, tc], none⟩ =
      .done (NumberExprNode vb tb.Value, ⟨s, some rp, 4, 2, [lp, ta, t1, tb, rp, t2, tc], none⟩) :=
    parsePrimary_literal reg _ _ tb vb rfl hb.1 hb.2.1
  have e3 : parsePrimary reg (fuel + 4) ⟨s, some tc, 6, 1, [lp, ta, t1, tb, rp, t2, tc], none⟩ =
      .done (NumberExprNode vc tc.Value, ⟨s, some tc, 7, 1, [lp, ta, t1, tb, rp, t2, tc], none⟩) :=
    parsePrimary_literal reg _ _ tc vc rfl hc.1 hc.2.1
  have q1 := prec_binary ⟨s, some t1, 2, 2, [lp, ta, t1, tb, rp, t2, tc], none⟩ t1 p1 rfl h1
  have qr : getTokPrecedence ⟨s, some rp, 4, 2, [lp, ta, t1, tb, rp, t2, tc], none⟩ = .done (-1) := by
    simp [getTokPrecedence, AST.tok, hrp.2, Operators, OperatorItem.Precedence, NonePrecedence]
  have q2 := prec_binary ⟨s, some t2, 5, 1, [lp, ta, t1, tb, rp, t2, tc], none⟩ t2 p2 rfl h2
  have q3 := prec_literal ⟨s, some tc, 7, 1, [lp, ta, t1, tb, rp, t2, tc], none⟩ tc vc rfl hc
  have hp1 := h1.2.1
  have hp2 := h2.2.1
  -- the parenthesised expression
  have inner : ParseExpression reg (fuel + 3) ⟨s, some ta, 1, 1, [lp, ta, t1, tb, rp, t2, tc], none⟩ =
      .done (OperatorExprNode t1.Value (NumberExprNode va ta.Value)
              (NumberExprNode vb tb.Value) false,
        ⟨s, some rp, 4, 1, [lp, ta, t1, tb, rp, t2, tc], none⟩) := by
    have hb2 : parseBinOpRHS reg (fuel + 2) 0 (NumberExprNode va ta.Value)
        ⟨s, some t1, 2, 2, [lp, ta, t1, tb, rp, t2, tc], none⟩ =
        .done (OperatorExprNode t1.Value (NumberExprNode va ta.Value)
              (NumberExprNode vb tb.Value) false,
          ⟨s, some rp, 4, 2, [lp, ta, t1, tb, rp, t2, tc], none⟩) := by
      rw [parseBinOpRHS_step reg (fuel + 1) 0 p1 (-1) _ _ _ _ _ t1 tb q1 (by omega) rfl rfl e2
        rfl qr]
      simp only [show ¬ (p1 < (-1 : Int)) by omega, if_false]
      rw [parseBinOpRHS_stop reg _ _ (-1) _ _ qr (by omega)]
    have := ParseExpression_inner reg (fuel + 2) ⟨s, some ta, 1, 1, [lp, ta, t1, tb, rp, t2, tc], none⟩
      _ _ _ _ e1 hb2 (by simp)
    simpa using this
  have prim : parsePrimary reg (fuel + 5) ⟨s, some lp, 0, 1, [lp, ta, t1, tb, rp, t2, tc], none⟩ =
      .done (OperatorExprNode t1.Value (NumberExprNode va ta.Value)
              (NumberExprNode vb tb.Value) false,
        ⟨s, some t2, 5, 1, [lp, ta, t1, tb, rp, t2, tc], none⟩) :=
    parsePrimary_paren reg (fuel + 3) _ _ _ lp ta rp _ rfl hlp.1 hlp.2 rfl inner rfl rfl hrp.2
  rw [AST.ParseExpression]
  simp only [NewAST, zero_add, prim, Run.bind_done]
  rw [parseBinOpRHS_step reg (fuel + 4) 0 p2 (-1) _ _ _ _ _ t2 tc q2 (by omega) rfl rfl e3
      rfl q3]
  simp only [show ¬ (p2 < (-1 : Int)) by omega, if_false]
  rw [parseBinOpRHS_stop reg _ _ (-1) _ _ q3 (by omega)]
  simp [leave]

end AST

theorem binaryOps_operator (op : Char) (h : op ∈ binaryOps) :
    ∃ o, Operators op = some o ∧ 0 ≤ o.Precedence ∧ precOf op = o.Precedence := by
  simp only [binaryOps, List.mem_cons, List.mem_singleton, List.not_mem_nil, or_false] at h
  rcases h with h | h | h | h | h | h <;> subst h <;> exact ⟨_, rfl, by decide, rfl⟩

theorem NumberLiteral.token_isLiteral {a : GoString} {v : F64} (h : NumberLiteral a v)
    (off : Nat) :
    Token.IsLiteral { Value := Parser.removeUnderscores a, Typ := LiteralType, Offset := off } v := by
  obtain ⟨c, cs, rfl, hd, _, hpf⟩ := h
  refine ⟨rfl, hpf, c, Parser.removeUnderscores cs, ?_, Parser.digit_not_operator c hd⟩
  have := Parser.digit_ne_underscore c hd
  simp [Parser.removeUnderscores, List.filter_cons, this]

theorem binaryOps_token (op : Char) (h : op ∈ binaryOps) (off : Nat) :
    Token.IsBinary { Value := [op], Typ := OperatorType, Offset := off } (precOf op) := by
  obtain ⟨o, ho, hp, hq⟩ := binaryOps_operator op h
  exact ⟨rfl, by rw [hq]; exact hp, op, o, rfl, ho, hq.symm⟩


theorem ParseExpression_of_tokens (reg : Registry) (s : GoString) (toks : List Token)
    (t0 : Token) (rest : List Token) (e : ExprNode) (a : AST)
    (hP : Parse s = .done (.ok toks)) (htoks : toks = t0 :: rest)
    (hA : AST.ParseExpression reg (parseFuel toks.length) (NewAST toks s) = .done (e, a))
    (hE : a.Err = none) :
    ParseExpression reg s = .done (.ok e) := by
  subst htoks
  unfold ParseExpression
  simp only [hP, Run.bind_done, NewAST]
  simp only [NewAST] at hA
  simp only [hA, Run.bind_done, hE, Run.pure_eq]

/-- C1. For all number literals `a`, `b`, `c` and all binary operators `op1`, `op2`, the
source `a op1 b op2 c` parses to `Op(op1, a, Op(op2, b, c))` when `op2` has strictly higher
precedence than `op1` and to `Op(op2, Op(op1, a, b), c)` otherwise (equal precedence folds
to the left, also for `^`), and `(a op1 b) op2 c` parses to `Op(op2, Op(op1, a, b), c)`
whatever the precedences. Hence `Calculate` gives 7 for `1+2*3`, 9 for `(1+2)*3` and 64 for
`2^3^2` (for a `math.Pow` with `2^3 = 8` and `8^2 = 64`). -/
theorem C1_precedence_climbing (reg : Registry) (pow : F64 → F64 → F64)
    (a b c : GoString) (va vb vc : F64) (op1 op2 : Char) (ctx : Context) (n : Nat)
    (ha : NumberLiteral a va) (hb : NumberLiteral b vb) (hc : NumberLiteral c vc)
    (h1 : op1 ∈ binaryOps) (h2 : op2 ∈ binaryOps)
    (hpow1 : pow (F64.ofInt 2) (F64.ofInt 3) = F64.ofInt 8)
    (hpow2 : pow (F64.ofInt 8) (F64.ofInt 2) = F64.ofInt 64) :
    ParseExpression reg (a ++ [op1] ++ b ++ [op2] ++ c) =
        .done (.ok (if precOf op1 < precOf op2 then
          OperatorExprNode [op1] (literalNode a va)
            (OperatorExprNode [op2] (literalNode b vb) (literalNode c vc) false) false
        else
          OperatorExprNode [op2]
            (OperatorExprNode [op1] (literalNode a va) (literalNode b vb) false)
            (literalNode c vc) false)) ∧
      ParseExpression reg (['('] ++ a ++ [op1] ++ b ++ [')'] ++ [op2] ++ c) =
        .done (.ok (OperatorExprNode [op2]
            (OperatorExprNode [op1] (literalNode a va) (literalNode b vb) false)
            (literalNode c vc) false)) ∧
      CalculateSource reg pow (n + 3) "1+2*3".toList ctx = .done (.ok (F64.ofInt 7)) ∧
      CalculateSource reg pow (n + 3) "(1+2)*3".toList ctx = .done (.ok (F64.ofInt 9)) ∧
      CalculateSource reg pow (n + 3) "2^3^2".toList ctx = .done (.ok (F64.ofInt 64)) := by
  have la := ha.token_isLiteral
  have lb := hb.token_isLiteral
  have lc := hc.token_isLiteral
  have b1 := binaryOps_token op1 h1
  have b2 := binaryOps_token op2 h2
  obtain ⟨o1, ho1, -, -⟩ := binaryOps_operator op1 h1
  obtain ⟨o2, ho2, -, -⟩ := binaryOps_operator op2 h2
  obtain ⟨ca, as, rfl, hda, hta, hpa⟩ := ha
  obtain ⟨cb, bs, rfl, hdb, htb, hpb⟩ := hb
  obtain ⟨cc, cs, rfl, hdc, htc, hpc⟩ := hc
  have stops : ∀ (x : Char) (xs : GoString) (v : F64) (op : Char) (r : GoString),
      NumberLiteral (x :: xs) v → op ∈ binaryOps →
      literalStops ((x :: xs).getLast (by simp)) (op :: r) = true := by
    intro x xs v op r hx hop
    have hl := hx.last_ne_e (by simp)
    simp only [binaryOps, List.mem_cons, List.mem_singleton, List.not_mem_nil, or_false] at hop
    rcases hop with h | h | h | h | h | h <;> subst h <;> simp [literalStops, hl] <;> decide
  have sa := fun r => stops ca as va op1 r ⟨ca, as, rfl, hda, hta, hpa⟩ h1
  have sb := fun r => stops cb bs vb op2 r ⟨cb, bs, rfl, hdb, htb, hpb⟩ h2
  have sbr : ∀ r, literalStops ((cb :: bs).getLast (by simp)) (')' :: r) = true := by
    intro r
    simp only [literalStops, Bool.or_eq_true]
    exact Or.inr (by decide)
  refine ⟨?_, ?_, ?_, ?_, ?_⟩
  · have hlex := Parse_lexemes
      [.lit ca as, .op op1, .lit cb bs, .op op2, .lit cc cs]
      ⟨⟨hda, hta, sa _⟩, by simp [Lexeme.ok, ho1], ⟨hdb, htb, sb _⟩, by simp [Lexeme.ok, ho2],
        ⟨hdc, htc, rfl⟩, trivial⟩ (by simp)
    have htxt : textOf [.lit ca as, .op op1, .lit cb bs, .op op2, .lit cc cs] =
        ca :: as ++ [op1] ++ cb :: bs ++ [op2] ++ cc :: cs := by
      simp [textOf, Lexeme.text]
    rw [htxt] at hlex
    have hA := AST.parse_five_tokens reg (ca :: as ++ [op1] ++ cb :: bs ++ [op2] ++ cc :: cs)
      _ _ _ _ _ va vb vc _ _ (la 0) (lb (0 + (ca :: as).length + 1)) (lc (0 + (ca :: as).length
        + 1 + (cb :: bs).length + 1)) (b1 (0 + (ca :: as).length))
        (b2 (0 + (ca :: as).length + 1 + (cb :: bs).length)) 18
    exact ParseExpression_of_tokens reg _ _ _ _ _ _ hlex rfl hA rfl
  · have hlex := Parse_lexemes
      [.op '(', .lit ca as, .op op1, .lit cb bs, .op ')', .op op2, .lit cc cs]
      ⟨rfl, ⟨hda, hta, sa _⟩, by simp [Lexeme.ok, ho1], ⟨hdb, htb, sbr _⟩,
        rfl, by simp [Lexeme.ok, ho2], ⟨hdc, htc, rfl⟩, trivial⟩ (by simp)
    have htxt : textOf [.op '(', .lit ca as, .op op1, .lit cb bs, .op ')', .op op2, .lit cc cs] =
        ['('] ++ ca :: as ++ [op1] ++ cb :: bs ++ [')'] ++ [op2] ++ cc :: cs := by
      simp [textOf, Lexeme.text]
    rw [htxt] at hlex
    have hA := AST.parse_seven_tokens reg
      (['('] ++ ca :: as ++ [op1] ++ cb :: bs ++ [')'] ++ [op2] ++ cc :: cs)
      ⟨['('], OperatorType, 0, 0⟩ _ _ _ ⟨[')'], OperatorType, 0, 0 + 1 + (ca :: as).length + 1
        + (cb :: bs).length⟩ _ _ va vb vc _ _ ⟨rfl, rfl⟩ ⟨rfl, rfl⟩
      (la (0 + 1)) (lb (0 + 1 + (ca :: as).length + 1))
      (lc (0 + 1 + (ca :: as).length + 1 + (cb :: bs).length + 1 + 1))
      (b1 (0 + 1 + (ca :: as).length))
      (b2 (0 + 1 + (ca :: as).length + 1 + (cb :: bs).length + 1)) 26
    exact ParseExpression_of_tokens reg _ _ _ _ _ _ hlex rfl hA rfl
  · rfl
  · rfl
  · have hp : ParseExpression reg "2^3^2".toList = .done (.ok (OperatorExprNode ['^']
        (OperatorExprNode ['^'] (NumberExprNode (F64.ofInt 2) ['2'])
          (NumberExprNode (F64.ofInt 3) ['3']) false)
        (NumberExprNode (F64.ofInt 2) ['2']) false)) := rfl
    simp only [CalculateSource, hp, Run.bind_done, Calculate, Run.pure_eq, GetOperator]
    have : Operators '^' = some OperatorItem.Pow := rfl
    simp only [this, OperatorItem.Result, hpow1, hpow2, Run.bind_done]

/-- Witness of C1: the literals `12`, `3.5`, `1e2` with `+` and `^`. -/
theorem C1_precedence_climbing_witness :
    (NumberLiteral "12".toList (F64.ofInt 12) ∧ NumberLiteral "3.5".toList (F64.fin 7 (-1)) ∧
      NumberLiteral "1e2".toList (F64.ofInt 100) ∧ '+' ∈ binaryOps ∧ '^' ∈ binaryOps) ∧
    (ParseExpression defaultRegistry "12+3.5^1e2".toList =
        .done (.ok (OperatorExprNode ['+'] (NumberExprNode (F64.ofInt 12) "12".toList)
            (OperatorExprNode ['^'] (NumberExprNode (F64.fin 7 (-1)) "3.5".toList)
              (NumberExprNode (F64.ofInt 100) "1e2".toList) false) false)) ∧
      ParseExpression defaultRegistry "(12+3.5)^1e2".toList =
        .done (.ok (OperatorExprNode ['^']
            (OperatorExprNode ['+'] (NumberExprNode (F64.ofInt 12) "12".toList)
              (NumberExprNode (F64.fin 7 (-1)) "3.5".toList) false)
            (NumberExprNode (F64.ofInt 100) "1e2".toList) false)) ∧
      CalculateSource defaultRegistry examplePow 3 "1+2*3".toList (some emptyParameter) =
        .done (.ok (F64.ofInt 7)) ∧
      CalculateSource defaultRegistry examplePow 3 "(1+2)*3".toList (some emptyParameter) =
        .done (.ok (F64.ofInt 9)) ∧
      CalculateSource defaultRegistry examplePow 3 "2^3^2".toList (some emptyParameter) =
        .done (.ok (F64.ofInt 64))) :=
  have ha : NumberLiteral "12".toList (F64.ofInt 12) := ⟨'1', ['2'], rfl, by decide, by decide, by decide⟩
  have hb : NumberLiteral "3.5".toList (F64.fin 7 (-1)) :=
    ⟨'3', ['.', '5'], rfl, by decide, by decide, by decide⟩
  have hc : NumberLiteral "1e2".toList (F64.ofInt 100) :=
    ⟨'1', ['e', '2'], rfl, by decide, by decide, by decide⟩
  ⟨⟨ha, hb, hc, by decide, by decide⟩,
    C1_precedence_climbing defaultRegistry examplePow "12".toList "3.5".toList "1e2".toList
      _ _ _ '+' '^' (some emptyParameter) 0 ha hb hc (by decide) (by decide) (by decide) (by decide)⟩

/-! ## Every run of the parser is a derivation of `Parsed` -/


@[simp] theorem Run.bind_panicked {α β : Type} (m : String) (f : α → Run β) :
    (Run.panicked m >>= f) = Run.panicked m := rfl

@[simp] theorem Run.bind_outOfFuel {α β : Type} (f : α → Run β) :
    (Run.outOfFuel >>= f) = Run.outOfFuel := rfl

theorem Run.bind_eq_done_iff {α β : Type} {x : Run α} {f : α → Run β} {b : β} :
    (x >>= f) = Run.done b ↔ ∃ a, x = Run.done a ∧ f a = Run.done b := by
  cases x <;> simp

theorem AST.tok_eq_done {a : AST} {t : Token} : a.tok = Run.done t ↔ a.currTok = some t := by
  unfold AST.tok
  cases a.currTok <;> simp

open AST in
theorem parsed_of_run (reg : Registry) : ∀ fuel : Nat,
    (∀ a e a1, AST.ParseExpression reg fuel a = .done (e, a1) →
      Parsed reg .expression a e [] a1) ∧
    (∀ a e a1, AST.parsePrimary reg fuel a = .done (e, a1) →
      Parsed reg .primary a e [] a1) ∧
    (∀ a e a1, AST.parseFunCallerOrConst reg fuel a = .done (e, a1) →
      Parsed reg .funCallerOrConst a e [] a1) ∧
    (∀ exprs a es a1, AST.parseArgs reg fuel exprs a = .done (es, a1) →
      Parsed reg (.args exprs) a .nil es a1) ∧
    (∀ a e a1, AST.parseOperator reg fuel a = .done (e, a1) →
      Parsed reg .operator a e [] a1) ∧
    (∀ p lhs a e a1, AST.parseBinOpRHS reg fuel p lhs a = .done (e, a1) →
      Parsed reg (.binOpRHS p lhs) a e [] a1) := by
  intro fuel
  induction fuel with
  | zero =>
    refine ⟨?_, ?_, ?_, ?_, ?_, ?_⟩
    · intro a e a1 h; rw [AST.ParseExpression] at h; cases h
    · intro a e a1 h; rw [AST.parsePrimary] at h; cases h
    · intro a e a1 h; rw [AST.parseFunCallerOrConst] at h; cases h
    · intro exprs a es a1 h; rw [AST.parseArgs] at h; cases h
    · intro a e a1 h; rw [AST.parseOperator] at h; cases h
    · intro p lhs a e a1 h; rw [AST.parseBinOpRHS] at h; cases h
  | succ n ih =>
    obtain ⟨ihE, ihP, ihF, ihA, ihO, ihB⟩ := ih
    refine ⟨?_, ?_, ?_, ?_, ?_, ?_⟩
    · intro a e a1 h
      rw [AST.ParseExpression] at h
      simp only [Run.bind_eq_done_iff] at h
      obtain ⟨⟨lhs, a2⟩, h1, ⟨r, a3⟩, h2, a4, h3, h4⟩ := h
      simp only [Run.pure_eq, Run.done.injEq, Prod.mk.injEq] at h4
      obtain ⟨rfl, rfl⟩ := h4
      exact Parsed.expression a a2 a3 a4 lhs r (ihP _ _ _ h1) (ihB _ _ _ _ _ h2) h3
    · intro a e a1 h
      rw [AST.parsePrimary] at h
      simp only [Run.bind_eq_done_iff, tok_eq_done] at h
      obtain ⟨t, ht, h⟩ := h
      cases hty : t.Typ with
      | IdentifierType =>
        simp only [hty] at h
        exact Parsed.primary_identifier a a1 t e ht hty (ihF _ _ _ h)
      | LiteralType =>
        simp only [hty] at h
        exact Parsed.primary_literal a a1 t e ht hty h
      | OperatorType =>
        simp only [hty] at h
        exact Parsed.primary_operator a a1 t e ht hty (ihO _ _ _ h)
      | CommaType =>
        simp only [hty, Run.pure_eq, Run.done.injEq, Prod.mk.injEq] at h
        obtain ⟨rfl, rfl⟩ := h
        exact Parsed.primary_comma a t ht hty
    · intro a e a1 h
      rw [AST.parseFunCallerOrConst] at h
      simp only [Run.bind_eq_done_iff, tok_eq_done] at h
      obtain ⟨t, ht, t1, ht1, h⟩ := h
      by_cases hv : t1.Value = ['(']
      · simp only [hv, if_true] at h
        cases hd : reg.defFunc t.Value with
        | none =>
          simp only [hd, Run.pure_eq, Run.done.injEq, Prod.mk.injEq] at h
          obtain ⟨rfl, rfl⟩ := h
          exact Parsed.call_undefined a t t1 ht ht1 hv hd
        | some d =>
          simp only [hd] at h
          rw [Run.bind_eq_done_iff] at h
          obtain ⟨t2, ht2, h⟩ := h
          rw [tok_eq_done] at ht2
          by_cases hv2 : t2.Value = [')']
          · simp only [hv2, if_true, Run.pure_eq, Run.bind_done] at h
            exact Parsed.call_noArgs a a1 t t1 t2 d e ht ht1 hv hd ht2 hv2 h
          · simp only [hv2, if_false, Run.bind_eq_done_iff] at h
            obtain ⟨⟨e0, a3⟩, h4, ⟨exprs, a4⟩, h5, h3⟩ := h
            exact Parsed.call_args a a3 a4 a1 t t1 t2 d e0 e exprs ht ht1 hv hd ht2 hv2
              (ihE _ _ _ h4) (ihA _ _ _ _ h5) h3
      · simp only [hv, if_false, Run.pure_eq, Run.done.injEq, Prod.mk.injEq] at h
        obtain ⟨rfl, rfl⟩ := h
        exact Parsed.call_const a t t1 ht ht1 hv
    · intro exprs a es a1 h
      rw [AST.parseArgs] at h
      simp only [Run.bind_eq_done_iff, tok_eq_done] at h
      obtain ⟨t, ht, h⟩ := h
      by_cases hv : t.Value = [')']
      · simp only [hv, ne_eq, not_true_eq_false, if_false, Run.pure_eq, Run.done.injEq,
          Prod.mk.injEq] at h
        obtain ⟨rfl, rfl⟩ := h
        exact Parsed.args_done exprs a t ht hv
      · simp only [ne_eq, hv, not_false_eq_true, if_true] at h
        cases hn : a.getNextToken.2 with
        | none =>
          simp only [hn, Run.pure_eq, Run.done.injEq, Prod.mk.injEq] at h
          obtain ⟨rfl, rfl⟩ := h
          exact Parsed.args_eof exprs a t ht hv hn
        | some t1 =>
          simp only [hn] at h
          by_cases hc : t1.Typ = CommaType
          · simp only [hc, if_true] at h
            exact Parsed.args_comma exprs es a a1 t t1 ht hv hn hc (ihA _ _ _ _ h)
          · simp only [hc, if_false, Run.bind_eq_done_iff] at h
            obtain ⟨⟨e, a2⟩, h1, h2⟩ := h
            exact Parsed.args_expression exprs es a a2 a1 t t1 e ht hv hn hc
              (ihE _ _ _ h1) (ihA _ _ _ _ h2)
    · intro a e a1 h
      rw [AST.parseOperator] at h
      simp only [Run.bind_eq_done_iff, tok_eq_done] at h
      obtain ⟨t, ht, h⟩ := h
      by_cases hv : t.Value = ['(']
      · simp only [hv, if_true] at h
        cases hn : a.getNextToken.2 with
        | none =>
          simp only [hn, Run.bind_eq_done_iff, tok_eq_done, Run.pure_eq, Run.done.injEq,
            Prod.mk.injEq] at h
          obtain ⟨t1, ht1, rfl, rfl⟩ := h
          exact Parsed.bracket_eof a t t1 ht hv hn ht1
        | some t1 =>
          simp only [hn, Run.bind_eq_done_iff] at h
          obtain ⟨⟨e0, a2⟩, h1, h2⟩ := h
          cases hnil : e0.isNil with
          | true =>
            simp only [hnil, if_true, Run.pure_eq, Run.done.injEq, Prod.mk.injEq] at h2
            obtain ⟨rfl, rfl⟩ := h2
            exact Parsed.bracket_nil a a2 t t1 e0 ht hv hn (ihE _ _ _ h1) hnil
          | false =>
            simp only [hnil, Bool.false_eq_true, if_false, Run.bind_eq_done_iff,
              tok_eq_done] at h2
            obtain ⟨t2, ht2, h2⟩ := h2
            by_cases hv2 : t2.Value = [')']
            · simp only [hv2, ne_eq, not_true_eq_false, if_false, Run.pure_eq, Run.done.injEq,
                Prod.mk.injEq] at h2
              obtain ⟨rfl, rfl⟩ := h2
              exact Parsed.bracket a a2 t t1 t2 e0 ht hv hn (ihE _ _ _ h1) hnil ht2 hv2
            · simp only [ne_eq, hv2, not_false_eq_true, if_true, Run.pure_eq, Run.done.injEq,
                Prod.mk.injEq] at h2
              obtain ⟨rfl, rfl⟩ := h2
              exact Parsed.bracket_unclosed a a2 t t1 t2 e0 ht hv hn (ihE _ _ _ h1) hnil ht2 hv2
      · simp only [hv, if_false] at h
        by_cases hm : t.Value = ['-']
        · simp only [hm, if_true] at h
          cases hn : a.getNextToken.2 with
          | none =>
            simp only [hn, Run.bind_eq_done_iff, tok_eq_done, Run.pure_eq, Run.done.injEq,
              Prod.mk.injEq] at h
            obtain ⟨t1, ht1, rfl, rfl⟩ := h
            exact Parsed.minus_eof a t t1 ht hv hm hn ht1
          | some t1 =>
            simp only [hn, Run.bind_eq_done_iff, Run.pure_eq, Run.done.injEq,
              Prod.mk.injEq] at h
            obtain ⟨⟨rhs, a2⟩, h1, rfl, rfl⟩ := h
            exact Parsed.minus a a2 t t1 rhs ht hv hm hn (ihP _ _ _ h1)
        · simp only [hm, if_false] at h
          exact Parsed.operator_number a a1 t e ht hv hm h
    · intro p lhs a e a1 h
      rw [AST.parseBinOpRHS] at h
      simp only [Run.bind_eq_done_iff] at h
      obtain ⟨tp, hp, h⟩ := h
      by_cases hlt : tp < p
      · simp only [hlt, if_true, Run.pure_eq, Run.done.injEq, Prod.mk.injEq] at h
        obtain ⟨rfl, rfl⟩ := h
        exact Parsed.binOp_stop p _ _ tp hp hlt
      · simp only [hlt, if_false, Run.bind_eq_done_iff, tok_eq_done] at h
        obtain ⟨t, ht, h⟩ := h
        cases hn : a.getNextToken.2 with
        | none =>
          simp only [hn, Run.bind_eq_done_iff, tok_eq_done, Run.pure_eq, Run.done.injEq,
            Prod.mk.injEq] at h
          obtain ⟨t1, ht1, rfl, rfl⟩ := h
          exact Parsed.binOp_eof p lhs a tp t1 hp hlt hn ht1
        | some t1 =>
          simp only [hn, Run.bind_eq_done_iff] at h
          obtain ⟨⟨rhs, a2⟩, h1, h2⟩ := h
          cases hnil : rhs.isNil with
          | true =>
            simp only [hnil, if_true, Run.pure_eq, Run.done.injEq, Prod.mk.injEq] at h2
            obtain ⟨rfl, rfl⟩ := h2
            exact Parsed.binOp_nil p lhs rhs a a2 tp t1 hp hlt hn (ihP _ _ _ h1) hnil
          | false =>
            simp only [hnil, Bool.false_eq_true, if_false, Run.bind_eq_done_iff] at h2
            obtain ⟨np, hnp, h2⟩ := h2
            by_cases hc : tp < np
            · simp only [hc, if_true, Run.bind_eq_done_iff] at h2
              obtain ⟨⟨rhs1, a3⟩, h3, h4⟩ := h2
              cases hnil1 : rhs1.isNil with
              | true =>
                simp only [hnil1, if_true, Run.pure_eq, Run.done.injEq, Prod.mk.injEq] at h4
                obtain ⟨rfl, rfl⟩ := h4
                exact Parsed.binOp_climb_nil p lhs rhs rhs1 a a2 a3 tp np t1 hp hlt hn
                  (ihP _ _ _ h1) hnil hnp hc (ihB _ _ _ _ _ h3) hnil1
              | false =>
                simp only [hnil1, Bool.false_eq_true, if_false] at h4
                exact Parsed.binOp_climb p lhs rhs rhs1 e a a2 a3 a1 tp np t t1 hp hlt ht hn
                  (ihP _ _ _ h1) hnil hnp hc (ihB _ _ _ _ _ h3) hnil1 (ihB _ _ _ _ _ h4)
            · simp only [hc, if_false] at h2
              exact Parsed.binOp_fold p lhs rhs e a a2 a1 tp np t t1 hp hlt ht hn
                (ihP _ _ _ h1) hnil hnp hc (ihB _ _ _ _ _ h2)

/-! ## Invariants of the parser -/

namespace AST

@[simp] theorem getNextToken_Err (a : AST) : a.getNextToken.1.Err = a.Err := by
  unfold getNextToken
  simp only
  split <;> rfl

@[simp] theorem getNextToken_Tokens (a : AST) : a.getNextToken.1.Tokens = a.Tokens := by
  unfold getNextToken
  simp only
  split <;> rfl

@[simp] theorem getNextToken_depth (a : AST) : a.getNextToken.1.depth = a.depth := by
  unfold getNextToken
  simp only
  split <;> rfl

@[simp] theorem getNextToken_currIndex (a : AST) :
    a.getNextToken.1.currIndex = a.currIndex + 1 := by
  unfold getNextToken
  simp only
  split <;> rfl

theorem parseNumber_inv {a a1 : AST} {e : ExprNode} (h : a.parseNumber = .done (e, a1)) :
    ∃ t, a.currTok = some t ∧
      ((∃ v, ParseFloat t.Value = some v ∧ e = NumberExprNode v t.Value ∧
          a1 = a.getNextToken.1) ∨
       (ParseFloat t.Value = none ∧ e = NumberExprNode F64.zero [] ∧
          a1 = { a with Err := some (.notANumber t.Value t.Offset) })) := by
  unfold parseNumber at h
  simp only [Run.bind_eq_done_iff, tok_eq_done] at h
  obtain ⟨t, ht, h⟩ := h
  refine ⟨t, ht, ?_⟩
  cases hv : ParseFloat t.Value with
  | none =>
    simp only [hv, Run.pure_eq, Run.done.injEq, Prod.mk.injEq] at h
    exact Or.inr ⟨rfl, h.1.symm, h.2.symm⟩
  | some v =>
    simp only [hv, Run.pure_eq, Run.done.injEq, Prod.mk.injEq] at h
    exact Or.inl ⟨v, rfl, h.1.symm, h.2.symm⟩

theorem leave_inv {a a1 : AST} (h : a.leave = .done a1) :
    (a1 = { a with depth := a.depth - 1 } ∧
      ¬ (a.depth - 1 = 0 ∧ a.currIndex ≠ a.Tokens.length ∧ a.Err = none)) ∨
    (∃ t, a.currTok = some t ∧
      (a.depth - 1 = 0 ∧ a.currIndex ≠ a.Tokens.length ∧ a.Err = none) ∧
      a1 = { a with depth := a.depth - 1, Err := some (.badExpression t.Offset) }) := by
  unfold leave at h
  by_cases hc : a.depth - 1 = 0 ∧ a.currIndex ≠ a.Tokens.length ∧ a.Err = none
  · have hc0 := hc
    simp only [hc, and_self, ne_eq, not_false_eq_true, if_true, Run.bind_eq_done_iff,
      tok_eq_done, Run.pure_eq, Run.done.injEq] at h
    obtain ⟨t, ht, h⟩ := h
    refine Or.inr ⟨t, ht, hc0, ?_⟩
    rw [← h, hc0.1]
  · simp only [Run.pure_eq, Run.bind_done, hc, if_false, Run.done.injEq] at h
    exact Or.inl ⟨h.symm, hc⟩

theorem finishCall_inv {a a1 : AST} {name : GoString} {d : DefFunc} {exprs : List ExprNode}
    {e : ExprNode} (h : a.finishCall name d exprs = .done (e, a1)) :
    e = FunCallerExprNode name exprs ∧ ∃ t, a.currTok = some t ∧
      a1 = (if 0 ≤ d.Argc ∧ (exprs.length : Int) ≠ d.Argc then
              { a with Err := some (.wrongArgc name d.Argc exprs.length t.Offset) }
            else a).getNextToken.1 := by
  unfold finishCall at h
  simp only [Run.bind_eq_done_iff, tok_eq_done, Run.pure_eq, Run.done.injEq, Prod.mk.injEq] at h
  obtain ⟨t, ht, h1, h2⟩ := h
  exact ⟨h1.symm, t, ht, h2.symm⟩

end AST

/-- An error, once recorded, stays: a run that ends without error started without error. -/
theorem Parsed.err_none {reg : Registry} {c : Call} {a a1 : AST} {e : ExprNode}
    {es : List ExprNode} (h : Parsed reg c a e es a1) : a1.Err = none → a.Err = none := by
  induction h with
  | expression a a2 a3 a4 lhs r _ _ hl ih1 ih2 =>
    intro h4
    rcases AST.leave_inv hl with ⟨rfl, _⟩ | ⟨t, _, _, rfl⟩
    · exact ih1 (ih2 h4)
    · cases h4
  | primary_identifier a a1 t e _ _ _ ih => exact ih
  | primary_literal a a1 t e _ _ hn =>
    intro h1
    obtain ⟨t, _, ⟨v, _, _, rfl⟩ | ⟨_, _, rfl⟩⟩ := AST.parseNumber_inv hn
    · simpa using h1
    · cases h1
  | primary_operator a a1 t e _ _ _ ih => exact ih
  | primary_comma a t _ _ => intro h; cases h
  | call_const a t t1 _ _ _ => intro h; simpa using h
  | call_undefined a t t1 _ _ _ _ => intro h; cases h
  | call_noArgs a a1 t t1 t2 d e _ _ _ _ _ _ hf =>
    intro h1
    obtain ⟨_, t3, _, rfl⟩ := AST.finishCall_inv hf
    simp only [AST.getNextToken_Err] at h1
    split at h1
    · cases h1
    · simpa using h1
  | call_args a a3 a4 a1 t t1 t2 d e0 e exprs _ _ _ _ _ _ _ _ hf ih1 ih2 =>
    intro h1
    obtain ⟨_, t3, _, rfl⟩ := AST.finishCall_inv hf
    simp only [AST.getNextToken_Err] at h1
    split at h1
    · cases h1
    · have := ih1 (ih2 h1)
      simpa using this
  | args_done exprs a t _ _ => exact id
  | args_eof exprs a t _ _ _ => intro h; simpa using h
  | args_comma exprs exprs1 a a1 t t1 _ _ _ _ _ ih => intro h; simpa using ih h
  | args_expression exprs exprs1 a a2 a1 t t1 e _ _ _ _ _ _ ih1 ih2 =>
    intro h; simpa using ih1 (ih2 h)
  | bracket_eof a t t1 _ _ _ _ => intro h; cases h
  | bracket_nil a a2 t t1 e _ _ _ _ _ ih => intro h; simpa using ih h
  | bracket_unclosed a a2 t t1 t2 e _ _ _ _ _ _ _ _ => intro h; cases h
  | bracket a a2 t t1 t2 e _ _ _ _ _ _ _ ih => intro h; simpa using ih (by simpa using h)
  | minus_eof a t t1 _ _ _ _ _ => intro h; cases h
  | minus a a2 t t1 rhs _ _ _ _ _ ih => intro h; simpa using ih h
  | operator_number a a1 t e _ _ _ hn =>
    intro h1
    obtain ⟨t, _, ⟨v, _, _, rfl⟩ | ⟨_, _, rfl⟩⟩ := AST.parseNumber_inv hn
    · simpa using h1
    · cases h1
  | binOp_stop execPrec lhs a p _ _ => exact id
  | binOp_eof execPrec lhs a p t1 _ _ _ _ => intro h; cases h
  | binOp_nil execPrec lhs rhs a a2 p t1 _ _ _ _ _ ih => intro h; simpa using ih h
  | binOp_climb_nil execPrec lhs rhs rhs1 a a2 a3 p np t1 _ _ _ _ _ _ _ _ _ ih1 ih2 =>
    intro h; simpa using ih1 (ih2 h)
  | binOp_climb execPrec lhs rhs rhs1 r a a2 a3 a4 p np t t1 _ _ _ _ _ _ _ _ _ _ _ ih1 ih2 ih3 =>
    intro h; simpa using ih1 (ih2 (ih3 h))
  | binOp_fold execPrec lhs rhs r a a2 a3 p np t t1 _ _ _ _ _ _ _ _ _ ih1 ih2 =>
    intro h; simpa using ih1 (ih2 h)

theorem ExprNode.AllList_append (P : ExprNode → Prop) (xs ys : List ExprNode) :
    ExprNode.AllList P (xs ++ ys) ↔ ExprNode.AllList P xs ∧ ExprNode.AllList P ys := by
  induction xs with
  | nil => simp [ExprNode.AllList]
  | cons x xs ih => simp [ExprNode.AllList, ih, and_assoc]

theorem AST.getTokPrecedence_inv {a : AST} {p : Int} (h : a.getTokPrecedence = .done p) :
    ∃ t c cs, a.currTok = some t ∧ t.Value = c :: cs ∧ p = precOf c := by
  unfold AST.getTokPrecedence at h
  simp only [Run.bind_eq_done_iff, AST.tok_eq_done] at h
  obtain ⟨t, ht, h⟩ := h
  cases hv : t.Value with
  | nil => simp [hv] at h
  | cons c cs =>
    refine ⟨t, c, cs, ht, hv, ?_⟩
    simp only [hv] at h
    unfold precOf
    cases ho : Operators c <;> simp_all

theorem precOf_nonneg {c : Char} (h : 0 ≤ precOf c) :
    ∃ o, Operators c = some o ∧ 0 ≤ o.Precedence := by
  unfold precOf at h
  cases ho : Operators c with
  | none => simp [ho] at h
  | some o => exact ⟨o, rfl, by simpa [ho] using h⟩

theorem AST.constOrVariable_ok (reg : Registry) (name : GoString) :
    ExprNode.All (NodeOk reg) (AST.constOrVariable reg name) := by
  unfold AST.constOrVariable
  cases h : reg.defConst name <;> simp [ExprNode.All, NodeOk, h]

/-- The trees of a run that ends without error are well formed in every node. -/
theorem Parsed.nodes_ok {reg : Registry} {c : Call} {a a1 : AST} {e : ExprNode}
    {es : List ExprNode} (h : Parsed reg c a e es a1) : a1.Err = none →
    match c with
    | .args exprs => ExprNode.AllList (NodeOk reg) exprs → ExprNode.AllList (NodeOk reg) es
    | .binOpRHS p lhs => 0 ≤ p → ExprNode.All (NodeOk reg) lhs → ExprNode.All (NodeOk reg) e
    | _ => ExprNode.All (NodeOk reg) e := by
  induction h with
  | expression a a2 a3 a4 lhs r h1 h2 hl ih1 ih2 =>
    intro h4
    rcases AST.leave_inv hl with ⟨rfl, _⟩ | ⟨t, _, _, rfl⟩
    · exact ih2 h4 (le_refl 0) (ih1 (h2.err_none h4))
    · cases h4
  | primary_identifier a a1 t e _ _ _ ih => exact ih
  | primary_literal a a1 t e _ _ hn =>
    intro h1
    obtain ⟨t, _, ⟨v, _, rfl, rfl⟩ | ⟨_, _, rfl⟩⟩ := AST.parseNumber_inv hn
    · simp [ExprNode.All, NodeOk]
    · cases h1
  | primary_operator a a1 t e _ _ _ ih => exact ih
  | primary_comma a t _ _ => intro h; cases h
  | call_const a t t1 _ _ _ => intro _; exact AST.constOrVariable_ok reg _
  | call_undefined a t t1 _ _ _ _ => intro h; cases h
  | call_noArgs a a1 t t1 t2 d e _ _ _ hd _ _ hf =>
    intro h1
    obtain ⟨rfl, t3, _, rfl⟩ := AST.finishCall_inv hf
    simp only [AST.getNextToken_Err] at h1
    split at h1
    · cases h1
    · rename_i hb
      refine ⟨⟨d, hd, ?_⟩, trivial⟩
      by_contra hcon
      exact hb ⟨by omega, fun h => hcon (Or.inr h)⟩
  | call_args a a3 a4 a1 t t1 t2 d e0 e exprs _ _ _ hd _ _ h1 h2 hf ih1 ih2 =>
    intro h1'
    obtain ⟨rfl, t3, _, rfl⟩ := AST.finishCall_inv hf
    simp only [AST.getNextToken_Err] at h1'
    split at h1'
    · cases h1'
    · rename_i hb
      have hl := ih2 h1' ⟨ih1 (h2.err_none h1'), trivial⟩
      refine ⟨⟨d, hd, ?_⟩, hl⟩
      by_contra hcon
      exact hb ⟨by omega, fun h => hcon (Or.inr h)⟩
  | args_done exprs a t _ _ => intro _; exact id
  | args_eof exprs a t _ _ _ => intro _; exact id
  | args_comma exprs exprs1 a a1 t t1 _ _ _ _ _ ih => exact ih
  | args_expression exprs exprs1 a a2 a1 t t1 e _ _ _ _ h1 h2 ih1 ih2 =>
    intro h hx
    exact ih2 h ((ExprNode.AllList_append _ _ _).2 ⟨hx, ih1 (h2.err_none h), trivial⟩)
  | bracket_eof a t t1 _ _ _ _ => intro h; cases h
  | bracket_nil a a2 t t1 e _ _ _ _ hnil ih =>
    intro h
    have := ih h
    cases e <;> simp [ExprNode.isNil] at hnil
    simp [ExprNode.All, NodeOk] at this
  | bracket_unclosed a a2 t t1 t2 e _ _ _ _ _ _ _ _ => intro h; cases h
  | bracket a a2 t t1 t2 e _ _ _ _ _ _ _ ih => intro h; exact ih (by simpa using h)
  | minus_eof a t t1 _ _ _ _ _ => intro h; cases h
  | minus a a2 t t1 rhs _ _ _ _ _ ih =>
    intro h
    exact ⟨⟨rfl, '-', [], OperatorItem.Minus, rfl, rfl, by decide⟩, by simp [ExprNode.All, NodeOk],
      ih h⟩
  | operator_number a a1 t e _ _ _ hn =>
    intro h1
    obtain ⟨t, _, ⟨v, _, rfl, rfl⟩ | ⟨_, _, rfl⟩⟩ := AST.parseNumber_inv hn
    · simp [ExprNode.All, NodeOk]
    · cases h1
  | binOp_stop execPrec lhs a p _ _ => intro _ _ hl; exact hl
  | binOp_eof execPrec lhs a p t1 _ _ _ _ => intro h; cases h
  | binOp_nil execPrec lhs rhs a a2 p t1 _ _ _ _ hnil ih =>
    intro h
    have := ih h
    cases rhs <;> simp [ExprNode.isNil] at hnil
    simp [ExprNode.All, NodeOk] at this
  | binOp_climb_nil execPrec lhs rhs rhs1 a a2 a3 p np t1 hp hge _ _ _ _ _ h2 hnil ih1 ih2 =>
    intro h hpos _
    have := ih2 h (by omega) (ih1 (h2.err_none h))
    cases rhs1 <;> simp [ExprNode.isNil] at hnil
    simp [ExprNode.All, NodeOk] at this
  | binOp_climb execPrec lhs rhs rhs1 r a a2 a3 a4 p np t t1 hp hge ht _ _ _ _ _ h2 _ h3
      ih1 ih2 ih3 =>
    intro h hpos hl
    have e3 := h3.err_none h
    have hr1 := ih2 e3 (by omega) (ih1 (h2.err_none e3))
    obtain ⟨t', c, cs, ht', hv, hpc⟩ := AST.getTokPrecedence_inv hp
    rw [ht] at ht'
    cases ht'
    obtain ⟨o, ho, hpo⟩ := precOf_nonneg (c := c) (by omega)
    exact ih3 h hpos ⟨⟨rfl, c, cs, o, hv, ho, hpo⟩, hl, hr1⟩
  | binOp_fold execPrec lhs rhs r a a2 a3 p np t t1 hp hge ht _ _ _ _ _ h2 ih1 ih2 =>
    intro h hpos hl
    have e2 := h2.err_none h
    have hr := ih1 e2
    obtain ⟨t', c, cs, ht', hv, hpc⟩ := AST.getTokPrecedence_inv hp
    rw [ht] at ht'
    cases ht'
    obtain ⟨o, ho, hpo⟩ := precOf_nonneg (c := c) (by omega)
    exact ih2 h hpos ⟨⟨rfl, c, cs, o, hv, ho, hpo⟩, hl, hr⟩

/-- What a successful `ParseExpression` ran: the lexer, then the parser from the first
token, ending without error. -/
theorem ParseExpression_inv {reg : Registry} {s : GoString} {t : ExprNode}
    (h : ParseExpression reg s = .done (.ok t)) :
    ∃ toks a1, Parse s = .done (.ok toks) ∧ toks ≠ [] ∧
      AST.ParseExpression reg (parseFuel toks.length) (NewAST toks s) = .done (t, a1) ∧
      a1.Err = none ∧ (NewAST toks s).Err = none := by
  unfold ParseExpression at h
  simp only [Run.bind_eq_done_iff] at h
  obtain ⟨r, hP, h⟩ := h
  cases r with
  | error e => simp at h
  | ok toks =>
    simp only at h
    cases hE : (NewAST toks s).Err with
    | some e => simp [hE] at h
    | none =>
      simp only [hE, Run.bind_eq_done_iff] at h
      obtain ⟨⟨ar, a1⟩, h1, h2⟩ := h
      cases hE1 : a1.Err with
      | some e => simp [hE1] at h2
      | none =>
        simp only [hE1, Run.pure_eq, Run.done.injEq, Except.ok.injEq] at h2
        subst h2
        refine ⟨toks, a1, hP, ?_, h1, hE1, hE⟩
        rintro rfl
        simp [NewAST] at hE

/-- Every node of a tree that `ParseExpression` returns is well formed. -/
theorem ParseExpression_nodes_ok {reg : Registry} {s : GoString} {t : ExprNode}
    (h : ParseExpression reg s = .done (.ok t)) : ExprNode.All (NodeOk reg) t := by
  obtain ⟨toks, a1, _, _, hrun, hE, _⟩ := ParseExpression_inv h
  exact ((parsed_of_run reg _).1 _ _ _ hrun).nodes_ok hE

theorem ToExprStr_returns (reg : Registry) (p : Parameter)
    (hplain : ∀ n v, p.Vars n = some v → v.isPlain = true)
    (hfun : ∀ name d, reg.defFunc name = some d →
      ∀ ctx args, (d.ToExprStr ctx args).returns = true) :
    ∀ (fuel : Nat) (t : ExprNode), ExprNode.All (NodeOk reg) t → t.height ≤ fuel →
      (ToExprStr reg fuel t (some p)).returns = true := by
  intro fuel
  induction fuel with
  | zero =>
    intro t _ hh
    cases t <;> simp [ExprNode.height] at hh
  | succ n ih =>
    intro t hok hh
    cases t with
    | nil => simp [ExprNode.All, NodeOk] at hok
    | NumberExprNode v s => rfl
    | ConstExprNode nm s v => rfl
    | VariableExprNode nm =>
      rw [ToExprStr]
      simp only [GetCtxParameter]
      cases hv : p.Vars nm with
      | none => rfl
      | some v =>
        have := hplain nm v hv
        cases v <;> first | rfl | simp [Value.isPlain] at this
    | FunCallerExprNode nm args =>
      obtain ⟨⟨d, hd, _⟩, _⟩ := hok
      rw [ToExprStr]
      simp only [GetDefFunc, hd]
      exact hfun nm d hd _ _
    | OperatorExprNode op l r flag =>
      obtain ⟨⟨_, c, cs, o, rfl, ho, _⟩, hl, hr⟩ := hok
      simp only [ExprNode.height] at hh
      have h1 := ih l hl (by omega)
      have h2 := ih r hr (by omega)
      rw [ToExprStr]
      cases hl' : ToExprStr reg n l (some p) with
      | done sl =>
        cases hr' : ToExprStr reg n r (some p) with
        | done sr =>
          simp only [Run.bind_done, GetOperator, ho]
          split <;> rfl
        | panicked m => simp [hr', Run.returns] at h2
        | outOfFuel => simp [hr', Run.returns] at h2
      | panicked m => simp [hl', Run.returns] at h1
      | outOfFuel => simp [hl', Run.returns] at h1


/-- C3, as amended. For every tree that `ParseExpression` returns and every context that
carries a `Parameter` whose bindings hold neither a string nor a tree, `ToExprStr` returns
a string (the renderers of the registered functions returning); a variable without binding
is printed as its bare name, and so is a variable bound to a string for which
`ParseExpression` returns an error. -/
theorem C3_rendering_returns (reg : Registry) (s : GoString) (t : ExprNode) (p : Parameter)
    (hparse : ParseExpression reg s = .done (.ok t))
    (hplain : ∀ n v, p.Vars n = some v → v.isPlain = true)
    (hfun : ∀ name d, reg.defFunc name = some d →
      ∀ ctx args, (d.ToExprStr ctx args).returns = true) :
    (∀ fuel, t.height ≤ fuel → (ToExprStr reg fuel t (some p)).returns = true) ∧
    (∀ (q : Parameter) (n : GoString) (fuel : Nat), q.Vars n = none →
      ToExprStr reg (fuel + 1) (VariableExprNode n) (some q) = .done n) ∧
    (∀ (q : Parameter) (n s1 : GoString) (err : GoError) (fuel : Nat),
      q.Vars n = some (.str s1) → ParseExpression reg s1 = .done (.error err) →
      ToExprStr reg (fuel + 1) (VariableExprNode n) (some q) = .done n) := by
  refine ⟨?_, ?_, ?_⟩
  · intro fuel hh
    exact ToExprStr_returns reg p hplain hfun fuel t (ParseExpression_nodes_ok hparse) hh
  · intro q n fuel hq
    rw [ToExprStr]
    simp [GetCtxParameter, hq]
  · intro q n s1 err fuel hq he
    rw [ToExprStr]
    simp [GetCtxParameter, hq, he]

/-- Witness of C3: the source `x+1` under the binding of `x` to the integer 5 is rendered,
and `y` without binding is printed as `y`. -/
theorem C3_rendering_returns_witness :
    ParseExpression defaultRegistry "x+1".toList =
        .done (.ok (OperatorExprNode ['+'] (VariableExprNode ['x'])
          (NumberExprNode (F64.ofInt 1) ['1']) false)) ∧
      (ToExprStr defaultRegistry 2 (OperatorExprNode ['+'] (VariableExprNode ['x'])
          (NumberExprNode (F64.ofInt 1) ['1']) false) (some exampleParameter)).returns = true ∧
      ToExprStr defaultRegistry 1 (VariableExprNode ['y']) (some exampleParameter) =
        .done ['y'] :=
  have h := C3_rendering_returns defaultRegistry "x+1".toList
    (OperatorExprNode ['+'] (VariableExprNode ['x']) (NumberExprNode (F64.ofInt 1) ['1']) false)
    exampleParameter rfl
    (by
      intro n v hv
      simp only [exampleParameter] at hv
      split at hv
      · cases hv; rfl
      · cases hv)
    (by intro name d hd; cases hd)
  ⟨rfl, h.1 2 (by decide), h.2.1 exampleParameter ['y'] 0 rfl⟩

/-- Counterexample to C3 as stated: with a context that carries no `Parameter`, `ToExprStr`
of the tree parsed from `x` panics; and with `x` bound to the empty string it panics in the
lexer. -/
theorem C3_counterexample :
    ParseExpression defaultRegistry "x".toList = .done (.ok (VariableExprNode ['x'])) ∧
      ToExprStr defaultRegistry 1 (VariableExprNode ['x']) none =
        .panicked "no parameter found" ∧
      (ToExprStr defaultRegistry 1 (VariableExprNode ['x'])
        (some { Vars := fun _ => some (.str []), Diff := [] })).panics = true := by
  refine ⟨rfl, rfl, rfl⟩

/-- Parsing the three tokens `a op b`. -/
theorem AST.parse_three_tokens (reg : Registry) (s : GoString) (ta t1 tb : Token)
    (va vb : F64) (p1 : Int)
    (ha : ta.IsLiteral va) (hb : tb.IsLiteral vb) (h1 : t1.IsBinary p1) (fuel : Nat) :
    AST.ParseExpression reg (fuel + 4) (NewAST [ta, t1, tb] s) =
      .done (OperatorExprNode t1.Value (NumberExprNode va ta.Value)
              (NumberExprNode vb tb.Value) false,
        ⟨s, some tb, 3, 0, [ta, t1, tb], none⟩) := by
  have e1 : parsePrimary reg (fuel + 3) ⟨s, some ta, 0, 1, [ta, t1, tb], none⟩ =
      .done (NumberExprNode va ta.Value, ⟨s, some t1, 1, 1, [ta, t1, tb], none⟩) :=
    parsePrimary_literal reg _ _ ta va rfl ha.1 ha.2.1
  have e2 : parsePrimary reg (fuel + 2) ⟨s, some tb, 2, 1, [ta, t1, tb], none⟩ =
      .done (NumberExprNode vb tb.Value, ⟨s, some tb, 3, 1, [ta, t1, tb], none⟩) :=
    parsePrimary_literal reg _ _ tb vb rfl hb.1 hb.2.1
  have q1 := prec_binary ⟨s, some t1, 1, 1, [ta, t1, tb], none⟩ t1 p1 rfl h1
  have q3 := prec_literal ⟨s, some tb, 3, 1, [ta, t1, tb], none⟩ tb vb rfl hb
  have hp1 := h1.2.1
  rw [AST.ParseExpression]
  simp only [NewAST, zero_add, e1, Run.bind_done]
  rw [parseBinOpRHS_step reg (fuel + 2) 0 p1 (-1) _ _ _ _ _ t1 tb q1 (by omega) rfl rfl e2
      rfl q3]
  simp only [show ¬ (p1 < (-1 : Int)) by omega, if_false]
  rw [parseBinOpRHS_stop reg _ _ (-1) _ _ q3 (by omega)]
  simp [leave]

theorem literalStops_binaryOp {x : Char} {xs : GoString} {v : F64} (op : Char) (r : GoString)
    (hx : NumberLiteral (x :: xs) v) (hop : op ∈ binaryOps) :
    literalStops ((x :: xs).getLast (by simp)) (op :: r) = true := by
  have hl := hx.last_ne_e (by simp)
  simp only [binaryOps, List.mem_cons, List.mem_singleton, List.not_mem_nil, or_false] at hop
  rcases hop with h | h | h | h | h | h <;> subst h <;> simp [literalStops, hl] <;> decide

/-- The source `a op b` of two number literals and a binary operator parses to the operator
node over the two literals. -/
theorem ParseExpression_binary (reg : Registry) (a b : GoString) (va vb : F64) (op : Char)
    (ha : NumberLiteral a va) (hb : NumberLiteral b vb) (hop : op ∈ binaryOps) :
    ParseExpression reg (a ++ [op] ++ b) =
      .done (.ok (OperatorExprNode [op] (literalNode a va) (literalNode b vb) false)) := by
  have la := ha.token_isLiteral
  have lb := hb.token_isLiteral
  have b1 := binaryOps_token op hop
  obtain ⟨o1, ho1, -, -⟩ := binaryOps_operator op hop
  obtain ⟨ca, as, rfl, hda, hta, hpa⟩ := ha
  obtain ⟨cb, bs, rfl, hdb, htb, hpb⟩ := hb
  have sa := fun r => literalStops_binaryOp op r (⟨ca, as, rfl, hda, hta, hpa⟩ :
    NumberLiteral (ca :: as) va) hop
  have hlex := Parse_lexemes [.lit ca as, .op op, .lit cb bs]
      ⟨⟨hda, hta, sa _⟩, by simp [Lexeme.ok, ho1], ⟨hdb, htb, rfl⟩, trivial⟩ (by simp)
  have htxt : textOf [.lit ca as, .op op, .lit cb bs] = ca :: as ++ [op] ++ cb :: bs := by
    simp [textOf, Lexeme.text]
  rw [htxt] at hlex
  have hA := AST.parse_three_tokens reg (ca :: as ++ [op] ++ cb :: bs)
      _ _ _ va vb _ (la 0) (lb (0 + (ca :: as).length + 1)) (b1 (0 + (ca :: as).length)) 12
  exact ParseExpression_of_tokens reg _ _ _ _ _ _ hlex rfl hA rfl


/-- C4, as amended. For all number literals `l` and `r` the sources `l/r` and `l%r` parse,
to the operator node over the two literals; `Calculate` of a `/` or `%` node fails whenever
its right operand evaluates to exactly zero, with a panic once the left operand has
evaluated (so `1/0` and `1%0` parse and their evaluation panics); and `Div.Result(a, b)`
returns for every finite `a` and every finite `b` other than zero. -/
theorem C4_division_by_zero (reg : Registry) (pow : F64 → F64 → F64) (l r : GoString)
    (vl vr : F64) (hl : NumberLiteral l vl) (hr : NumberLiteral r vr) :
    ParseExpression reg (l ++ ['/'] ++ r) =
        .done (.ok (OperatorExprNode ['/'] (literalNode l vl) (literalNode r vr) false)) ∧
      ParseExpression reg (l ++ ['%'] ++ r) =
        .done (.ok (OperatorExprNode ['%'] (literalNode l vl) (literalNode r vr) false)) ∧
      (∀ (op : Char) (L R : ExprNode) (flag : Bool) (ctx : Context) (fuel : Nat) (b : F64),
        op = '/' ∨ op = '%' → Calculate reg pow fuel R ctx = .done b → b.isZero = true →
        (Calculate reg pow (fuel + 1) (OperatorExprNode [op] L R flag) ctx).returns = false ∧
        ((Calculate reg pow fuel L ctx).returns = true →
          (Calculate reg pow (fuel + 1) (OperatorExprNode [op] L R flag) ctx).panics = true)) ∧
      (∀ (ctx : Context) (fuel : Nat),
        (CalculateSource reg pow (fuel + 2) "1/0".toList ctx).panics = true ∧
        (CalculateSource reg pow (fuel + 2) "1%0".toList ctx).panics = true) ∧
      (∀ m1 e1 m2 e2 : Int, m2 ≠ 0 →
        (OperatorItem.Div.Result pow (F64.fin m1 e1) (F64.fin m2 e2)).returns = true) := by
  refine ⟨ParseExpression_binary reg l r vl vr '/' hl hr (by decide),
    ParseExpression_binary reg l r vl vr '%' hl hr (by decide), ?_, ?_, ?_⟩
  · intro op L R flag ctx fuel b hop hR hz
    rw [Calculate]
    cases hL : Calculate reg pow fuel L ctx with
    | done a =>
      simp only [Run.bind_done, hR, GetOperator]
      rcases hop with rfl | rfl
      · have : Operators '/' = some OperatorItem.Div := rfl
        simp [this, OperatorItem.Result, hz, Run.returns, Run.panics]
      · have : Operators '%' = some OperatorItem.Mod := rfl
        simp [this, OperatorItem.Result, hz, Run.returns, Run.panics]
    | panicked m => simp [Run.returns]
    | outOfFuel => simp [Run.returns]
  · intro ctx fuel
    exact ⟨rfl, rfl⟩
  · intro m1 e1 m2 e2 hm
    simp only [OperatorItem.Result, F64.isZero, hm, decide_False, Bool.false_eq_true, if_false,
      F64.bigQuo]
    split <;> rfl

/-- Witness of C4: the literals `12` and `0.5`. -/
theorem C4_division_by_zero_witness :
    (NumberLiteral "12".toList (F64.ofInt 12) ∧ NumberLiteral "0.5".toList (F64.fin 1 (-1))) ∧
      ParseExpression defaultRegistry "12/0.5".toList =
        .done (.ok (OperatorExprNode ['/'] (NumberExprNode (F64.ofInt 12) "12".toList)
          (NumberExprNode (F64.fin 1 (-1)) "0.5".toList) false)) ∧
      (CalculateSource defaultRegistry examplePow 2 "1/0".toList (some emptyParameter)).panics
        = true ∧
      (OperatorItem.Div.Result examplePow (F64.fin 1 0) (F64.fin 3 0)).returns = true :=
  have ha : NumberLiteral "12".toList (F64.ofInt 12) :=
    ⟨'1', ['2'], rfl, by decide, by decide, by decide⟩
  have hb : NumberLiteral "0.5".toList (F64.fin 1 (-1)) :=
    ⟨'0', ['.', '5'], rfl, by decide, by decide, by decide⟩
  have h := C4_division_by_zero defaultRegistry examplePow "12".toList "0.5".toList _ _ ha hb
  ⟨⟨ha, hb⟩, h.1, (h.2.2.2.1 (some emptyParameter) 0).1, h.2.2.2.2 1 0 3 0 (by decide)⟩

/-- Counterexample to C4 as stated: `Div.Result(1, NaN)` panics although NaN is not zero
(`big.Float.SetFloat64` panics on a NaN); and with `l = 1`, `r = 1-1` the source `l/r`
evaluates to 0 without failure although `r` evaluates to exactly zero. -/
theorem C4_counterexample :
    F64.isZero F64.NaN = false ∧
      OperatorItem.Div.Result examplePow (F64.ofInt 1) F64.NaN =
        .panicked "big.ErrNaN: SetFloat64(NaN)" ∧
      CalculateSource defaultRegistry examplePow 3 "1-1".toList (some emptyParameter) =
        .done (.ok F64.zero) ∧
      CalculateSource defaultRegistry examplePow 3 "1/1-1".toList (some emptyParameter) =
        .done (.ok F64.zero) := by
  refine ⟨rfl, rfl, rfl, rfl⟩

theorem F64.toInt_of_isZero (b : F64) (h : b.isZero = true) : b.toInt = 0 := by
  cases b with
  | fin m e =>
    simp only [F64.isZero, decide_eq_true_eq] at h
    subst h
    have : F64.trunc (F64.fin 0 e) = some 0 := by
      simp only [F64.trunc]
      split <;> simp
    simp only [F64.toInt, this]
    decide
  | posInf => cases h
  | negInf => cases h
  | NaN => cases h

theorem F64.toInt_of_trunc (x : F64) (t : Int) (h : x.trunc = some t) (hr : F64.intInRange t) :
    x.toInt = t := by
  simp [F64.toInt, h, hr]

/-- C5, as amended. `Mod.Result` truncates both operands toward zero and fails exactly when
the truncated right operand is zero: for all `a` and `b` whose truncations `ta` and `tb`
are in integer range it returns `ta rem tb`, the remainder taking the sign of the dividend,
when `tb` is not zero (`7.9 % 2.9 = 1`, `-7 % 2 = -1`), and it fails when `tb` is zero,
which includes `b = 0`. -/
theorem C5_modulo_truncates (pow : F64 → F64 → F64) (a b : F64) (ta tb : Int)
    (ha : a.trunc = some ta) (hb : b.trunc = some tb)
    (hra : F64.intInRange ta) (hrb : F64.intInRange tb) :
    (tb ≠ 0 → OperatorItem.Mod.Result pow a b = .done (F64.ofInt (Int.tmod ta tb))) ∧
      ((OperatorItem.Mod.Result pow a b).returns = false ↔ tb = 0) ∧
      (b.isZero = true → tb = 0) ∧
      F64.trunc (F64.ofRatio false 79 10) = some 7 ∧
      F64.trunc (F64.ofRatio true 79 10) = some (-7) ∧
      OperatorItem.Mod.Result pow (F64.ofRatio false 79 10) (F64.ofRatio false 29 10) =
        .done (F64.ofInt 1) ∧
      OperatorItem.Mod.Result pow (F64.ofInt (-7)) (F64.ofInt 2) = .done (F64.ofInt (-1)) := by
  have hA := F64.toInt_of_trunc a ta ha hra
  have hB := F64.toInt_of_trunc b tb hb hrb
  have hz : b.isZero = true → tb = 0 := fun h => by rw [← hB]; exact F64.toInt_of_isZero b h
  refine ⟨?_, ?_, hz, by decide, by decide, rfl, rfl⟩
  · intro h
    have hnz : b.isZero = false := by
      cases hb0 : b.isZero with
      | false => rfl
      | true => exact absurd (hz hb0) h
    simp [OperatorItem.Result, hnz, hA, hB, h]
  · constructor
    · intro h
      by_contra hne
      have hnz : b.isZero = false := by
        cases hb0 : b.isZero with
        | false => rfl
        | true => exact absurd (hz hb0) hne
      simp [OperatorItem.Result, hnz, hA, hB, hne, Run.returns] at h
    · intro h
      cases hb0 : b.isZero <;> simp [OperatorItem.Result, hb0, hA, hB, h, Run.returns]

/-- Witness of C5: `7.9 % 2.9`. -/
theorem C5_modulo_truncates_witness :
    (F64.trunc (F64.ofRatio false 79 10) = some 7 ∧
      F64.trunc (F64.ofRatio false 29 10) = some 2 ∧ F64.intInRange 7 ∧ F64.intInRange 2) ∧
      OperatorItem.Mod.Result examplePow (F64.ofRatio false 79 10) (F64.ofRatio false 29 10) =
        .done (F64.ofInt (Int.tmod 7 2)) :=
  ⟨⟨by decide, by decide, by decide, by decide⟩,
    (C5_modulo_truncates examplePow (F64.ofRatio false 79 10) (F64.ofRatio false 29 10) 7 2
      (by decide) (by decide) (by decide) (by decide)).1 (by decide)⟩

/-- Counterexample to C5 as stated: `Mod.Result(7, 0.5)` fails, with the run-time panic of
the integer division, although `0.5` is not zero and truncates, in range, to 0. -/
theorem C5_counterexample :
    F64.isZero (F64.fin 1 (-1)) = false ∧ F64.trunc (F64.fin 1 (-1)) = some 0 ∧
      F64.ofRatio false 1 2 = F64.fin 1 (-1) ∧
      OperatorItem.Mod.Result examplePow (F64.ofInt 7) (F64.fin 1 (-1)) =
        .panicked "runtime error: integer divide by zero" := by
  refine ⟨rfl, by decide, by decide, by decide⟩

/-- C6. Unary minus is parsed as `0 - x` over the single primary that follows: when the
current token is `-` and a token follows, `parsePrimary` returns the operator node `-` whose
left operand is the zero-valued number node and whose right operand is what `parsePrimary`
returns for the following tokens, whatever primary that is; `ParseExpression` then hands
that whole node to `parseBinOpRHS` as the left operand of a following binary operator. So
`-5+2` evaluates to -3 and `-2^2` parses as `(0-2)^2`; the primary may be a literal, an
identifier, a parenthesised expression or another unary minus. -/
theorem C6_unary_minus (reg : Registry) (pow : F64 → F64 → F64) (a0 a : AST) (t t1 : Token)
    (rhs : ExprNode) (a2 : AST) (fuel : Nat) (ctx : Context)
    (ha : a = { a0 with depth := a0.depth + 1 })
    (ht : a.currTok = some t) (hty : t.Typ = OperatorType) (hv : t.Value = ['-'])
    (hn : a.getNextToken.2 = some t1)
    (hp : AST.parsePrimary reg fuel a.getNextToken.1 = .done (rhs, a2)) :
    AST.parsePrimary reg (fuel + 2) a =
        .done (OperatorExprNode ['-'] (NumberExprNode F64.zero []) rhs false, a2) ∧
      AST.ParseExpression reg (fuel + 3) a0 =
        (AST.parseBinOpRHS reg (fuel + 2) 0
          (OperatorExprNode ['-'] (NumberExprNode F64.zero []) rhs false) a2).bind
          (fun r => (r.2.leave).bind (fun a4 => .done (r.1, a4))) ∧
      CalculateSource reg pow (fuel + 3) "-5+2".toList ctx = .done (.ok (F64.ofInt (-3))) ∧
      ParseExpression reg "-2^2".toList = .done (.ok (OperatorExprNode ['^']
        (OperatorExprNode ['-'] (NumberExprNode F64.zero []) (NumberExprNode (F64.ofInt 2) ['2'])
          false) (NumberExprNode (F64.ofInt 2) ['2']) false)) ∧
      ParseExpression reg "-x".toList = .done (.ok (OperatorExprNode ['-']
        (NumberExprNode F64.zero []) (AST.constOrVariable reg ['x']) false)) ∧
      ParseExpression reg "-(1+2)".toList = .done (.ok (OperatorExprNode ['-']
        (NumberExprNode F64.zero []) (OperatorExprNode ['+'] (NumberExprNode (F64.ofInt 1) ['1'])
          (NumberExprNode (F64.ofInt 2) ['2']) false) false)) ∧
      ParseExpression reg "--5".toList = .done (.ok (OperatorExprNode ['-']
        (NumberExprNode F64.zero []) (OperatorExprNode ['-'] (NumberExprNode F64.zero [])
          (NumberExprNode (F64.ofInt 5) ['5']) false) false)) := by
  have key : AST.parsePrimary reg (fuel + 2) a =
      .done (OperatorExprNode ['-'] (NumberExprNode F64.zero []) rhs false, a2) := by
    rw [AST.parsePrimary]
    simp only [AST.tok, ht, hty, Run.bind_done]
    rw [AST.parseOperator]
    simp [AST.tok, ht, hv, hn, hp]
  refine ⟨key, ?_, rfl, rfl, rfl, rfl, rfl⟩
  rw [AST.ParseExpression, ← ha]
  simp only [key, Run.bind_done]
  rfl

/-- Witness of C6: the tokens of `-7`. -/
theorem C6_unary_minus_witness :
    AST.parsePrimary defaultRegistry 3
        { source := "-7".toList, currTok := some ⟨['-'], OperatorType, 0, 0⟩, currIndex := 0,
          depth := 1, Tokens := [⟨['-'], OperatorType, 0, 0⟩, ⟨['7'], LiteralType, 0, 1⟩],
          Err := none } =
      .done (OperatorExprNode ['-'] (NumberExprNode F64.zero [])
          (NumberExprNode (F64.ofInt 7) ['7']) false,
        { source := "-7".toList, currTok := some ⟨['7'], LiteralType, 0, 1⟩, currIndex := 2,
          depth := 1, Tokens := [⟨['-'], OperatorType, 0, 0⟩, ⟨['7'], LiteralType, 0, 1⟩],
          Err := none }) :=
  (C6_unary_minus defaultRegistry examplePow
    { source := "-7".toList, currTok := some ⟨['-'], OperatorType, 0, 0⟩, currIndex := 0,
      depth := 0, Tokens := [⟨['-'], OperatorType, 0, 0⟩, ⟨['7'], LiteralType, 0, 1⟩],
      Err := none }
    { source := "-7".toList, currTok := some ⟨['-'], OperatorType, 0, 0⟩, currIndex := 0,
      depth := 1, Tokens := [⟨['-'], OperatorType, 0, 0⟩, ⟨['7'], LiteralType, 0, 1⟩],
      Err := none }
    ⟨['-'], OperatorType, 0, 0⟩ ⟨['7'], LiteralType, 0, 1⟩
    (NumberExprNode (F64.ofInt 7) ['7'])
    { source := "-7".toList, currTok := some ⟨['7'], LiteralType, 0, 1⟩, currIndex := 2,
      depth := 1, Tokens := [⟨['-'], OperatorType, 0, 0⟩, ⟨['7'], LiteralType, 0, 1⟩],
      Err := none }
    1 none rfl rfl rfl rfl rfl rfl).1

mutual
theorem ExprNode.All_imp {P Q : ExprNode → Prop} (h : ∀ e, P e → Q e) :
    ∀ t, ExprNode.All P t → ExprNode.All Q t
  | .nil, ht => h _ ht
  | .NumberExprNode _ _, ht => h _ ht
  | .VariableExprNode _, ht => h _ ht
  | .ConstExprNode _ _ _, ht => h _ ht
  | .OperatorExprNode _ l r _, ht =>
    ⟨h _ ht.1, ExprNode.All_imp h l ht.2.1, ExprNode.All_imp h r ht.2.2⟩
  | .FunCallerExprNode _ args, ht => ⟨h _ ht.1, ExprNode.AllList_imp h args ht.2⟩
theorem ExprNode.AllList_imp {P Q : ExprNode → Prop} (h : ∀ e, P e → Q e) :
    ∀ ts, ExprNode.AllList P ts → ExprNode.AllList Q ts
  | [], _ => trivial
  | t :: ts, ht => ⟨ExprNode.All_imp h t ht.1, ExprNode.AllList_imp h ts ht.2⟩
end

/-- A source whose first two tokens are a name that is not a registered function and an
opening bracket gets the undefined-function error. -/
theorem ParseExpression_undefined (reg : Registry) (s : GoString) (t0 t1 : Token)
    (rest : List Token) (hP : Parse s = .done (.ok (t0 :: t1 :: rest)))
    (hty : t0.Typ = IdentifierType) (hv : t1.Value = ['('])
    (hd : reg.defFunc t0.Value = none) :
    ParseExpression reg s = .done (.error (.undefinedFunction t0.Value t1.Offset)) := by
  have hprec : AST.getTokPrecedence ⟨s, some t1, 1, 1, t0 :: t1 :: rest,
      some (.undefinedFunction t0.Value t1.Offset)⟩ = .done (-1) := by
    simp [AST.getTokPrecedence, AST.tok, hv, Operators, OperatorItem.Precedence, NonePrecedence]
  have hrun : AST.ParseExpression reg (parseFuel (t0 :: t1 :: rest).length)
      (NewAST (t0 :: t1 :: rest) s) =
      .done (FunCallerExprNode [] [], ⟨s, some t1, 1, 0, t0 :: t1 :: rest,
        some (.undefinedFunction t0.Value t1.Offset)⟩) := by
    have hf : parseFuel (t0 :: t1 :: rest).length = (4 * rest.length + 9) + 3 := by
      simp [parseFuel]; omega
    rw [hf, AST.ParseExpression, AST.parsePrimary]
    simp only [NewAST, AST.tok, hty, Run.bind_done]
    rw [AST.parseFunCallerOrConst]
    simp only [AST.tok, AST.getNextToken, zero_add, List.get?, Run.bind_done, hv, if_true, hd,
      Run.pure_eq]
    rw [AST.parseBinOpRHS_stop reg _ 0 (-1) _ _ hprec (by decide)]
    simp [AST.leave]
  unfold ParseExpression
  simp only [hP, Run.bind_done, NewAST]
  simp only [NewAST] at hrun
  simp only [hrun, Run.bind_done, Run.pure_eq]


/-- C7. Function calls are validated at parse time: for every registry (its arities at
least -1, as `RegDefFunc` admits them) and every source, if `ParseExpression` succeeds then
every call in the tree names a registered function whose arity is -1 or equals the number
of parsed arguments; a source that starts with a name that is not a registered function
followed by `(` gets the undefined-function error (with the default registry, which has no
function, every such source); and a function registered with arity 2 rejects 1 and 3
arguments. -/
theorem C7_calls_validated (reg : Registry) (s : GoString)
    (hreg : ∀ name d, reg.defFunc name = some d → -1 ≤ d.Argc) :
    (∀ t, ParseExpression reg s = .done (.ok t) →
      ExprNode.All (fun e => ∀ name args, e = FunCallerExprNode name args →
        ∃ d, reg.defFunc name = some d ∧ (d.Argc = -1 ∨ d.Argc = args.length)) t) ∧
    (∀ t0 t1 rest, Parse s = .done (.ok (t0 :: t1 :: rest)) → t0.Typ = IdentifierType →
      t1.Value = ['('] →
      (reg.defFunc t0.Value = none →
        ParseExpression reg s = .done (.error (.undefinedFunction t0.Value t1.Offset))) ∧
      ((∃ t, ParseExpression reg s = .done (.ok t)) → (reg.defFunc t0.Value).isSome = true) ∧
      ParseExpression defaultRegistry s =
        .done (.error (.undefinedFunction t0.Value t1.Offset))) ∧
    ParseExpression (registryWith ['f'] (exampleFunc 2)) "f(1)".toList =
      .done (.error (.wrongArgc ['f'] 2 1 3)) ∧
    ParseExpression (registryWith ['f'] (exampleFunc 2)) "f(1,2,3)".toList =
      .done (.error (.wrongArgc ['f'] 2 3 7)) ∧
    ParseExpression (registryWith ['f'] (exampleFunc 2)) "f(1,2)".toList =
      .done (.ok (FunCallerExprNode ['f'] [NumberExprNode (F64.ofInt 1) ['1'],
        NumberExprNode (F64.ofInt 2) ['2']])) := by
  refine ⟨?_, ?_, rfl, rfl, rfl⟩
  · intro t ht
    refine ExprNode.All_imp ?_ t (ParseExpression_nodes_ok ht)
    intro e he name args hcall
    subst hcall
    obtain ⟨d, hd, harg⟩ := he
    refine ⟨d, hd, ?_⟩
    rcases harg with h | h
    · have := hreg name d hd
      exact Or.inl (by omega)
    · exact Or.inr h.symm
  · intro t0 t1 rest hP hty hv
    refine ⟨ParseExpression_undefined reg s t0 t1 rest hP hty hv, ?_,
      ParseExpression_undefined defaultRegistry s t0 t1 rest hP hty hv rfl⟩
    rintro ⟨t, ht⟩
    cases hd : reg.defFunc t0.Value with
    | some d => rfl
    | none =>
      rw [ParseExpression_undefined reg s t0 t1 rest hP hty hv hd] at ht
      cases ht

/-- Witness of C7: the call `f(1,2)` under a registry that holds `f` with arity 2. -/
theorem C7_calls_validated_witness :
    ExprNode.All (fun e => ∀ name args, e = FunCallerExprNode name args →
        ∃ d, (registryWith ['f'] (exampleFunc 2)).defFunc name = some d ∧
          (d.Argc = -1 ∨ d.Argc = args.length))
      (FunCallerExprNode ['f'] [NumberExprNode (F64.ofInt 1) ['1'],
        NumberExprNode (F64.ofInt 2) ['2']]) :=
  (C7_calls_validated (registryWith ['f'] (exampleFunc 2)) "f(1,2)".toList
    (by
      intro name d hd
      simp only [registryWith] at hd
      split at hd
      · cases hd; decide
      · cases hd)).1 _ rfl

/-- The code at the failing input of C8: with `f` registered as variadic, the sources
`f(1 2 3)`, `f(1(2)` and `f(1,,2)` are accepted; the token `2` of the first and the token
`(` of the second are discarded. -/
theorem C8_code_at_failing_input :
    ParseExpression (registryWith ['f'] (exampleFunc (-1))) "f(1 2 3)".toList =
        .done (.ok (FunCallerExprNode ['f'] [NumberExprNode (F64.ofInt 1) ['1'],
          NumberExprNode (F64.ofInt 3) ['3']])) ∧
      ParseExpression (registryWith ['f'] (exampleFunc (-1))) "f(1(2)".toList =
        .done (.ok (FunCallerExprNode ['f'] [NumberExprNode (F64.ofInt 1) ['1'],
          NumberExprNode (F64.ofInt 2) ['2']])) ∧
      ParseExpression (registryWith ['f'] (exampleFunc (-1))) "f(1,,2)".toList =
        .done (.ok (FunCallerExprNode ['f'] [NumberExprNode (F64.ofInt 1) ['1'],
          NumberExprNode (F64.ofInt 2) ['2']])) ∧
      ParseExpression (registryWith ['f'] (exampleFunc 2)) "f(1 2 3)".toList =
        .done (.ok (FunCallerExprNode ['f'] [NumberExprNode (F64.ofInt 1) ['1'],
          NumberExprNode (F64.ofInt 3) ['3']])) := by
  refine ⟨rfl, rfl, rfl, rfl⟩

/-- C9. A bare identifier never causes a parse error: when the current token is an
identifier and the token after it is not `(`, `parsePrimary` returns the constant node
with the registry's value when the name is a registered constant and the variable node
otherwise, and leaves `Err` as it was; `pi`, `e` and `infty` are constants by default. -/
theorem C9_bare_identifier (reg : Registry) (a : AST) (t : Token) (fuel : Nat)
    (ht : a.currTok = some t) (hty : t.Typ = IdentifierType) (hname : t.Value ≠ ['('])
    (hnext : ∀ t1, a.getNextToken.2 = some t1 → t1.Value ≠ ['(']) :
    AST.parsePrimary reg (fuel + 2) a =
        .done (AST.constOrVariable reg t.Value, a.getNextToken.1) ∧
      a.getNextToken.1.Err = a.Err ∧
      (∀ v, reg.defConst t.Value = some v →
        AST.constOrVariable reg t.Value = ConstExprNode t.Value (formatFixed 0 v) v) ∧
      (reg.defConst t.Value = none →
        AST.constOrVariable reg t.Value = VariableExprNode t.Value) ∧
      ParseExpression defaultRegistry "pi".toList =
        .done (.ok (ConstExprNode "pi".toList "3".toList mathPi)) ∧
      ParseExpression defaultRegistry "e".toList =
        .done (.ok (ConstExprNode "e".toList "3".toList mathE)) ∧
      ParseExpression defaultRegistry "infty".toList =
        .done (.ok (ConstExprNode "infty".toList "0".toList F64.zero)) ∧
      ParseExpression defaultRegistry "x".toList = .done (.ok (VariableExprNode "x".toList)) := by
  refine ⟨?_, AST.getNextToken_Err a, ?_, ?_, rfl, rfl, rfl, rfl⟩
  · have hcur : ∃ t1, a.getNextToken.1.currTok = some t1 ∧ t1.Value ≠ ['('] := by
      cases hn : a.getNextToken.2 with
      | some t1 =>
        refine ⟨t1, ?_, hnext t1 hn⟩
        unfold AST.getNextToken at hn ⊢
        simp only at hn ⊢
        split at hn <;> simp_all
      | none =>
        refine ⟨t, ?_, hname⟩
        unfold AST.getNextToken at hn ⊢
        simp only at hn ⊢
        split at hn <;> simp_all
    obtain ⟨t1, ht1, hv1⟩ := hcur
    rw [AST.parsePrimary]
    simp only [AST.tok, ht, hty, Run.bind_done]
    rw [AST.parseFunCallerOrConst]
    simp [AST.tok, ht, ht1, hv1]
  · intro v hv
    simp [AST.constOrVariable, hv]
  · intro hv
    simp [AST.constOrVariable, hv]

/-- Witness of C9: the identifier `x` as the only token. -/
theorem C9_bare_identifier_witness :
    AST.parsePrimary defaultRegistry 2
        { source := "x".toList, currTok := some ⟨['x'], IdentifierType, 0, 0⟩, currIndex := 0,
          depth := 1, Tokens := [⟨['x'], IdentifierType, 0, 0⟩], Err := none } =
      .done (VariableExprNode ['x'],
        { source := "x".toList, currTok := some ⟨['x'], IdentifierType, 0, 0⟩, currIndex := 1,
          depth := 1, Tokens := [⟨['x'], IdentifierType, 0, 0⟩], Err := none }) :=
  (C9_bare_identifier defaultRegistry
    { source := "x".toList, currTok := some ⟨['x'], IdentifierType, 0, 0⟩, currIndex := 0,
      depth := 1, Tokens := [⟨['x'], IdentifierType, 0, 0⟩], Err := none }
    ⟨['x'], IdentifierType, 0, 0⟩ 0 rfl rfl (by decide)
    (by intro t1 h; cases h)).1

/-- C10. Variable evaluation follows the binding: for every name `n`, `Calculate` of the
variable node `n` returns the float64 of `v` when the context binds `n` to a number `v` of
any supported width, continues with `Calculate` of the parsed tree when it binds `n` to a
string that parses, and fails when the context has no `Parameter` or no binding for `n`;
so `x+1` under the binding of `x` to 5 evaluates to 6 and `y+1` with `y` unbound fails. -/
theorem C10_variable_evaluation (reg : Registry) (pow : F64 → F64 → F64) (n : GoString)
    (p : Parameter) (fuel : Nat) :
    (∀ v : Int, p.Vars n = some (.int v) →
        Calculate reg pow (fuel + 1) (VariableExprNode n) (some p) = .done (F64.ofInt v)) ∧
      (∀ v : Nat, p.Vars n = some (.uint v) →
        Calculate reg pow (fuel + 1) (VariableExprNode n) (some p) = .done (F64.ofInt v)) ∧
      (∀ v : F64, p.Vars n = some (.float32 v) →
        Calculate reg pow (fuel + 1) (VariableExprNode n) (some p) = .done v) ∧
      (∀ v : F64, p.Vars n = some (.float64 v) →
        Calculate reg pow (fuel + 1) (VariableExprNode n) (some p) = .done v) ∧
      (∀ (s : GoString) (t : ExprNode), p.Vars n = some (.str s) →
        ParseExpression reg s = .done (.ok t) →
        Calculate reg pow (fuel + 1) (VariableExprNode n) (some p) =
          Calculate reg pow fuel t (some p)) ∧
      Calculate reg pow (fuel + 1) (VariableExprNode n) none =
        .panicked "no parameter found" ∧
      (p.Vars n = none →
        Calculate reg pow (fuel + 1) (VariableExprNode n) (some p) =
          .panicked "no parameter value found") ∧
      F64.ofInt 5 = F64.fin 5 0 ∧
      CalculateSource defaultRegistry pow (fuel + 2) "x+1".toList (some exampleParameter) =
        .done (.ok (F64.ofInt 6)) ∧
      (CalculateSource defaultRegistry pow (fuel + 2) "y+1".toList
        (some exampleParameter)).panics = true ∧
      (CalculateSource defaultRegistry pow (fuel + 2) "y+1".toList none).panics = true := by
  refine ⟨?_, ?_, ?_, ?_, ?_, rfl, ?_, by decide, rfl, rfl, rfl⟩
  · intro v h
    rw [Calculate]
    simp [GetCtxParameter, h]
  · intro v h
    rw [Calculate]
    simp [GetCtxParameter, h]
  · intro v h
    rw [Calculate]
    simp [GetCtxParameter, h]
  · intro v h
    rw [Calculate]
    simp [GetCtxParameter, h]
  · intro s t h hp
    rw [Calculate]
    simp [GetCtxParameter, h, hp]
  · intro h
    rw [Calculate]
    simp [GetCtxParameter, h]


/-! ## The parser does not depend on offsets -/

theorem Run.Same.bind {α β : Type} {R : α → α → Prop} {Q : β → β → Prop} {x x1 : Run α}
    {f f1 : α → Run β} (h : Run.Same R x x1)
    (hf : ∀ v v1, R v v1 → Run.Same Q (f v) (f1 v1)) :
    Run.Same Q (x >>= f) (x1 >>= f1) := by
  cases x <;> cases x1 <;> simp_all [Run.Same]

theorem Token.SameOpt_get? {ts ts1 : List Token} (h : List.Forall₂ Token.Same ts ts1) :
    ∀ i, Token.SameOpt (ts.get? i) (ts1.get? i) := by
  induction h with
  | nil => intro i; simp [Token.SameOpt]
  | cons hx _ ih =>
    intro i
    cases i with
    | zero => simpa [Token.SameOpt] using hx
    | succ n => simpa using ih n

namespace AST

theorem Same.getNextToken_same {a a1 : AST} (h : AST.Same a a1) :
    AST.Same a.getNextToken.1 a1.getNextToken.1 ∧
      Token.SameOpt a.getNextToken.2 a1.getNextToken.2 := by
  obtain ⟨hi, hd, hc, ht, he⟩ := h
  have hg := Token.SameOpt_get? ht (a.currIndex + 1)
  unfold AST.getNextToken
  simp only [← hi]
  cases h1 : a.Tokens.get? (a.currIndex + 1) <;>
    cases h2 : a1.Tokens.get? (a.currIndex + 1) <;>
    simp only [h1, h2, Token.SameOpt] at hg ⊢
  · exact ⟨⟨by simp [hi], hd, hc, ht, he⟩, trivial⟩
  · exact ⟨⟨by simp [hi], hd, hg, ht, he⟩, hg⟩

theorem Same.tok {a a1 : AST} (h : AST.Same a a1) : Run.Same Token.Same a.tok a1.tok := by
  obtain ⟨_, _, hc, _, _⟩ := h
  unfold AST.tok
  cases h1 : a.currTok <;> cases h2 : a1.currTok <;> simp_all [Token.SameOpt, Run.Same]

theorem Same.getTokPrecedence {a a1 : AST} (h : AST.Same a a1) :
    a.getTokPrecedence = a1.getTokPrecedence := by
  obtain ⟨_, _, hc, _, _⟩ := h
  unfold AST.getTokPrecedence AST.tok
  cases h1 : a.currTok <;> cases h2 : a1.currTok <;> simp_all [Token.SameOpt]
  rw [hc.1]

theorem Same.setErr {a a1 : AST} (h : AST.Same a a1) (e e1 : GoError) :
    AST.Same { a with Err := some e } { a1 with Err := some e1 } := by
  obtain ⟨hi, hd, hc, ht, _⟩ := h
  exact ⟨hi, hd, hc, ht, rfl⟩

theorem Same.parseNumber {a a1 : AST} (h : AST.Same a a1) :
    Run.Same AST.SameResult a.parseNumber a1.parseNumber := by
  unfold AST.parseNumber
  refine Run.Same.bind h.tok ?_
  intro t t1 ht
  rw [← ht.1]
  cases ParseFloat t.Value with
  | none => exact ⟨rfl, h.setErr _ _⟩
  | some v => exact ⟨by rw [ht.1], h.getNextToken_same.1⟩

theorem Same.leave {a a1 : AST} (h : AST.Same a a1) :
    Run.Same AST.Same a.leave a1.leave := by
  have h0 := h
  obtain ⟨hi, hd, hc, ht, he⟩ := h
  have hl : a.Tokens.length = a1.Tokens.length := ht.length_eq
  have hen : a.Err = none ↔ a1.Err = none := by
    cases h1 : a.Err <;> cases h2 : a1.Err <;> simp_all
  unfold AST.leave
  simp only [Run.pure_eq, Run.bind_done, ← hd, ← hi, ← hl]
  by_cases hcnd : a.depth - 1 = 0 ∧ a.currIndex ≠ a.Tokens.length ∧ a.Err = none
  · have hcnd1 : a.depth - 1 = 0 ∧ a.currIndex ≠ a.Tokens.length ∧ a1.Err = none :=
      ⟨hcnd.1, hcnd.2.1, hen.1 hcnd.2.2⟩
    simp only [hcnd, hcnd1, and_self, ne_eq, not_false_eq_true, if_true]
    have ht0 : Run.Same Token.Same (AST.tok { a with depth := a.depth - 1 })
        (AST.tok { a1 with depth := a.depth - 1 }) := by
      have := h0.tok
      simpa [AST.tok] using this
    refine Run.Same.bind ht0 ?_
    intro t t1 _
    exact ⟨rfl, by simp, hc, ht, rfl⟩
  · have hcnd1 : ¬ (a.depth - 1 = 0 ∧ a.currIndex ≠ a.Tokens.length ∧ a1.Err = none) :=
      fun hx => hcnd ⟨hx.1, hx.2.1, hen.2 hx.2.2⟩
    simp only [hcnd, hcnd1, if_false]
    exact ⟨rfl, by simp, hc, ht, he⟩

theorem Same.finishCall {a a1 : AST} (h : AST.Same a a1) (name : GoString) (d : DefFunc)
    (exprs : List ExprNode) :
    Run.Same AST.SameResult (a.finishCall name d exprs) (a1.finishCall name d exprs) := by
  unfold AST.finishCall
  refine Run.Same.bind h.tok ?_
  intro t t1 _
  simp only [Run.pure_eq]
  refine ⟨rfl, ?_⟩
  split
  · exact (h.setErr _ _).getNextToken_same.1
  · exact h.getNextToken_same.1

end AST

theorem Run.Same.of_eq {α : Type} (x : Run α) : Run.Same Eq x x := by
  cases x <;> simp [Run.Same]

theorem AST.Same.setDepth {a a1 : AST} (h : AST.Same a a1) :
    AST.Same { a with depth := a.depth + 1 } { a1 with depth := a1.depth + 1 } := by
  obtain ⟨hi, hd, hc, ht, he⟩ := h
  exact ⟨hi, by simp [hd], hc, ht, he⟩

open AST in
theorem AST.same_run (reg : Registry) : ∀ fuel : Nat,
    (∀ a a1, AST.Same a a1 → Run.Same AST.SameResult
      (AST.ParseExpression reg fuel a) (AST.ParseExpression reg fuel a1)) ∧
    (∀ a a1, AST.Same a a1 → Run.Same AST.SameResult
      (AST.parsePrimary reg fuel a) (AST.parsePrimary reg fuel a1)) ∧
    (∀ a a1, AST.Same a a1 → Run.Same AST.SameResult
      (AST.parseFunCallerOrConst reg fuel a) (AST.parseFunCallerOrConst reg fuel a1)) ∧
    (∀ exprs a a1, AST.Same a a1 → Run.Same AST.SameArgs
      (AST.parseArgs reg fuel exprs a) (AST.parseArgs reg fuel exprs a1)) ∧
    (∀ a a1, AST.Same a a1 → Run.Same AST.SameResult
      (AST.parseOperator reg fuel a) (AST.parseOperator reg fuel a1)) ∧
    (∀ p lhs a a1, AST.Same a a1 → Run.Same AST.SameResult
      (AST.parseBinOpRHS reg fuel p lhs a) (AST.parseBinOpRHS reg fuel p lhs a1)) := by
  intro fuel
  induction fuel with
  | zero =>
    refine ⟨?_, ?_, ?_, ?_, ?_, ?_⟩
    · intro a a1 _; rw [AST.ParseExpression, AST.ParseExpression]; trivial
    · intro a a1 _; rw [AST.parsePrimary, AST.parsePrimary]; trivial
    · intro a a1 _; rw [AST.parseFunCallerOrConst, AST.parseFunCallerOrConst]; trivial
    · intro exprs a a1 _; rw [AST.parseArgs, AST.parseArgs]; trivial
    · intro a a1 _; rw [AST.parseOperator, AST.parseOperator]; trivial
    · intro p lhs a a1 _; rw [AST.parseBinOpRHS, AST.parseBinOpRHS]; trivial
  | succ n ih =>
    obtain ⟨ihE, ihP, ihF, ihA, ihO, ihB⟩ := ih
    refine ⟨?_, ?_, ?_, ?_, ?_, ?_⟩
    · intro a a1 h
      rw [AST.ParseExpression, AST.ParseExpression]
      refine Run.Same.bind (ihP _ _ h.setDepth) ?_
      rintro ⟨lhs, a2⟩ ⟨lhs1, a3⟩ ⟨hl, hs⟩
      simp only at hl hs
      subst hl
      refine Run.Same.bind (ihB _ _ _ _ hs) ?_
      rintro ⟨r, a4⟩ ⟨r1, a5⟩ ⟨hr, hs2⟩
      simp only at hr hs2
      subst hr
      refine Run.Same.bind hs2.leave ?_
      intro b b1 hb
      exact ⟨rfl, hb⟩
    · intro a a1 h
      rw [AST.parsePrimary, AST.parsePrimary]
      refine Run.Same.bind h.tok ?_
      intro t t1 ht
      rw [← ht.2]
      cases t.Typ with
      | IdentifierType => exact ihF _ _ h
      | LiteralType => exact h.parseNumber
      | OperatorType => exact ihO _ _ h
      | CommaType => rw [← ht.1]; exact ⟨rfl, h.setErr _ _⟩
    · intro a a1 h
      rw [AST.parseFunCallerOrConst, AST.parseFunCallerOrConst]
      refine Run.Same.bind h.tok ?_
      intro t t1 ht
      dsimp only
      have hn := h.getNextToken_same.1
      refine Run.Same.bind hn.tok ?_
      intro u u1 hu
      rw [← hu.1, ← ht.1]
      by_cases hv : u.Value = ['(']
      · simp only [hv, if_true]
        cases hd : reg.defFunc t.Value with
        | none => exact ⟨rfl, hn.setErr _ _⟩
        | some d =>
          dsimp only
          have hn2 := hn.getNextToken_same.1
          refine Run.Same.bind hn2.tok ?_
          intro w w1 hw
          rw [← hw.1]
          by_cases hv2 : w.Value = [')']
          · simp only [hv2, if_true, Run.pure_eq, Run.bind_done]
            exact hn2.finishCall _ _ _
          · simp only [hv2, if_false]
            refine Run.Same.bind (ihE _ _ hn2) ?_
            rintro ⟨e, a2⟩ ⟨e1, a3⟩ ⟨he, hs⟩
            simp only at he hs
            subst he
            refine Run.Same.bind (ihA _ _ _ hs) ?_
            rintro ⟨ex, a4⟩ ⟨ex1, a5⟩ ⟨he, hs2⟩
            simp only at he hs2
            subst he
            exact hs2.finishCall _ _ _
      · simp only [hv, if_false]
        exact ⟨rfl, hn⟩
    · intro exprs a a1 h
      rw [AST.parseArgs, AST.parseArgs]
      refine Run.Same.bind h.tok ?_
      intro t t1 ht
      rw [← ht.1]
      by_cases hv : t.Value = [')']
      · simp only [hv, ne_eq, not_true_eq_false, if_false]
        exact ⟨rfl, h⟩
      · simp only [ne_eq, hv, not_false_eq_true, if_true]
        obtain ⟨hg1, hg2⟩ := h.getNextToken_same
        cases h1 : a.getNextToken.2 <;> cases h2 : a1.getNextToken.2 <;>
          simp only [h1, h2, Token.SameOpt] at hg2 ⊢
        · exact ⟨rfl, hg1⟩
        · rename_i u u1
          rw [← hg2.2]
          by_cases hc : u.Typ = CommaType
          · simp only [hc, if_true]
            exact ihA _ _ _ hg1
          · simp only [hc, if_false]
            refine Run.Same.bind (ihE _ _ hg1) ?_
            rintro ⟨e, a2⟩ ⟨e1, a3⟩ ⟨he, hs⟩
            simp only at he hs
            subst he
            exact ihA _ _ _ hs
    · intro a a1 h
      rw [AST.parseOperator, AST.parseOperator]
      refine Run.Same.bind h.tok ?_
      intro t t1 ht
      rw [← ht.1]
      obtain ⟨hg1, hg2⟩ := h.getNextToken_same
      by_cases hv : t.Value = ['(']
      · simp only [hv, if_true]
        cases h1 : a.getNextToken.2 <;> cases h2 : a1.getNextToken.2 <;>
          simp only [h1, h2, Token.SameOpt] at hg2 ⊢
        · refine Run.Same.bind hg1.tok ?_
          intro u u1 _
          exact ⟨rfl, hg1.setErr _ _⟩
        · refine Run.Same.bind (ihE _ _ hg1) ?_
          rintro ⟨e, a2⟩ ⟨e1, a3⟩ ⟨he, hs⟩
          simp only at he hs
          subst he
          cases hnil : e.isNil with
          | true =>
            simp only [if_true]
            exact ⟨rfl, hs⟩
          | false =>
            simp only [Bool.false_eq_true, if_false]
            refine Run.Same.bind hs.tok ?_
            intro w w1 hw
            rw [← hw.1]
            by_cases hv2 : w.Value = [')']
            · simp only [hv2, ne_eq, not_true_eq_false, if_false]
              exact ⟨rfl, hs.getNextToken_same.1⟩
            · simp only [ne_eq, hv2, not_false_eq_true, if_true]
              exact ⟨rfl, hs.setErr _ _⟩
      · simp only [hv, if_false]
        by_cases hm : t.Value = ['-']
        · simp only [hm, if_true]
          cases h1 : a.getNextToken.2 <;> cases h2 : a1.getNextToken.2 <;>
            simp only [h1, h2, Token.SameOpt] at hg2 ⊢
          · refine Run.Same.bind hg1.tok ?_
            intro u u1 _
            exact ⟨rfl, hg1.setErr _ _⟩
          · refine Run.Same.bind (ihP _ _ hg1) ?_
            rintro ⟨e, a2⟩ ⟨e1, a3⟩ ⟨he, hs⟩
            simp only at he hs
            subst he
            exact ⟨rfl, hs⟩
        · simp only [hm, if_false]
          exact h.parseNumber
    · intro p lhs a a1 h
      rw [AST.parseBinOpRHS, AST.parseBinOpRHS]
      refine Run.Same.bind (R := Eq) (by rw [h.getTokPrecedence]; exact Run.Same.of_eq _) ?_
      rintro tp _ rfl
      by_cases hlt : tp < p
      · simp only [hlt, if_true]
        exact ⟨rfl, h⟩
      · simp only [hlt, if_false]
        refine Run.Same.bind h.tok ?_
        intro t t1 ht
        dsimp only
        rw [← ht.1]
        obtain ⟨hg1, hg2⟩ := h.getNextToken_same
        cases h1 : a.getNextToken.2 <;> cases h2 : a1.getNextToken.2 <;>
          simp only [h1, h2, Token.SameOpt] at hg2 ⊢
        · refine Run.Same.bind hg1.tok ?_
          intro u u1 _
          exact ⟨rfl, hg1.setErr _ _⟩
        · refine Run.Same.bind (ihP _ _ hg1) ?_
          rintro ⟨rhs, a2⟩ ⟨e1, a3⟩ ⟨he, hs⟩
          simp only at he hs
          subst he
          cases hnil : rhs.isNil with
          | true =>
            simp only [if_true]
            exact ⟨rfl, hs⟩
          | false =>
            simp only [Bool.false_eq_true, if_false]
            refine Run.Same.bind (R := Eq)
              (by rw [hs.getTokPrecedence]; exact Run.Same.of_eq _) ?_
            rintro np _ rfl
            by_cases hc : tp < np
            · simp only [hc, if_true]
              refine Run.Same.bind (ihB _ _ _ _ hs) ?_
              rintro ⟨rhs1, a4⟩ ⟨e2, a5⟩ ⟨he, hs2⟩
              simp only at he hs2
              subst he
              cases hnil1 : rhs1.isNil with
              | true =>
                simp only [if_true]
                exact ⟨rfl, hs2⟩
              | false =>
                simp only [Bool.false_eq_true, if_false]
                exact ihB _ _ _ _ hs2
            · simp only [hc, if_false]
              exact ihB _ _ _ _ hs

/-! ## Sources without brackets and names: the tokens of the tree -/

namespace AST

theorem Sync.getNextToken_sync {a : AST} (h : a.Sync) : a.getNextToken.1.Sync := by
  unfold AST.getNextToken
  simp only
  cases hg : a.Tokens.get? (a.currIndex + 1) with
  | none =>
    refine ⟨h.1, ?_⟩
    intro hlt
    simp only at hlt
    rw [List.get?_eq_none] at hg
    omega
  | some t =>
    refine ⟨?_, ?_⟩
    · intro t1 ht1
      simp only [Option.some.injEq] at ht1
      subst ht1
      exact List.get?_mem hg
    · intro _
      exact hg

theorem keys_getNextToken {a : AST} {t : Token} (h : a.Tokens.get? a.currIndex = some t) :
    a.getNextToken.1.keys = a.keys ++ [t.key] := by
  unfold AST.keys
  rw [getNextToken_Tokens, getNextToken_currIndex, List.take_succ]
  simp only [List.get?_eq_getElem?] at h
  simp [h]

theorem getNextToken_some {a : AST} {t : Token} (h : a.getNextToken.2 = some t) :
    a.currIndex + 1 < a.Tokens.length := by
  unfold AST.getNextToken at h
  simp only [List.get?_eq_getElem?] at h
  cases hg : a.Tokens[a.currIndex + 1]? with
  | none => simp [hg] at h
  | some t1 =>
    by_contra hlt
    have := List.getElem?_eq_none (Nat.le_of_not_lt hlt)
    rw [this] at hg
    cases hg

end AST

theorem PlainLiteral.not_operator {s : GoString} (h : PlainLiteral s) :
    ∃ c cs, s = c :: cs ∧ Operators c = none := by
  obtain ⟨c, cs, rfl, hd, _, _⟩ := h
  exact ⟨c, cs, rfl, Parser.digit_not_operator c hd⟩

theorem Token.Plain.typ {t : Token} (h : t.Plain) :
    t.Typ = LiteralType ∨ t.Typ = OperatorType := by
  rcases h with ⟨h, _⟩ | ⟨h, _⟩
  · exact Or.inl h
  · exact Or.inr h

theorem plainOps_precOf {c : Char} (h : c ∈ plainOps) : 0 ≤ precOf c := by
  simp only [plainOps, List.mem_cons, List.mem_singleton, List.not_mem_nil, or_false] at h
  rcases h with h | h | h | h | h <;> subst h <;> decide

theorem plainOps_ParseFloat {c : Char} (h : c ∈ plainOps) : ParseFloat [c] = none := by
  simp only [plainOps, List.mem_cons, List.mem_singleton, List.not_mem_nil, or_false] at h
  rcases h with h | h | h | h | h <;> subst h <;> decide

/-- A plain token with a precedence of at least zero is an operator token. -/
theorem Token.Plain.operator {t : Token} (h : t.Plain) {c : Char} {cs : GoString}
    (hv : t.Value = c :: cs) (hp : 0 ≤ precOf c) :
    t.Typ = OperatorType ∧ c ∈ plainOps ∧ cs = [] := by
  rcases h with ⟨_, hl⟩ | ⟨ht, d, hd, hdv⟩
  · obtain ⟨c1, cs1, h1, h2⟩ := hl.not_operator
    rw [hv] at h1
    cases h1
    simp [precOf, h2] at hp
  · rw [hv] at hdv
    cases hdv
    exact ⟨ht, hd, rfl⟩

/-- A plain token that `strconv.ParseFloat` reads is a literal token. -/
theorem Token.Plain.literal {t : Token} (h : t.Plain) {v : F64}
    (hv : ParseFloat t.Value = some v) : t.Typ = LiteralType ∧ PlainLiteral t.Value := by
  rcases h with h | ⟨_, d, hd, hdv⟩
  · exact h
  · rw [hdv, plainOps_ParseFloat hd] at hv
    cases hv

theorem PlainLiteral.tokens {s : GoString} (h : PlainLiteral s) (v : F64) :
    (NumberExprNode v s).tokens = [(s, LiteralType)] := by
  obtain ⟨c, cs, rfl, _⟩ := h
  rfl

theorem Token.Plain.not_bracket {t : Token} (h : t.Plain) : t.Value ≠ ['('] := by
  intro hv
  have hp : 0 ≤ precOf '(' → False := by decide
  rcases h with ⟨_, hl⟩ | ⟨_, d, hd, hdv⟩
  · obtain ⟨c1, cs1, h1, h2⟩ := hl.not_operator
    rw [hv] at h1
    cases h1
    revert h2
    decide
  · rw [hv] at hdv
    cases hdv
    exact hp (plainOps_precOf hd)

theorem ExprNode.Plain.not_nil {e : ExprNode} (h : e.Plain) : e.isNil = false := by
  cases e <;> first | rfl | exact absurd h (by simp [ExprNode.Plain])

theorem ExprNode.Plain.op {c : Char} {l r : ExprNode} (hc : c ∈ plainOps)
    (hl : l.Plain ∨ ([c] = ['-'] ∧ ∃ v, l = NumberExprNode v [])) (hr : r.Plain) :
    (OperatorExprNode [c] l r false).Plain := by
  rw [ExprNode.Plain]
  exact ⟨rfl, ⟨c, hc, rfl⟩, hl, hr⟩

theorem ExprNode.tokens_op (op : GoString) (l r : ExprNode) (f : Bool) :
    (OperatorExprNode op l r f).tokens = l.tokens ++ (op, OperatorType) :: r.tokens := by
  rw [ExprNode.tokens]

theorem AST.parseNumber_consumed {a a1 : AST} {e : ExprNode}
    (hn : a.parseNumber = .done (e, a1)) (hp : ∀ t ∈ a.Tokens, t.Plain) (hs : a.Sync)
    (h1 : a1.Err = none) (hlt : a.currIndex < a.Tokens.length) : AST.Consumed a e a1 := by
  obtain ⟨t, ht, ⟨v, hv, rfl, rfl⟩ | ⟨_, _, rfl⟩⟩ := AST.parseNumber_inv hn
  · have hpl := (hp t (hs.1 t ht)).literal hv
    have hg : a.Tokens.get? a.currIndex = some t := by rw [hs.2 hlt, ht]
    refine ⟨AST.getNextToken_Tokens a, hs.getNextToken_sync, AST.getNextToken_depth a, hpl.2, ?_⟩
    rw [AST.keys_getNextToken hg, hpl.2.tokens, Token.key, hpl.1]
  · cases h1

/-- On a list of literal and `+ - * / ^` tokens, a run that ends without error returns a
tree whose tokens, from left to right, are the tokens the run consumed. -/
theorem Parsed.inorder {reg : Registry} {c : Call} {a a1 : AST} {e : ExprNode}
    {es : List ExprNode} (h : Parsed reg c a e es a1) :
    (∀ t ∈ a.Tokens, t.Plain) → a.Sync → a1.Err = none →
    match c with
    | .expression => a.currIndex < a.Tokens.length →
        AST.Consumed a e a1 ∧ (a.depth = 0 → a1.currIndex = a1.Tokens.length)
    | .primary => a.currIndex < a.Tokens.length → AST.Consumed a e a1
    | .operator => a.currIndex < a.Tokens.length → AST.Consumed a e a1
    | .binOpRHS p lhs => 0 ≤ p →
        a1.Tokens = a.Tokens ∧ a1.Sync ∧ a1.depth = a.depth ∧ (lhs.Plain → e.Plain) ∧
          ∀ pre, a.keys = pre ++ lhs.tokens → a1.keys = pre ++ e.tokens
    | _ => True := by
  induction h with
  | expression a a2 a3 a4 lhs r h1 h2 hl ih1 ih2 =>
    intro hp hs h4 hlt
    rcases AST.leave_inv hl with ⟨rfl, hnc⟩ | ⟨t, _, _, rfl⟩
    · have e3 : a3.Err = none := h4
      have e2 := h2.err_none e3
      obtain ⟨ht1, hs1, hd1, hp1, hk1⟩ := ih1 hp ⟨hs.1, hs.2⟩ e2 hlt
      obtain ⟨ht2, hs2, hd2, hp2, hk2⟩ := ih2 (by rw [ht1]; exact hp) hs1 e3 (le_refl 0)
      have hd3 : a3.depth - 1 = a.depth := by
        rw [hd2, hd1]
        show a.depth + 1 - 1 = a.depth
        omega
      refine ⟨⟨ht2.trans ht1, ⟨hs2.1, hs2.2⟩, hd3, hp2 hp1, hk2 _ hk1⟩, ?_⟩
      intro hd0
      by_contra hne
      exact hnc ⟨by rw [hd3]; exact hd0, hne, e3⟩
    · cases h4
  | primary_identifier a a1 t e ht hty _ ih =>
    intro hp hs _ _
    rcases (hp t (hs.1 t ht)).typ with h | h <;> rw [hty] at h <;> cases h
  | primary_literal a a1 t e _ _ hn =>
    intro hp hs h1 hlt
    exact AST.parseNumber_consumed hn hp hs h1 hlt
  | primary_operator a a1 t e _ _ _ ih => exact ih
  | primary_comma a t _ _ => intro _ _ h; cases h
  | call_const a t t1 _ _ _ => intro _ _ _; trivial
  | call_undefined a t t1 _ _ _ _ => intro _ _ _; trivial
  | call_noArgs a a1 t t1 t2 d e _ _ _ _ _ _ _ => intro _ _ _; trivial
  | call_args a a3 a4 a1 t t1 t2 d e0 e exprs _ _ _ _ _ _ _ _ _ _ _ => intro _ _ _; trivial
  | args_done exprs a t _ _ => intro _ _ _; trivial
  | args_eof exprs a t _ _ _ => intro _ _ _; trivial
  | args_comma exprs exprs1 a a1 t t1 _ _ _ _ _ _ => intro _ _ _; trivial
  | args_expression exprs exprs1 a a2 a1 t t1 e _ _ _ _ _ _ _ _ => intro _ _ _; trivial
  | bracket_eof a t t1 _ _ _ _ => intro _ _ h; cases h
  | bracket_nil a a2 t t1 e ht hv _ _ _ _ =>
    intro hp hs _ _
    exact absurd hv (hp t (hs.1 t ht)).not_bracket
  | bracket_unclosed a a2 t t1 t2 e _ _ _ _ _ _ _ _ => intro _ _ h; cases h
  | bracket a a2 t t1 t2 e ht hv _ _ _ _ _ _ =>
    intro hp hs _ _
    exact absurd hv (hp t (hs.1 t ht)).not_bracket
  | minus_eof a t t1 _ _ _ _ _ => intro _ _ h; cases h
  | minus a a2 t t1 rhs ht hv hm hn _ ih =>
    intro hp hs h2 hlt
    have hgn := AST.getNextToken_some hn
    obtain ⟨ht1, hs1, hd1, hp1, hk1⟩ := ih (by rw [AST.getNextToken_Tokens]; exact hp)
      hs.getNextToken_sync h2 (by rw [AST.getNextToken_Tokens, AST.getNextToken_currIndex]; exact hgn)
    have hg : a.Tokens.get? a.currIndex = some t := by rw [hs.2 hlt, ht]
    have hty : t.Typ = OperatorType := ((hp t (hs.1 t ht)).operator hm (by decide)).1
    refine ⟨ht1.trans (AST.getNextToken_Tokens a), hs1, hd1.trans (AST.getNextToken_depth a),
      ExprNode.Plain.op (by decide) (Or.inr ⟨rfl, _, rfl⟩) hp1, ?_⟩
    rw [hk1, AST.keys_getNextToken hg, ExprNode.tokens_op, Token.key, hm, hty]
    simp [ExprNode.tokens]
  | operator_number a a1 t e _ _ _ hn =>
    intro hp hs h1 hlt
    exact AST.parseNumber_consumed hn hp hs h1 hlt
  | binOp_stop execPrec lhs a p _ _ =>
    intro _ hs _ _
    exact ⟨rfl, hs, rfl, id, fun _ h => h⟩
  | binOp_eof execPrec lhs a p t1 _ _ _ _ => intro _ _ h; cases h
  | binOp_nil execPrec lhs rhs a a2 p t1 _ _ hn _ hnil ih =>
    intro hp hs h2 _
    have hgn := AST.getNextToken_some hn
    obtain ⟨_, _, _, hp1, _⟩ := ih (by rw [AST.getNextToken_Tokens]; exact hp)
      hs.getNextToken_sync h2 (by rw [AST.getNextToken_Tokens, AST.getNextToken_currIndex]; exact hgn)
    rw [hp1.not_nil] at hnil
    cases hnil
  | binOp_climb_nil execPrec lhs rhs rhs1 a a2 a3 p np t1 hprec hge hn _ _ _ _ h2 hnil
      ih1 ih2 =>
    intro hp hs h3 hpos
    have e2 := h2.err_none h3
    have hgn := AST.getNextToken_some hn
    obtain ⟨ht1, hs1, _, hp1, _⟩ := ih1 (by rw [AST.getNextToken_Tokens]; exact hp)
      hs.getNextToken_sync e2 (by rw [AST.getNextToken_Tokens, AST.getNextToken_currIndex]; exact hgn)
    obtain ⟨_, _, _, hp2, _⟩ := ih2 (by rw [ht1, AST.getNextToken_Tokens]; exact hp) hs1 h3
      (by omega)
    rw [(hp2 hp1).not_nil] at hnil
    cases hnil
  | binOp_climb execPrec lhs rhs rhs1 r a a2 a3 a4 p np t t1 hprec hge ht hn _ _ _ _ h2 _ h3
      ih1 ih2 ih3 =>
    intro hp hs h4 hpos
    have e3 := h3.err_none h4
    have e2 := h2.err_none e3
    have hgn := AST.getNextToken_some hn
    obtain ⟨t', c, cs, ht', hv, hpc⟩ := AST.getTokPrecedence_inv hprec
    rw [ht] at ht'
    cases ht'
    obtain ⟨hty, hcin, rfl⟩ := (hp t (hs.1 t ht)).operator hv (by omega)
    have hg : a.Tokens.get? a.currIndex = some t := by rw [hs.2 (by omega), ht]
    obtain ⟨ht1, hs1, hd1, hp1, hk1⟩ := ih1 (by rw [AST.getNextToken_Tokens]; exact hp)
      hs.getNextToken_sync e2 (by rw [AST.getNextToken_Tokens, AST.getNextToken_currIndex]; exact hgn)
    obtain ⟨ht2, hs2, hd2, hp2, hk2⟩ := ih2 (by rw [ht1, AST.getNextToken_Tokens]; exact hp)
      hs1 e3 (by omega)
    obtain ⟨ht3, hs3, hd3, hp3, hk3⟩ := ih3
      (by rw [ht2, ht1, AST.getNextToken_Tokens]; exact hp) hs2 h4 hpos
    refine ⟨by rw [ht3, ht2, ht1, AST.getNextToken_Tokens], hs3,
      by rw [hd3, hd2, hd1, AST.getNextToken_depth], ?_, ?_⟩
    · intro hl
      apply hp3
      rw [hv]
      exact ExprNode.Plain.op hcin (Or.inl hl) (hp2 hp1)
    · intro pre hpre
      apply hk3
      have := hk2 (a.keys ++ [t.key]) (by rw [hk1, AST.keys_getNextToken hg])
      rw [this, hpre, ExprNode.tokens_op, Token.key, hty]
      simp
  | binOp_fold execPrec lhs rhs r a a2 a3 p np t t1 hprec hge ht hn _ _ _ _ h2 ih1 ih2 =>
    intro hp hs h3 hpos
    have e2 := h2.err_none h3
    have hgn := AST.getNextToken_some hn
    obtain ⟨t', c, cs, ht', hv, hpc⟩ := AST.getTokPrecedence_inv hprec
    rw [ht] at ht'
    cases ht'
    obtain ⟨hty, hcin, rfl⟩ := (hp t (hs.1 t ht)).operator hv (by omega)
    have hg : a.Tokens.get? a.currIndex = some t := by rw [hs.2 (by omega), ht]
    obtain ⟨ht1, hs1, hd1, hp1, hk1⟩ := ih1 (by rw [AST.getNextToken_Tokens]; exact hp)
      hs.getNextToken_sync e2 (by rw [AST.getNextToken_Tokens, AST.getNextToken_currIndex]; exact hgn)
    obtain ⟨ht2, hs2, hd2, hp2, hk2⟩ := ih2 (by rw [ht1, AST.getNextToken_Tokens]; exact hp)
      hs1 h3 hpos
    refine ⟨by rw [ht2, ht1, AST.getNextToken_Tokens], hs2,
      by rw [hd2, hd1, AST.getNextToken_depth], ?_, ?_⟩
    · intro hl
      apply hp2
      rw [hv]
      exact ExprNode.Plain.op hcin (Or.inl hl) hp1
    · intro pre hpre
      apply hk2
      rw [hk1, AST.keys_getNextToken hg, hpre, ExprNode.tokens_op, Token.key, hty]
      simp

/-! ## Sources without brackets and names: the printed form -/

/-- Induction over the trees of numbers and the operators `+ - * / ^`. -/
theorem ExprNode.plain_induction {P : ExprNode → Prop}
    (hz : ∀ v, P (NumberExprNode v []))
    (hn : ∀ v s, PlainLiteral s → P (NumberExprNode v s))
    (hop : ∀ c l r, c ∈ plainOps →
      (l.Plain ∨ ([c] = ['-'] ∧ ∃ v, l = NumberExprNode v [])) → r.Plain → P l → P r →
      P (OperatorExprNode [c] l r false)) :
    ∀ t : ExprNode, (t.Plain ∨ ∃ v, t = NumberExprNode v []) → P t := by
  have key : ∀ (n : Nat) (t : ExprNode), t.height ≤ n →
      (t.Plain ∨ ∃ v, t = NumberExprNode v []) → P t := by
    intro n
    induction n with
    | zero => intro t hh; cases t <;> simp [ExprNode.height] at hh
    | succ n ih =>
      intro t hh hp
      rcases hp with hp | ⟨v, rfl⟩
      · cases t with
        | NumberExprNode v s => exact hn v s hp
        | OperatorExprNode op l r flag =>
          rw [ExprNode.Plain] at hp
          obtain ⟨rfl, ⟨c, hc, rfl⟩, hl, hr⟩ := hp
          simp only [ExprNode.height] at hh
          refine hop c l r hc hl hr (ih l (by omega) ?_) (ih r (by omega) (Or.inl hr))
          exact hl.imp id (fun h => h.2)
        | nil => simp [ExprNode.Plain] at hp
        | FunCallerExprNode nm args => simp [ExprNode.Plain] at hp
        | VariableExprNode nm => simp [ExprNode.Plain] at hp
        | ConstExprNode nm s v => simp [ExprNode.Plain] at hp
      · exact hz v
  intro t
  exact key t.height t (le_refl _)

theorem textOf_append (L1 L2 : List Lexeme) : textOf (L1 ++ L2) = textOf L1 ++ textOf L2 := by
  induction L1 with
  | nil => rfl
  | cons l ls ih => simp [textOf, ih]

theorem keysOf_append (L1 L2 : List Lexeme) : keysOf (L1 ++ L2) = keysOf L1 ++ keysOf L2 := by
  induction L1 with
  | nil => rfl
  | cons l ls ih => cases l <;> simp [keysOf, ih]

theorem tokensOf_keys (L : List Lexeme) : ∀ off, (tokensOf off L).map Token.key = keysOf L := by
  induction L with
  | nil => intro off; rfl
  | cons l ls ih => intro off; cases l <;> simp [tokensOf, keysOf, Lexeme.token, Token.key, ih]

theorem lexemesOkBefore_append {next : GoString} {L1 L2 : List Lexeme}
    (h1 : lexemesOkBefore (textOf L2 ++ next) L1) (h2 : lexemesOkBefore next L2) :
    lexemesOkBefore next (L1 ++ L2) := by
  induction L1 with
  | nil => exact h2
  | cons l ls ih =>
    obtain ⟨ha, hb⟩ := h1
    rw [List.cons_append, lexemesOkBefore]
    refine ⟨?_, ih hb⟩
    rw [textOf_append, List.append_assoc]
    exact ha

theorem lexemesOk_iff (L : List Lexeme) : lexemesOk L ↔ lexemesOkBefore [] L := by
  induction L with
  | nil => simp [lexemesOk, lexemesOkBefore]
  | cons l ls ih => simp [lexemesOk, lexemesOkBefore, ih]

theorem separator_spec {c : Char} (hc : c ∈ plainOps) :
    keysOf (separator c) = [([c], OperatorType)] ∧
    (∀ l rest, literalStops l (textOf (separator c) ++ rest) = true) ∧
    (∀ next, next ≠ [] → lexemesOkBefore next (separator c)) := by
  simp only [plainOps, List.mem_cons, List.mem_singleton, List.not_mem_nil, or_false] at hc
  rcases hc with rfl | rfl | rfl | rfl | rfl
  all_goals
    refine ⟨rfl, ?_, ?_⟩
    · intro l rest
      simp [separator, textOf, Lexeme.text, literalStops, Parser.isDigitNum]
    · intro next hne
      simp [separator, lexemesOkBefore, Lexeme.ok, textOf, Lexeme.text, Operators, hne]

theorem renderLex_op (c : Char) (l r : ExprNode) (f : Bool) :
    renderLex (OperatorExprNode [c] l r f) = renderLex l ++ separator c ++ renderLex r := by
  rw [renderLex]
  rfl

theorem PlainLiteral.renderLex {s : GoString} (h : PlainLiteral s) (v : F64) :
    ∃ c cs, s = c :: cs ∧ ('0' ≤ c ∧ c ≤ '9') ∧ literalTail c cs = true ∧
      Parser.removeUnderscores (c :: cs) = c :: cs ∧
      Mathastc.renderLex (NumberExprNode v s) = [.lit c cs] := by
  obtain ⟨c, cs, rfl, hd, ht, hr⟩ := h
  exact ⟨c, cs, rfl, hd, ht, hr, rfl⟩

/-- The printed form of a tree is not empty. -/
theorem renderLex_text_ne (t : ExprNode) (h : t.Plain) : textOf (renderLex t) ≠ [] := by
  cases t with
  | NumberExprNode v s =>
    obtain ⟨c, cs, rfl, _, _, _, hr⟩ := PlainLiteral.renderLex h v
    rw [hr]
    simp [textOf, Lexeme.text]
  | OperatorExprNode op l r flag =>
    rw [ExprNode.Plain] at h
    obtain ⟨rfl, ⟨c, hc, rfl⟩, hl, hr⟩ := h
    rw [renderLex_op, textOf_append, textOf_append]
    have : textOf (separator c) ≠ [] := by
      unfold separator
      split <;> simp [textOf, Lexeme.text]
    simp [this]
  | nil => simp [ExprNode.Plain] at h
  | FunCallerExprNode nm args => simp [ExprNode.Plain] at h
  | VariableExprNode nm => simp [ExprNode.Plain] at h
  | ConstExprNode nm s v => simp [ExprNode.Plain] at h

/-- The tokens of the printed form are the tokens of the tree. -/
theorem renderLex_keys : ∀ t : ExprNode, (t.Plain ∨ ∃ v, t = NumberExprNode v []) →
    keysOf (renderLex t) = t.tokens := by
  apply ExprNode.plain_induction
  · intro v; rfl
  · intro v s hs
    obtain ⟨c, cs, rfl, _, _, hu, hr⟩ := PlainLiteral.renderLex hs v
    rw [hr, keysOf, hu]
    rfl
  · intro c l r hc _ _ ihl ihr
    rw [renderLex_op, keysOf_append, keysOf_append, ihl, ihr, (separator_spec hc).1,
      ExprNode.tokens_op]
    simp

/-- The lexemes of the printed form are well formed in front of any text at which a
literal stops. -/
theorem renderLex_ok : ∀ t : ExprNode, (t.Plain ∨ ∃ v, t = NumberExprNode v []) →
    ∀ next, (∀ l, literalStops l next = true) → lexemesOkBefore next (renderLex t) := by
  apply ExprNode.plain_induction
  · intro v next _; trivial
  · intro v s hs next hnext
    obtain ⟨c, cs, rfl, hd, ht, _, hr⟩ := PlainLiteral.renderLex hs v
    rw [hr]
    exact ⟨⟨hd, ht, hnext _⟩, trivial⟩
  · intro c l r hc _ hr ihl ihr next hnext
    rw [renderLex_op]
    refine lexemesOkBefore_append (lexemesOkBefore_append ?_ ?_) (ihr next hnext)
    · exact ihl _ (fun x => (separator_spec hc).2.1 x _)
    · refine (separator_spec hc).2.2 _ ?_
      simp [renderLex_text_ne r hr]

/-- `ToExprStr` returns the printed form, whatever the context. -/
theorem ToExprStr_plain (reg : Registry) (ctx : Context) :
    ∀ t : ExprNode, (t.Plain ∨ ∃ v, t = NumberExprNode v []) →
    ∀ fuel, t.height ≤ fuel → ToExprStr reg fuel t ctx = .done (textOf (renderLex t)) := by
  apply ExprNode.plain_induction
  · intro v fuel hh
    cases fuel with
    | zero => simp [ExprNode.height] at hh
    | succ n => rfl
  · intro v s hs fuel hh
    obtain ⟨c, cs, rfl, _, _, _, hr⟩ := PlainLiteral.renderLex hs v
    cases fuel with
    | zero => simp [ExprNode.height] at hh
    | succ n =>
      rw [hr, ToExprStr]
      simp [textOf, Lexeme.text]
  · intro c l r hc _ _ ihl ihr fuel hh
    cases fuel with
    | zero => simp [ExprNode.height] at hh
    | succ n =>
      simp only [ExprNode.height] at hh
      rw [ToExprStr, ihl n (by omega), ihr n (by omega), renderLex_op, textOf_append,
        textOf_append]
      simp only [plainOps, List.mem_cons, List.mem_singleton, List.not_mem_nil, or_false] at hc
      rcases hc with rfl | rfl | rfl | rfl | rfl <;> rfl

/-! ## Sources without brackets and names: the round trip -/

theorem literalTail_removeUnderscores : ∀ (cs : GoString) (p q : Char),
    literalTail p cs = true → (p = q ∨ p = '_') →
    literalTail q (Parser.removeUnderscores cs) = true := by
  intro cs
  induction cs with
  | nil => intro p q _ _; rfl
  | cons c cs ih =>
    intro p q h hpq
    rw [literalTail] at h
    simp only [Bool.and_eq_true] at h
    obtain ⟨⟨h1, h2⟩, h3⟩ := h
    by_cases hc : c = '_'
    · subst hc
      have : Parser.removeUnderscores ('_' :: cs) = Parser.removeUnderscores cs := by
        simp [Parser.removeUnderscores]
      rw [this]
      exact ih '_' q h3 (Or.inr rfl)
    · have : Parser.removeUnderscores (c :: cs) = c :: Parser.removeUnderscores cs := by
        simp [Parser.removeUnderscores, hc]
      rw [this, literalTail]
      simp only [Bool.and_eq_true]
      refine ⟨⟨h1, ?_⟩, ih c c h3 (Or.inl rfl)⟩
      rcases hpq with rfl | rfl
      · exact h2
      · simp only [Bool.not_eq_true', Bool.and_eq_false_iff] at h2 ⊢
        rcases h2 with h2 | h2
        · exact Or.inl h2
        · exact absurd h2 (by decide)

theorem removeUnderscores_idem (s : GoString) :
    Parser.removeUnderscores (Parser.removeUnderscores s) = Parser.removeUnderscores s := by
  simp [Parser.removeUnderscores, List.filter_filter]

theorem Lexeme.lit_plainLiteral {c : Char} {cs next : GoString}
    (h : (Lexeme.lit c cs).ok next) : PlainLiteral (Parser.removeUnderscores (c :: cs)) := by
  obtain ⟨hd, ht, _⟩ := h
  have hne := Parser.digit_ne_underscore c hd
  have hcons : Parser.removeUnderscores (c :: cs) = c :: Parser.removeUnderscores cs := by
    simp [Parser.removeUnderscores, hne]
  refine ⟨c, Parser.removeUnderscores cs, hcons, hd,
    literalTail_removeUnderscores cs c c ht (Or.inl rfl), removeUnderscores_idem _⟩

/-- The tokens of well-formed plain lexemes are plain tokens. -/
theorem tokensOf_plain : ∀ (F : List Lexeme) (off : Nat), lexemesOk F → plainLexemes F →
    ∀ t ∈ tokensOf off F, t.Plain := by
  intro F
  induction F with
  | nil => intro off _ _ t ht; simp [tokensOf] at ht
  | cons l ls ih =>
    intro off hok hpl t ht
    obtain ⟨hok1, hok2⟩ := hok
    obtain ⟨hpl1, hpl2⟩ := hpl
    cases l with
    | lit c cs =>
      simp only [tokensOf, Lexeme.token, List.mem_cons] at ht
      rcases ht with rfl | ht
      · exact Or.inl ⟨rfl, Lexeme.lit_plainLiteral hok1⟩
      · exact ih _ hok2 hpl2 t ht
    | op c =>
      simp only [tokensOf, Lexeme.token, List.mem_cons] at ht
      rcases ht with rfl | ht
      · exact Or.inr ⟨rfl, c, hpl1, rfl⟩
      · exact ih _ hok2 hpl2 t ht
    | sp =>
      simp only [tokensOf, Lexeme.token] at ht
      exact ih _ hok2 hpl2 t ht

theorem Token.same_of_keys : ∀ (l1 l2 : List Token), l1.map Token.key = l2.map Token.key →
    List.Forall₂ Token.Same l1 l2 := by
  intro l1
  induction l1 with
  | nil =>
    intro l2 h
    cases l2 with
    | nil => exact List.Forall₂.nil
    | cons _ _ => simp at h
  | cons x xs ih =>
    intro l2 h
    cases l2 with
    | nil => simp at h
    | cons y ys =>
      simp only [List.map_cons, List.cons.injEq, Token.key, Prod.mk.injEq] at h
      exact List.Forall₂.cons ⟨h.1.1, h.1.2⟩ (ih ys h.2)

theorem NewAST_same (t0 t1 : Token) (r0 r1 : List Token) (s0 s1 : GoString)
    (h : List.Forall₂ Token.Same (t0 :: r0) (t1 :: r1)) :
    AST.Same (NewAST (t0 :: r0) s0) (NewAST (t1 :: r1) s1) := by
  have h0 : Token.Same t0 t1 := by
    cases h with
    | cons hx _ => exact hx
  exact ⟨rfl, rfl, h0, h, rfl⟩

/-- A source of number literals, the operators `+ - * / ^` and spaces: the tree that
`ParseExpression` returns is printed by `ToExprStr` as a text that `ParseExpression` reads
as the same tree. -/
theorem ParseExpression_render (reg : Registry) (F : List Lexeme) (t : ExprNode)
    (hok : lexemesOk F) (hpl : plainLexemes F)
    (hparse : ParseExpression reg (textOf F) = .done (.ok t)) :
    t.Plain ∧ ParseExpression reg (textOf (renderLex t)) = .done (.ok t) := by
  obtain ⟨toks, a1, hP, hne, hrun, hE, _⟩ := ParseExpression_inv hparse
  have hF : F ≠ [] := by
    rintro rfl
    have hnil : Parse (textOf []) =
        .panicked "runtime error: index out of range [0] with length 0" := rfl
    rw [hnil] at hP
    cases hP
  rw [Parse_lexemes F hok hF] at hP
  simp only [Run.done.injEq, Except.ok.injEq] at hP
  have hplain := tokensOf_plain F 0 hok hpl
  rw [hP] at hplain
  cases htoks : toks with
  | nil => exact absurd htoks hne
  | cons t0 rest =>
    subst htoks
    have hpar := (parsed_of_run reg _).1 _ _ _ hrun
    have hsync : (NewAST (t0 :: rest) (textOf F)).Sync := by
      refine ⟨?_, ?_⟩
      · intro t1 h1
        simp only [NewAST, Option.some.injEq] at h1
        subst h1
        exact List.mem_cons_self _ _
      · intro _
        rfl
    obtain ⟨⟨hT, _, _, hPl, hK⟩, hend⟩ := hpar.inorder hplain hsync hE
      (by simp [NewAST])
    have hlen := hend rfl
    have hkeys : t.tokens = (t0 :: rest).map Token.key := by
      have h1 : a1.keys = (t0 :: rest).map Token.key := by
        unfold AST.keys
        rw [hlen, List.take_length, hT]
        rfl
      have h2 : (NewAST (t0 :: rest) (textOf F)).keys = [] := rfl
      rw [h1, h2, List.nil_append] at hK
      exact hK.symm
    refine ⟨hPl, ?_⟩
    have hrok : lexemesOk (renderLex t) :=
      (lexemesOk_iff _).2 (renderLex_ok t (Or.inl hPl) [] (fun _ => rfl))
    have hrne : renderLex t ≠ [] := by
      intro h0
      have := renderLex_text_ne t hPl
      rw [h0] at this
      exact this rfl
    have hP2 := Parse_lexemes (renderLex t) hrok hrne
    have hk2 : (tokensOf 0 (renderLex t)).map Token.key = (t0 :: rest).map Token.key := by
      rw [tokensOf_keys, renderLex_keys t (Or.inl hPl), hkeys]
    have hsame := Token.same_of_keys _ _ hk2
    cases htoks2 : tokensOf 0 (renderLex t) with
    | nil => rw [htoks2] at hk2; simp at hk2
    | cons u0 urest =>
      rw [htoks2] at hsame hP2
      have hl : (u0 :: urest).length = (t0 :: rest).length := hsame.length_eq
      have hsim := (AST.same_run reg (parseFuel (t0 :: rest).length)).1 _ _
        (NewAST_same u0 t0 urest rest (textOf (renderLex t)) (textOf F) hsame)
      rw [hrun] at hsim
      cases hrun2 : AST.ParseExpression reg (parseFuel (t0 :: rest).length)
          (NewAST (u0 :: urest) (textOf (renderLex t))) with
      | done res =>
        rw [hrun2] at hsim
        obtain ⟨e2, a2⟩ := res
        obtain ⟨he, hs⟩ := hsim
        simp only at he hs
        subst he
        have hE2 : a2.Err = none := by
          have := hs.2.2.2.2
          rw [hE] at this
          cases h : a2.Err with
          | none => rfl
          | some x => rw [h] at this; cases this
        refine ParseExpression_of_tokens reg _ _ u0 urest e2 a2 hP2 rfl ?_ hE2
        rw [hl]
        exact hrun2
      | panicked m => rw [hrun2] at hsim; cases hsim
      | outOfFuel => rw [hrun2] at hsim; cases hsim

/-- Counterexample to C2 as stated: `(1+2)*3` is accepted and evaluates to 9; its tree prints as
`1 + 2 * 3`, which is accepted and evaluates to 7. Likewise `5-(3-1)` evaluates to 3 and
prints as `5 - 3 - 1`, which evaluates to 1; `-(1+2)` evaluates to -3 and prints as
` - 1 + 2`, which evaluates to 1; and `pi` evaluates to the constant and prints as `3`,
which evaluates to 3. The context has no binding at all. -/
theorem C2_counterexample :
    CalculateSource defaultRegistry examplePow 4 "(1+2)*3".toList (some emptyParameter) =
        .done (.ok (F64.ofInt 9)) ∧
      ToExprStrSource defaultRegistry 4 "(1+2)*3".toList (some emptyParameter) =
        .done (.ok "1 + 2 * 3".toList) ∧
      CalculateSource defaultRegistry examplePow 4 "1 + 2 * 3".toList (some emptyParameter) =
        .done (.ok (F64.ofInt 7)) ∧
      CalculateSource defaultRegistry examplePow 4 "5-(3-1)".toList (some emptyParameter) =
        .done (.ok (F64.ofInt 3)) ∧
      ToExprStrSource defaultRegistry 4 "5-(3-1)".toList (some emptyParameter) =
        .done (.ok "5 - 3 - 1".toList) ∧
      CalculateSource defaultRegistry examplePow 4 "5 - 3 - 1".toList (some emptyParameter) =
        .done (.ok (F64.ofInt 1)) ∧
      CalculateSource defaultRegistry examplePow 4 "-(1+2)".toList (some emptyParameter) =
        .done (.ok (F64.ofInt (-3))) ∧
      ToExprStrSource defaultRegistry 4 "-(1+2)".toList (some emptyParameter) =
        .done (.ok " - 1 + 2".toList) ∧
      CalculateSource defaultRegistry examplePow 4 " - 1 + 2".toList (some emptyParameter) =
        .done (.ok (F64.ofInt 1)) ∧
      CalculateSource defaultRegistry examplePow 4 "pi".toList (some emptyParameter) =
        .done (.ok mathPi) ∧
      ToExprStrSource defaultRegistry 4 "pi".toList (some emptyParameter) =
        .done (.ok "3".toList) ∧
      CalculateSource defaultRegistry examplePow 4 "3".toList (some emptyParameter) =
        .done (.ok (F64.ofInt 3)) ∧
      mathPi ≠ F64.ofInt 3 := by
  refine ⟨rfl, rfl, rfl, rfl, rfl, rfl, rfl, rfl, rfl, rfl, rfl, rfl, by decide⟩

/-! ## The lexer on a source given by its pieces -/

namespace Parser

theorem whitespace_cases {c : Char} (h : isWhitespace c = true) :
    c = ' ' ∨ c = '\t' ∨ c = '\n' ∨ c = Char.ofNat 11 ∨ c = Char.ofNat 12 ∨ c = '\r' := by
  simpa [isWhitespace, or_assoc] using h

theorem whitespace_not_operator {c : Char} (h : isWhitespace c = true) : Operators c = none := by
  rcases whitespace_cases h with h | h | h | h | h | h <;> subst h <;> decide

theorem whitespace_not_digit {c : Char} (h : isWhitespace c = true) :
    ¬ ('0' ≤ c ∧ c ≤ '9') := by
  rcases whitespace_cases h with h | h | h | h | h | h <;> subst h <;> decide

theorem whitespace_not_comma {c : Char} (h : isWhitespace c = true) : (c == ',') = false := by
  rcases whitespace_cases h with h | h | h | h | h | h <;> subst h <;> decide

theorem whitespace_not_char {c : Char} (h : isWhitespace c = true) : isChar c = false := by
  rcases whitespace_cases h with h | h | h | h | h | h <;> subst h <;> decide

theorem char_not_whitespace {c : Char} (h : isChar c = true) : isWhitespace c = false := by
  cases hw : isWhitespace c with
  | false => rfl
  | true => rw [whitespace_not_char hw] at h; cases h

theorem char_not_operator {c : Char} (h : isChar c = true) : Operators c = none := by
  cases ho : Operators c with
  | none => rfl
  | some o =>
    exfalso
    rcases (operator_cases c o ho).2 with h1 | h1 | h1 | h1 | h1 | h1 | h1 | h1 <;>
      subst h1 <;> revert h <;> decide

theorem char_not_digit {c : Char} (h : isChar c = true) : ¬ ('0' ≤ c ∧ c ≤ '9') := by
  intro hd
  simp only [isChar, Bool.or_eq_true, Bool.and_eq_true, decide_eq_true_eq, beq_iff_eq] at h
  have h1 : c.val.toNat ≤ 57 := by
    have := hd.2
    exact this
  have h0 : 48 ≤ c.val.toNat := by
    have := hd.1
    exact this
  rcases h with (((h | h) | h) | h) | h
  · have : 97 ≤ c.val.toNat := h.1
    omega
  · have : 65 ≤ c.val.toNat := h.1
    omega
  · subst h; revert h0; decide
  · subst h; revert h0; decide
  · subst h; revert h0; decide

theorem char_not_comma {c : Char} (h : isChar c = true) : (c == ',') = false := by
  cases hc : c == ',' with
  | false => rfl
  | true =>
    rw [beq_iff_eq] at hc
    subst hc
    revert h
    decide

theorem char_isWordChar {c : Char} (h : isChar c = true) : isWordChar c = true := by
  simp [isWordChar, h]

end Parser

namespace Parser

theorem wordLoop_stop (fuel : Nat) (S : GoString) (c : Char) (k : Nat)
    (e : Option GoError) (h : isWordChar c = false) :
    wordLoop fuel ⟨S, c, k, e⟩ = ⟨S, c, k, e⟩ := by
  cases fuel with
  | zero => rw [wordLoop]
  | succ n => rw [wordLoop]; simp only [h, Bool.false_eq_true, if_false]

theorem wordLoop_spec (cs : GoString) : ∀ (pre : GoString) (c : Char) (rest : GoString)
    (fuel : Nat) (e : Option GoError),
    isWordChar c = true → cs.all isWordChar = true → wordStops rest = true →
    cs.length < fuel →
    wordLoop fuel ⟨pre ++ c :: (cs ++ rest), c, pre.length, e⟩ =
      ⟨pre ++ c :: (cs ++ rest), rest.headD ((c :: cs).getLast (by simp)),
        pre.length + 1 + cs.length, e⟩ := by
  induction cs with
  | nil =>
    intro pre c rest fuel e hc _ hstop hf
    obtain ⟨f, rfl⟩ : ∃ f, fuel = f + 1 := ⟨fuel - 1, by simp at hf; omega⟩
    rw [wordLoop]
    simp only [hc, if_true, List.nil_append]
    cases rest with
    | nil => rw [nextCh_end]; simp
    | cons r rs =>
      rw [nextCh_cons]
      simp only [Bool.false_eq_true, if_false]
      have hnd : isWordChar r = false := by simpa [wordStops] using hstop
      rw [wordLoop_stop _ _ _ _ _ hnd]
      simp
  | cons c2 cs ih =>
    intro pre c rest fuel e hc hall hstop hf
    obtain ⟨f, rfl⟩ : ∃ f, fuel = f + 1 := ⟨fuel - 1, by simp at hf; omega⟩
    simp only [List.all_cons, Bool.and_eq_true] at hall
    obtain ⟨hc2, hall2⟩ := hall
    have key := ih (pre ++ [c]) c2 rest f e hc2 hall2 hstop (by simp at hf; omega)
    rw [wordLoop]
    simp only [hc, if_true, List.cons_append]
    rw [nextCh_cons]
    simp only [Bool.false_eq_true, if_false]
    have e1 : pre ++ c :: c2 :: (cs ++ rest) = pre ++ [c] ++ c2 :: (cs ++ rest) := by simp
    rw [e1]
    have e2 : pre.length + 1 = (pre ++ [c]).length := by simp
    rw [e2, key]
    simp [List.getLast_cons]
    omega

theorem skipWhitespace_all (cs : GoString) : ∀ (pre : GoString) (c : Char) (fuel : Nat)
    (e : Option GoError),
    isWhitespace c = true → cs.all isWhitespace = true → cs.length < fuel →
    skipWhitespace fuel ⟨pre ++ c :: cs, c, pre.length, e⟩ =
      ⟨pre ++ c :: cs, (c :: cs).getLast (by simp), pre.length + 1 + cs.length, e⟩ := by
  induction cs with
  | nil =>
    intro pre c fuel e hc _ hf
    obtain ⟨f, rfl⟩ : ∃ f, fuel = f + 1 := ⟨fuel - 1, by simp at hf; omega⟩
    rw [skipWhitespace]
    simp only [hc, if_true]
    rw [nextCh_end]
    simp
  | cons c2 cs ih =>
    intro pre c fuel e hc hall hf
    obtain ⟨f, rfl⟩ : ∃ f, fuel = f + 1 := ⟨fuel - 1, by simp at hf; omega⟩
    simp only [List.all_cons, Bool.and_eq_true] at hall
    obtain ⟨hc2, hall2⟩ := hall
    have key := ih (pre ++ [c]) c2 f e hc2 hall2 (by simp at hf; omega)
    rw [skipWhitespace]
    simp only [hc, if_true]
    rw [nextCh_cons]
    simp only [Bool.false_eq_true, if_false]
    have e1 : pre ++ c :: c2 :: cs = pre ++ [c] ++ c2 :: cs := by simp
    rw [e1]
    have e2 : pre.length + 1 = (pre ++ [c]).length := by simp
    rw [e2, key]
    simp [List.getLast_cons]
    omega

/-- A whitespace byte in front of another byte is skipped: the token scanned is the one
scanned from the next byte. -/
theorem nextTok_ws (pre : GoString) (w c : Char) (rest : GoString)
    (hw : isWhitespace w = true) :
    nextTok ⟨pre ++ w :: c :: rest, w, pre.length, none⟩ =
      nextTok ⟨pre ++ w :: c :: rest, c, pre.length + 1, none⟩ := by
  have hlen : (pre ++ w :: c :: rest).length = pre.length + rest.length + 1 + 1 := by
    simp; omega
  have h1 : skipWhitespace (pre ++ w :: c :: rest).length
      ⟨pre ++ w :: c :: rest, w, pre.length, none⟩ =
      skipWhitespace (pre ++ w :: c :: rest).length
        ⟨pre ++ w :: c :: rest, c, pre.length + 1, none⟩ := by
    rw [hlen, skipWhitespace]
    simp only [hw, if_true, nextCh_cons, Bool.false_eq_true, if_false]
    exact skipWhitespace_fuel _ _ (by simp) (by simp; omega)
  rw [nextTok, nextTok]
  have g1 : ¬ (pre.length ≥ (pre ++ w :: c :: rest).length) := by simp
  have g2 : ¬ (pre.length + 1 ≥ (pre ++ w :: c :: rest).length) := by simp
  simp only [g1, g2, decide_False, Bool.false_or, h1, Option.isSome_none, Bool.false_eq_true,
    if_false]

/-- The token scanned at a comma. -/
theorem nextTok_comma (pre : GoString) (rest : GoString) :
    nextTok ⟨pre ++ ',' :: rest, ',', pre.length, none⟩ =
      (some { Value := [','], Typ := CommaType, Offset := pre.length },
        ⟨pre ++ ',' :: rest, rest.headD ',', pre.length + 1, none⟩) := by
  have hlen : ¬ (pre.length ≥ (pre ++ ',' :: rest).length) := by simp
  have hw : isWhitespace ',' = false := by decide
  have ho : Operators ',' = none := by decide
  rw [nextTok]
  simp only [hlen, decide_False, Option.isSome_none, Bool.or_self, Bool.false_eq_true, if_false]
  rw [skipWhitespace_stop _ _ _ _ _ hw]
  simp only [ho, IsLiteral]
  have hd : ('0' ≤ ',' && ',' ≤ '9') = false := by decide
  simp only [hd, Bool.false_eq_true, if_false, beq_self_eq_true, if_true]
  congr 1
  cases rest with
  | nil => rw [nextCh_end]; rfl
  | cons r rs => rw [nextCh_cons]; rfl

/-- The token scanned at an identifier `c :: cs` followed by `rest`. -/
theorem nextTok_ident (pre : GoString) (c : Char) (cs rest : GoString)
    (hc : isChar c = true) (hall : cs.all isWordChar = true)
    (hstop : wordStops rest = true) :
    nextTok ⟨pre ++ c :: (cs ++ rest), c, pre.length, none⟩ =
      (some { Value := c :: cs, Typ := IdentifierType, Offset := pre.length },
        ⟨pre ++ c :: (cs ++ rest), rest.headD ((c :: cs).getLast (by simp)),
          pre.length + 1 + cs.length, none⟩) := by
  have hlen : ¬ (pre.length ≥ (pre ++ c :: (cs ++ rest)).length) := by simp
  have hfuel : cs.length < (pre ++ c :: (cs ++ rest)).length := by simp; omega
  have hsl : slice (pre ++ c :: (cs ++ rest)) pre.length (pre.length + 1 + cs.length) = c :: cs := by
    have := slice_append pre (c :: cs) rest
    simpa [Nat.add_assoc, Nat.add_comm 1] using this
  have hd : ('0' ≤ c && c ≤ '9') = false := by
    have := char_not_digit hc
    cases h : ('0' ≤ c && c ≤ '9') with
    | false => rfl
    | true =>
      simp only [Bool.and_eq_true, decide_eq_true_eq] at h
      exact absurd h this
  rw [nextTok]
  simp only [hlen, decide_False, Option.isSome_none, Bool.or_self, Bool.false_eq_true, if_false]
  rw [skipWhitespace_stop _ _ _ _ _ (char_not_whitespace hc)]
  simp only [char_not_operator hc, IsLiteral, hd, Bool.false_eq_true, if_false,
    char_not_comma hc, hc, if_true]
  rw [wordLoop_spec cs pre c rest _ none (char_isWordChar hc) hall hstop hfuel]
  simp only [hsl]

/-- At a byte at which no token starts, the lexer records the error and stops. -/
theorem nextTok_bad (pre : GoString) (c : Char) (rest : GoString)
    (hc : unknownByte c = true) :
    nextTok ⟨pre ++ c :: rest, c, pre.length, none⟩ =
      (none, ⟨pre ++ c :: rest, c, pre.length,
        some (GoError.unknownSymbol c pre.length)⟩) := by
  have hlen : ¬ (pre.length ≥ (pre ++ c :: rest).length) := by simp
  simp only [unknownByte, Bool.and_eq_true, Bool.not_eq_true', Option.isNone_iff_eq_none,
    bne_iff_ne, ne_eq] at hc
  obtain ⟨⟨⟨⟨hw, ho⟩, hd⟩, hcm⟩, hch⟩ := hc
  have hsp : (c != ' ') = true := by
    rw [bne_iff_ne]
    rintro rfl
    revert hw
    decide
  have hcm2 : (c == ',') = false := by
    cases h : c == ',' with
    | false => rfl
    | true => rw [beq_iff_eq] at h; exact absurd h hcm
  rw [nextTok]
  simp only [hlen, decide_False, Option.isSome_none, Bool.or_self, Bool.false_eq_true, if_false]
  rw [skipWhitespace_stop _ _ _ _ _ hw]
  simp only [ho, IsLiteral, hd, Bool.false_eq_true, if_false, hcm2, hch, hsp, if_true]

/-- At whitespace that reaches the end of the source no token is scanned; the lexer
records an error when the last byte is not a space. -/
theorem nextTok_blank (pre : GoString) (c : Char) (cs : GoString)
    (hc : isWhitespace c = true) (hall : cs.all isWhitespace = true) :
    nextTok ⟨pre ++ c :: cs, c, pre.length, none⟩ =
      (none, ⟨pre ++ c :: cs, (c :: cs).getLast (by simp), pre.length + 1 + cs.length,
        (SourceEnd.blank c cs).error pre.length⟩) := by
  have hlen : ¬ (pre.length ≥ (pre ++ c :: cs).length) := by simp
  have hfuel : cs.length < (pre ++ c :: cs).length := by simp; omega
  have hlast : isWhitespace ((c :: cs).getLast (by simp)) = true := by
    have hall2 : (c :: cs).all isWhitespace = true := by simp [hc, hall]
    rw [List.all_eq_true] at hall2
    exact hall2 _ (List.getLast_mem _)
  rw [nextTok]
  simp only [hlen, decide_False, Option.isSome_none, Bool.or_self, Bool.false_eq_true, if_false]
  rw [skipWhitespace_all cs pre c _ none hc hall hfuel]
  have hd : ('0' ≤ (c :: cs).getLast (by simp) && (c :: cs).getLast (by simp) ≤ '9') = false := by
    have := whitespace_not_digit hlast
    cases h : ('0' ≤ (c :: cs).getLast (by simp) && (c :: cs).getLast (by simp) ≤ '9') with
    | false => rfl
    | true =>
      simp only [Bool.and_eq_true, decide_eq_true_eq] at h
      exact absurd h this
  simp only [whitespace_not_operator hlast, IsLiteral, hd, Bool.false_eq_true, if_false,
    whitespace_not_comma hlast, whitespace_not_char hlast, SourceEnd.error]
  split <;> rfl

end Parser

namespace Parser

theorem parse_pieces (ps : List Piece) : ∀ (pre : GoString) (stale : Char) (fuel : Nat)
    (z : SourceEnd), piecesOk z.text ps → z.ok → ps.length < fuel →
    ∃ c k, parse fuel ⟨pre ++ (piecesText ps ++ z.text),
        (piecesText ps ++ z.text).headD stale, pre.length, none⟩ =
      (piecesTokens pre.length ps, ⟨pre ++ (piecesText ps ++ z.text), c, k,
        z.error (pre.length + (piecesText ps).length)⟩) := by
  induction ps with
  | nil =>
    intro pre stale fuel z _ hz hf
    obtain ⟨f, rfl⟩ : ∃ f, fuel = f + 1 := ⟨fuel - 1, by simp at hf; omega⟩
    cases z with
    | done =>
      refine ⟨stale, pre.length, ?_⟩
      simp only [piecesText, SourceEnd.text, List.append_nil, List.headD_nil, piecesTokens,
        SourceEnd.error, List.length_nil, Nat.add_zero]
      exact parse_end (f + 1) pre stale none
    | blank c cs =>
      obtain ⟨hc, hall⟩ := hz
      refine ⟨(c :: cs).getLast (by simp), pre.length + 1 + cs.length, ?_⟩
      simp only [piecesText, SourceEnd.text, List.nil_append, List.headD_cons, piecesTokens,
        List.length_nil, Nat.add_zero]
      rw [parse, nextTok_blank pre c cs hc hall]
    | bad c rest =>
      refine ⟨c, pre.length, ?_⟩
      simp only [piecesText, SourceEnd.text, List.nil_append, List.headD_cons, piecesTokens,
        List.length_nil, Nat.add_zero]
      rw [parse, nextTok_bad pre c rest hz]
      rfl
  | cons l ls ih =>
    intro pre stale fuel z hok hz hf
    obtain ⟨f, rfl⟩ : ∃ f, fuel = f + 1 := ⟨fuel - 1, by simp at hf; omega⟩
    obtain ⟨hl, hls⟩ := hok
    cases l with
    | lit c cs =>
      obtain ⟨hd, htail, hstop⟩ := hl
      obtain ⟨c1, k1, hc1⟩ := ih (pre ++ c :: cs) ((c :: cs).getLast (by simp)) f z hls hz
        (by simp at hf; omega)
      refine ⟨c1, k1, ?_⟩
      have hS : pre ++ (piecesText (Piece.lit c cs :: ls) ++ z.text) =
          pre ++ c :: (cs ++ (piecesText ls ++ z.text)) := by
        simp [piecesText, Piece.text]
      have hS2 : pre ++ c :: cs ++ (piecesText ls ++ z.text) =
          pre ++ c :: (cs ++ (piecesText ls ++ z.text)) := by simp
      have hlen : (pre ++ c :: cs).length = pre.length + 1 + cs.length := by
        simp; omega
      rw [hS2, hlen] at hc1
      rw [hS]
      have hh : (piecesText (Piece.lit c cs :: ls) ++ z.text).headD stale = c := by
        simp [piecesText, Piece.text]
      rw [hh, parse_cons f _ _ _
        (nextTok_literal pre c cs (piecesText ls ++ z.text) hd htail hstop), hc1]
      simp [piecesTokens, Piece.token, Piece.text, piecesText, Nat.add_assoc, Nat.add_comm 1]
    | op c =>
      obtain ⟨o, ho⟩ := Option.isSome_iff_exists.mp hl
      obtain ⟨c1, k1, hc1⟩ := ih (pre ++ [c]) c f z hls hz (by simp at hf; omega)
      refine ⟨c1, k1, ?_⟩
      have hS : pre ++ (piecesText (Piece.op c :: ls) ++ z.text) =
          pre ++ c :: (piecesText ls ++ z.text) := by
        simp [piecesText, Piece.text]
      have hS2 : pre ++ [c] ++ (piecesText ls ++ z.text) =
          pre ++ c :: (piecesText ls ++ z.text) := by simp
      have hlen : (pre ++ [c]).length = pre.length + 1 := by simp
      rw [hS2, hlen] at hc1
      rw [hS]
      have hh : (piecesText (Piece.op c :: ls) ++ z.text).headD stale = c := by
        simp [piecesText, Piece.text]
      rw [hh, parse_cons f _ _ _ (nextTok_operator pre c (piecesText ls ++ z.text) o ho), hc1]
      simp [piecesTokens, Piece.token, Piece.text, piecesText, Nat.add_assoc, Nat.add_comm 1]
    | comma =>
      obtain ⟨c1, k1, hc1⟩ := ih (pre ++ [',']) ',' f z hls hz (by simp at hf; omega)
      refine ⟨c1, k1, ?_⟩
      have hS : pre ++ (piecesText (Piece.comma :: ls) ++ z.text) =
          pre ++ ',' :: (piecesText ls ++ z.text) := by
        simp [piecesText, Piece.text]
      have hS2 : pre ++ [','] ++ (piecesText ls ++ z.text) =
          pre ++ ',' :: (piecesText ls ++ z.text) := by simp
      have hlen : (pre ++ [',']).length = pre.length + 1 := by simp
      rw [hS2, hlen] at hc1
      rw [hS]
      have hh : (piecesText (Piece.comma :: ls) ++ z.text).headD stale = ',' := by
        simp [piecesText, Piece.text]
      rw [hh, parse_cons f _ _ _ (nextTok_comma pre (piecesText ls ++ z.text)), hc1]
      simp [piecesTokens, Piece.token, Piece.text, piecesText, Nat.add_assoc, Nat.add_comm 1]
    | ident c cs =>
      obtain ⟨hc, hall, hstop⟩ := hl
      obtain ⟨c1, k1, hc1⟩ := ih (pre ++ c :: cs) ((c :: cs).getLast (by simp)) f z hls hz
        (by simp at hf; omega)
      refine ⟨c1, k1, ?_⟩
      have hS : pre ++ (piecesText (Piece.ident c cs :: ls) ++ z.text) =
          pre ++ c :: (cs ++ (piecesText ls ++ z.text)) := by
        simp [piecesText, Piece.text]
      have hS2 : pre ++ c :: cs ++ (piecesText ls ++ z.text) =
          pre ++ c :: (cs ++ (piecesText ls ++ z.text)) := by simp
      have hlen : (pre ++ c :: cs).length = pre.length + 1 + cs.length := by
        simp; omega
      rw [hS2, hlen] at hc1
      rw [hS]
      have hh : (piecesText (Piece.ident c cs :: ls) ++ z.text).headD stale = c := by
        simp [piecesText, Piece.text]
      rw [hh, parse_cons f _ _ _
        (nextTok_ident pre c cs (piecesText ls ++ z.text) hc hall hstop), hc1]
      simp [piecesTokens, Piece.token, Piece.text, piecesText, Nat.add_assoc, Nat.add_comm 1]
    | ws w =>
      obtain ⟨hw, hne⟩ := hl
      obtain ⟨c1, k1, hc1⟩ := ih (pre ++ [w]) w (f + 1) z hls hz (by simp at hf; omega)
      refine ⟨c1, k1, ?_⟩
      obtain ⟨c, rest, hcr⟩ : ∃ c rest, piecesText ls ++ z.text = c :: rest := by
        cases h : piecesText ls ++ z.text with
        | nil => exact absurd h hne
        | cons c rest => exact ⟨c, rest, rfl⟩
      have hS : pre ++ (piecesText (Piece.ws w :: ls) ++ z.text) = pre ++ w :: c :: rest := by
        simp [piecesText, Piece.text, hcr]
      have hS2 : pre ++ [w] ++ (piecesText ls ++ z.text) = pre ++ w :: c :: rest := by
        simp [hcr]
      have hlen : (pre ++ [w]).length = pre.length + 1 := by simp
      rw [hS2, hlen, hcr] at hc1
      simp only [List.headD_cons] at hc1
      rw [hS]
      have hh : (piecesText (Piece.ws w :: ls) ++ z.text).headD stale = w := by
        simp [piecesText, Piece.text]
      rw [hh, parse, nextTok_ws pre w c rest hw, ← parse, hc1]
      simp [piecesTokens, Piece.token, Piece.text, piecesText, Nat.add_assoc, Nat.add_comm 1]

end Parser

theorem piecesText_length (ps : List Piece) : ps.length ≤ (piecesText ps).length := by
  induction ps with
  | nil => simp [piecesText]
  | cons l ls ih => cases l <;> simp [piecesText, Piece.text] <;> omega

/-- Tokenizing a source given by its pieces and its end: the tokens of the pieces, or the
error of the end. -/
theorem Parse_pieces (ps : List Piece) (z : SourceEnd) (hok : piecesOk z.text ps)
    (hz : z.ok) (hne : piecesText ps ++ z.text ≠ []) :
    Parse (piecesText ps ++ z.text) =
      match z.error (piecesText ps).length with
      | some e => .done (.error e)
      | none => .done (.ok (piecesTokens 0 ps)) := by
  have hlen := piecesText_length ps
  cases hs : piecesText ps ++ z.text with
  | nil => exact absurd hs hne
  | cons c rest =>
    obtain ⟨c1, k1, h⟩ := Parser.parse_pieces ps [] c ((piecesText ps ++ z.text).length + 1)
      z hok hz (by simp; omega)
    simp only [List.nil_append, hs, List.headD_cons, List.length_nil, Nat.zero_add] at h
    unfold Parse
    simp only [List.length_cons] at h ⊢
    rw [h]

/-! ## Every source is a sequence of pieces -/

theorem literal_split : ∀ (r : GoString) (prev : Char), ∃ cs rest, r = cs ++ rest ∧
    literalTail prev cs = true ∧
    literalStops ((prev :: cs).getLast (by simp)) rest = true := by
  intro r
  induction r with
  | nil => intro prev; exact ⟨[], [], rfl, rfl, rfl⟩
  | cons c r ih =>
    intro prev
    by_cases hc : (Parser.isDigitNum c && !((c == '-' || c == '+') && prev != 'e')) = true
    · obtain ⟨cs, rest, h1, h2, h3⟩ := ih c
      refine ⟨c :: cs, rest, by rw [h1]; rfl, ?_, ?_⟩
      · rw [literalTail, hc, h2]; rfl
      · simpa [List.getLast_cons] using h3
    · refine ⟨[], c :: r, rfl, rfl, ?_⟩
      simp only [List.getLast_singleton, literalStops]
      simp only [Bool.and_eq_true, Bool.not_eq_true', not_and, Bool.not_eq_false] at hc
      cases hd : Parser.isDigitNum c with
      | false => simp
      | true => simp [hc hd]

theorem word_split : ∀ (r : GoString), ∃ cs rest, r = cs ++ rest ∧
    cs.all Parser.isWordChar = true ∧ wordStops rest = true := by
  intro r
  induction r with
  | nil => exact ⟨[], [], rfl, rfl, rfl⟩
  | cons c r ih =>
    by_cases hc : Parser.isWordChar c = true
    · obtain ⟨cs, rest, h1, h2, h3⟩ := ih
      exact ⟨c :: cs, rest, by rw [h1]; rfl, by simp [hc, h2], h3⟩
    · refine ⟨[], c :: r, rfl, rfl, ?_⟩
      simpa [wordStops] using hc

theorem Piece.text_ne (p : Piece) : p.text ≠ [] := by
  cases p <;> simp [Piece.text]

/-- Every source is a sequence of pieces followed by an end. -/
theorem exists_pieces : ∀ (n : Nat) (s : GoString), s.length ≤ n →
    ∃ ps z, s = piecesText ps ++ SourceEnd.text z ∧ piecesOk z.text ps ∧ z.ok := by
  intro n
  induction n with
  | zero =>
    intro s hs
    have : s = [] := List.length_eq_zero.mp (Nat.le_zero.mp hs)
    subst this
    exact ⟨[], .done, rfl, trivial, trivial⟩
  | succ n ih =>
    intro s hs
    cases s with
    | nil => exact ⟨[], .done, rfl, trivial, trivial⟩
    | cons c r =>
      have hr : r.length ≤ n := by simpa using hs
      by_cases hw : Parser.isWhitespace c = true
      · obtain ⟨ps, z, h1, h2, h3⟩ := ih r hr
        cases ps with
        | nil =>
          cases z with
          | done =>
            refine ⟨[], .blank c [], ?_, trivial, hw, rfl⟩
            rw [h1]; rfl
          | blank c1 cs1 =>
            refine ⟨[], .blank c (c1 :: cs1), ?_, trivial, hw, ?_⟩
            · rw [h1]; rfl
            · simp only [List.all_cons, Bool.and_eq_true]
              exact h3
          | bad b rest =>
            refine ⟨[.ws c], .bad b rest, ?_, ⟨⟨hw, ?_⟩, trivial⟩, h3⟩
            · rw [h1]; rfl
            · simp [piecesText, SourceEnd.text]
        | cons p ps =>
          refine ⟨.ws c :: p :: ps, z, ?_, ⟨⟨hw, ?_⟩, h2⟩, h3⟩
          · rw [h1]; rfl
          · have := p.text_ne
            simp [piecesText, this]
      · cases ho : Operators c with
        | some o =>
          obtain ⟨ps, z, h1, h2, h3⟩ := ih r hr
          refine ⟨.op c :: ps, z, ?_, ⟨?_, h2⟩, h3⟩
          · rw [h1]; rfl
          · simp [Piece.ok, ho]
        | none =>
          by_cases hd : '0' ≤ c ∧ c ≤ '9'
          · obtain ⟨cs, rest, e1, e2, e3⟩ := literal_split r c
            have hrest : rest.length ≤ n := by
              rw [e1] at hr
              simp at hr
              omega
            obtain ⟨ps, z, h1, h2, h3⟩ := ih rest hrest
            refine ⟨.lit c cs :: ps, z, ?_, ⟨⟨hd, e2, ?_⟩, h2⟩, h3⟩
            · rw [e1, h1]
              simp [piecesText, Piece.text]
            · rw [← h1]; exact e3
          · by_cases hcm : c = ','
            · subst hcm
              obtain ⟨ps, z, h1, h2, h3⟩ := ih r hr
              refine ⟨.comma :: ps, z, ?_, ⟨trivial, h2⟩, h3⟩
              rw [h1]; rfl
            · by_cases hch : Parser.isChar c = true
              · obtain ⟨cs, rest, e1, e2, e3⟩ := word_split r
                have hrest : rest.length ≤ n := by
                  rw [e1] at hr
                  simp at hr
                  omega
                obtain ⟨ps, z, h1, h2, h3⟩ := ih rest hrest
                refine ⟨.ident c cs :: ps, z, ?_, ⟨⟨hch, e2, ?_⟩, h2⟩, h3⟩
                · rw [e1, h1]
                  simp [piecesText, Piece.text]
                · rw [← h1]; exact e3
              · refine ⟨[], .bad c r, rfl, trivial, ?_⟩
                simp only [SourceEnd.ok, unknownByte, Bool.and_eq_true, Bool.not_eq_true',
                  Option.isNone_iff_eq_none, bne_iff_ne, ne_eq]
                refine ⟨⟨⟨⟨by simpa using hw, ho⟩, ?_⟩, hcm⟩, by simpa using hch⟩
                cases h : ('0' ≤ c && c ≤ '9') with
                | false => rfl
                | true =>
                  simp only [Bool.and_eq_true, decide_eq_true_eq] at h
                  exact absurd h hd

/-- What `Parse` returns for any source that is not empty: there are pieces and an end
that make up the source, and `Parse` returns the tokens of the pieces, or the error of the
end. -/
theorem Parse_spec (s : GoString) (hne : s ≠ []) :
    ∃ ps z, s = piecesText ps ++ SourceEnd.text z ∧ piecesOk z.text ps ∧ z.ok ∧
      Parse s = match z.error (piecesText ps).length with
        | some e => .done (.error e)
        | none => .done (.ok (piecesTokens 0 ps)) := by
  obtain ⟨ps, z, h1, h2, h3⟩ := exists_pieces s.length s (le_refl _)
  refine ⟨ps, z, h1, h2, h3, ?_⟩
  rw [h1]
  exact Parse_pieces ps z h2 h3 (by rw [← h1]; exact hne)

/-! ## The tokens of a source -/

theorem piecesText_append (ps1 ps2 : List Piece) :
    piecesText (ps1 ++ ps2) = piecesText ps1 ++ piecesText ps2 := by
  induction ps1 with
  | nil => rfl
  | cons l ls ih => simp [piecesText, ih]

theorem piecesOk_append {next : GoString} {ps1 ps2 : List Piece} :
    piecesOk next (ps1 ++ ps2) ↔ piecesOk (piecesText ps2 ++ next) ps1 ∧ piecesOk next ps2 := by
  induction ps1 with
  | nil => simp [piecesOk]
  | cons l ls ih =>
    rw [List.cons_append, piecesOk, piecesOk, ih, piecesText_append, List.append_assoc,
      and_assoc]

/-- A token of a list of pieces is the token of one of the pieces, at the offset of the
text in front of it. -/
theorem mem_piecesTokens {t : Token} : ∀ (ps : List Piece) (off : Nat),
    t ∈ piecesTokens off ps →
    ∃ ps1 p ps2, ps = ps1 ++ p :: ps2 ∧ p.token (off + (piecesText ps1).length) = some t := by
  intro ps
  induction ps with
  | nil => intro off h; simp [piecesTokens] at h
  | cons l ls ih =>
    intro off h
    rw [piecesTokens] at h
    cases hl : l.token off with
    | none =>
      rw [hl] at h
      obtain ⟨ps1, p, ps2, h1, h2⟩ := ih _ h
      refine ⟨l :: ps1, p, ps2, by rw [h1]; rfl, ?_⟩
      rw [← h2]
      simp [piecesText, Nat.add_assoc]
    | some t1 =>
      rw [hl] at h
      simp only [List.mem_cons] at h
      rcases h with rfl | h
      · exact ⟨[], l, ls, rfl, by simpa [piecesText] using hl⟩
      · obtain ⟨ps1, p, ps2, h1, h2⟩ := ih _ h
        refine ⟨l :: ps1, p, ps2, by rw [h1]; rfl, ?_⟩
        rw [← h2]
        simp [piecesText, Nat.add_assoc]

theorem Piece.token_lexed {p : Piece} {next : GoString} {off : Nat} {t : Token}
    (hok : p.ok next) (ht : p.token off = some t) : t.Lexed := by
  cases p with
  | lit c cs =>
    simp only [Piece.token, Option.some.injEq] at ht
    subst ht
    obtain ⟨hd, _, _⟩ := hok
    have hne := Parser.digit_ne_underscore c hd
    exact ⟨c, Parser.removeUnderscores cs, by simp [Parser.removeUnderscores, hne], hd⟩
  | op c =>
    simp only [Piece.token, Option.some.injEq] at ht
    subst ht
    obtain ⟨o, ho⟩ := Option.isSome_iff_exists.mp hok
    exact ⟨c, o, rfl, ho⟩
  | comma =>
    simp only [Piece.token, Option.some.injEq] at ht
    subst ht
    rfl
  | ident c cs =>
    simp only [Piece.token, Option.some.injEq] at ht
    subst ht
    exact ⟨c, cs, rfl, hok.1⟩
  | ws c => simp [Piece.token] at ht

/-- What a successful `Parse` returns: the tokens of pieces that make up the source,
possibly followed by whitespace that ends with a space. -/
theorem Parse_ok_inv {s : GoString} {toks : List Token} (h : Parse s = .done (.ok toks)) :
    ∃ ps z, s = piecesText ps ++ SourceEnd.text z ∧ piecesOk z.text ps ∧ z.ok ∧
      z.error (piecesText ps).length = none ∧ toks = piecesTokens 0 ps := by
  have hne : s ≠ [] := by
    rintro rfl
    have hnil : Parse [] =
        .panicked "runtime error: index out of range [0] with length 0" := rfl
    rw [hnil] at h
    cases h
  obtain ⟨ps, z, h1, h2, h3, h4⟩ := Parse_spec s hne
  refine ⟨ps, z, h1, h2, h3, ?_⟩
  rw [h] at h4
  cases he : z.error (piecesText ps).length with
  | none =>
    rw [he] at h4
    simp only [Run.done.injEq, Except.ok.injEq] at h4
    exact ⟨rfl, h4⟩
  | some e =>
    rw [he] at h4
    simp at h4

/-- Every token that `Parse` returns is a token as the lexer makes it. -/
theorem Parse_lexed {s : GoString} {toks : List Token} (h : Parse s = .done (.ok toks)) :
    ∀ t ∈ toks, t.Lexed := by
  obtain ⟨ps, z, _, h2, _, _, rfl⟩ := Parse_ok_inv h
  intro t ht
  obtain ⟨ps1, p, ps2, rfl, hp⟩ := mem_piecesTokens ps 0 ht
  have := (piecesOk_append.1 h2).2
  exact Piece.token_lexed this.1 hp

/-- C14. Extent and text of a numeric literal: for every source that `Parse` tokenizes,
a literal token starts at a digit of the source (at its `Offset`), covers the bytes `cs`
that follow as long as they are digits, `.`, `_`, `e`, or a sign directly after `e`
(`literalTail`), stops where no such byte follows (`literalStops`), and its `Value` is that
slice of the source without the underscores. So `1_000.5` is one literal with the text
`1000.5` and the value 1000.5, `1e-5` is one literal with the value 0.00001, and `1e5-3`
and `1-5` are a literal, the operator `-` and a literal. -/
theorem C14_literal_extent (s : GoString) (toks : List Token) (t : Token)
    (hP : Parse s = .done (.ok toks)) (ht : t ∈ toks) (hty : t.Typ = LiteralType) :
    (∃ pre c cs rest, s = pre ++ c :: (cs ++ rest) ∧ t.Offset = pre.length ∧
        ('0' ≤ c ∧ c ≤ '9') ∧ literalTail c cs = true ∧
        literalStops ((c :: cs).getLast (by simp)) rest = true ∧
        t.Value = Parser.removeUnderscores (c :: cs)) ∧
      Parse "1_000.5".toList =
        .done (.ok [{ Value := "1000.5".toList, Typ := LiteralType, Offset := 0 }]) ∧
      ParseFloat "1000.5".toList = some (F64.ofRatio false 2001 2) ∧
      Parse "1e-5".toList =
        .done (.ok [{ Value := "1e-5".toList, Typ := LiteralType, Offset := 0 }]) ∧
      ParseFloat "1e-5".toList = some (F64.ofRatio false 1 100000) ∧
      Parse "1e5-3".toList =
        .done (.ok [{ Value := "1e5".toList, Typ := LiteralType, Offset := 0 },
          { Value := "-".toList, Typ := OperatorType, Offset := 3 },
          { Value := "3".toList, Typ := LiteralType, Offset := 4 }]) ∧
      Parse "1-5".toList =
        .done (.ok [{ Value := "1".toList, Typ := LiteralType, Offset := 0 },
          { Value := "-".toList, Typ := OperatorType, Offset := 1 },
          { Value := "5".toList, Typ := LiteralType, Offset := 2 }]) := by
  refine ⟨?_, rfl, rfl, rfl, rfl, rfl, rfl⟩
  obtain ⟨ps, z, hs, hok, _, _, rfl⟩ := Parse_ok_inv hP
  obtain ⟨ps1, p, ps2, rfl, hp⟩ := mem_piecesTokens ps 0 ht
  have hpok := (piecesOk_append.1 hok).2.1
  cases p with
  | lit c cs =>
    simp only [Piece.token, Option.some.injEq] at hp
    subst hp
    obtain ⟨hd, htail, hstop⟩ := hpok
    refine ⟨piecesText ps1, c, cs, piecesText ps2 ++ z.text, ?_, by simp, hd, htail, hstop, rfl⟩
    rw [hs, piecesText_append]
    simp [piecesText, Piece.text]
  | op c =>
    simp only [Piece.token, Option.some.injEq] at hp
    subst hp
    cases hty
  | comma =>
    simp only [Piece.token, Option.some.injEq] at hp
    subst hp
    cases hty
  | ident c cs =>
    simp only [Piece.token, Option.some.injEq] at hp
    subst hp
    cases hty
  | ws c => simp [Piece.token] at hp

theorem C14_literal_extent_witness :
    (∃ pre c cs rest, "2*1e-5+x".toList = pre ++ c :: (cs ++ rest) ∧
        (2 : Nat) = pre.length ∧
        ('0' ≤ c ∧ c ≤ '9') ∧ literalTail c cs = true ∧
        literalStops ((c :: cs).getLast (by simp)) rest = true ∧
        "1e-5".toList = Parser.removeUnderscores (c :: cs)) :=
  (C14_literal_extent "2*1e-5+x".toList
    [{ Value := "2".toList, Typ := LiteralType, Offset := 0 },
      { Value := "*".toList, Typ := OperatorType, Offset := 1 },
      { Value := "1e-5".toList, Typ := LiteralType, Offset := 2 },
      { Value := "+".toList, Typ := OperatorType, Offset := 6 },
      { Value := "x".toList, Typ := IdentifierType, Offset := 7 }]
    { Value := "1e-5".toList, Typ := LiteralType, Offset := 2 }
    rfl (by simp) rfl).1

theorem digit_not_sign {c : Char} (h : '0' ≤ c ∧ c ≤ '9') : (c == '-' || c == '+') = false := by
  have h1 := h.1
  have n1 : c ≠ '-' := by rintro rfl; revert h1; decide
  have n2 : c ≠ '+' := by rintro rfl; revert h1; decide
  simp [n1, n2]

theorem digits_literalTail : ∀ (ds : GoString), (∀ x ∈ ds, '0' ≤ x ∧ x ≤ '9') →
    ∀ prev, literalTail prev ds = true := by
  intro ds
  induction ds with
  | nil => intro _ _; rfl
  | cons d ds ih =>
    intro h prev
    have hd := h d (List.mem_cons_self _ _)
    rw [literalTail, Parser.digit_isDigitNum d hd, digit_not_sign hd,
      ih (fun x hx => h x (List.mem_cons_of_mem _ hx))]
    rfl

theorem literalTail_append : ∀ (xs ys : GoString) (prev : Char),
    literalTail prev (xs ++ ys) =
      (literalTail prev xs && literalTail ((prev :: xs).getLast (by simp)) ys) := by
  intro xs
  induction xs with
  | nil => intro ys prev; simp [literalTail]
  | cons x xs ih =>
    intro ys prev
    rw [List.cons_append, literalTail, literalTail, ih]
    simp [List.getLast_cons, Bool.and_assoc]

theorem digits_removeUnderscores : ∀ (ds : GoString), (∀ x ∈ ds, '0' ≤ x ∧ x ≤ '9') →
    Parser.removeUnderscores ds = ds := by
  intro ds h
  unfold Parser.removeUnderscores
  rw [List.filter_eq_self]
  intro x hx
  simpa using Parser.digit_ne_underscore x (h x hx)

theorem digits_wordChars : ∀ (ds : GoString), (∀ x ∈ ds, '0' ≤ x ∧ x ≤ '9') →
    ds.all Parser.isWordChar = true := by
  intro ds h
  rw [List.all_eq_true]
  intro x hx
  have := h x hx
  simp [Parser.isWordChar, this.1, this.2]

theorem removeUnderscores_append (xs ys : GoString) :
    Parser.removeUnderscores (xs ++ ys) =
      Parser.removeUnderscores xs ++ Parser.removeUnderscores ys := by
  simp [Parser.removeUnderscores]

/-- C15, as amended. Only `e` is an exponent marker of the lexer: for all digit strings
`m` and `n` (not empty), `men` and `me-n` are one literal token each, while `mEn` is the
literal `m` followed by the identifier `En`, and `mE-n` is the literal `m`, the identifier
`E`, the operator `-` and the literal `n`. So `1e5` and `1e-5` parse to 100000 and 0.00001,
and `1E5` and `1E-5` are rejected by `ParseExpression`. -/
theorem C15_exponent_marker (m n : GoString) (c d : Char) (cs ds : GoString)
    (hm : m = c :: cs) (hn : n = d :: ds)
    (hdm : ∀ x ∈ m, '0' ≤ x ∧ x ≤ '9') (hdn : ∀ x ∈ n, '0' ≤ x ∧ x ≤ '9') :
    Parse (m ++ 'e' :: n) =
        .done (.ok [{ Value := m ++ 'e' :: n, Typ := LiteralType, Offset := 0 }]) ∧
      Parse (m ++ 'e' :: '-' :: n) =
        .done (.ok [{ Value := m ++ 'e' :: '-' :: n, Typ := LiteralType, Offset := 0 }]) ∧
      Parse (m ++ 'E' :: n) =
        .done (.ok [{ Value := m, Typ := LiteralType, Offset := 0 },
          { Value := 'E' :: n, Typ := IdentifierType, Offset := m.length }]) ∧
      Parse (m ++ 'E' :: '-' :: n) =
        .done (.ok [{ Value := m, Typ := LiteralType, Offset := 0 },
          { Value := ['E'], Typ := IdentifierType, Offset := m.length },
          { Value := ['-'], Typ := OperatorType, Offset := m.length + 1 },
          { Value := n, Typ := LiteralType, Offset := m.length + 2 }]) ∧
      ParseExpression defaultRegistry "1e5".toList =
        .done (.ok (NumberExprNode (F64.ofInt 100000) "1e5".toList)) ∧
      ParseExpression defaultRegistry "1e-5".toList =
        .done (.ok (NumberExprNode (F64.ofRatio false 1 100000) "1e-5".toList)) ∧
      ParseExpression defaultRegistry "1E5".toList = .done (.error (.badExpression 1)) ∧
      ParseExpression defaultRegistry "1E-5".toList = .done (.error (.badExpression 1)) := by
  subst hm hn
  have hc := hdm c (List.mem_cons_self _ _)
  have hd := hdn d (List.mem_cons_self _ _)
  have hcs : ∀ x ∈ cs, '0' ≤ x ∧ x ≤ '9' := fun x hx => hdm x (List.mem_cons_of_mem _ hx)
  have hds : ∀ x ∈ ds, '0' ≤ x ∧ x ≤ '9' := fun x hx => hdn x (List.mem_cons_of_mem _ hx)
  have hrm := digits_removeUnderscores _ hdm
  have hrn := digits_removeUnderscores _ hdn
  refine ⟨?_, ?_, ?_, ?_, rfl, rfl, rfl, rfl⟩
  · have h := Parse_pieces [.lit c (cs ++ 'e' :: d :: ds)] .done
      ⟨⟨hc, by
        rw [literalTail_append, digits_literalTail cs hcs, literalTail,
          digits_literalTail _ hdn]
        rfl, rfl⟩, trivial⟩ trivial (by simp [piecesText, Piece.text])
    simp only [piecesText, Piece.text, SourceEnd.text, List.append_nil, SourceEnd.error,
      piecesTokens, Piece.token] at h
    rw [show (c :: cs) ++ 'e' :: d :: ds = c :: (cs ++ 'e' :: d :: ds) from rfl, h]
    have : Parser.removeUnderscores (c :: (cs ++ 'e' :: d :: ds)) =
        c :: (cs ++ 'e' :: d :: ds) := by
      rw [show c :: (cs ++ 'e' :: d :: ds) = (c :: cs) ++ ['e'] ++ (d :: ds) by simp,
        removeUnderscores_append, removeUnderscores_append, hrm, hrn]
      rfl
    rw [this]
  · have h := Parse_pieces [.lit c (cs ++ 'e' :: '-' :: d :: ds)] .done
      ⟨⟨hc, by
        rw [literalTail_append, digits_literalTail cs hcs, literalTail, literalTail,
          digits_literalTail _ hdn]
        rfl, rfl⟩, trivial⟩ trivial (by simp [piecesText, Piece.text])
    simp only [piecesText, Piece.text, SourceEnd.text, List.append_nil, SourceEnd.error,
      piecesTokens, Piece.token] at h
    rw [show (c :: cs) ++ 'e' :: '-' :: d :: ds = c :: (cs ++ 'e' :: '-' :: d :: ds) from rfl,
      h]
    have : Parser.removeUnderscores (c :: (cs ++ 'e' :: '-' :: d :: ds)) =
        c :: (cs ++ 'e' :: '-' :: d :: ds) := by
      rw [show c :: (cs ++ 'e' :: '-' :: d :: ds) = (c :: cs) ++ ['e', '-'] ++ (d :: ds)
        by simp, removeUnderscores_append, removeUnderscores_append, hrm, hrn]
      rfl
    rw [this]
  · have h := Parse_pieces [.lit c cs, .ident 'E' (d :: ds)] .done
      ⟨⟨hc, digits_literalTail cs hcs _, by
        simp [piecesText, Piece.text, SourceEnd.text, literalStops, Parser.isDigitNum]⟩,
       ⟨by decide, digits_wordChars _ hdn, rfl⟩, trivial⟩ trivial
      (by simp [piecesText, Piece.text])
    simp only [piecesText, Piece.text, SourceEnd.text, List.append_nil, SourceEnd.error,
      piecesTokens, Piece.token, Nat.zero_add] at h
    rw [show (c :: cs) ++ 'E' :: d :: ds = c :: cs ++ 'E' :: d :: ds from rfl, h, hrm]
  · have h := Parse_pieces [.lit c cs, .ident 'E' [], .op '-', .lit d ds] .done
      ⟨⟨hc, digits_literalTail cs hcs _, by
        simp [piecesText, Piece.text, SourceEnd.text, literalStops, Parser.isDigitNum]⟩,
       ⟨by decide, rfl, by simp [piecesText, Piece.text, wordStops]; decide⟩,
       by simp [Piece.ok]; decide,
       ⟨hd, digits_literalTail ds hds _, rfl⟩, trivial⟩ trivial
      (by simp [piecesText, Piece.text])
    simp only [piecesText, Piece.text, SourceEnd.text, List.append_nil, SourceEnd.error,
      piecesTokens, Piece.token, Nat.zero_add] at h
    rw [show (c :: cs) ++ 'E' :: '-' :: d :: ds = c :: cs ++ (['E'] ++ (['-'] ++ d :: ds))
      from rfl, h, hrm, hrn]
    simp [Nat.add_assoc]

theorem C15_exponent_marker_witness :
    Parse ("12".toList ++ 'E' :: "34".toList) =
      .done (.ok [{ Value := "12".toList, Typ := LiteralType, Offset := 0 },
        { Value := 'E' :: "34".toList, Typ := IdentifierType, Offset := "12".toList.length }]) :=
  (C15_exponent_marker "12".toList "34".toList '1' '3' ['2'] ['4'] rfl rfl
    (by decide) (by decide)).2.2.1

/-- Counterexample to C15 as stated: `1E5` is not one literal token but the literal `1`
followed by the identifier `E5`, and `1E-5` is four tokens; `ParseExpression` rejects both
with the error for tokens left over, while `1e5` parses to 100000. -/
theorem C15_counterexample :
    Parse "1E5".toList =
        .done (.ok [{ Value := "1".toList, Typ := LiteralType, Offset := 0 },
          { Value := "E5".toList, Typ := IdentifierType, Offset := 1 }]) ∧
      Parse "1e5".toList =
        .done (.ok [{ Value := "1e5".toList, Typ := LiteralType, Offset := 0 }]) ∧
      Parse "1E-5".toList =
        .done (.ok [{ Value := "1".toList, Typ := LiteralType, Offset := 0 },
          { Value := "E".toList, Typ := IdentifierType, Offset := 1 },
          { Value := "-".toList, Typ := OperatorType, Offset := 2 },
          { Value := "5".toList, Typ := LiteralType, Offset := 3 }]) ∧
      ParseExpression defaultRegistry "1E5".toList = .done (.error (.badExpression 1)) ∧
      ParseExpression defaultRegistry "1E-5".toList = .done (.error (.badExpression 1)) ∧
      ParseExpression defaultRegistry "1e5".toList =
        .done (.ok (NumberExprNode (F64.ofInt 100000) "1e5".toList)) := by
  refine ⟨rfl, rfl, rfl, rfl, rfl, rfl⟩

/-- C17. Unrecognised bytes are lex errors: when a source is a sequence of pieces (tokens
and whitespace, each as the lexer reads it) followed by a byte `c` that is not whitespace,
not an operator symbol, not a digit, not a comma and not a letter byte, then `Parse`
returns an error and no tokens, and the error names `c` and its byte offset, whatever
follows `c`. Examples are `@`, `!`, `=`, and `.` or `_` where a token starts. -/
theorem C17_unknown_byte (ps : List Piece) (c : Char) (rest : GoString)
    (hok : piecesOk (c :: rest) ps) (hc : unknownByte c = true) :
    Parse (piecesText ps ++ c :: rest) =
        .done (.error (.unknownSymbol c (piecesText ps).length)) ∧
      Parse "1+@2".toList = .done (.error (.unknownSymbol '@' 2)) ∧
      Parse "!".toList = .done (.error (.unknownSymbol '!' 0)) ∧
      Parse "x = 1".toList = .done (.error (.unknownSymbol '=' 2)) ∧
      Parse ".5".toList = .done (.error (.unknownSymbol '.' 0)) ∧
      Parse "2*_1".toList = .done (.error (.unknownSymbol '_' 2)) := by
  refine ⟨?_, rfl, rfl, rfl, rfl, rfl⟩
  exact Parse_pieces ps (.bad c rest) hok hc (by simp [SourceEnd.text])

theorem C17_unknown_byte_witness :
    Parse (piecesText [.ident 'a' ['b'], .ws ' ', .op '+', .lit '1' ['.', '5']] ++
        '?' :: "+1".toList) =
      .done (.error (.unknownSymbol '?'
        (piecesText [.ident 'a' ['b'], .ws ' ', .op '+', .lit '1' ['.', '5']]).length)) :=
  (C17_unknown_byte [.ident 'a' ['b'], .ws ' ', .op '+', .lit '1' ['.', '5']] '?'
    "+1".toList
    (by simp [piecesOk, Piece.ok, piecesText, Piece.text, wordStops, literalTail,
      literalStops, Parser.isDigitNum, Parser.isWordChar, Parser.isChar,
      Parser.isWhitespace, Operators])
    (by decide)).1

/-! ## Whitespace between tokens and at the end -/

theorem piecesKeys_append (ps1 ps2 : List Piece) :
    piecesKeys (ps1 ++ ps2) = piecesKeys ps1 ++ piecesKeys ps2 := by
  induction ps1 with
  | nil => rfl
  | cons l ls ih => cases l <;> simp [piecesKeys, ih]

theorem piecesTokens_keys (ps : List Piece) :
    ∀ off, (piecesTokens off ps).map Token.key = piecesKeys ps := by
  induction ps with
  | nil => intro off; rfl
  | cons l ls ih =>
    intro off
    cases l <;> simp [piecesTokens, piecesKeys, Piece.token, Token.key, ih]

theorem blanks_keys (w : GoString) : piecesKeys (blanks w) = [] := by
  induction w with
  | nil => rfl
  | cons c cs ih => simpa [blanks, piecesKeys] using ih

theorem blanks_text (w : GoString) : piecesText (blanks w) = w := by
  induction w with
  | nil => rfl
  | cons c cs ih =>
    have : piecesText (blanks cs) = cs := ih
    simp [blanks, piecesText, Piece.text] at this ⊢
    exact this

theorem blanks_ok (w : GoString) (next : GoString) (hw : ∀ x ∈ w, Parser.isWhitespace x = true)
    (hne : next ≠ []) : piecesOk next (blanks w) := by
  induction w with
  | nil => trivial
  | cons c cs ih =>
    refine ⟨⟨hw c (List.mem_cons_self _ _), ?_⟩, ih (fun x hx => hw x (List.mem_cons_of_mem _ hx))⟩
    simp [hne]

/-- Whether a piece is what the lexer reads depends only on the first byte that follows,
and whitespace stops every piece. -/
theorem Piece.ok_of_head {p : Piece} {n1 n2 : GoString} (h : p.ok n1)
    (hh : n2.head? = n1.head? ∨ ∃ w r, n2 = w :: r ∧ Parser.isWhitespace w = true) :
    p.ok n2 := by
  cases p with
  | lit c cs =>
    obtain ⟨hd, ht, hs⟩ := h
    refine ⟨hd, ht, ?_⟩
    rcases hh with hh | ⟨w, r, rfl, hw⟩
    · cases n1 <;> cases n2 <;> simp_all [literalStops]
    · rcases Parser.whitespace_cases hw with h | h | h | h | h | h <;> subst h <;>
        simp [literalStops, Parser.isDigitNum]
  | op c => exact h
  | comma => trivial
  | ident c cs =>
    obtain ⟨hc, ha, hs⟩ := h
    refine ⟨hc, ha, ?_⟩
    rcases hh with hh | ⟨w, r, rfl, hw⟩
    · cases n1 <;> cases n2 <;> simp_all [wordStops]
    · rcases Parser.whitespace_cases hw with h | h | h | h | h | h <;> subst h <;>
        simp [wordStops] <;> try decide
  | ws c =>
    obtain ⟨hc, hne⟩ := h
    refine ⟨hc, ?_⟩
    rcases hh with hh | ⟨w, r, rfl, hw⟩
    · cases n1 <;> cases n2 <;> simp_all
    · simp

theorem piecesOk_of_head {n1 n2 : GoString} : ∀ (ps : List Piece), piecesOk n1 ps →
    (n2.head? = n1.head? ∨ ∃ w r, n2 = w :: r ∧ Parser.isWhitespace w = true) →
    piecesOk n2 ps := by
  intro ps
  induction ps with
  | nil => intro _ _; trivial
  | cons p ps ih =>
    intro h hh
    refine ⟨?_, ih h.2 hh⟩
    cases ps with
    | nil =>
      have := h.1
      simp only [piecesText, List.nil_append] at this ⊢
      exact Piece.ok_of_head this hh
    | cons q qs =>
      refine Piece.ok_of_head h.1 (Or.inl ?_)
      have hq := q.text_ne
      cases hqt : q.text with
      | nil => exact absurd hqt hq
      | cons x xs => simp [piecesText, hqt]

/-- Whitespace put in front of a source, or between two of its pieces, changes neither the
success of `Parse` nor the texts and kinds of the tokens; whitespace put after the source
is accepted when its last byte is a space and is an error otherwise. -/
theorem Parse_whitespace (ps1 ps2 : List Piece) (w : GoString) (c : Char) (cs : GoString)
    (hw : w = c :: cs) (hall : ∀ x ∈ w, Parser.isWhitespace x = true)
    (hok : piecesOk [] (ps1 ++ ps2)) (hne : ps1 ++ ps2 ≠ []) :
    Parse (piecesText (ps1 ++ ps2)) = .done (.ok (piecesTokens 0 (ps1 ++ ps2))) ∧
    (ps2 ≠ [] → ∃ toks, Parse (piecesText ps1 ++ w ++ piecesText ps2) = .done (.ok toks) ∧
      toks.map Token.key = (piecesTokens 0 (ps1 ++ ps2)).map Token.key) ∧
    (ps2 = [] → Parse (piecesText ps1 ++ w) =
      if w.getLast? = some ' ' then .done (.ok (piecesTokens 0 ps1))
      else .done (.error (.unknownSymbol ((c :: cs).getLast (by simp))
        ((piecesText ps1).length + w.length)))) := by
  have htne : piecesText (ps1 ++ ps2) ≠ [] := by
    cases h : ps1 ++ ps2 with
    | nil => exact absurd h hne
    | cons p ps =>
      have := p.text_ne
      simp [piecesText, this]
  refine ⟨?_, ?_, ?_⟩
  · have h := Parse_pieces (ps1 ++ ps2) .done hok trivial (by simpa [SourceEnd.text] using htne)
    simpa [SourceEnd.text, SourceEnd.error] using h
  · intro h2
    have hne2 : piecesText ps2 ≠ [] := by
      cases ps2 with
      | nil => exact absurd rfl h2
      | cons p ps =>
        have := p.text_ne
        simp [piecesText, this]
    obtain ⟨hok1, hok2⟩ := piecesOk_append.1 hok
    have hokn : piecesOk [] (ps1 ++ (blanks w ++ ps2)) := by
      rw [piecesOk_append, piecesOk_append]
      refine ⟨?_, blanks_ok w _ hall (by simpa using hne2), hok2⟩
      refine piecesOk_of_head ps1 hok1 (Or.inr ⟨c, cs ++ (piecesText ps2 ++ []), ?_,
        hall c (by rw [hw]; exact List.mem_cons_self _ _)⟩)
      rw [piecesText_append, blanks_text, hw]
      simp
    have h := Parse_pieces (ps1 ++ (blanks w ++ ps2)) .done hokn trivial
      (by simp [SourceEnd.text, piecesText_append, hne2])
    simp only [SourceEnd.text, List.append_nil, SourceEnd.error, piecesText_append,
      blanks_text] at h
    refine ⟨_, by rw [List.append_assoc]; exact h, ?_⟩
    rw [piecesTokens_keys, piecesTokens_keys, piecesKeys_append, piecesKeys_append,
      piecesKeys_append, blanks_keys, List.nil_append]
  · intro h2
    subst h2
    rw [List.append_nil] at hok
    subst hw
    have hokn : piecesOk (SourceEnd.blank c cs).text ps1 :=
      piecesOk_of_head ps1 hok (Or.inr ⟨c, cs, rfl, hall c (List.mem_cons_self _ _)⟩)
    have hz : (SourceEnd.blank c cs).ok :=
      ⟨hall c (List.mem_cons_self _ _), by
        rw [List.all_eq_true]
        exact fun x hx => hall x (List.mem_cons_of_mem _ hx)⟩
    have h := Parse_pieces ps1 (.blank c cs) hokn hz (by simp [SourceEnd.text])
    simp only [SourceEnd.text, SourceEnd.error] at h
    rw [h]
    have hl : (c :: cs).getLast? = some ((c :: cs).getLast (by simp)) :=
      List.getLast?_eq_getLast _ _
    rw [hl]
    by_cases hsp : (c :: cs).getLast (by simp) = ' '
    · simp [hsp]
    · simp [hsp, Nat.add_assoc, Nat.add_comm 1]

/-- C16 at the failing input: `1+2` tokenizes to three tokens, and so does `1+2` with
whitespace in front of it, between its tokens, or with whitespace after it that ends in a
space; but `1+2` followed by a tab, a newline or a carriage return is a lex error, which
names the whitespace byte and the length of the source, and `ParseExpression` returns that
error. -/
theorem C16_code_at_failing_input :
    Parse "1+2".toList =
        .done (.ok [{ Value := "1".toList, Typ := LiteralType, Offset := 0 },
          { Value := "+".toList, Typ := OperatorType, Offset := 1 },
          { Value := "2".toList, Typ := LiteralType, Offset := 2 }]) ∧
      Parse "1+2\t".toList = .done (.error (.unknownSymbol '\t' 4)) ∧
      Parse "1+2\n".toList = .done (.error (.unknownSymbol '\n' 4)) ∧
      Parse "1+2 \r".toList = .done (.error (.unknownSymbol '\r' 5)) ∧
      ParseExpression defaultRegistry "1+2\n".toList =
        .done (.error (.unknownSymbol '\n' 4)) ∧
      Parse "1+2 ".toList =
        .done (.ok [{ Value := "1".toList, Typ := LiteralType, Offset := 0 },
          { Value := "+".toList, Typ := OperatorType, Offset := 1 },
          { Value := "2".toList, Typ := LiteralType, Offset := 2 }]) ∧
      Parse "1+2\t ".toList =
        .done (.ok [{ Value := "1".toList, Typ := LiteralType, Offset := 0 },
          { Value := "+".toList, Typ := OperatorType, Offset := 1 },
          { Value := "2".toList, Typ := LiteralType, Offset := 2 }]) ∧
      Parse "\t 1\n+\r2".toList =
        .done (.ok [{ Value := "1".toList, Typ := LiteralType, Offset := 2 },
          { Value := "+".toList, Typ := OperatorType, Offset := 4 },
          { Value := "2".toList, Typ := LiteralType, Offset := 6 }]) := by
  refine ⟨rfl, rfl, rfl, rfl, rfl, rfl, rfl, rfl⟩

/-- C19. Registration fails exactly on bad or duplicate names and changes one entry:
`RegDefFunc(name, df)` returns an error if and only if `name` is empty, `df.Argc() < -1`, or
`name` is already a registered function; `RegConst(name, v)` returns an error if and only if
`name` is empty or already a constant, so `pi`, `e` and `infty` cannot be overwritten. On
an error both tables are unchanged; on success the entry for `name` is added to the one
table, every other entry and the other table are unchanged, and the lookup of `name`
returns what was registered. -/
theorem C19_registration (reg : Registry) (name : GoString) (df : DefFunc) (v : F64) :
    ((RegDefFunc reg name df).1.isSome = true ↔
        (name = [] ∨ df.Argc < -1 ∨ (reg.defFunc name).isSome = true)) ∧
      ((RegDefFunc reg name df).1.isSome = true → (RegDefFunc reg name df).2 = reg) ∧
      ((RegDefFunc reg name df).1 = none →
        GetDefFunc (RegDefFunc reg name df).2 name = some df ∧
        (∀ n, n ≠ name → (RegDefFunc reg name df).2.defFunc n = reg.defFunc n) ∧
        (RegDefFunc reg name df).2.defConst = reg.defConst) ∧
      ((RegConst reg name v).1.isSome = true ↔
        (name = [] ∨ (reg.defConst name).isSome = true)) ∧
      ((RegConst reg name v).1.isSome = true → (RegConst reg name v).2 = reg) ∧
      ((RegConst reg name v).1 = none →
        GetDefConst (RegConst reg name v).2 name = v ∧
        (RegConst reg name v).2.defConst name = some v ∧
        (∀ n, n ≠ name → (RegConst reg name v).2.defConst n = reg.defConst n) ∧
        (RegConst reg name v).2.defFunc = reg.defFunc) ∧
      RegConst defaultRegistry "pi".toList v = (some .regDuplicate, defaultRegistry) ∧
      RegConst defaultRegistry "e".toList v = (some .regDuplicate, defaultRegistry) ∧
      RegConst defaultRegistry "infty".toList v = (some .regDuplicate, defaultRegistry) ∧
      (RegConst defaultRegistry "tau".toList v).1 = none ∧
      (RegDefFunc defaultRegistry "f".toList (exampleFunc 2)).1 = none ∧
      (RegDefFunc (RegDefFunc defaultRegistry "f".toList (exampleFunc 2)).2 "f".toList
        (exampleFunc 1)).1 = some .regDuplicate ∧
      (RegDefFunc defaultRegistry "g".toList (exampleFunc (-2))).1 = some .regBadArgc ∧
      (RegDefFunc defaultRegistry [] (exampleFunc 2)).1 = some .regEmptyName := by
  have hlen : name.length = 0 ↔ name = [] := List.length_eq_zero
  refine ⟨?_, ?_, ?_, ?_, ?_, ?_, rfl, rfl, rfl, rfl, rfl, rfl, rfl, rfl⟩
  · unfold RegDefFunc
    by_cases h1 : name.length = 0
    · simp [h1, hlen.1 h1]
    · have h1' : name ≠ [] := fun h => h1 (hlen.2 h)
      by_cases h2 : df.Argc < -1
      · simp [h1, h2]
      · cases h3 : reg.defFunc name <;> simp [h1, h1', h2, h3]
  · unfold RegDefFunc
    by_cases h1 : name.length = 0
    · simp [h1]
    · by_cases h2 : df.Argc < -1
      · simp [h1, h2]
      · cases h3 : reg.defFunc name <;> simp [h1, h2, h3]
  · unfold RegDefFunc GetDefFunc
    by_cases h1 : name.length = 0
    · simp [h1]
    · by_cases h2 : df.Argc < -1
      · simp [h1, h2]
      · cases h3 : reg.defFunc name with
        | some d => simp [h1, h2, h3]
        | none =>
          simp only [h1, h2, if_false, h3, true_implies, if_true, true_and]
          refine ⟨fun n hn => ?_, trivial⟩
          simp [hn]
  · unfold RegConst
    by_cases h1 : name.length = 0
    · simp [h1, hlen.1 h1]
    · have h1' : name ≠ [] := fun h => h1 (hlen.2 h)
      cases h3 : reg.defConst name <;> simp [h1, h1', h3]
  · unfold RegConst
    by_cases h1 : name.length = 0
    · simp [h1]
    · cases h3 : reg.defConst name <;> simp [h1, h3]
  · unfold RegConst GetDefConst
    by_cases h1 : name.length = 0
    · simp [h1]
    · cases h3 : reg.defConst name with
      | some d => simp [h1, h3]
      | none =>
        simp only [h1, if_false, h3, true_implies, if_true, Option.getD_some, true_and]
        refine ⟨fun n hn => ?_, trivial⟩
        simp [hn]

theorem AST.parsePrimary_identifier (reg : Registry) (f : Nat) (a : AST) (t t1 : Token)
    (ht : a.currTok = some t) (hty : t.Typ = IdentifierType)
    (ht1 : a.getNextToken.1.currTok = some t1) (hv : t1.Value ≠ ['(']) :
    AST.parsePrimary reg (f + 2) a =
      .done (AST.constOrVariable reg t.Value, a.getNextToken.1) := by
  rw [AST.parsePrimary]
  simp only [AST.tok, ht, hty, Run.bind_done]
  rw [AST.parseFunCallerOrConst]
  simp only [AST.tok, ht, ht1, Run.bind_done, hv, if_false, Run.pure_eq]

/-- Parsing the three tokens `n op b` of an identifier, a binary operator and a literal. -/
theorem AST.parse_identifier_op_literal (reg : Registry) (s : GoString) (tn t1 tb : Token)
    (vb : F64) (p1 : Int) (hn : tn.Typ = IdentifierType)
    (hb : tb.IsLiteral vb) (h1 : t1.IsBinary p1) (fuel : Nat) :
    AST.ParseExpression reg (fuel + 4) (NewAST [tn, t1, tb] s) =
      .done (OperatorExprNode t1.Value (AST.constOrVariable reg tn.Value)
              (NumberExprNode vb tb.Value) false,
        ⟨s, some tb, 3, 0, [tn, t1, tb], none⟩) := by
  have hv1 : t1.Value ≠ ['('] := by
    obtain ⟨_, hp, c, o, hv, ho, hpo⟩ := h1
    rw [hv]
    intro h
    cases h
    have : o = OperatorItem.LBrackets := by
      have : Operators '(' = some OperatorItem.LBrackets := by decide
      rw [this] at ho
      cases ho
      rfl
    subst this
    rw [← hpo] at hp
    revert hp
    decide
  have e1 : AST.parsePrimary reg (fuel + 3) ⟨s, some tn, 0, 1, [tn, t1, tb], none⟩ =
      .done (AST.constOrVariable reg tn.Value, ⟨s, some t1, 1, 1, [tn, t1, tb], none⟩) :=
    AST.parsePrimary_identifier reg _ _ tn t1 rfl hn rfl hv1
  have e2 : AST.parsePrimary reg (fuel + 2) ⟨s, some tb, 2, 1, [tn, t1, tb], none⟩ =
      .done (NumberExprNode vb tb.Value, ⟨s, some tb, 3, 1, [tn, t1, tb], none⟩) :=
    AST.parsePrimary_literal reg _ _ tb vb rfl hb.1 hb.2.1
  have q1 := AST.prec_binary ⟨s, some t1, 1, 1, [tn, t1, tb], none⟩ t1 p1 rfl h1
  have q3 := AST.prec_literal ⟨s, some tb, 3, 1, [tn, t1, tb], none⟩ tb vb rfl hb
  have hp1 := h1.2.1
  rw [AST.ParseExpression]
  simp only [NewAST, zero_add, e1, Run.bind_done]
  rw [AST.parseBinOpRHS_step reg (fuel + 2) 0 p1 (-1) _ _ _ _ _ t1 tb q1 (by omega) rfl rfl e2
      rfl q3]
  simp only [show ¬ (p1 < (-1 : Int)) by omega, if_false]
  rw [AST.parseBinOpRHS_stop reg _ _ (-1) _ _ q3 (by omega)]
  simp [AST.leave]

theorem constOrVariable_isNil (reg : Registry) (n : GoString) :
    (AST.constOrVariable reg n).isNil = false := by
  unfold AST.constOrVariable
  cases reg.defConst n <;> rfl

/-- C11, as amended. An unbound variable renders as its own name: for every name `m` and
every context whose `Parameter` has no binding for `m`, `ToExprStr` of the variable node
`m` is `m`; and for every identifier `n` that is not a registered constant and has no
binding, the source `n+1` parses to the sum of the variable `n` and 1, and `ToExprStr` of
that tree is `n` followed by ` + 1` (so `y+1` renders as `y + 1`). -/
theorem C11_unbound_variable (reg : Registry) (n : GoString) (c : Char) (cs : GoString)
    (p : Parameter) (fuel : Nat)
    (hn : n = c :: cs) (hc : Parser.isChar c = true) (hcs : cs.all Parser.isWordChar = true)
    (hconst : reg.defConst n = none) (hv : p.Vars n = none) :
    (∀ m : GoString, p.Vars m = none →
        ToExprStr reg (fuel + 1) (VariableExprNode m) (some p) = .done m) ∧
      ParseExpression reg (n ++ "+1".toList) =
        .done (.ok (OperatorExprNode ['+'] (VariableExprNode n)
          (NumberExprNode (F64.ofInt 1) ['1']) false)) ∧
      ToExprStrSource reg (fuel + 2) (n ++ "+1".toList) (some p) =
        .done (.ok (n ++ " + 1".toList)) ∧
      ToExprStrSource defaultRegistry (fuel + 2) "y+1".toList (some exampleParameter) =
        .done (.ok "y + 1".toList) := by
  have hvar : ∀ m : GoString, p.Vars m = none →
      ToExprStr reg (fuel + 1) (VariableExprNode m) (some p) = .done m := by
    intro m hm
    rw [ToExprStr]
    simp [GetCtxParameter, hm]
  have hparse : ParseExpression reg (n ++ "+1".toList) =
      .done (.ok (OperatorExprNode ['+'] (VariableExprNode n)
        (NumberExprNode (F64.ofInt 1) ['1']) false)) := by
    subst hn
    have hlex := Parse_pieces [.ident c cs, .op '+', .lit '1' []] .done
      ⟨⟨hc, hcs, by simp [piecesText, Piece.text, wordStops]; decide⟩,
        by simp [Piece.ok]; decide, ⟨by decide, rfl, rfl⟩, trivial⟩ trivial
      (by simp [piecesText, Piece.text])
    have htxt : piecesText [.ident c cs, .op '+', .lit '1' []] ++ SourceEnd.text .done =
        c :: cs ++ "+1".toList := by
      simp [piecesText, Piece.text, SourceEnd.text]
    rw [htxt] at hlex
    have hru : Parser.removeUnderscores ['1'] = ['1'] := by decide
    have hpf : ParseFloat ['1'] = some (F64.ofInt 1) := by decide
    have hop : Operators '1' = none := by decide
    have hplus : Operators '+' = some OperatorItem.Plus := by decide
    simp only [SourceEnd.error, piecesTokens, Piece.token, Piece.text, hru] at hlex
    have hA := AST.parse_identifier_op_literal reg (c :: cs ++ "+1".toList)
      { Value := c :: cs, Typ := IdentifierType, Offset := 0 }
      { Value := ['+'], Typ := OperatorType, Offset := 0 + (c :: cs).length }
      { Value := ['1'], Typ := LiteralType, Offset := 0 + (c :: cs).length + ['+'].length }
      (F64.ofInt 1) 20 rfl
      ⟨rfl, hpf, '1', [], rfl, hop⟩
      ⟨rfl, by decide, '+', OperatorItem.Plus, rfl, hplus, rfl⟩ 12
    have hcv : AST.constOrVariable reg (c :: cs) = VariableExprNode (c :: cs) := by
      unfold AST.constOrVariable
      rw [hconst]
    rw [hcv] at hA
    exact ParseExpression_of_tokens reg _ _ _ _ _ _ hlex rfl hA rfl
  refine ⟨hvar, hparse, ?_, rfl⟩
  unfold ToExprStrSource
  rw [hparse]
  simp only [Run.bind_done]
  rw [ToExprStr]
  have h1 : ToExprStr reg (fuel + 1) (VariableExprNode n) (some p) = .done n := hvar n hv
  have h2 : ToExprStr reg (fuel + 1) (NumberExprNode (F64.ofInt 1) ['1']) (some p) =
      .done ['1'] := by
    rw [ToExprStr]; rfl
  rw [h1, h2]
  simp only [Run.bind_done]
  have : GetOperator '+' = some OperatorItem.Plus := by decide
  simp only [this, Bool.false_eq_true, if_false, OperatorItem.ToExprStr, Run.pure_eq]
  simp

theorem C11_unbound_variable_witness :
    ParseExpression defaultRegistry ("y2".toList ++ "+1".toList) =
      .done (.ok (OperatorExprNode ['+'] (VariableExprNode "y2".toList)
        (NumberExprNode (F64.ofInt 1) ['1']) false)) ∧
    ToExprStrSource defaultRegistry (0 + 2) ("y2".toList ++ "+1".toList)
        (some exampleParameter) = .done (.ok ("y2".toList ++ " + 1".toList)) :=
  ⟨(C11_unbound_variable defaultRegistry "y2".toList 'y' ['2'] exampleParameter 0 rfl
      (by decide) (by decide) rfl rfl).2.1,
    (C11_unbound_variable defaultRegistry "y2".toList 'y' ['2'] exampleParameter 0 rfl
      (by decide) (by decide) rfl rfl).2.2.1⟩

/-- Counterexample to C11 as stated: the names `pi` and `e` have no binding in the empty
`Parameter`, but they are registered constants, and the trees parsed from `pi+1` and `e+1`
render as `3 + 1`. -/
theorem C11_counterexample :
    emptyParameter.Vars "pi".toList = none ∧
      ToExprStrSource defaultRegistry 2 "pi+1".toList (some emptyParameter) =
        .done (.ok "3 + 1".toList) ∧
      ToExprStrSource defaultRegistry 2 "e+1".toList (some emptyParameter) =
        .done (.ok "3 + 1".toList) ∧
      ParseExpression defaultRegistry "pi+1".toList =
        .done (.ok (OperatorExprNode ['+'] (ConstExprNode "pi".toList "3".toList mathPi)
          (NumberExprNode (F64.ofInt 1) ['1']) false)) := by
  refine ⟨rfl, rfl, rfl, rfl⟩

/-! ## What every run of the parser keeps -/

namespace AST

theorem Follows.refl (a : AST) : AST.Follows a a := ⟨rfl, le_refl _, id⟩

theorem Follows.trans {a b c : AST} (h1 : AST.Follows a b) (h2 : AST.Follows b c) :
    AST.Follows a c :=
  ⟨h2.1.trans h1.1, le_trans h1.2.1 h2.2.1, fun h => h2.2.2 (h1.2.2 h)⟩

theorem Follows.ofNext (a : AST) : AST.Follows a a.getNextToken.1 :=
  ⟨getNextToken_Tokens a, by rw [getNextToken_currIndex]; omega, fun h => h.getNextToken_sync⟩

theorem Follows.ofSetErr (a : AST) (e : GoError) : AST.Follows a { a with Err := some e } :=
  ⟨rfl, le_refl _, fun h => ⟨h.1, h.2⟩⟩

theorem Follows.ofSetDepth (a : AST) (d : Int) : AST.Follows a { a with depth := d } :=
  ⟨rfl, le_refl _, fun h => ⟨h.1, h.2⟩⟩

theorem parseNumber_follows {a a1 : AST} {e : ExprNode} (h : a.parseNumber = .done (e, a1)) :
    AST.Follows a a1 ∧ a1.depth = a.depth := by
  obtain ⟨t, _, ⟨v, _, _, rfl⟩ | ⟨_, _, rfl⟩⟩ := parseNumber_inv h
  · exact ⟨Follows.ofNext a, getNextToken_depth a⟩
  · exact ⟨Follows.ofSetErr a _, rfl⟩

theorem leave_follows {a a1 : AST} (h : a.leave = .done a1) :
    AST.Follows a a1 ∧ a1.depth = a.depth - 1 := by
  rcases leave_inv h with ⟨rfl, _⟩ | ⟨t, _, _, rfl⟩
  · exact ⟨Follows.ofSetDepth a _, rfl⟩
  · exact ⟨⟨rfl, le_refl _, fun h => ⟨h.1, h.2⟩⟩, rfl⟩

theorem finishCall_follows {a a1 : AST} {name : GoString} {d : DefFunc}
    {exprs : List ExprNode} {e : ExprNode} (h : a.finishCall name d exprs = .done (e, a1)) :
    AST.Follows a a1 ∧ a1.depth = a.depth := by
  obtain ⟨_, t, _, rfl⟩ := finishCall_inv h
  split
  · exact ⟨(Follows.ofSetErr a _).trans (Follows.ofNext _), by rw [getNextToken_depth]⟩
  · exact ⟨Follows.ofNext a, getNextToken_depth a⟩

end AST

/-- Every run of the parser keeps the tokens and the depth counter, does not move the index
back, and keeps the current token in step with the index. -/
theorem Parsed.follows {reg : Registry} {c : Call} {a a1 : AST} {e : ExprNode}
    {es : List ExprNode} (h : Parsed reg c a e es a1) :
    AST.Follows a a1 ∧ a1.depth = a.depth := by
  induction h with
  | expression a a2 a3 a4 lhs r _ _ hl ih1 ih2 =>
    obtain ⟨f3, d3⟩ := AST.leave_follows hl
    refine ⟨((AST.Follows.ofSetDepth a _).trans ih1.1).trans (ih2.1.trans f3), ?_⟩
    rw [d3, ih2.2, ih1.2]
    show a.depth + 1 - 1 = a.depth
    omega
  | primary_identifier a a1 t e _ _ _ ih => exact ih
  | primary_literal a a1 t e _ _ hn => exact AST.parseNumber_follows hn
  | primary_operator a a1 t e _ _ _ ih => exact ih
  | primary_comma a t _ _ => exact ⟨AST.Follows.ofSetErr a _, rfl⟩
  | call_const a t t1 _ _ _ => exact ⟨AST.Follows.ofNext a, AST.getNextToken_depth a⟩
  | call_undefined a t t1 _ _ _ _ =>
    exact ⟨(AST.Follows.ofNext a).trans (AST.Follows.ofSetErr _ _), AST.getNextToken_depth a⟩
  | call_noArgs a a1 t t1 t2 d e _ _ _ _ _ _ hf =>
    obtain ⟨f1, d1⟩ := AST.finishCall_follows hf
    refine ⟨((AST.Follows.ofNext a).trans (AST.Follows.ofNext _)).trans f1, ?_⟩
    rw [d1, AST.getNextToken_depth, AST.getNextToken_depth]
  | call_args a a3 a4 a1 t t1 t2 d e0 e exprs _ _ _ _ _ _ _ _ hf ih1 ih2 =>
    obtain ⟨f1, d1⟩ := AST.finishCall_follows hf
    refine ⟨(((AST.Follows.ofNext a).trans (AST.Follows.ofNext _)).trans ih1.1).trans
      (ih2.1.trans f1), ?_⟩
    rw [d1, ih2.2, ih1.2, AST.getNextToken_depth, AST.getNextToken_depth]
  | args_done exprs a t _ _ => exact ⟨AST.Follows.refl a, rfl⟩
  | args_eof exprs a t _ _ _ => exact ⟨AST.Follows.ofNext a, AST.getNextToken_depth a⟩
  | args_comma exprs exprs1 a a1 t t1 _ _ _ _ _ ih =>
    exact ⟨(AST.Follows.ofNext a).trans ih.1, by rw [ih.2, AST.getNextToken_depth]⟩
  | args_expression exprs exprs1 a a2 a1 t t1 e _ _ _ _ _ _ ih1 ih2 =>
    exact ⟨((AST.Follows.ofNext a).trans ih1.1).trans ih2.1,
      by rw [ih2.2, ih1.2, AST.getNextToken_depth]⟩
  | bracket_eof a t t1 _ _ _ _ =>
    exact ⟨(AST.Follows.ofNext a).trans (AST.Follows.ofSetErr _ _), AST.getNextToken_depth a⟩
  | bracket_nil a a2 t t1 e _ _ _ _ _ ih =>
    exact ⟨(AST.Follows.ofNext a).trans ih.1, by rw [ih.2, AST.getNextToken_depth]⟩
  | bracket_unclosed a a2 t t1 t2 e _ _ _ _ _ _ _ ih =>
    exact ⟨((AST.Follows.ofNext a).trans ih.1).trans (AST.Follows.ofSetErr _ _),
      by
        show a2.depth = a.depth
        rw [ih.2, AST.getNextToken_depth]⟩
  | bracket a a2 t t1 t2 e _ _ _ _ _ _ _ ih =>
    exact ⟨((AST.Follows.ofNext a).trans ih.1).trans (AST.Follows.ofNext _),
      by rw [AST.getNextToken_depth, ih.2, AST.getNextToken_depth]⟩
  | minus_eof a t t1 _ _ _ _ _ =>
    exact ⟨(AST.Follows.ofNext a).trans (AST.Follows.ofSetErr _ _), AST.getNextToken_depth a⟩
  | minus a a2 t t1 rhs _ _ _ _ _ ih =>
    exact ⟨(AST.Follows.ofNext a).trans ih.1, by rw [ih.2, AST.getNextToken_depth]⟩
  | operator_number a a1 t e _ _ _ hn => exact AST.parseNumber_follows hn
  | binOp_stop execPrec lhs a p _ _ => exact ⟨AST.Follows.refl a, rfl⟩
  | binOp_eof execPrec lhs a p t1 _ _ _ _ =>
    exact ⟨(AST.Follows.ofNext a).trans (AST.Follows.ofSetErr _ _), AST.getNextToken_depth a⟩
  | binOp_nil execPrec lhs rhs a a2 p t1 _ _ _ _ _ ih =>
    exact ⟨(AST.Follows.ofNext a).trans ih.1, by rw [ih.2, AST.getNextToken_depth]⟩
  | binOp_climb_nil execPrec lhs rhs rhs1 a a2 a3 p np t1 _ _ _ _ _ _ _ _ _ ih1 ih2 =>
    exact ⟨((AST.Follows.ofNext a).trans ih1.1).trans ih2.1,
      by rw [ih2.2, ih1.2, AST.getNextToken_depth]⟩
  | binOp_climb execPrec lhs rhs rhs1 r a a2 a3 a4 p np t t1 _ _ _ _ _ _ _ _ _ _ _
      ih1 ih2 ih3 =>
    exact ⟨(((AST.Follows.ofNext a).trans ih1.1).trans ih2.1).trans ih3.1,
      by rw [ih3.2, ih2.2, ih1.2, AST.getNextToken_depth]⟩
  | binOp_fold execPrec lhs rhs r a a2 a3 p np t t1 _ _ _ _ _ _ _ _ _ ih1 ih2 =>
    exact ⟨((AST.Follows.ofNext a).trans ih1.1).trans ih2.1,
      by rw [ih2.2, ih1.2, AST.getNextToken_depth]⟩

/-! ## The parser returns -/

namespace AST

theorem Live.step {a : AST} (h : a.Live) : a.getNextToken.1.Live := by
  obtain ⟨t, ht, hm⟩ := h
  unfold AST.getNextToken
  simp only
  cases hg : a.Tokens.get? (a.currIndex + 1) with
  | none => exact ⟨t, ht, hm⟩
  | some t1 => exact ⟨t1, rfl, List.get?_mem hg⟩

theorem Live.tok_done {a : AST} (h : a.Live) : ∃ t, a.tok = .done t ∧ a.currTok = some t ∧
    t ∈ a.Tokens := by
  obtain ⟨t, ht, hm⟩ := h
  exact ⟨t, by simp [AST.tok, ht], ht, hm⟩

theorem getNextToken_none {a : AST} (h : a.getNextToken.2 = none) :
    a.getNextToken.1.currTok = a.currTok := by
  unfold AST.getNextToken at h ⊢
  simp only at h ⊢
  cases hg : a.Tokens.get? (a.currIndex + 1) with
  | none => rfl
  | some t1 => simp only [List.get?_eq_getElem?] at hg; simp [hg] at h

theorem rem_next {a : AST} {t : Token} (h : a.getNextToken.2 = some t) :
    a.getNextToken.1.rem + 1 = a.rem ∧ 2 ≤ a.rem := by
  have := getNextToken_some h
  unfold AST.rem
  rw [getNextToken_Tokens, getNextToken_currIndex]
  omega

theorem rem_mono {a a1 : AST} (h1 : a1.Tokens = a.Tokens) (h2 : a.currIndex ≤ a1.currIndex) :
    a1.rem ≤ a.rem := by
  unfold AST.rem
  rw [h1]
  omega

theorem Returns.of_done {α : Type} {a a1 : AST} (r : α) (h1 : a1.Tokens = a.Tokens)
    (h2 : a.currIndex ≤ a1.currIndex) (h3 : a1.Live) :
    AST.Returns a (Run.done (r, a1)) := ⟨r, a1, rfl, h1, h2, h3⟩

theorem Returns.mono {α : Type} {a a1 : AST} {x : Run (α × AST)} (h : AST.Returns a1 x)
    (h1 : a1.Tokens = a.Tokens) (h2 : a.currIndex ≤ a1.currIndex) : AST.Returns a x := by
  obtain ⟨r, a2, hx, g1, g2, g3⟩ := h
  exact ⟨r, a2, hx, g1.trans h1, le_trans h2 g2, g3⟩

theorem Returns.via {α : Type} {a : AST} (a1 : AST) {x : Run (α × AST)}
    (h : AST.Returns a1 x) (h1 : a1.Tokens = a.Tokens) (h2 : a.currIndex ≤ a1.currIndex) :
    AST.Returns a x := h.mono h1 h2

theorem Returns.andThen {α β : Type} {a : AST} {x : Run (α × AST)}
    {f : α × AST → Run (β × AST)} (hx : AST.Returns a x)
    (hf : ∀ r a1, a1.Tokens = a.Tokens → a.currIndex ≤ a1.currIndex → a1.Live →
      AST.Returns a1 (f (r, a1))) :
    AST.Returns a (x >>= f) := by
  obtain ⟨r, a1, hx, g1, g2, g3⟩ := hx
  rw [hx]
  exact (hf r a1 g1 g2 g3).mono g1 g2

theorem Returns.getNext {α : Type} {a : AST} (r : α) (h : a.Live) :
    AST.Returns a (Run.done (r, a.getNextToken.1)) :=
  ⟨r, _, rfl, getNextToken_Tokens a, by rw [getNextToken_currIndex]; omega, h.step⟩

theorem parseNumber_returns {a : AST} (h : a.Live) : AST.Returns a a.parseNumber := by
  obtain ⟨t, ht, hc, hm⟩ := h.tok_done
  unfold AST.parseNumber
  rw [ht]
  simp only [Run.bind_done]
  cases ParseFloat t.Value with
  | none => exact Returns.of_done _ rfl (le_refl _) ⟨t, hc, hm⟩
  | some v => exact Returns.getNext _ h

theorem finishCall_returns {a : AST} (h : a.Live) (name : GoString) (d : DefFunc)
    (exprs : List ExprNode) : AST.Returns a (a.finishCall name d exprs) := by
  obtain ⟨t, ht, hc, hm⟩ := h.tok_done
  unfold AST.finishCall
  rw [ht]
  simp only [Run.bind_done, Run.pure_eq]
  split
  · have hl : AST.Live
        { a with Err := some (GoError.wrongArgc name d.Argc exprs.length t.Offset) } :=
      ⟨t, hc, hm⟩
    exact (Returns.getNext _ hl).mono rfl (le_refl _)
  · exact Returns.getNext _ h

theorem leave_returns {a : AST} (h : a.Live) : ∃ a1, a.leave = .done a1 ∧
    a1.Tokens = a.Tokens ∧ a1.currIndex = a.currIndex ∧ a1.Live := by
  obtain ⟨t, ht, hc, hm⟩ := h.tok_done
  unfold AST.leave
  simp only [Run.pure_eq, Run.bind_done]
  split
  · have : AST.tok { a with depth := a.depth - 1 } = .done t := by simpa [AST.tok] using ht
    rw [this]
    exact ⟨_, rfl, rfl, rfl, ⟨t, hc, hm⟩⟩
  · exact ⟨_, rfl, rfl, rfl, ⟨t, hc, hm⟩⟩

theorem getTokPrecedence_returns {a : AST} (h : a.Live) (hs : TokensSafe a.Tokens) :
    ∃ p, a.getTokPrecedence = .done p := by
  obtain ⟨t, ht, hc, hm⟩ := h.tok_done
  unfold AST.getTokPrecedence
  rw [ht]
  simp only [Run.bind_done]
  cases hv : t.Value with
  | nil => exact absurd hv (hs t hm).1
  | cons c cs =>
    simp only
    cases Operators c <;> exact ⟨_, rfl⟩

end AST
open AST in
/-- With fuel of four times the number of remaining tokens (plus a constant for each
method) the parser returns: it neither panics nor runs out of fuel. -/
theorem AST.returns (reg : Registry) : ∀ fuel : Nat,
    (∀ a, TokensSafe a.Tokens → a.Live → 4 * a.rem + 4 ≤ fuel →
      AST.Returns a (AST.ParseExpression reg fuel a)) ∧
    (∀ a, TokensSafe a.Tokens → a.Live → 4 * a.rem + 2 ≤ fuel →
      AST.Returns a (AST.parsePrimary reg fuel a)) ∧
    (∀ a t, TokensSafe a.Tokens → a.currTok = some t → t ∈ a.Tokens →
      t.Typ = IdentifierType → 4 * a.rem + 1 ≤ fuel →
      AST.Returns a (AST.parseFunCallerOrConst reg fuel a)) ∧
    (∀ exprs a, TokensSafe a.Tokens → a.Live → 4 * a.rem + 1 ≤ fuel →
      AST.Returns a (AST.parseArgs reg fuel exprs a)) ∧
    (∀ a, TokensSafe a.Tokens → a.Live → 4 * a.rem + 1 ≤ fuel →
      AST.Returns a (AST.parseOperator reg fuel a)) ∧
    (∀ p lhs a, TokensSafe a.Tokens → a.Live → 4 * a.rem + 3 ≤ fuel →
      AST.Returns a (AST.parseBinOpRHS reg fuel p lhs a)) := by
  intro fuel
  induction fuel with
  | zero =>
    refine ⟨?_, ?_, ?_, ?_, ?_, ?_⟩
    · intro a _ _ h; omega
    · intro a _ _ h; omega
    · intro a t _ _ _ _ h; omega
    · intro exprs a _ _ h; omega
    · intro a _ _ h; omega
    · intro p lhs a _ _ h; omega
  | succ n ih =>
    obtain ⟨ihE, ihP, ihF, ihA, ihO, ihB⟩ := ih
    refine ⟨?_, ?_, ?_, ?_, ?_, ?_⟩
    · -- ParseExpression
      intro a hs hl hf
      rw [AST.ParseExpression]
      have hl1 : AST.Live { a with depth := a.depth + 1 } := hl
      have hr1 : AST.rem { a with depth := a.depth + 1 } = a.rem := rfl
      refine Returns.via ({ a with depth := a.depth + 1 }) ?_ rfl (le_refl _)
      refine Returns.andThen (ihP _ hs hl1 (by rw [hr1]; omega)) ?_
      intro lhs a2 g1 g2 g3
      have hr2 := rem_mono g1 g2
      refine Returns.andThen (ihB 0 lhs a2 (by rw [g1]; exact hs) g3 (by rw [hr1] at hr2; omega)) ?_
      intro r a3 k1 k2 k3
      obtain ⟨a4, h4, m1, m2, m3⟩ := leave_returns k3
      show AST.Returns a3 (a3.leave >>= fun a => pure (r, a))
      rw [h4]
      exact Returns.of_done _ m1 (by rw [m2]) m3
    · -- parsePrimary
      intro a hs hl hf
      obtain ⟨t, ht, hc, hm⟩ := hl.tok_done
      rw [AST.parsePrimary, ht]
      simp only [Run.bind_done]
      cases hty : t.Typ with
      | IdentifierType => exact ihF a t hs hc hm hty (by omega)
      | LiteralType => exact parseNumber_returns hl
      | OperatorType => exact ihO a hs hl (by omega)
      | CommaType => exact Returns.of_done _ rfl (le_refl _) ⟨t, hc, hm⟩
    · -- parseFunCallerOrConst
      intro a t hs hc hm hty hf
      have hl : a.Live := ⟨t, hc, hm⟩
      have ht : a.tok = .done t := by simp [AST.tok, hc]
      rw [AST.parseFunCallerOrConst, ht]
      simp only [Run.bind_done]
      obtain ⟨t1, ht1, hc1, hm1⟩ := hl.step.tok_done
      rw [ht1]
      simp only [Run.bind_done]
      by_cases hv : t1.Value = ['(']
      · simp only [hv, if_true]
        cases hd : reg.defFunc t.Value with
        | none =>
          exact Returns.of_done _ (getNextToken_Tokens a)
            (by show a.currIndex ≤ a.getNextToken.1.currIndex
                rw [getNextToken_currIndex]; omega) ⟨t1, hc1, hm1⟩
        | some d =>
          simp only
          -- the step to the bracket was inside the list
          have hsome : ∃ u, a.getNextToken.2 = some u := by
            cases hn : a.getNextToken.2 with
            | some u => exact ⟨u, rfl⟩
            | none =>
              exfalso
              have := getNextToken_none hn
              rw [hc1, hc] at this
              cases this
              exact (hs t hm).2 hty hv
          obtain ⟨u, hu⟩ := hsome
          obtain ⟨hr1, hr2⟩ := rem_next hu
          have hs1 : TokensSafe a.getNextToken.1.Tokens := by
            rw [getNextToken_Tokens]; exact hs
          have hs2 : TokensSafe a.getNextToken.1.getNextToken.1.Tokens := by
            rw [getNextToken_Tokens]; exact hs1
          have hrr : a.getNextToken.1.getNextToken.1.rem ≤ a.getNextToken.1.rem :=
            rem_mono (getNextToken_Tokens _) (by simp only [getNextToken_currIndex]; omega)
          refine Returns.via (a.getNextToken.1.getNextToken.1) ?_
            (by rw [getNextToken_Tokens, getNextToken_Tokens])
            (by rw [getNextToken_currIndex, getNextToken_currIndex]; omega)
          obtain ⟨t2, ht2, hc2, hm2⟩ := hl.step.step.tok_done
          rw [ht2]
          simp only [Run.bind_done]
          by_cases hv2 : t2.Value = [')']
          · simp only [hv2, if_true, Run.pure_eq, Run.bind_done]
            exact finishCall_returns hl.step.step _ _ _
          · simp only [hv2, if_false]
            refine Returns.andThen (ihE _ hs2 hl.step.step (by omega)) ?_
            intro e0 a3 g1 g2 g3
            have hr3 := rem_mono g1 g2
            refine Returns.andThen (ihA [e0] a3 (by rw [g1]; exact hs2) g3 (by omega)) ?_
            intro exprs a4 k1 k2 k3
            exact finishCall_returns k3 _ _ _
      · simp only [hv, if_false, Run.pure_eq]
        exact Returns.getNext _ hl
    · -- parseArgs
      intro exprs a hs hl hf
      obtain ⟨t, ht, hc, hm⟩ := hl.tok_done
      rw [AST.parseArgs, ht]
      simp only [Run.bind_done]
      by_cases hv : t.Value = [')']
      · simp only [hv, ne_eq, not_true_eq_false, if_false, Run.pure_eq]
        exact Returns.of_done _ rfl (le_refl _) hl
      · simp only [ne_eq, hv, not_false_eq_true, if_true]
        cases hn : a.getNextToken.2 with
        | none =>
          simp only [Run.pure_eq]
          exact Returns.getNext _ hl
        | some t1 =>
          simp only
          obtain ⟨hr1, hr2⟩ := rem_next hn
          have hs1 : TokensSafe a.getNextToken.1.Tokens := by
            rw [getNextToken_Tokens]; exact hs
          refine Returns.via (a.getNextToken.1) ?_ (getNextToken_Tokens a)
            (by rw [getNextToken_currIndex]; omega)
          by_cases hcm : t1.Typ = CommaType
          · simp only [hcm, if_true]
            exact ihA exprs _ hs1 hl.step (by omega)
          · simp only [hcm, if_false]
            refine Returns.andThen (ihE _ hs1 hl.step (by omega)) ?_
            intro e0 a3 g1 g2 g3
            have hr3 := rem_mono g1 g2
            exact ihA _ a3 (by rw [g1]; exact hs1) g3 (by omega)
    · -- parseOperator
      intro a hs hl hf
      obtain ⟨t, ht, hc, hm⟩ := hl.tok_done
      rw [AST.parseOperator, ht]
      simp only [Run.bind_done]
      have hs1 : TokensSafe a.getNextToken.1.Tokens := by
        rw [getNextToken_Tokens]; exact hs
      by_cases hv : t.Value = ['(']
      · simp only [hv, if_true]
        cases hn : a.getNextToken.2 with
        | none =>
          simp only
          obtain ⟨t1, ht1, hc1, hm1⟩ := hl.step.tok_done
          rw [ht1]
          simp only [Run.bind_done, Run.pure_eq]
          exact Returns.of_done _ (getNextToken_Tokens a)
            (by show a.currIndex ≤ a.getNextToken.1.currIndex
                rw [getNextToken_currIndex]; omega) ⟨t1, hc1, hm1⟩
        | some t1 =>
          simp only
          obtain ⟨hr1, hr2⟩ := rem_next hn
          refine Returns.via (a.getNextToken.1) ?_ (getNextToken_Tokens a)
            (by rw [getNextToken_currIndex]; omega)
          refine Returns.andThen (ihE _ hs1 hl.step (by omega)) ?_
          intro e0 a3 g1 g2 g3
          simp only
          cases hnil : e0.isNil with
          | true =>
            simp only [if_true, Run.pure_eq]
            exact Returns.of_done _ rfl (le_refl _) g3
          | false =>
            simp only [Bool.false_eq_true, if_false]
            obtain ⟨t2, ht2, hc2, hm2⟩ := g3.tok_done
            rw [ht2]
            simp only [Run.bind_done]
            by_cases hv2 : t2.Value = [')']
            · simp only [hv2, ne_eq, not_true_eq_false, if_false, Run.pure_eq]
              exact Returns.getNext _ g3
            · simp only [ne_eq, hv2, not_false_eq_true, if_true, Run.pure_eq]
              exact Returns.of_done _ rfl (le_refl _) ⟨t2, hc2, hm2⟩
      · simp only [hv, if_false]
        by_cases hmi : t.Value = ['-']
        · simp only [hmi, if_true]
          cases hn : a.getNextToken.2 with
          | none =>
            simp only
            obtain ⟨t1, ht1, hc1, hm1⟩ := hl.step.tok_done
            rw [ht1]
            simp only [Run.bind_done, Run.pure_eq]
            exact Returns.of_done _ (getNextToken_Tokens a)
              (by show a.currIndex ≤ a.getNextToken.1.currIndex
                  rw [getNextToken_currIndex]; omega) ⟨t1, hc1, hm1⟩
          | some t1 =>
            simp only
            obtain ⟨hr1, hr2⟩ := rem_next hn
            refine Returns.via (a.getNextToken.1) ?_ (getNextToken_Tokens a)
              (by rw [getNextToken_currIndex]; omega)
            refine Returns.andThen (ihP _ hs1 hl.step (by omega)) ?_
            intro rhs a3 g1 g2 g3
            exact Returns.of_done _ rfl (le_refl _) g3
        · simp only [hmi, if_false]
          exact parseNumber_returns hl
    · -- parseBinOpRHS
      intro p lhs a hs hl hf
      obtain ⟨tp, htp⟩ := getTokPrecedence_returns hl hs
      obtain ⟨t, ht, hc, hm⟩ := hl.tok_done
      rw [AST.parseBinOpRHS, htp]
      simp only [Run.bind_done]
      have hs1 : TokensSafe a.getNextToken.1.Tokens := by
        rw [getNextToken_Tokens]; exact hs
      by_cases hlt : tp < p
      · simp only [hlt, if_true, Run.pure_eq]
        exact Returns.of_done _ rfl (le_refl _) hl
      · simp only [hlt, if_false, ht, Run.bind_done]
        cases hn : a.getNextToken.2 with
        | none =>
          simp only
          obtain ⟨t1, ht1, hc1, hm1⟩ := hl.step.tok_done
          rw [ht1]
          simp only [Run.bind_done, Run.pure_eq]
          exact Returns.of_done _ (getNextToken_Tokens a)
            (by show a.currIndex ≤ a.getNextToken.1.currIndex
                rw [getNextToken_currIndex]; omega) ⟨t1, hc1, hm1⟩
        | some t1 =>
          simp only
          obtain ⟨hr1, hr2⟩ := rem_next hn
          refine Returns.via (a.getNextToken.1) ?_ (getNextToken_Tokens a)
            (by rw [getNextToken_currIndex]; omega)
          refine Returns.andThen (ihP _ hs1 hl.step (by omega)) ?_
          intro rhs a3 g1 g2 g3
          have hr3 := rem_mono g1 g2
          have hs3 : TokensSafe a3.Tokens := by rw [g1]; exact hs1
          simp only
          cases hnil : rhs.isNil with
          | true =>
            simp only [if_true, Run.pure_eq]
            exact Returns.of_done _ rfl (le_refl _) g3
          | false =>
            simp only [Bool.false_eq_true, if_false]
            obtain ⟨np, hnp⟩ := getTokPrecedence_returns g3 hs3
            rw [hnp]
            simp only [Run.bind_done]
            by_cases hcl : tp < np
            · simp only [hcl, if_true]
              refine Returns.andThen (ihB _ _ a3 hs3 g3 (by omega)) ?_
              intro rhs1 a4 k1 k2 k3
              have hr4 := rem_mono k1 k2
              simp only
              cases hnil1 : rhs1.isNil with
              | true =>
                simp only [if_true, Run.pure_eq]
                exact Returns.of_done _ rfl (le_refl _) k3
              | false =>
                simp only [Bool.false_eq_true, if_false]
                exact ihB _ _ a4 (by rw [k1]; exact hs3) k3 (by omega)
            · simp only [hcl, if_false]
              exact ihB _ _ a3 hs3 g3 (by omega)

theorem Token.Lexed.safe {t : Token} (h : t.Lexed) :
    t.Value ≠ [] ∧ (t.Typ = IdentifierType → t.Value ≠ ['(']) := by
  unfold Token.Lexed at h
  cases hty : t.Typ with
  | IdentifierType =>
    rw [hty] at h
    obtain ⟨c, cs, hv, hc⟩ := h
    refine ⟨by rw [hv]; simp, fun _ => ?_⟩
    rw [hv]
    intro hb
    cases hb
    revert hc
    decide
  | LiteralType =>
    rw [hty] at h
    obtain ⟨c, cs, hv, _⟩ := h
    exact ⟨by rw [hv]; simp, fun h => by cases h⟩
  | OperatorType =>
    rw [hty] at h
    obtain ⟨c, o, hv, _⟩ := h
    exact ⟨by rw [hv]; simp, fun h => by cases h⟩
  | CommaType =>
    rw [hty] at h
    exact ⟨by rw [h]; simp, fun h => by cases h⟩

theorem Parse_safe {s : GoString} {toks : List Token} (h : Parse s = .done (.ok toks)) :
    TokensSafe toks := fun t ht => (Parse_lexed h t ht).safe

/-- `Parse` returns for every source that is not empty. -/
theorem Parse_returns (s : GoString) (hne : s ≠ []) : ∃ r, Parse s = .done r := by
  obtain ⟨ps, z, _, _, _, h⟩ := Parse_spec s hne
  rw [h]
  cases z.error (piecesText ps).length <;> exact ⟨_, rfl⟩

/-- `ParseExpression` returns for every source that is not empty: the lexer returns, and on
its tokens the parser neither panics nor needs more than the fuel it gets. -/
theorem ParseExpression_returns (reg : Registry) (s : GoString) (hne : s ≠ []) :
    ∃ r, ParseExpression reg s = .done r := by
  obtain ⟨r, hr⟩ := Parse_returns s hne
  unfold ParseExpression
  rw [hr]
  simp only [Run.bind_done]
  cases r with
  | error e => exact ⟨_, rfl⟩
  | ok toks =>
    simp only
    cases toks with
    | nil => exact ⟨_, rfl⟩
    | cons t0 rest =>
      have hsafe := Parse_safe hr
      have hlive : (NewAST (t0 :: rest) s).Live := ⟨t0, rfl, List.mem_cons_self _ _⟩
      have hrem : (NewAST (t0 :: rest) s).rem = (t0 :: rest).length := rfl
      obtain ⟨ar, a1, hrun, _, _, _⟩ := (AST.returns reg (parseFuel (t0 :: rest).length)).1
        (NewAST (t0 :: rest) s) hsafe hlive (by rw [hrem]; unfold parseFuel; omega)
      have hE : (NewAST (t0 :: rest) s).Err = none := rfl
      simp only [hE, hrun, Run.bind_done]
      cases a1.Err <;> exact ⟨_, rfl⟩

/-- C18 at the failing input: `ParseExpression` panics on the empty string, where `Parse`
indexes `s[0]`; the deferred `recover` is installed after the calls and catches nothing.
For every other source it returns: a tree that is not nil, or an error. A source of
whitespace only gets the error for an empty token list, or a lex error. -/
theorem C18_code_at_failing_input (reg : Registry) :
    ParseExpression reg [] =
        .panicked "runtime error: index out of range [0] with length 0" ∧
      (∀ s : GoString, s ≠ [] → ∃ r, ParseExpression reg s = .done r) ∧
      (∀ (s : GoString) (t : ExprNode), ParseExpression reg s = .done (.ok t) →
        t.isNil = false) ∧
      ParseExpression reg " ".toList = .done (.error .emptyToken) ∧
      ParseExpression reg "\t  ".toList = .done (.error .emptyToken) ∧
      ParseExpression reg " \n".toList = .done (.error (.unknownSymbol '\n' 2)) := by
  refine ⟨rfl, ParseExpression_returns reg, ?_, rfl, rfl, rfl⟩
  intro s t h
  have := ParseExpression_nodes_ok h
  cases t with
  | nil => simp [ExprNode.All, NodeOk] at this
  | _ => rfl

/-- A source that `ParseExpression` accepts: the parser consumed every token, and its
index is the number of tokens when it returns. -/
theorem ParseExpression_index {reg : Registry} {s : GoString} {t : ExprNode}
    (h : ParseExpression reg s = .done (.ok t)) :
    ∃ toks a1, Parse s = .done (.ok toks) ∧ toks ≠ [] ∧
      Parsed reg .expression (NewAST toks s) t [] a1 ∧
      AST.ParseExpression reg (parseFuel toks.length) (NewAST toks s) = .done (t, a1) ∧
      a1.Err = none ∧ a1.Tokens = toks ∧ a1.currIndex = toks.length := by
  obtain ⟨toks, a1, hP, hne, hrun, hE, _⟩ := ParseExpression_inv h
  have hpar := (parsed_of_run reg _).1 _ _ _ hrun
  have hT : a1.Tokens = toks := by
    rw [hpar.follows.1.1]
    cases toks <;> rfl
  have hd0 : (NewAST toks s).depth = 0 := by cases toks <;> rfl
  refine ⟨toks, a1, hP, hne, hpar, hrun, hE, hT, ?_⟩
  cases hpar with
  | expression a a2 a3 a4 lhs r h1 h2 hl =>
    have d2 := h1.follows.2
    have d3 := h2.follows.2
    rcases AST.leave_inv hl with ⟨rfl, hnc⟩ | ⟨u, _, _, rfl⟩
    · by_contra hne2
      have e3 : a3.Err = none := hE
      have hT3 : a3.Tokens = toks := hT
      refine hnc ⟨?_, ?_, e3⟩
      · rw [d3, d2]
        show (NewAST toks s).depth + 1 - 1 = 0
        rw [hd0]
        rfl
      · rw [hT3]
        exact hne2
    · cases hE

/-- C12. Trailing tokens are rejected: for every source that `ParseExpression` accepts, the
index of the parser equals the number of tokens when the top-level `ParseExpression`
returns; so `1 2`, `1 (2)`, `1)` and `1,2`, where tokens are left over after a complete
expression, fail with the error for a bad expression at the first token left over. -/
theorem C12_trailing_tokens (reg : Registry) (s : GoString) (t : ExprNode)
    (h : ParseExpression reg s = .done (.ok t)) :
    (∃ toks a1, Parse s = .done (.ok toks) ∧
      AST.ParseExpression reg (parseFuel toks.length) (NewAST toks s) = .done (t, a1) ∧
      a1.Err = none ∧ a1.Tokens = toks ∧ a1.currIndex = toks.length) ∧
    ParseExpression reg "1 2".toList = .done (.error (.badExpression 2)) ∧
    ParseExpression reg "1 (2)".toList = .done (.error (.badExpression 2)) ∧
    ParseExpression reg "1)".toList = .done (.error (.badExpression 1)) ∧
    ParseExpression reg "1,2".toList = .done (.error (.badExpression 1)) := by
  refine ⟨?_, rfl, rfl, rfl, rfl⟩
  obtain ⟨toks, a1, hP, _, _, hrun, hE, hT, hI⟩ := ParseExpression_index h
  exact ⟨toks, a1, hP, hrun, hE, hT, hI⟩

theorem C12_trailing_tokens_witness :
    ∃ toks a1, Parse "(1+2)*3".toList = .done (.ok toks) ∧
      AST.ParseExpression defaultRegistry (parseFuel toks.length)
        (NewAST toks "(1+2)*3".toList) =
        .done (OperatorExprNode ['*'] (OperatorExprNode ['+']
          (NumberExprNode (F64.ofInt 1) ['1']) (NumberExprNode (F64.ofInt 2) ['2']) false)
          (NumberExprNode (F64.ofInt 3) ['3']) false, a1) ∧
      a1.Err = none ∧ a1.Tokens = toks ∧ a1.currIndex = toks.length :=
  (C12_trailing_tokens defaultRegistry "(1+2)*3".toList _ rfl).1

/-! ## Brackets -/

theorem bracketDepth_append : ∀ (xs ys : List Token) (d : Nat),
    bracketDepth d (xs ++ ys) = (bracketDepth d xs).bind (fun d1 => bracketDepth d1 ys) := by
  intro xs
  induction xs with
  | nil => intro ys d; rfl
  | cons x xs ih =>
    intro ys d
    rw [List.cons_append]
    simp only [bracketDepth]
    by_cases h1 : x.Value = ['(']
    · simp only [h1, if_true]
      exact ih ys _
    · simp only [h1, if_false]
      by_cases h2 : x.Value = [')']
      · simp only [h2, if_true]
        by_cases h3 : d = 0
        · simp [h3]
        · simp only [h3, if_false]
          exact ih ys _
      · simp only [h2, if_false]
        exact ih ys _

theorem Nested.nil : Nested [] := fun _ => rfl

theorem Nested.append {xs ys : List Token} (h1 : Nested xs) (h2 : Nested ys) :
    Nested (xs ++ ys) := by
  intro d
  rw [bracketDepth_append, h1 d]
  exact h2 d

theorem Nested.single {t : Token} (h1 : t.Value ≠ ['(']) (h2 : t.Value ≠ [')']) :
    Nested [t] := by
  intro d
  simp [bracketDepth, h1, h2]

theorem Nested.wrap {tl tr : Token} {seg : List Token} (h1 : tl.Value = ['('])
    (h2 : tr.Value = [')']) (h : Nested seg) : Nested (tl :: (seg ++ [tr])) := by
  intro d
  rw [bracketDepth]
  simp only [h1, if_true]
  rw [bracketDepth_append, h (d + 1)]
  have h3 : tr.Value ≠ ['('] := by rw [h2]; decide
  simp [bracketDepth, h2, h3]

theorem AST.take_next {a : AST} {t : Token} (hs : a.Sync) (ht : a.currTok = some t)
    (hlt : a.currIndex < a.Tokens.length) :
    a.getNextToken.1.Tokens.take a.getNextToken.1.currIndex =
      a.Tokens.take a.currIndex ++ [t] := by
  have hg : a.Tokens.get? a.currIndex = some t := by rw [hs.2 hlt, ht]
  rw [AST.getNextToken_Tokens, AST.getNextToken_currIndex, List.take_succ]
  simp only [List.get?_eq_getElem?] at hg
  simp [hg]

theorem precOf_not_bracket {t : Token} {c : Char} {cs : GoString} (hv : t.Value = c :: cs)
    (hp : 0 ≤ precOf c) : t.Value ≠ ['('] ∧ t.Value ≠ [')'] := by
  rw [hv]
  constructor
  · intro h
    cases h
    revert hp
    decide
  · intro h
    cases h
    revert hp
    decide

theorem ParseFloat_not_bracket {t : Token} {v : F64} (h : ParseFloat t.Value = some v) :
    t.Value ≠ ['('] ∧ t.Value ≠ [')'] := by
  constructor
  · intro hv
    have h0 : ParseFloat ['('] = none := by decide
    rw [hv, h0] at h
    cases h
  · intro hv
    have h0 : ParseFloat [')'] = none := by decide
    rw [hv, h0] at h
    cases h

theorem ExprNode.All.isNil_false {reg : Registry} {e : ExprNode}
    (h : ExprNode.All (NodeOk reg) e) : e.isNil = false := by
  cases e with
  | nil => simp [ExprNode.All, NodeOk] at h
  | _ => rfl

theorem AST.parseNumber_nested {a a1 : AST} {e : ExprNode}
    (hn : a.parseNumber = .done (e, a1)) (hs : a.Sync) (h1 : a1.Err = none)
    (hb : a1.currIndex ≤ a1.Tokens.length) :
    ∃ seg, a1.Tokens.take a1.currIndex = a.Tokens.take a.currIndex ++ seg ∧ Nested seg := by
  obtain ⟨t, ht, ⟨v, hv, _, rfl⟩ | ⟨_, _, rfl⟩⟩ := AST.parseNumber_inv hn
  · rw [AST.getNextToken_Tokens, AST.getNextToken_currIndex] at hb
    refine ⟨[t], AST.take_next hs ht (by omega), ?_⟩
    exact Nested.single (ParseFloat_not_bracket hv).1 (ParseFloat_not_bracket hv).2
  · cases h1

/-- Without registered functions, a run that ends without error and inside the token list
consumed tokens whose brackets are balanced and properly nested. -/
theorem Parsed.nested {reg : Registry} (hreg : ∀ n, reg.defFunc n = none) {c : Call}
    {a a1 : AST} {e : ExprNode} {es : List ExprNode} (h : Parsed reg c a e es a1) :
    (∀ t ∈ a.Tokens, t.Typ = IdentifierType → t.Value ≠ ['('] ∧ t.Value ≠ [')']) →
    a.Sync → a1.Err = none → a1.currIndex ≤ a1.Tokens.length →
    match c with
    | .args _ => True
    | .binOpRHS p _ => 0 ≤ p →
      ∃ seg, a1.Tokens.take a1.currIndex = a.Tokens.take a.currIndex ++ seg ∧ Nested seg
    | .funCallerOrConst => (∀ t, a.currTok = some t → t.Typ = IdentifierType) →
      ∃ seg, a1.Tokens.take a1.currIndex = a.Tokens.take a.currIndex ++ seg ∧ Nested seg
    | _ => ∃ seg, a1.Tokens.take a1.currIndex = a.Tokens.take a.currIndex ++ seg ∧
      Nested seg := by
  induction h with
  | expression a a2 a3 a4 lhs r h1 h2 hl ih1 ih2 =>
    intro htok hs h4 hb
    rcases AST.leave_inv hl with ⟨rfl, _⟩ | ⟨t, _, _, rfl⟩
    · have e3 : a3.Err = none := h4
      have b3 : a3.currIndex ≤ a3.Tokens.length := hb
      have e2 := h2.err_none e3
      obtain ⟨f1, _⟩ := h1.follows
      obtain ⟨f2, _⟩ := h2.follows
      have b2 : a2.currIndex ≤ a2.Tokens.length := by
        have := f2.2.1
        rw [f2.1] at b3
        omega
      obtain ⟨seg1, q1, n1⟩ := ih1 htok ⟨hs.1, hs.2⟩ e2 b2
      have hs2 : a2.Sync := f1.2.2 ⟨hs.1, hs.2⟩
      obtain ⟨seg2, q2, n2⟩ := ih2 (by rw [f1.1]; exact htok) hs2 e3 b3 (le_refl 0)
      refine ⟨seg1 ++ seg2, ?_, n1.append n2⟩
      have q1' : a2.Tokens.take a2.currIndex = a.Tokens.take a.currIndex ++ seg1 := q1
      show a3.Tokens.take a3.currIndex = _
      rw [q2, q1', List.append_assoc]
    · cases h4
  | primary_identifier a a1 t e ht hty _ ih =>
    intro htok hs h1 hb
    refine ih htok hs h1 hb ?_
    intro t1 ht1
    rw [ht] at ht1
    cases ht1
    exact hty
  | primary_literal a a1 t e _ _ hn =>
    intro _ hs h1 hb
    exact AST.parseNumber_nested hn hs h1 hb
  | primary_operator a a1 t e _ _ _ ih => exact ih
  | primary_comma a t _ _ => intro _ _ h; cases h
  | call_const a t t1 ht _ _ =>
    intro htok hs _ hb hty
    rw [AST.getNextToken_Tokens, AST.getNextToken_currIndex] at hb
    have hb2 := htok t (hs.1 t ht) (hty t ht)
    exact ⟨[t], AST.take_next hs ht (by omega), Nested.single hb2.1 hb2.2⟩
  | call_undefined a t t1 _ _ _ _ => intro _ _ h; cases h
  | call_noArgs a a1 t t1 t2 d e _ _ _ hd _ _ _ =>
    intro _ _ _ _ _
    rw [hreg] at hd
    cases hd
  | call_args a a3 a4 a1 t t1 t2 d e0 e exprs _ _ _ hd _ _ _ _ _ _ _ =>
    intro _ _ _ _ _
    rw [hreg] at hd
    cases hd
  | args_done exprs a t _ _ => intro _ _ _ _; trivial
  | args_eof exprs a t _ _ _ => intro _ _ _ _; trivial
  | args_comma exprs exprs1 a a1 t t1 _ _ _ _ _ _ => intro _ _ _ _; trivial
  | args_expression exprs exprs1 a a2 a1 t t1 e _ _ _ _ _ _ _ _ => intro _ _ _ _; trivial
  | bracket_eof a t t1 _ _ _ _ => intro _ _ h; cases h
  | bracket_nil a a2 t t1 e _ _ _ h1 hnil _ =>
    intro _ _ h2 _
    rw [(h1.nodes_ok h2).isNil_false] at hnil
    cases hnil
  | bracket_unclosed a a2 t t1 t2 e _ _ _ _ _ _ _ _ => intro _ _ h; cases h
  | bracket a a2 t t1 t2 e ht hv hn h1 _ ht2 hv2 ih =>
    intro htok hs h2 hb
    have hgn := AST.getNextToken_some hn
    obtain ⟨f1, _⟩ := h1.follows
    have e2 : a2.Err = none := by simpa using h2
    have b2 : a2.currIndex < a2.Tokens.length := by
      rw [AST.getNextToken_Tokens, AST.getNextToken_currIndex] at hb
      omega
    have hs1 := hs.getNextToken_sync
    have hs2 : a2.Sync := f1.2.2 hs1
    obtain ⟨seg, q, n⟩ := ih (by rw [AST.getNextToken_Tokens]; exact htok) hs1 e2 (by omega)
    refine ⟨t :: (seg ++ [t2]), ?_, Nested.wrap hv hv2 n⟩
    rw [AST.take_next hs2 ht2 b2, q, AST.take_next hs ht (by omega)]
    simp
  | minus_eof a t t1 _ _ _ _ _ => intro _ _ h; cases h
  | minus a a2 t t1 rhs ht _ hm hn h1 ih =>
    intro htok hs h2 hb
    have hgn := AST.getNextToken_some hn
    have hs1 := hs.getNextToken_sync
    obtain ⟨seg, q, n⟩ := ih (by rw [AST.getNextToken_Tokens]; exact htok) hs1 h2 hb
    refine ⟨[t] ++ seg, ?_, (Nested.single (by rw [hm]; decide) (by rw [hm]; decide)).append n⟩
    rw [q, AST.take_next hs ht (by omega), List.append_assoc]
  | operator_number a a1 t e _ _ _ hn =>
    intro _ hs h1 hb
    exact AST.parseNumber_nested hn hs h1 hb
  | binOp_stop execPrec lhs a p _ _ =>
    intro _ _ _ _ _
    exact ⟨[], by simp, Nested.nil⟩
  | binOp_eof execPrec lhs a p t1 _ _ _ _ => intro _ _ h; cases h
  | binOp_nil execPrec lhs rhs a a2 p t1 _ _ _ h1 hnil _ =>
    intro _ _ h2 _ _
    rw [(h1.nodes_ok h2).isNil_false] at hnil
    cases hnil
  | binOp_climb_nil execPrec lhs rhs rhs1 a a2 a3 p np t1 _ hge _ h1 _ _ _ h2 hnil _ _ =>
    intro _ _ h3 _ hpos
    have e2 := h2.err_none h3
    rw [(h2.nodes_ok h3 (by omega) (h1.nodes_ok e2)).isNil_false] at hnil
    cases hnil
  | binOp_climb execPrec lhs rhs rhs1 r a a2 a3 a4 p np t t1 hprec hge ht hn h1 _ _ _ h2 _ h3
      ih1 ih2 ih3 =>
    intro htok hs h4 hb hpos
    have e3 := h3.err_none h4
    have e2 := h2.err_none e3
    have hgn := AST.getNextToken_some hn
    obtain ⟨f1, _⟩ := h1.follows
    obtain ⟨f2, _⟩ := h2.follows
    obtain ⟨f3, _⟩ := h3.follows
    obtain ⟨t', c, cs, ht', hv, hpc⟩ := AST.getTokPrecedence_inv hprec
    rw [ht] at ht'
    cases ht'
    have hnb := precOf_not_bracket hv (by omega)
    have hs1 := hs.getNextToken_sync
    have hs2 : a2.Sync := f1.2.2 hs1
    have hs3 : a3.Sync := f2.2.2 hs2
    have b3 : a3.currIndex ≤ a3.Tokens.length := by
      have := f3.2.1
      rw [f3.1] at hb
      omega
    have b2 : a2.currIndex ≤ a2.Tokens.length := by
      have := f2.2.1
      rw [f2.1] at b3
      omega
    have htok1 : ∀ t ∈ a.getNextToken.1.Tokens, t.Typ = IdentifierType →
        t.Value ≠ ['('] ∧ t.Value ≠ [')'] := by
      rw [AST.getNextToken_Tokens]; exact htok
    obtain ⟨seg1, q1, n1⟩ := ih1 htok1 hs1 e2 b2
    obtain ⟨seg2, q2, n2⟩ := ih2 (by rw [f1.1]; exact htok1) hs2 e3 b3 (by omega)
    obtain ⟨seg3, q3, n3⟩ := ih3 (by rw [f2.1, f1.1]; exact htok1) hs3 h4 hb hpos
    refine ⟨[t] ++ seg1 ++ seg2 ++ seg3, ?_,
      (((Nested.single hnb.1 hnb.2).append n1).append n2).append n3⟩
    rw [q3, q2, q1, AST.take_next hs ht (by omega)]
    simp
  | binOp_fold execPrec lhs rhs r a a2 a3 p np t t1 hprec hge ht hn h1 _ _ _ h2 ih1 ih2 =>
    intro htok hs h3 hb hpos
    have e2 := h2.err_none h3
    have hgn := AST.getNextToken_some hn
    obtain ⟨f1, _⟩ := h1.follows
    obtain ⟨f2, _⟩ := h2.follows
    obtain ⟨t', c, cs, ht', hv, hpc⟩ := AST.getTokPrecedence_inv hprec
    rw [ht] at ht'
    cases ht'
    have hnb := precOf_not_bracket hv (by omega)
    have hs1 := hs.getNextToken_sync
    have hs2 : a2.Sync := f1.2.2 hs1
    have b2 : a2.currIndex ≤ a2.Tokens.length := by
      have := f2.2.1
      rw [f2.1] at hb
      omega
    have htok1 : ∀ t ∈ a.getNextToken.1.Tokens, t.Typ = IdentifierType →
        t.Value ≠ ['('] ∧ t.Value ≠ [')'] := by
      rw [AST.getNextToken_Tokens]; exact htok
    obtain ⟨seg1, q1, n1⟩ := ih1 htok1 hs1 e2 b2
    obtain ⟨seg2, q2, n2⟩ := ih2 (by rw [f1.1]; exact htok1) hs2 h3 hb hpos
    refine ⟨[t] ++ seg1 ++ seg2, ?_, ((Nested.single hnb.1 hnb.2).append n1).append n2⟩
    rw [q2, q1, AST.take_next hs ht (by omega)]
    simp
theorem Token.Lexed.bracket {t : Token} (h : t.Lexed) (hty : t.Typ = IdentifierType) :
    t.Value ≠ ['('] ∧ t.Value ≠ [')'] := by
  unfold Token.Lexed at h
  rw [hty] at h
  obtain ⟨c, cs, hv, hc⟩ := h
  rw [hv]
  constructor
  · intro hb
    cases hb
    revert hc
    decide
  · intro hb
    cases hb
    revert hc
    decide

/-- Without registered functions, the brackets of a source that `ParseExpression` accepts
are balanced and properly nested. -/
theorem ParseExpression_balanced {reg : Registry} (hreg : ∀ n, reg.defFunc n = none)
    {s : GoString} {t : ExprNode} {toks : List Token}
    (h : ParseExpression reg s = .done (.ok t)) (hP : Parse s = .done (.ok toks)) :
    Balanced toks := by
  obtain ⟨toks1, a1, hP1, hne, hpar, _, hE, hT, hI⟩ := ParseExpression_index h
  rw [hP] at hP1
  simp only [Run.done.injEq, Except.ok.injEq] at hP1
  subst hP1
  cases htoks : toks with
  | nil => exact absurd htoks hne
  | cons t0 rest =>
    subst htoks
    have hsync : (NewAST (t0 :: rest) s).Sync := by
      refine ⟨?_, ?_⟩
      · intro t1 h1
        simp only [NewAST, Option.some.injEq] at h1
        subst h1
        exact List.mem_cons_self _ _
      · intro _
        rfl
    have hlex := Parse_lexed hP
    obtain ⟨seg, q, n⟩ := hpar.nested hreg (fun t ht hty => (hlex t ht).bracket hty) hsync hE
      (by rw [hI, hT])
    have h0 : (NewAST (t0 :: rest) s).Tokens.take (NewAST (t0 :: rest) s).currIndex = [] := rfl
    rw [h0, hT, hI, List.take_length, List.nil_append] at q
    rw [q]
    exact n 0

/-- C13. Unmatched parentheses are rejected: with a registry that has no functions (the
default registry), for every source whose bracket tokens are not balanced and properly
nested, `ParseExpression` returns an error. An unclosed `(` as in `(1+2` or `((1)` and a
stray `)` as in `1)` are rejected, although at the end of the input the current token of
the parser stays on the last token: in `((1)` the one closing bracket is read twice and the
error is the one for tokens left over. -/
theorem C13_unmatched_parentheses (reg : Registry) (hreg : ∀ n, reg.defFunc n = none)
    (s : GoString) (toks : List Token) (hP : Parse s = .done (.ok toks))
    (hnb : ¬ Balanced toks) :
    (∃ e, ParseExpression reg s = .done (.error e)) ∧
      ParseExpression defaultRegistry "(1+2".toList =
        .done (.error (.wantRBracket ['2'] 3)) ∧
      ParseExpression defaultRegistry "((1)".toList = .done (.error (.badExpression 3)) ∧
      ParseExpression defaultRegistry "1)".toList = .done (.error (.badExpression 1)) := by
  refine ⟨?_, rfl, rfl, rfl⟩
  have hne : s ≠ [] := by
    rintro rfl
    have hnil : Parse [] =
        .panicked "runtime error: index out of range [0] with length 0" := rfl
    rw [hnil] at hP
    cases hP
  obtain ⟨r, hr⟩ := ParseExpression_returns reg s hne
  cases r with
  | error e => exact ⟨e, hr⟩
  | ok t => exact absurd (ParseExpression_balanced hreg hr hP) hnb

theorem C13_unmatched_parentheses_witness :
    ∃ e, ParseExpression defaultRegistry "(2*(1+3)".toList = .done (.error e) :=
  (C13_unmatched_parentheses defaultRegistry (fun _ => rfl) "(2*(1+3)".toList
    [{ Value := "(".toList, Typ := OperatorType, Offset := 0 },
      { Value := "2".toList, Typ := LiteralType, Offset := 1 },
      { Value := "*".toList, Typ := OperatorType, Offset := 2 },
      { Value := "(".toList, Typ := OperatorType, Offset := 3 },
      { Value := "1".toList, Typ := LiteralType, Offset := 4 },
      { Value := "+".toList, Typ := OperatorType, Offset := 5 },
      { Value := "3".toList, Typ := LiteralType, Offset := 6 },
      { Value := ")".toList, Typ := OperatorType, Offset := 7 }]
    rfl (by unfold Balanced; decide)).1

theorem precOf_binaryOps {c : Char} (h : 0 ≤ precOf c) : c ∈ binaryOps := by
  obtain ⟨o, ho, hp⟩ := precOf_nonneg h
  obtain ⟨hn, hc⟩ := Parser.operator_cases c o ho
  rcases hc with h1 | h1 | h1 | h1 | h1 | h1 | h1 | h1
  · subst h1; revert h; decide
  · subst h1; revert h; decide
  all_goals subst h1; decide

theorem Token.Lexed.one_byte {t : Token} (h : t.Lexed) {c : Char} {cs : GoString}
    (hv : t.Value = c :: cs) (hp : 0 ≤ precOf c) : cs = [] := by
  obtain ⟨o, ho, _⟩ := precOf_nonneg hp
  unfold Token.Lexed at h
  cases hty : t.Typ with
  | IdentifierType =>
    rw [hty] at h
    obtain ⟨c1, cs1, hv1, hc⟩ := h
    rw [hv] at hv1
    cases hv1
    rw [Parser.char_not_operator hc] at ho
    cases ho
  | LiteralType =>
    rw [hty] at h
    obtain ⟨c1, cs1, hv1, hd⟩ := h
    rw [hv] at hv1
    cases hv1
    rw [Parser.digit_not_operator c hd] at ho
    cases ho
  | OperatorType =>
    rw [hty] at h
    obtain ⟨c1, o1, hv1, _⟩ := h
    rw [hv] at hv1
    cases hv1
    rfl
  | CommaType =>
    rw [hty] at h
    rw [hv] at h
    cases h
    rfl

theorem AST.constOrVariable_operatorOk (reg : Registry) (n : GoString) :
    ExprNode.All OperatorOk (AST.constOrVariable reg n) := by
  unfold AST.constOrVariable
  cases reg.defConst n <;> simp [ExprNode.All, OperatorOk]

/-- The operator nodes of a run that ends without error carry one of the six binary
operator symbols and two operands. -/
theorem Parsed.operators_ok {reg : Registry} {c : Call} {a a1 : AST} {e : ExprNode}
    {es : List ExprNode} (h : Parsed reg c a e es a1) :
    (∀ t ∈ a.Tokens, ∀ c cs, t.Value = c :: cs → 0 ≤ precOf c → cs = []) →
    a.Sync → a1.Err = none →
    match c with
    | .args exprs => ExprNode.AllList OperatorOk exprs → ExprNode.AllList OperatorOk es
    | .binOpRHS p lhs => 0 ≤ p → lhs.isNil = false → ExprNode.All OperatorOk lhs →
        ExprNode.All OperatorOk e
    | _ => ExprNode.All OperatorOk e := by
  induction h with
  | expression a a2 a3 a4 lhs r h1 h2 hl ih1 ih2 =>
    intro htok hs h4
    rcases AST.leave_inv hl with ⟨rfl, _⟩ | ⟨t, _, _, rfl⟩
    · have e2 := h2.err_none h4
      obtain ⟨f1, _⟩ := h1.follows
      exact ih2 (by rw [f1.1]; exact htok) (f1.2.2 ⟨hs.1, hs.2⟩) h4 (le_refl 0)
        (h1.nodes_ok e2).isNil_false (ih1 htok ⟨hs.1, hs.2⟩ e2)
    · cases h4
  | primary_identifier a a1 t e _ _ _ ih => exact ih
  | primary_literal a a1 t e _ _ hn =>
    intro _ _ h1
    obtain ⟨t, _, ⟨v, _, rfl, rfl⟩ | ⟨_, _, rfl⟩⟩ := AST.parseNumber_inv hn
    · simp [ExprNode.All, OperatorOk]
    · cases h1
  | primary_operator a a1 t e _ _ _ ih => exact ih
  | primary_comma a t _ _ => intro _ _ h; cases h
  | call_const a t t1 _ _ _ =>
    intro _ _ _
    exact AST.constOrVariable_operatorOk reg _
  | call_undefined a t t1 _ _ _ _ => intro _ _ h; cases h
  | call_noArgs a a1 t t1 t2 d e _ _ _ _ _ _ hf =>
    intro _ _ _
    obtain ⟨rfl, _⟩ := AST.finishCall_inv hf
    simp [ExprNode.All, ExprNode.AllList, OperatorOk]
  | call_args a a3 a4 a1 t t1 t2 d e0 e exprs _ _ _ _ _ _ h1 h2 hf ih1 ih2 =>
    intro htok hs h1'
    obtain ⟨rfl, t3, _, rfl⟩ := AST.finishCall_inv hf
    simp only [AST.getNextToken_Err] at h1'
    split at h1'
    · cases h1'
    · obtain ⟨f1, _⟩ := h1.follows
      have e3 := h2.err_none h1'
      have hs2 := hs.getNextToken_sync.getNextToken_sync
      have htok2 : ∀ t ∈ a.getNextToken.1.getNextToken.1.Tokens, ∀ c cs, t.Value = c :: cs →
          0 ≤ precOf c → cs = [] := by
        rw [AST.getNextToken_Tokens, AST.getNextToken_Tokens]; exact htok
      have hl := ih2 (by rw [f1.1]; exact htok2) (f1.2.2 hs2) h1'
        ⟨ih1 htok2 hs2 e3, trivial⟩
      exact ⟨trivial, hl⟩
  | args_done exprs a t _ _ => intro _ _ _; exact id
  | args_eof exprs a t _ _ _ => intro _ _ _; exact id
  | args_comma exprs exprs1 a a1 t t1 _ _ _ _ _ ih =>
    intro htok hs h1
    exact ih (by rw [AST.getNextToken_Tokens]; exact htok) hs.getNextToken_sync h1
  | args_expression exprs exprs1 a a2 a1 t t1 e _ _ _ _ h1 h2 ih1 ih2 =>
    intro htok hs h hx
    obtain ⟨f1, _⟩ := h1.follows
    have htok1 : ∀ t ∈ a.getNextToken.1.Tokens, ∀ c cs, t.Value = c :: cs →
        0 ≤ precOf c → cs = [] := by
      rw [AST.getNextToken_Tokens]; exact htok
    exact ih2 (by rw [f1.1]; exact htok1) (f1.2.2 hs.getNextToken_sync) h
      ((ExprNode.AllList_append _ _ _).2
        ⟨hx, ih1 htok1 hs.getNextToken_sync (h2.err_none h), trivial⟩)
  | bracket_eof a t t1 _ _ _ _ => intro _ _ h; cases h
  | bracket_nil a a2 t t1 e _ _ _ h1 hnil _ =>
    intro _ _ h2
    rw [(h1.nodes_ok h2).isNil_false] at hnil
    cases hnil
  | bracket_unclosed a a2 t t1 t2 e _ _ _ _ _ _ _ _ => intro _ _ h; cases h
  | bracket a a2 t t1 t2 e _ _ _ _ _ _ _ ih =>
    intro htok hs h
    exact ih (by rw [AST.getNextToken_Tokens]; exact htok) hs.getNextToken_sync
      (by simpa using h)
  | minus_eof a t t1 _ _ _ _ _ => intro _ _ h; cases h
  | minus a a2 t t1 rhs _ _ _ _ h1 ih =>
    intro htok hs h
    refine ⟨⟨⟨'-', by decide, rfl⟩, rfl, (h1.nodes_ok h).isNil_false⟩, ?_,
      ih (by rw [AST.getNextToken_Tokens]; exact htok) hs.getNextToken_sync h⟩
    simp [ExprNode.All, OperatorOk]
  | operator_number a a1 t e _ _ _ hn =>
    intro _ _ h1
    obtain ⟨t, _, ⟨v, _, rfl, rfl⟩ | ⟨_, _, rfl⟩⟩ := AST.parseNumber_inv hn
    · simp [ExprNode.All, OperatorOk]
    · cases h1
  | binOp_stop execPrec lhs a p _ _ => intro _ _ _ _ _ hl; exact hl
  | binOp_eof execPrec lhs a p t1 _ _ _ _ => intro _ _ h; cases h
  | binOp_nil execPrec lhs rhs a a2 p t1 _ _ _ h1 hnil _ =>
    intro _ _ h2
    rw [(h1.nodes_ok h2).isNil_false] at hnil
    cases hnil
  | binOp_climb_nil execPrec lhs rhs rhs1 a a2 a3 p np t1 _ hge _ h1 _ _ _ h2 hnil _ _ =>
    intro _ _ h3 hpos
    have e2 := h2.err_none h3
    rw [(h2.nodes_ok h3 (by omega) (h1.nodes_ok e2)).isNil_false] at hnil
    cases hnil
  | binOp_climb execPrec lhs rhs rhs1 r a a2 a3 a4 p np t t1 hprec hge ht hn h1 _ _ _ h2
      hnil1 h3 ih1 ih2 ih3 =>
    intro htok hs h4 hpos hlnil hl
    have e3 := h3.err_none h4
    have e2 := h2.err_none e3
    obtain ⟨f1, _⟩ := h1.follows
    obtain ⟨f2, _⟩ := h2.follows
    obtain ⟨t', c, cs, ht', hv, hpc⟩ := AST.getTokPrecedence_inv hprec
    rw [ht] at ht'
    cases ht'
    have hcs := htok t (hs.1 t ht) c cs hv (by omega)
    subst hcs
    have hs1 := hs.getNextToken_sync
    have htok1 : ∀ t ∈ a.getNextToken.1.Tokens, ∀ c cs, t.Value = c :: cs →
        0 ≤ precOf c → cs = [] := by
      rw [AST.getNextToken_Tokens]; exact htok
    have r1 := ih1 htok1 hs1 e2
    have r2 := ih2 (by rw [f1.1]; exact htok1) (f1.2.2 hs1) e3 (by omega)
      (h1.nodes_ok e2).isNil_false r1
    refine ih3 (by rw [f2.1, f1.1]; exact htok1) (f2.2.2 (f1.2.2 hs1)) h4 hpos rfl ?_
    exact ⟨⟨⟨c, precOf_binaryOps (by omega), hv⟩, hlnil, hnil1⟩, hl, r2⟩
  | binOp_fold execPrec lhs rhs r a a2 a3 p np t t1 hprec hge ht hn h1 hnil _ _ h2 ih1 ih2 =>
    intro htok hs h3 hpos hlnil hl
    have e2 := h2.err_none h3
    obtain ⟨f1, _⟩ := h1.follows
    obtain ⟨t', c, cs, ht', hv, hpc⟩ := AST.getTokPrecedence_inv hprec
    rw [ht] at ht'
    cases ht'
    have hcs := htok t (hs.1 t ht) c cs hv (by omega)
    subst hcs
    have hs1 := hs.getNextToken_sync
    have htok1 : ∀ t ∈ a.getNextToken.1.Tokens, ∀ c cs, t.Value = c :: cs →
        0 ≤ precOf c → cs = [] := by
      rw [AST.getNextToken_Tokens]; exact htok
    have r1 := ih1 htok1 hs1 e2
    refine ih2 (by rw [f1.1]; exact htok1) (f1.2.2 hs1) h3 hpos rfl ?_
    exact ⟨⟨⟨c, precOf_binaryOps (by omega), hv⟩, hlnil, hnil⟩, hl, r1⟩

/-- C20. Well-formed trees: for every source that `ParseExpression` accepts, the returned
root is not nil, and every operator node of the tree (the arguments of calls included) has
as `Op` one of `+`, `-`, `*`, `/`, `%`, `^`, never a bracket, and has a `Lhs` and a `Rhs`
that are not nil. -/
theorem C20_well_formed_trees (reg : Registry) (s : GoString) (t : ExprNode)
    (h : ParseExpression reg s = .done (.ok t)) :
    t.isNil = false ∧ ExprNode.All OperatorOk t := by
  obtain ⟨toks, a1, hP, hne, hpar, _, hE, _, _⟩ := ParseExpression_index h
  refine ⟨(hpar.nodes_ok hE).isNil_false, ?_⟩
  have hlex := Parse_lexed hP
  have hsync : (NewAST toks s).Sync := by
    cases toks with
    | nil => exact absurd rfl hne
    | cons t0 rest =>
      refine ⟨?_, ?_⟩
      · intro t1 h1
        simp only [NewAST, Option.some.injEq] at h1
        subst h1
        exact List.mem_cons_self _ _
      · intro _
        rfl
  have hT : (NewAST toks s).Tokens = toks := by cases toks <;> rfl
  exact hpar.operators_ok (by
    intro t ht c cs hv hp
    rw [hT] at ht
    exact (hlex t ht).one_byte hv hp) hsync hE

theorem C20_well_formed_trees_witness :
    (OperatorExprNode ['*']
        (OperatorExprNode ['-'] (NumberExprNode F64.zero [])
          (OperatorExprNode ['%'] (NumberExprNode (F64.ofInt 7) ['7'])
            (NumberExprNode (F64.ofInt 2) ['2']) false) false)
        (VariableExprNode ['x']) false).isNil = false ∧
      ExprNode.All OperatorOk
        (OperatorExprNode ['*']
          (OperatorExprNode ['-'] (NumberExprNode F64.zero [])
            (OperatorExprNode ['%'] (NumberExprNode (F64.ofInt 7) ['7'])
              (NumberExprNode (F64.ofInt 2) ['2']) false) false)
          (VariableExprNode ['x']) false) :=
  C20_well_formed_trees defaultRegistry "-(7%2)*x".toList _ rfl

/-! ## Termination of the parser -/

open AST in
/-- Past the end of the token list `getNextToken` keeps the current token. -/
theorem getNextToken_end {a : AST} (h : a.Tokens.length ≤ a.currIndex + 1) :
    a.getNextToken.1.currTok = a.currTok ∧
      a.getNextToken.1.Tokens.length ≤ a.getNextToken.1.currIndex + 1 := by
  have hn : a.getNextToken.2 = none := by
    unfold AST.getNextToken
    have : a.Tokens.get? (a.currIndex + 1) = none := by
      rw [List.get?_eq_none]
      exact h
    simp only [this]
  refine ⟨getNextToken_none hn, ?_⟩
  rw [getNextToken_Tokens, getNextToken_currIndex]
  omega

open AST in
/-- When the current token is an identifier token `(`, the index is at the end of the
list and `(` names a registered function, the call path of the parser calls itself in a
state of the same kind: no amount of fuel is enough. -/
theorem AST.call_loops (reg : Registry) (d : DefFunc) (hd : reg.defFunc ['('] = some d)
    (tk : Token) (hv : tk.Value = ['(']) (hty : tk.Typ = IdentifierType) :
    ∀ (fuel : Nat) (a : AST), a.currTok = some tk → a.Tokens.length ≤ a.currIndex + 1 →
      AST.ParseExpression reg fuel a = .outOfFuel ∧
      AST.parsePrimary reg fuel a = .outOfFuel ∧
      AST.parseFunCallerOrConst reg fuel a = .outOfFuel := by
  intro fuel
  induction fuel with
  | zero => intro a _ _; exact ⟨rfl, rfl, rfl⟩
  | succ n ih =>
    intro a hc hi
    refine ⟨?_, ?_, ?_⟩
    · rw [AST.ParseExpression]
      have h1 := (ih { a with depth := a.depth + 1 } hc hi).2.1
      simp only [h1, Run.bind_outOfFuel]
    · rw [AST.parsePrimary]
      simp only [AST.tok, hc, Run.bind_done, hty]
      exact (ih a hc hi).2.2
    · rw [AST.parseFunCallerOrConst]
      obtain ⟨c1, i1⟩ := getNextToken_end hi
      obtain ⟨c2, i2⟩ := getNextToken_end i1
      rw [hc] at c1
      rw [c1] at c2
      have hb : (['('] : GoString) ≠ [')'] := by decide
      have h1 := (ih a.getNextToken.1.getNextToken.1 c2 i2).1
      simp only [AST.tok, hc, c1, c2, Run.bind_done, hv, hd, if_true, hb, if_false, h1,
        Run.bind_outOfFuel]

theorem Run.below_refl {α : Type} (x : Run α) : Run.Below x x := Or.inr rfl

theorem Run.below_trans {α : Type} {x y z : Run α} (h1 : Run.Below x y)
    (h2 : Run.Below y z) : Run.Below x z := by
  rcases h1 with h1 | h1
  · exact Or.inl h1
  · subst h1
    exact h2

theorem Run.below_bind {α β : Type} {x y : Run α} {f g : α → Run β} (h : Run.Below x y)
    (hf : ∀ v, Run.Below (f v) (g v)) : Run.Below (x >>= f) (y >>= g) := by
  rcases h with h | h
  · left
    rw [h]
    rfl
  · subst h
    cases x with
    | done v => exact hf v
    | panicked m => exact Or.inr rfl
    | outOfFuel => exact Or.inl rfl

theorem Run.below_done {α : Type} {x y : Run α} {r : α} (h : Run.Below x y)
    (hx : x = .done r) : y = .done r := by
  rcases h with h | h
  · rw [hx] at h
    cases h
  · rw [← h]
    exact hx

open AST in
/-- One more unit of fuel does not change a run of the parser that did not run out of
fuel. -/
theorem AST.fuel_succ (reg : Registry) : ∀ fuel : Nat,
    (∀ a, Run.Below (AST.ParseExpression reg fuel a) (AST.ParseExpression reg (fuel + 1) a)) ∧
    (∀ a, Run.Below (AST.parsePrimary reg fuel a) (AST.parsePrimary reg (fuel + 1) a)) ∧
    (∀ a, Run.Below (AST.parseFunCallerOrConst reg fuel a)
      (AST.parseFunCallerOrConst reg (fuel + 1) a)) ∧
    (∀ exprs a, Run.Below (AST.parseArgs reg fuel exprs a)
      (AST.parseArgs reg (fuel + 1) exprs a)) ∧
    (∀ a, Run.Below (AST.parseOperator reg fuel a) (AST.parseOperator reg (fuel + 1) a)) ∧
    (∀ p lhs a, Run.Below (AST.parseBinOpRHS reg fuel p lhs a)
      (AST.parseBinOpRHS reg (fuel + 1) p lhs a)) := by
  intro fuel
  induction fuel with
  | zero =>
    refine ⟨?_, ?_, ?_, ?_, ?_, ?_⟩
    · intro a; exact Or.inl rfl
    · intro a; exact Or.inl rfl
    · intro a; exact Or.inl rfl
    · intro exprs a; exact Or.inl rfl
    · intro a; exact Or.inl rfl
    · intro p lhs a; exact Or.inl rfl
  | succ n ih =>
    obtain ⟨ihE, ihP, ihF, ihA, ihO, ihB⟩ := ih
    refine ⟨?_, ?_, ?_, ?_, ?_, ?_⟩
    · intro a
      rw [AST.ParseExpression, AST.ParseExpression]
      refine Run.below_bind (ihP _) ?_
      rintro ⟨lhs, a2⟩
      refine Run.below_bind (ihB _ _ _) ?_
      intro v
      exact Run.below_refl _
    · intro a
      rw [AST.parsePrimary, AST.parsePrimary]
      refine Run.below_bind (Run.below_refl _) ?_
      intro t
      cases t.Typ with
      | IdentifierType => exact ihF _
      | LiteralType => exact Run.below_refl _
      | OperatorType => exact ihO _
      | CommaType => exact Run.below_refl _
    · intro a
      rw [AST.parseFunCallerOrConst, AST.parseFunCallerOrConst]
      refine Run.below_bind (Run.below_refl _) ?_
      intro t
      dsimp only
      refine Run.below_bind (Run.below_refl _) ?_
      intro u
      by_cases hv : u.Value = ['(']
      · simp only [hv, if_true]
        cases hd : reg.defFunc t.Value with
        | none => exact Run.below_refl _
        | some d =>
          dsimp only
          refine Run.below_bind (Run.below_refl _) ?_
          intro w
          by_cases hv2 : w.Value = [')']
          · simp only [hv2, if_true]
            exact Run.below_refl _
          · simp only [hv2, if_false]
            refine Run.below_bind (ihE _) ?_
            rintro ⟨e, a2⟩
            refine Run.below_bind (ihA _ _) ?_
            intro v
            exact Run.below_refl _
      · simp only [hv, if_false]
        exact Run.below_refl _
    · intro exprs a
      rw [AST.parseArgs, AST.parseArgs]
      refine Run.below_bind (Run.below_refl _) ?_
      intro t
      by_cases hv : t.Value = [')']
      · simp only [hv, ne_eq, not_true_eq_false, if_false]
        exact Run.below_refl _
      · simp only [ne_eq, hv, not_false_eq_true, if_true]
        cases h1 : a.getNextToken.2 with
        | none => exact Run.below_refl _
        | some u =>
          dsimp only
          by_cases hc : u.Typ = CommaType
          · simp only [hc, if_true]
            exact ihA _ _
          · simp only [hc, if_false]
            refine Run.below_bind (ihE _) ?_
            rintro ⟨e, a2⟩
            exact ihA _ _
    · intro a
      rw [AST.parseOperator, AST.parseOperator]
      refine Run.below_bind (Run.below_refl _) ?_
      intro t
      by_cases hv : t.Value = ['(']
      · simp only [hv, if_true]
        cases h1 : a.getNextToken.2 with
        | none => exact Run.below_refl _
        | some u =>
          dsimp only
          refine Run.below_bind (ihE _) ?_
          rintro ⟨e, a2⟩
          exact Run.below_refl _
      · simp only [hv, if_false]
        by_cases hm : t.Value = ['-']
        · simp only [hm, if_true]
          cases h1 : a.getNextToken.2 with
          | none => exact Run.below_refl _
          | some u =>
            dsimp only
            refine Run.below_bind (ihP _) ?_
            rintro ⟨e, a2⟩
            exact Run.below_refl _
        · simp only [hm, if_false]
          exact Run.below_refl _
    · intro p lhs a
      rw [AST.parseBinOpRHS, AST.parseBinOpRHS]
      refine Run.below_bind (Run.below_refl _) ?_
      intro tp
      by_cases hlt : tp < p
      · simp only [hlt, if_true]
        exact Run.below_refl _
      · simp only [hlt, if_false]
        refine Run.below_bind (Run.below_refl _) ?_
        intro t
        dsimp only
        cases h1 : a.getNextToken.2 with
        | none => exact Run.below_refl _
        | some u =>
          dsimp only
          refine Run.below_bind (ihP _) ?_
          rintro ⟨rhs, a2⟩
          cases hnil : rhs.isNil with
          | true =>
            simp only [hnil, if_true]
            exact Run.below_refl _
          | false =>
            simp only [hnil, Bool.false_eq_true, if_false]
            refine Run.below_bind (Run.below_refl _) ?_
            intro np
            by_cases hc : tp < np
            · simp only [hc, if_true]
              refine Run.below_bind (ihB _ _ _) ?_
              rintro ⟨rhs1, a4⟩
              cases hnil1 : rhs1.isNil with
              | true =>
                simp only [hnil1, if_true]
                exact Run.below_refl _
              | false =>
                simp only [hnil1, Bool.false_eq_true, if_false]
                exact ihB _ _ _
            · simp only [hc, if_false]
              exact ihB _ _ _

/-- More fuel does not change a run of `AST.ParseExpression` that did not run out of
fuel. -/
theorem AST.fuel_add (reg : Registry) (a : AST) (fuel : Nat) : ∀ k : Nat,
    Run.Below (AST.ParseExpression reg fuel a) (AST.ParseExpression reg (fuel + k) a)
  | 0 => Run.below_refl _
  | k + 1 => Run.below_trans (AST.fuel_add reg a fuel k) ((AST.fuel_succ reg (fuel + k)).1 a)

/-- C21, as amended. The parser terminates on every token list in which no identifier
token has the text `(`: for every registry and every non-empty list of tokens with
non-empty texts and no identifier token `(`, `AST.ParseExpression` returns one result,
the same for every amount of fuel from four times the number of tokens plus four on (the
fuel bounds the nesting of calls and loop iterations), and the token list is unchanged.
Every token list that `Parse` makes is such a list. -/
theorem C21_parser_terminates (reg : Registry) (toks : List Token) (s : GoString)
    (hne : toks ≠ []) (hs : TokensSafe toks) :
    (∃ r a1, (∀ fuel, parseFuel toks.length ≤ fuel →
        AST.ParseExpression reg fuel (NewAST toks s) = .done (r, a1)) ∧
      a1.Tokens = toks) ∧
    (∀ src lexed, Parse src = .done (.ok lexed) → TokensSafe lexed) := by
  refine ⟨?_, fun src lexed h => Parse_safe h⟩
  cases toks with
  | nil => exact absurd rfl hne
  | cons t0 rest =>
    have hlive : (NewAST (t0 :: rest) s).Live := ⟨t0, rfl, List.mem_cons_self _ _⟩
    have hrem : (NewAST (t0 :: rest) s).rem = (t0 :: rest).length := rfl
    obtain ⟨r, a1, hrun, h1, _, _⟩ := (AST.returns reg (parseFuel (t0 :: rest).length)).1
      (NewAST (t0 :: rest) s) hs hlive (by rw [hrem]; unfold parseFuel; omega)
    refine ⟨r, a1, ?_, h1⟩
    intro fuel hf
    obtain ⟨k, rfl⟩ := Nat.exists_eq_add_of_le hf
    exact Run.below_done (AST.fuel_add reg _ _ k) hrun

theorem C21_parser_terminates_witness :
    ∃ r a1, (∀ fuel, parseFuel 4 ≤ fuel →
        AST.ParseExpression bracketNameRegistry fuel
          (NewAST [{ Value := ['('], Typ := OperatorType, Offset := 0 },
            { Value := ['('], Typ := OperatorType, Offset := 1 },
            { Value := ['x'], Typ := IdentifierType, Offset := 2 },
            { Value := ['('], Typ := OperatorType, Offset := 3 }] "((x(".toList) =
          .done (r, a1)) ∧
      a1.Tokens = [{ Value := ['('], Typ := OperatorType, Offset := 0 },
            { Value := ['('], Typ := OperatorType, Offset := 1 },
            { Value := ['x'], Typ := IdentifierType, Offset := 2 },
            { Value := ['('], Typ := OperatorType, Offset := 3 }] :=
  (C21_parser_terminates bracketNameRegistry
    [{ Value := ['('], Typ := OperatorType, Offset := 0 },
      { Value := ['('], Typ := OperatorType, Offset := 1 },
      { Value := ['x'], Typ := IdentifierType, Offset := 2 },
      { Value := ['('], Typ := OperatorType, Offset := 3 }] "((x(".toList
    (by decide) (by unfold TokensSafe; decide)).1

/-- Counterexample to C21 as stated: `RegDefFunc` accepts the name `(`; on the token list
that holds one identifier token `(`, whose text is not empty, `AST.ParseExpression` does
not return, whatever the fuel: `parseFunCallerOrConst` steps past the end of the list,
finds the text `(` in the current token, which is still the identifier, takes it for the
opening bracket of a call of the function `(`, and parses an argument from the same
token. -/
theorem C21_counterexample :
    (RegDefFunc defaultRegistry ['('] (exampleFunc (-1))).1 = none ∧
      bracketNameToken.Value ≠ [] ∧
      ∀ fuel, AST.ParseExpression bracketNameRegistry fuel
        (NewAST [bracketNameToken] ['(']) = .outOfFuel := by
  refine ⟨rfl, by decide, ?_⟩
  intro fuel
  exact (AST.call_loops bracketNameRegistry (exampleFunc (-1)) rfl bracketNameToken rfl rfl
    fuel (NewAST [bracketNameToken] ['(']) rfl (by decide)).1

/-! ## The grouping flag and the brackets of the printed form -/

theorem literalTail_all : ∀ (cs : GoString) (prev : Char), literalTail prev cs = true →
    ∀ x ∈ cs, Parser.isDigitNum x = true := by
  intro cs
  induction cs with
  | nil => intro _ _ x hx; cases hx
  | cons c cs ih =>
    intro prev h x hx
    rw [literalTail] at h
    simp only [Bool.and_eq_true] at h
    rcases List.mem_cons.1 hx with rfl | hx
    · exact h.1.1
    · exact ih c h.2 x hx

theorem Parser.digitNum_noParen {c : Char} (h : Parser.isDigitNum c = true) :
    c ≠ '(' ∧ c ≠ ')' := by
  constructor
  · rintro rfl
    exact absurd h (by decide)
  · rintro rfl
    exact absurd h (by decide)

theorem Parser.wordChar_noParen {c : Char} (h : Parser.isWordChar c = true) :
    c ≠ '(' ∧ c ≠ ')' := by
  constructor
  · rintro rfl
    exact absurd h (by decide)
  · rintro rfl
    exact absurd h (by decide)

/-- The text of a token of the lexer that is not an operator token holds no bracket. -/
theorem Parse_noParen {s : GoString} {toks : List Token} (h : Parse s = .done (.ok toks)) :
    ∀ t ∈ toks, t.Typ ≠ OperatorType → NoParen t.Value := by
  obtain ⟨ps, z, _, h2, _, _, rfl⟩ := Parse_ok_inv h
  intro t ht hty
  obtain ⟨ps1, p, ps2, rfl, hp⟩ := mem_piecesTokens ps 0 ht
  have hok := (piecesOk_append.1 h2).2.1
  cases p with
  | lit c cs =>
    simp only [Piece.token, Option.some.injEq] at hp
    subst hp
    obtain ⟨hd, htail, _⟩ := hok
    intro x hx
    have hx1 : x ∈ c :: cs := (List.mem_filter.1 hx).1
    rcases List.mem_cons.1 hx1 with rfl | hx2
    · exact Parser.digitNum_noParen (Parser.digit_isDigitNum x hd)
    · exact Parser.digitNum_noParen (literalTail_all cs c htail x hx2)
  | op c =>
    simp only [Piece.token, Option.some.injEq] at hp
    subst hp
    exact absurd rfl hty
  | comma =>
    simp only [Piece.token, Option.some.injEq] at hp
    subst hp
    intro x hx
    simp only [List.mem_singleton] at hx
    subst hx
    decide
  | ident c cs =>
    simp only [Piece.token, Option.some.injEq] at hp
    subst hp
    obtain ⟨hc, hall, _⟩ := hok
    intro x hx
    rcases List.mem_cons.1 hx with rfl | hx2
    · exact Parser.wordChar_noParen (Parser.char_isWordChar hc)
    · exact Parser.wordChar_noParen (List.all_eq_true.1 hall x hx2)
  | ws c => simp [Piece.token] at hp

theorem AST.constOrVariable_leafOk (reg : Registry) {toks : List Token} {n : GoString}
    (h : ∃ t ∈ toks, t.Typ = IdentifierType ∧ t.Value = n) :
    ExprNode.All (LeafOk toks) (AST.constOrVariable reg n) := by
  unfold AST.constOrVariable
  cases reg.defConst n <;> exact h

theorem AST.parseNumber_leafOk {a a1 : AST} {e : ExprNode}
    (hn : a.parseNumber = .done (e, a1)) (hs : a.Sync) :
    ExprNode.All (LeafOk a.Tokens) e := by
  obtain ⟨t, ht, ⟨v, hv, rfl, _⟩ | ⟨_, rfl, _⟩⟩ := AST.parseNumber_inv hn
  · exact Or.inr ⟨t, hs.1 t ht, rfl, by rw [hv]; rfl⟩
  · exact Or.inl rfl

/-- The leaves of the tree that a run of the parser builds are made from tokens of the
list. -/
theorem Parsed.leaves_ok {reg : Registry} {c : Call} {a a1 : AST} {e : ExprNode}
    {es : List ExprNode} (h : Parsed reg c a e es a1) (toks : List Token) :
    a.Tokens = toks → a.Sync →
    match c with
    | .args exprs => ExprNode.AllList (LeafOk toks) exprs → ExprNode.AllList (LeafOk toks) es
    | .binOpRHS _ lhs => ExprNode.All (LeafOk toks) lhs → ExprNode.All (LeafOk toks) e
    | .funCallerOrConst => (∀ t, a.currTok = some t → t.Typ = IdentifierType) →
        ExprNode.All (LeafOk toks) e
    | _ => ExprNode.All (LeafOk toks) e := by
  induction h with
  | expression a a2 a3 a4 lhs r h1 h2 hl ih1 ih2 =>
    intro htok hs
    obtain ⟨f1, _⟩ := h1.follows
    exact ih2 (f1.1.trans htok) (f1.2.2 ⟨hs.1, hs.2⟩) (ih1 htok ⟨hs.1, hs.2⟩)
  | primary_identifier a a1 t e ht hty _ ih =>
    intro htok hs
    refine ih htok hs ?_
    intro t1 ht1
    rw [ht] at ht1
    cases ht1
    exact hty
  | primary_literal a a1 t e _ _ hn =>
    intro htok hs
    subst htok
    exact AST.parseNumber_leafOk hn hs
  | primary_operator a a1 t e _ _ _ ih => exact ih
  | primary_comma a t _ _ => intro _ _; trivial
  | call_const a t t1 ht _ _ =>
    intro htok hs hty
    subst htok
    exact AST.constOrVariable_leafOk reg ⟨t, hs.1 t ht, hty t ht, rfl⟩
  | call_undefined a t t1 _ _ _ _ => intro _ _ _; exact ⟨trivial, trivial⟩
  | call_noArgs a a1 t t1 t2 d e _ _ _ _ _ _ hf =>
    intro _ _ _
    obtain ⟨rfl, _⟩ := AST.finishCall_inv hf
    exact ⟨trivial, trivial⟩
  | call_args a a3 a4 a1 t t1 t2 d e0 e exprs _ _ _ _ _ _ h1 h2 hf ih1 ih2 =>
    intro htok hs _
    obtain ⟨rfl, _⟩ := AST.finishCall_inv hf
    obtain ⟨f1, _⟩ := h1.follows
    have hs2 := hs.getNextToken_sync.getNextToken_sync
    have htok2 : a.getNextToken.1.getNextToken.1.Tokens = toks := by
      rw [AST.getNextToken_Tokens, AST.getNextToken_Tokens]; exact htok
    exact ⟨trivial, ih2 (f1.1.trans htok2) (f1.2.2 hs2) ⟨ih1 htok2 hs2, trivial⟩⟩
  | args_done exprs a t _ _ => intro _ _; exact id
  | args_eof exprs a t _ _ _ => intro _ _; exact id
  | args_comma exprs exprs1 a a1 t t1 _ _ _ _ _ ih =>
    intro htok hs
    exact ih (by rw [AST.getNextToken_Tokens]; exact htok) hs.getNextToken_sync
  | args_expression exprs exprs1 a a2 a1 t t1 e _ _ _ _ h1 h2 ih1 ih2 =>
    intro htok hs hx
    obtain ⟨f1, _⟩ := h1.follows
    have htok1 : a.getNextToken.1.Tokens = toks := by
      rw [AST.getNextToken_Tokens]; exact htok
    exact ih2 (f1.1.trans htok1) (f1.2.2 hs.getNextToken_sync)
      ((ExprNode.AllList_append _ _ _).2 ⟨hx, ih1 htok1 hs.getNextToken_sync, trivial⟩)
  | bracket_eof a t t1 _ _ _ _ => intro _ _; trivial
  | bracket_nil a a2 t t1 e _ _ _ _ _ _ => intro _ _; trivial
  | bracket_unclosed a a2 t t1 t2 e _ _ _ _ _ _ _ _ => intro _ _; trivial
  | bracket a a2 t t1 t2 e _ _ _ _ _ _ _ ih =>
    intro htok hs
    exact ih (by rw [AST.getNextToken_Tokens]; exact htok) hs.getNextToken_sync
  | minus_eof a t t1 _ _ _ _ _ => intro _ _; trivial
  | minus a a2 t t1 rhs _ _ _ _ _ ih =>
    intro htok hs
    exact ⟨trivial, Or.inl rfl,
      ih (by rw [AST.getNextToken_Tokens]; exact htok) hs.getNextToken_sync⟩
  | operator_number a a1 t e _ _ _ hn =>
    intro htok hs
    subst htok
    exact AST.parseNumber_leafOk hn hs
  | binOp_stop execPrec lhs a p _ _ => intro _ _ hl; exact hl
  | binOp_eof execPrec lhs a p t1 _ _ _ _ => intro _ _ _; trivial
  | binOp_nil execPrec lhs rhs a a2 p t1 _ _ _ _ _ _ => intro _ _ _; trivial
  | binOp_climb_nil execPrec lhs rhs rhs1 a a2 a3 p np t1 _ _ _ _ _ _ _ _ _ _ _ =>
    intro _ _ _; trivial
  | binOp_climb execPrec lhs rhs rhs1 r a a2 a3 a4 p np t t1 _ _ _ _ h1 _ _ _ h2 _ _
      ih1 ih2 ih3 =>
    intro htok hs hl
    obtain ⟨f1, _⟩ := h1.follows
    obtain ⟨f2, _⟩ := h2.follows
    have hs1 := hs.getNextToken_sync
    have htok1 : a.getNextToken.1.Tokens = toks := by
      rw [AST.getNextToken_Tokens]; exact htok
    have r1 := ih1 htok1 hs1
    have r2 := ih2 (f1.1.trans htok1) (f1.2.2 hs1) r1
    exact ih3 ((f2.1.trans f1.1).trans htok1) (f2.2.2 (f1.2.2 hs1)) ⟨trivial, hl, r2⟩
  | binOp_fold execPrec lhs rhs r a a2 a3 p np t t1 _ _ _ _ h1 _ _ _ _ ih1 ih2 =>
    intro htok hs hl
    obtain ⟨f1, _⟩ := h1.follows
    have hs1 := hs.getNextToken_sync
    have htok1 : a.getNextToken.1.Tokens = toks := by
      rw [AST.getNextToken_Tokens]; exact htok
    exact ih2 (f1.1.trans htok1) (f1.2.2 hs1) ⟨trivial, hl, ih1 htok1 hs1⟩

theorem NoParen.count_zero {s : GoString} (h : NoParen s) :
    s.count '(' = 0 ∧ s.count ')' = 0 := by
  constructor
  · rw [List.count_eq_zero]
    intro hm
    exact (h _ hm).1 rfl
  · rw [List.count_eq_zero]
    intro hm
    exact (h _ hm).2 rfl

theorem NoParen.append_noParen {s t : GoString} (hs : NoParen s) (ht : NoParen t) :
    NoParen (s ++ t) := by
  intro c hc
  rcases List.mem_append.1 hc with h | h
  · exact hs c h
  · exact ht c h

theorem toDigitsCore_noParen : ∀ (fuel n : Nat) (ds : List Char), NoParen ds →
    NoParen (Nat.toDigitsCore 10 fuel n ds) := by
  intro fuel
  induction fuel with
  | zero => intro n ds h; exact h
  | succ k ih =>
    intro n ds h
    have hd : ∀ d, d < 10 → Nat.digitChar d ≠ '(' ∧ Nat.digitChar d ≠ ')' := by decide
    have hcons : NoParen (Nat.digitChar (n % 10) :: ds) := by
      intro c hc
      rcases List.mem_cons.1 hc with rfl | hc
      · exact hd _ (Nat.mod_lt _ (by decide))
      · exact h c hc
    rw [Nat.toDigitsCore]
    split
    · exact hcons
    · exact ih _ _ hcons

theorem natDigits_noParen (n : Nat) : NoParen (natDigits n) :=
  toDigitsCore_noParen _ _ _ (fun _ h => by cases h)

theorem fracDigits_noParen : ∀ (k n : Nat), NoParen (fracDigits k n) := by
  intro k
  induction k with
  | zero => intro n c h; cases h
  | succ k ih =>
    intro n
    rw [fracDigits]
    refine (ih _).append_noParen ?_
    intro c hc
    simp only [List.mem_singleton] at hc
    subst hc
    have hd : ∀ d, d < 10 → Char.ofNat (48 + d) ≠ '(' ∧ Char.ofNat (48 + d) ≠ ')' := by
      decide
    exact hd _ (Nat.mod_lt _ (by decide))

theorem formatFixed_noParen (prec : Nat) (v : F64) : NoParen (formatFixed prec v) := by
  have hsign : ∀ m : Int, NoParen (if m < 0 then ['-'] else []) := by
    intro m
    split
    · intro c hc
      simp only [List.mem_singleton] at hc
      subst hc
      decide
    · intro c hc
      cases hc
  have hdot : NoParen ['.'] := by
    intro c hc
    simp only [List.mem_singleton] at hc
    subst hc
    decide
  cases v with
  | NaN =>
    have h : NoParen "NaN".toList := by unfold NoParen; decide
    exact h
  | posInf =>
    have h : NoParen "+Inf".toList := by unfold NoParen; decide
    exact h
  | negInf =>
    have h : NoParen "-Inf".toList := by unfold NoParen; decide
    exact h
  | fin m e =>
    unfold formatFixed
    simp only
    split
    · exact (hsign m).append_noParen (natDigits_noParen _)
    · exact ((((hsign m).append_noParen (natDigits_noParen _)).append_noParen hdot)).append_noParen
        (fracDigits_noParen _ _)

theorem formatInt_noParen (t : Int) : NoParen (formatInt t) := by
  unfold formatInt
  split
  · intro c hc
    rcases List.mem_cons.1 hc with rfl | hc
    · decide
    · exact natDigits_noParen _ c hc
  · exact natDigits_noParen _

/-- The brackets of the printed form: for a tree without calls whose operator nodes carry
one of the six operator symbols and no grouping flag, and whose leaves are made from
tokens without brackets, under bindings that hold neither a string nor a tree, `ToExprStr`
returns a text with one opening and one closing bracket for each `%` node, and no
other. -/
theorem ToExprStr_parens (reg : Registry) (hreg : ∀ n, reg.defFunc n = none)
    (p : Parameter) (hplain : ∀ n v, p.Vars n = some v → v.isPlain = true)
    (toks : List Token)
    (htoks : ∀ t ∈ toks, (t.Typ = IdentifierType ∨ (ParseFloat t.Value).isSome = true) →
      NoParen t.Value) :
    ∀ (fuel : Nat) (t : ExprNode), ExprNode.All (NodeOk reg) t →
      ExprNode.All OperatorOk t → ExprNode.All (LeafOk toks) t → t.height ≤ fuel →
      ∃ r, ToExprStr reg fuel t (some p) = .done r ∧
        r.count '(' = t.modCount ∧ r.count ')' = t.modCount := by
  intro fuel
  induction fuel with
  | zero =>
    intro t _ _ _ hh
    cases t <;> simp [ExprNode.height] at hh
  | succ n ih =>
    intro t hok hop hleaf hh
    cases t with
    | nil => simp [ExprNode.All, NodeOk] at hok
    | NumberExprNode v s =>
      refine ⟨s, rfl, ?_⟩
      rcases hleaf with rfl | ⟨t, ht, hv, hf⟩
      · exact ⟨rfl, rfl⟩
      · subst hv
        exact (htoks t ht (Or.inr hf)).count_zero
    | ConstExprNode nm s v =>
      refine ⟨s, rfl, ?_⟩
      obtain ⟨_, rfl⟩ := hok
      exact (formatFixed_noParen 0 v).count_zero
    | VariableExprNode nm =>
      obtain ⟨t, ht, hty, rfl⟩ := hleaf
      have hnm := (htoks t ht (Or.inl hty)).count_zero
      rw [ToExprStr]
      simp only [GetCtxParameter]
      cases hv : p.Vars t.Value with
      | none => exact ⟨_, rfl, hnm⟩
      | some v =>
        have := hplain _ v hv
        cases v with
        | str _ => simp [Value.isPlain] at this
        | node _ => simp [Value.isPlain] at this
        | int i => exact ⟨_, rfl, (formatInt_noParen _).count_zero⟩
        | uint i => exact ⟨_, rfl, (formatInt_noParen _).count_zero⟩
        | float32 x => exact ⟨_, rfl, (formatFixed_noParen _ _).count_zero⟩
        | float64 x => exact ⟨_, rfl, (formatFixed_noParen _ _).count_zero⟩
        | other => exact ⟨_, rfl, hnm⟩
    | FunCallerExprNode nm args =>
      obtain ⟨⟨d, hd, _⟩, _⟩ := hok
      rw [hreg] at hd
      cases hd
    | OperatorExprNode op l r flag =>
      obtain ⟨⟨rfl, _⟩, hl, hr⟩ := hok
      obtain ⟨⟨⟨c, hc, rfl⟩, _, _⟩, hl2, hr2⟩ := hop
      obtain ⟨_, hl3, hr3⟩ := hleaf
      simp only [ExprNode.height] at hh
      obtain ⟨sl, el, cl1, cl2⟩ := ih l hl hl2 hl3 (by omega)
      obtain ⟨sr, er, cr1, cr2⟩ := ih r hr hr2 hr3 (by omega)
      rw [ToExprStr]
      simp only [el, er, Run.bind_done, ExprNode.modCount]
      simp only [binaryOps, List.mem_cons, List.mem_singleton, List.not_mem_nil,
        or_false] at hc
      rcases hc with rfl | rfl | rfl | rfl | rfl | rfl
      all_goals
        refine ⟨_, rfl, ?_, ?_⟩ <;>
          simp [OperatorItem.ToExprStr, List.count_append, cl1, cl2, cr1, cr2] <;> omega

/-- The texts from which the parser makes leaves hold no bracket: the identifier tokens of
the lexer, and its tokens that `strconv.ParseFloat` reads. -/
theorem Parse_leaf_noParen {s : GoString} {toks : List Token}
    (h : Parse s = .done (.ok toks)) :
    ∀ t ∈ toks, (t.Typ = IdentifierType ∨ (ParseFloat t.Value).isSome = true) →
      NoParen t.Value := by
  intro t ht hcase
  by_cases hty : t.Typ = OperatorType
  · rcases hcase with h1 | h1
    · rw [hty] at h1
      cases h1
    · have hlex := Parse_lexed h t ht
      unfold Token.Lexed at hlex
      rw [hty] at hlex
      obtain ⟨c, o, hv, _⟩ := hlex
      cases hf : ParseFloat t.Value with
      | none => rw [hf] at h1; cases h1
      | some v =>
        obtain ⟨n1, n2⟩ := ParseFloat_not_bracket hf
        rw [hv] at n1 n2 ⊢
        intro x hx
        simp only [List.mem_singleton] at hx
        subst hx
        exact ⟨fun hc => n1 (by rw [hc]), fun hc => n2 (by rw [hc])⟩
  · exact Parse_noParen h t ht hty

/-- The tree of a source that `ParseExpression` accepts: its operator nodes are well
formed and its leaves are made from the tokens of the source. -/
theorem ParseExpression_tree {reg : Registry} {s : GoString} {t : ExprNode}
    (h : ParseExpression reg s = .done (.ok t)) :
    ∃ toks, Parse s = .done (.ok toks) ∧ ExprNode.All OperatorOk t ∧
      ExprNode.All (LeafOk toks) t := by
  obtain ⟨toks, a1, hP, hne, hpar, _, hE, _, _⟩ := ParseExpression_index h
  have hlex := Parse_lexed hP
  have hsync : (NewAST toks s).Sync := by
    cases toks with
    | nil => exact absurd rfl hne
    | cons t0 rest =>
      refine ⟨?_, ?_⟩
      · intro t1 h1
        simp only [NewAST, Option.some.injEq] at h1
        subst h1
        exact List.mem_cons_self _ _
      · intro _
        rfl
  have hT : (NewAST toks s).Tokens = toks := by cases toks <;> rfl
  refine ⟨toks, hP, ?_, hpar.leaves_ok toks hT hsync⟩
  exact hpar.operators_ok (by
    intro t ht c cs hv hp
    rw [hT] at ht
    exact (hlex t ht).one_byte hv hp) hsync hE

theorem NodeOk.flagOff {reg : Registry} (e : ExprNode) (h : NodeOk reg e) : FlagOff e := by
  cases e with
  | OperatorExprNode op l r flag => exact h.1
  | _ => trivial

/-- C22. The parser never records grouping: for every source that `ParseExpression`
accepts, every operator node of the returned tree, the arguments of calls included, has
`Flag = false`, also a node that came from a sub-expression in brackets. So the printed
form has no grouping brackets: without registered functions and under bindings that hold
neither a string nor a tree, `ToExprStr` of the tree returns a text in which the number of
opening brackets and the number of closing brackets both equal the number of `%` nodes,
whose renderer adds one pair each. `(1+2)*3` renders as `1 + 2 * 3`. -/
theorem C22_flag_never_set (reg : Registry) (s : GoString) (t : ExprNode)
    (h : ParseExpression reg s = .done (.ok t)) :
    ExprNode.All FlagOff t ∧
      ((∀ n, reg.defFunc n = none) → ∀ p : Parameter,
        (∀ n v, p.Vars n = some v → v.isPlain = true) → ∀ fuel : Nat, t.height ≤ fuel →
        ∃ r, ToExprStr reg fuel t (some p) = .done r ∧
          r.count '(' = t.modCount ∧ r.count ')' = t.modCount) ∧
      ParseExpression defaultRegistry "(1+2)*3".toList =
        .done (.ok (OperatorExprNode ['*'] (OperatorExprNode ['+']
          (NumberExprNode (F64.ofInt 1) ['1']) (NumberExprNode (F64.ofInt 2) ['2']) false)
          (NumberExprNode (F64.ofInt 3) ['3']) false)) ∧
      ToExprStrSource defaultRegistry 3 "(1+2)*3".toList (some emptyParameter) =
        .done (.ok "1 + 2 * 3".toList) ∧
      ToExprStrSource defaultRegistry 3 "((1+2))*(3)".toList (some emptyParameter) =
        .done (.ok "1 + 2 * 3".toList) ∧
      ToExprStrSource defaultRegistry 3 "(1+2)%3".toList (some emptyParameter) =
        .done (.ok "(1 + 2 % 3)".toList) := by
  refine ⟨?_, ?_, rfl, rfl, rfl, rfl⟩
  · exact ExprNode.All_imp NodeOk.flagOff t (ParseExpression_nodes_ok h)
  · intro hreg p hplain fuel hh
    obtain ⟨toks, hP, hop, hleaf⟩ := ParseExpression_tree h
    exact ToExprStr_parens reg hreg p hplain toks (Parse_leaf_noParen hP) fuel t
      (ParseExpression_nodes_ok h) hop hleaf hh

theorem C22_flag_never_set_witness :
    ExprNode.All FlagOff
        (OperatorExprNode ['*'] (OperatorExprNode ['%']
          (NumberExprNode (F64.ofInt 7) ['7']) (VariableExprNode ['x']) false)
          (NumberExprNode (F64.ofInt 3) ['3']) false) ∧
      ∃ r, ToExprStr defaultRegistry 3
          (OperatorExprNode ['*'] (OperatorExprNode ['%']
            (NumberExprNode (F64.ofInt 7) ['7']) (VariableExprNode ['x']) false)
            (NumberExprNode (F64.ofInt 3) ['3']) false) (some exampleParameter) = .done r ∧
        r.count '(' = 1 ∧ r.count ')' = 1 :=
  ⟨(C22_flag_never_set defaultRegistry "(7%x)*3".toList _ rfl).1,
    (C22_flag_never_set defaultRegistry "(7%x)*3".toList _ rfl).2.1 (fun _ => rfl)
      exampleParameter (by
        intro n v hv
        unfold exampleParameter at hv
        simp only at hv
        split at hv
        · cases hv
          rfl
        · cases hv) 3 (by decide)⟩

/-! ## The parser on the printed form of a tree -/

theorem curAt_lt {toks : List Token} {j : Nat} (h : j < toks.length) :
    curAt toks j = toks.get? j := by
  unfold curAt
  rw [Nat.min_eq_left (by omega)]

theorem curAt_exists {toks : List Token} (h : toks ≠ []) (j : Nat) :
    ∃ t, curAt toks j = some t ∧ t ∈ toks := by
  unfold curAt
  have hl : 0 < toks.length := List.length_pos.2 h
  have hlt : min j (toks.length - 1) < toks.length := by
    rcases Nat.le_total j (toks.length - 1) with h1 | h1
    · rw [Nat.min_eq_left h1]; omega
    · rw [Nat.min_eq_right h1]; omega
  refine ⟨toks.get ⟨_, hlt⟩, ?_, List.get_mem _ _ _⟩
  rw [List.get?_eq_get hlt]

open AST in
theorem AST.stateAt_next (s : GoString) (toks : List Token) (j : Nat) (d : Int) :
    (AST.stateAt s toks j d).getNextToken = (AST.stateAt s toks (j + 1) d, toks.get? (j + 1)) := by
  unfold AST.getNextToken AST.stateAt
  simp only
  cases hg : toks.get? (j + 1) with
  | none =>
    simp only [Prod.mk.injEq, and_true, AST.mk.injEq, true_and]
    have hlen : toks.length ≤ j + 1 := List.get?_eq_none.1 hg
    unfold curAt
    congr 1
    omega
  | some t =>
    simp only [Prod.mk.injEq, and_true, AST.mk.injEq, true_and]
    have hlt : j + 1 < toks.length := by
      by_contra hc
      rw [List.get?_eq_none.2 (by omega)] at hg
      cases hg
    rw [curAt_lt hlt, hg]

open AST in
theorem AST.stateAt_tok {s : GoString} {toks : List Token} {j : Nat} {d : Int} {t : Token}
    (h : curAt toks j = some t) : (AST.stateAt s toks j d).tok = .done t := by
  unfold AST.tok AST.stateAt
  simp only [h]

open AST in
theorem AST.stateAt_prec {s : GoString} {toks : List Token} (hne : toks ≠ [])
    (hval : ∀ t ∈ toks, t.Value ≠ []) (j : Nat) (d : Int) :
    (AST.stateAt s toks j d).getTokPrecedence = .done (precAt toks j) := by
  obtain ⟨t, ht, hm⟩ := curAt_exists hne j
  unfold AST.getTokPrecedence
  rw [AST.stateAt_tok ht]
  simp only [Run.bind_done]
  unfold precAt
  rw [ht]
  cases hv : t.Value with
  | nil => exact absurd hv (hval t hm)
  | cons c cs =>
    simp only [hv]
    unfold precOf
    cases Operators c <;> rfl

/-- The token at index `j` when the texts and kinds from `j` on start with `k`. -/
theorem key_at {toks : List Token} {j : Nat} {k : GoString × TokenType}
    {ks : List (GoString × TokenType)} (h : (toks.map Token.key).drop j = k :: ks) :
    ∃ t, toks.get? j = some t ∧ curAt toks j = some t ∧ t.Value = k.1 ∧ t.Typ = k.2 ∧
      j < toks.length ∧ (toks.map Token.key).drop (j + 1) = ks := by
  have hlt : j < toks.length := by
    by_contra hc
    rw [List.drop_eq_nil_of_le (by simpa using Nat.le_of_not_lt hc)] at h
    cases h
  have hd : (toks.map Token.key).drop j =
      (toks.get ⟨j, hlt⟩).key :: (toks.map Token.key).drop (j + 1) := by
    rw [← List.map_drop, ← List.map_drop, List.drop_eq_getElem_cons hlt]
    rfl
  rw [hd] at h
  simp only [List.cons.injEq] at h
  refine ⟨toks.get ⟨j, hlt⟩, List.get?_eq_get hlt, ?_, ?_, ?_, hlt, h.2⟩
  · rw [curAt_lt hlt, List.get?_eq_get hlt]
  · rw [← h.1]; rfl
  · rw [← h.1]; rfl

theorem drop_append_left {α : Type} {l A B : List α} {j : Nat} (h : l.drop j = A ++ B) :
    l.drop (j + A.length) = B := by
  rw [← List.drop_drop, h, List.drop_left]

theorem precOf_le (c : Char) : precOf c ≤ 60 := by
  unfold precOf
  cases h : Operators c with
  | none => decide
  | some o => cases o <;> decide

theorem binaryOps_prec {o : Char} (h : o ∈ binaryOps) : 20 ≤ precOf o := by
  simp only [binaryOps, List.mem_cons, List.mem_singleton, List.not_mem_nil, or_false] at h
  rcases h with rfl | rfl | rfl | rfl | rfl | rfl <;> decide

theorem binaryOps_not_bracket {o : Char} (h : o ∈ binaryOps) : o ≠ '(' ∧ o ≠ ')' := by
  simp only [binaryOps, List.mem_cons, List.mem_singleton, List.not_mem_nil, or_false] at h
  rcases h with rfl | rfl | rfl | rfl | rfl | rfl <;> decide

theorem precAt_of_cur {toks : List Token} {j : Nat} {t : Token} {c : Char} {cs : GoString}
    (h : curAt toks j = some t) (hv : t.Value = c :: cs) : precAt toks j = precOf c := by
  unfold precAt
  rw [h]
  simp only [hv]

open AST in
/-- A pass of the loop of `parseBinOpRHS` over the operator `o` and the printed form of the
right operand `r`: from the left operand `l` it goes on with the node of `o`, `l` and
`r`. -/
theorem parseBinOpRHS_pass (reg : Registry) (s : GoString) (toks : List Token)
    (hval : ∀ t ∈ toks, t.Value ≠ []) (o : Char) (l r : ExprNode) (jl : Nat) (d : Int)
    (restK : List (GoString × TokenType))
    (hkeys : (toks.map Token.key).drop jl = ([o], OperatorType) :: (r.printKeys ++ restK))
    (hrk : r.printKeys ≠ []) (hrn : r.isNil = false)
    (hr : ParsesAt reg s toks r (jl + 1) d)
    (hpr : precOf o < r.printPrec)
    (hfollow : precAt toks (jl + 1 + r.printKeys.length) ≤ precOf o) :
    ∃ f0, ∀ (e : Int), e ≤ precOf o → ∀ fuel, f0 ≤ fuel →
      AST.parseBinOpRHS reg (fuel + 1) e l (AST.stateAt s toks jl d) =
        AST.parseBinOpRHS reg fuel e (OperatorExprNode [o] l r false)
          (AST.stateAt s toks (jl + 1 + r.printKeys.length) d) := by
  obtain ⟨tk, hgo, hco, hvo, _, hlt, hdrop⟩ := key_at hkeys
  simp only at hvo
  have hne : toks ≠ [] := by
    rintro rfl
    simp at hlt
  have hpo : precAt toks jl = precOf o := precAt_of_cur hco hvo
  obtain ⟨k1, ks1, hk1⟩ := List.exists_cons_of_ne_nil hrk
  have hdrop1 : (toks.map Token.key).drop (jl + 1) = k1 :: (ks1 ++ restK) := by
    rw [hdrop, hk1]
    rfl
  obtain ⟨t1, hg1, _, _, _, _, _⟩ := key_at hdrop1
  obtain ⟨P, j, k, f0, hP, hA, hB, hC⟩ := hr
  refine ⟨f0 + k + 1, ?_⟩
  intro e he fuel hf
  have hnlt : ¬ precOf o < e := not_lt.2 he
  rw [AST.parseBinOpRHS]
  simp only [AST.stateAt_prec hne hval, hpo, Run.bind_done, hnlt, if_false,
    AST.stateAt_tok hco, AST.stateAt_next, hg1, hA fuel (by omega), hP, Bool.false_eq_true,
    hvo]
  rcases hC with ⟨_, rfl, rfl, rfl⟩ | hC
  · have hnc : ¬ precOf o < precAt toks (jl + 1 + P.printKeys.length) := not_lt.2 hfollow
    simp only [hnc, if_false]
  · have hc : precOf o < precAt toks j := lt_of_lt_of_le hpr hC
    simp only [hc, if_true]
    obtain ⟨g, rfl⟩ : ∃ g, fuel = g + k := ⟨fuel - k, by omega⟩
    rw [hB (precOf o + 1) (by omega) g (by omega)]
    obtain ⟨g1, rfl⟩ : ∃ g1, g = g1 + 1 := ⟨g - 1, by omega⟩
    have hstop : AST.parseBinOpRHS reg (g1 + 1) (precOf o + 1) r
        (AST.stateAt s toks (jl + 1 + r.printKeys.length) d) =
        .done (r, AST.stateAt s toks (jl + 1 + r.printKeys.length) d) := by
      rw [AST.parseBinOpRHS]
      have hlt2 : precAt toks (jl + 1 + r.printKeys.length) < precOf o + 1 := by omega
      simp only [AST.stateAt_prec hne hval, Run.bind_done, hlt2, if_true, Run.pure_eq]
    rw [hstop]
    simp only [Run.bind_done, hrn, Bool.false_eq_true, if_false]

theorem precAt_le (toks : List Token) (j : Nat) : precAt toks j ≤ 60 := by
  unfold precAt
  cases curAt toks j with
  | none => decide
  | some t =>
    simp only
    cases hv : t.Value with
    | nil => simp only; decide
    | cons c cs => simp only; exact precOf_le c

theorem Printable.nonNil {reg : Registry} {ctx : Context} {T : ExprNode}
    (h : Printable reg ctx T) : T.isNil = false := by
  cases h <;> rfl

theorem Printable.notBlank {reg : Registry} {ctx : Context} {T : ExprNode}
    (h : Printable reg ctx T) : T.isBlank = false := by
  cases h with
  | num v s hs _ =>
    obtain ⟨c, cs, rfl, _⟩ := hs
    rfl
  | _ => rfl

theorem Printable.keys_ne {reg : Registry} {ctx : Context} {T : ExprNode}
    (h : Printable reg ctx T) : T.printKeys ≠ [] := by
  cases h with
  | num v s hs _ =>
    obtain ⟨c, cs, rfl, _⟩ := hs
    simp [ExprNode.printKeys]
  | var c cs p _ _ _ _ _ => simp [ExprNode.printKeys]
  | neg x _ _ => simp [ExprNode.printKeys]
  | bin o l r _ _ _ _ _ =>
    unfold ExprNode.printKeys
    split <;> simp

theorem printKeys_binary {o : Char} (l r : ExprNode) (f : Bool) (h : o ≠ '%') :
    (OperatorExprNode [o] l r f).printKeys = l.printKeys ++ ([o], OperatorType) :: r.printKeys := by
  have h1 : ([o] : GoString) ≠ ['%'] := by
    intro hc
    exact h (by simpa using hc)
  rw [ExprNode.printKeys]
  simp only [h1, if_false]

theorem printKeys_mod (l r : ExprNode) (f : Bool) :
    (OperatorExprNode ['%'] l r f).printKeys =
      (['('], OperatorType) :: (l.printKeys ++ (['%'], OperatorType) ::
        (r.printKeys ++ [([')'], OperatorType)])) := by
  rw [ExprNode.printKeys]
  simp

theorem printPrec_binary {o : Char} {l : ExprNode} (r : ExprNode) (f : Bool) (h : o ≠ '%')
    (hl : l.isBlank = false) : (OperatorExprNode [o] l r f).printPrec = precOf o := by
  have h1 : ([o] : GoString) ≠ ['%'] := by
    intro hc
    exact h (by simpa using hc)
  simp [ExprNode.printPrec, hl, h1]

open AST in
/-- The parser on the printed form of `l`, an operator `o` and the printed form of `r`,
when `l` binds at least as tightly as `o`, `r` binds more tightly, and what follows does
not bind more tightly than `o`: after the first operand of `l`, `parseBinOpRHS` goes on as
it does with the node of `o`, `l` and `r` after these tokens. -/
theorem parse_operands (reg : Registry) (s : GoString) (toks : List Token)
    (hval : ∀ t ∈ toks, t.Value ≠ []) (o : Char) (l r : ExprNode) (i : Nat) (d : Int)
    (restK : List (GoString × TokenType))
    (hkeys : (toks.map Token.key).drop i =
      l.printKeys ++ (([o], OperatorType) :: (r.printKeys ++ restK)))
    (hrk : r.printKeys ≠ []) (hrn : r.isNil = false)
    (hl : ParsesAt reg s toks l i d)
    (hr : ParsesAt reg s toks r (i + l.printKeys.length + 1) d)
    (hpl : precOf o ≤ l.printPrec) (hpr : precOf o < r.printPrec)
    (hfollow : precAt toks (i + l.printKeys.length + 1 + r.printKeys.length) ≤ precOf o) :
    ∃ (P : ExprNode) (j k f0 : Nat),
      P.isNil = false ∧
      (∀ fuel, f0 ≤ fuel →
        AST.parsePrimary reg fuel (AST.stateAt s toks i d) =
          .done (P, AST.stateAt s toks j d)) ∧
      (∀ (e : Int), e ≤ precOf o → ∀ fuel, f0 ≤ fuel →
        AST.parseBinOpRHS reg (fuel + k) e P (AST.stateAt s toks j d) =
          AST.parseBinOpRHS reg fuel e (OperatorExprNode [o] l r false)
            (AST.stateAt s toks (i + l.printKeys.length + 1 + r.printKeys.length) d)) ∧
      precOf o ≤ precAt toks j := by
  have hdrop := drop_append_left hkeys
  obtain ⟨f1, hpass⟩ := parseBinOpRHS_pass reg s toks hval o l r (i + l.printKeys.length) d
    restK hdrop hrk hrn hr hpr hfollow
  obtain ⟨tk, _, hco, hvo, _, _, _⟩ := key_at hdrop
  simp only at hvo
  obtain ⟨P, j, k, f0, hP, hA, hB, hC⟩ := hl
  refine ⟨P, j, k + 1, f0 + f1, hP, fun fuel hf => hA fuel (by omega), ?_, ?_⟩
  · intro e he fuel hf
    have e1 : fuel + (k + 1) = fuel + 1 + k := by omega
    rw [e1, hB e (le_trans he hpl) (fuel + 1) (by omega)]
    exact hpass e he fuel (by omega)
  · rcases hC with ⟨_, _, rfl, _⟩ | hC
    · rw [precAt_of_cur hco hvo]
    · exact le_trans hpl hC

open AST in
/-- The parser on the printed form of a tree: at an index where the tokens of the printed
form of `T` start, inside a call of `ParseExpression`, when the token that follows is no
opening bracket and does not bind more tightly than `T`. -/
theorem Printable.parsesAt {reg : Registry} {ctx : Context} {T : ExprNode}
    (hT : Printable reg ctx T) (s : GoString) (toks : List Token)
    (hval : ∀ t ∈ toks, t.Value ≠ []) :
    ∀ (i : Nat) (d : Int) (restK : List (GoString × TokenType)), 1 ≤ d →
      (toks.map Token.key).drop i = T.printKeys ++ restK →
      (∀ t, curAt toks (i + T.printKeys.length) = some t → t.Value ≠ ['(']) →
      precAt toks (i + T.printKeys.length) ≤ T.printPrec →
      ParsesAt reg s toks T i d := by
  induction hT with
  | num v s0 hs hpf =>
    intro i d restK _ hkeys _ _
    obtain ⟨c, cs, rfl, _, _, _⟩ := hs
    obtain ⟨t, _, hcur, hv, hty, _, _⟩ := key_at hkeys
    simp only at hv hty
    refine ⟨NumberExprNode v (c :: cs), i + 1, 0, 1, rfl, ?_, fun e _ fuel _ => rfl,
      Or.inl ⟨rfl, rfl, rfl, rfl⟩⟩
    intro fuel hf
    obtain ⟨g, rfl⟩ : ∃ g, fuel = g + 1 := ⟨fuel - 1, by omega⟩
    rw [AST.parsePrimary]
    simp only [AST.stateAt_tok hcur, Run.bind_done, hty]
    unfold AST.parseNumber
    simp only [AST.stateAt_tok hcur, Run.bind_done, hv, hpf, AST.stateAt_next, Run.pure_eq]
  | var c cs p hc hcs hconst _ _ =>
    intro i d restK _ hkeys hfol _
    obtain ⟨t, _, hcur, hv, hty, hlt, _⟩ := key_at hkeys
    simp only at hv hty
    have hne : toks ≠ [] := by
      rintro rfl
      simp at hlt
    obtain ⟨t1, hcur1, _⟩ := curAt_exists hne (i + 1)
    have hnb : t1.Value ≠ ['('] := hfol t1 hcur1
    refine ⟨VariableExprNode (c :: cs), i + 1, 0, 2, rfl, ?_, fun e _ fuel _ => rfl,
      Or.inl ⟨rfl, rfl, rfl, rfl⟩⟩
    intro fuel hf
    obtain ⟨g, rfl⟩ : ∃ g, fuel = g + 1 + 1 := ⟨fuel - 2, by omega⟩
    rw [AST.parsePrimary]
    simp only [AST.stateAt_tok hcur, Run.bind_done, hty]
    rw [AST.parseFunCallerOrConst]
    simp only [AST.stateAt_tok hcur, Run.bind_done, AST.stateAt_next, AST.stateAt_tok hcur1,
      hnb, if_false, hv, AST.constOrVariable, hconst, Run.pure_eq]
  | neg x hx hxp ih =>
    intro i d restK hd hkeys hfol hprec
    have hk : (OperatorExprNode ['-'] (NumberExprNode F64.zero []) x false).printKeys =
        (['-'], OperatorType) :: x.printKeys := by
      rw [printKeys_binary _ _ _ (by decide)]
      rfl
    rw [hk] at hkeys hfol hprec
    simp only [List.length_cons, List.cons_append] at hkeys hfol hprec
    obtain ⟨t, _, hcur, hv, hty, hlt, hdrop⟩ := key_at hkeys
    simp only at hv hty
    have e1 : i + 1 + x.printKeys.length = i + (x.printKeys.length + 1) := by omega
    obtain ⟨P, j, k, f0, hP, hA, hB, hC⟩ := ih (i + 1) d restK hd hdrop
      (by rw [e1]; exact hfol) (by rw [e1, hxp]; exact le_trans (precAt_le _ _) (by decide))
    have hC1 : P = x ∧ j = i + 1 + x.printKeys.length := by
      rcases hC with ⟨_, h1, h2, _⟩ | hC
      · exact ⟨h1, h2⟩
      · rw [hxp] at hC
        have := precAt_le toks j
        omega
    rw [hC1.1, hC1.2] at hA
    obtain ⟨k1, ks1, hk1⟩ := List.exists_cons_of_ne_nil hx.keys_ne
    have hdrop1 : (toks.map Token.key).drop (i + 1) = k1 :: (ks1 ++ restK) := by
      rw [hdrop, hk1]
      rfl
    obtain ⟨t1, hg1, _, _, _, _, _⟩ := key_at hdrop1
    have hnb : (['-'] : GoString) ≠ ['('] := by decide
    refine ⟨OperatorExprNode ['-'] (NumberExprNode F64.zero []) x false,
      i + (x.printKeys.length + 1), 0, f0 + 2, rfl, ?_, ?_, Or.inl ⟨rfl, rfl, ?_, rfl⟩⟩
    · intro fuel hf
      obtain ⟨g, rfl⟩ : ∃ g, fuel = g + 1 + 1 := ⟨fuel - 2, by omega⟩
      rw [AST.parsePrimary]
      simp only [AST.stateAt_tok hcur, Run.bind_done, hty]
      rw [AST.parseOperator]
      simp only [AST.stateAt_tok hcur, Run.bind_done, hv, hnb, if_false, if_true,
        AST.stateAt_next, hg1, hA g (by omega), Run.pure_eq, e1]
    · intro e _ fuel _
      rw [hk]
      rfl
    · rw [hk]
      rfl
  | bin o l r ho hl hr hpl hpr ihl ihr =>
    intro i d restK hd hkeys hfol hprec
    have hob := binaryOps_not_bracket ho
    have hnb : ([o] : GoString) ≠ ['('] := by
      intro hc
      exact hob.1 (by simpa using hc)
    by_cases hm : o = '%'
    · subst hm
      rw [printKeys_mod] at hkeys hfol hprec
      simp only [List.length_cons, List.length_append, List.cons_append, List.append_assoc,
        List.length_singleton, List.singleton_append, List.length_nil] at hkeys hfol hprec
      obtain ⟨t, _, hcur, hv, hty, hlt, hdrop⟩ := key_at hkeys
      simp only at hv hty
      have hne : toks ≠ [] := by
        rintro rfl
        simp at hlt
      have hdl := drop_append_left hdrop
      obtain ⟨tm, _, hcm, hvm, _, _, hdm⟩ := key_at hdl
      simp only at hvm
      have hdr := drop_append_left hdm
      obtain ⟨tr, _, hcr, hvr, _, _, _⟩ := key_at hdr
      simp only at hvr
      have hd1 : (1 : Int) ≤ d + 1 := by omega
      have pl := ihl (i + 1) (d + 1) _ hd1 hdrop
        (by intro t1 h1; rw [hcm] at h1; cases h1; rw [hvm]; decide)
        (by rw [precAt_of_cur hcm hvm]; exact hpl)
      have pr := ihr (i + 1 + l.printKeys.length + 1) (d + 1) _ hd1 hdm
        (by intro t1 h1; rw [hcr] at h1; cases h1; rw [hvr]; decide)
        (by
          rw [precAt_of_cur hcr hvr]
          have h40 : precOf '%' = 40 := by decide
          have h1 : precOf ')' = -1 := by decide
          omega)
      obtain ⟨P, j, k, f0, hP, hA, hB, _⟩ := parse_operands reg s toks hval '%' l r (i + 1)
        (d + 1) _ hdrop hr.keys_ne hr.nonNil pl pr hpl hpr
        (by
          rw [precAt_of_cur hcr hvr]
          decide)
      obtain ⟨k1, ks1, hk1⟩ := List.exists_cons_of_ne_nil hl.keys_ne
      have hdrop1 : (toks.map Token.key).drop (i + 1) = k1 :: (ks1 ++
          (['%'], OperatorType) :: (r.printKeys ++ ([')'], OperatorType) :: restK)) := by
        rw [hdrop, hk1]
        rfl
      obtain ⟨t1, hg1, _, _, _, _, _⟩ := key_at hdrop1
      have hjT : i + (l.printKeys.length + (r.printKeys.length + 1 + 1) + 1) =
          i + 1 + l.printKeys.length + 1 + r.printKeys.length + 1 := by omega
      refine ⟨OperatorExprNode ['%'] l r false,
        i + (l.printKeys.length + (r.printKeys.length + 1 + 1) + 1), 0,
        f0 + k + 4, rfl, ?_, ?_, Or.inl ⟨?_, rfl, ?_, rfl⟩⟩
      · intro fuel hf
        obtain ⟨g, rfl⟩ : ∃ g, fuel = g + 1 + k + 1 + 1 + 1 := ⟨fuel - k - 4, by omega⟩
        rw [AST.parsePrimary]
        simp only [AST.stateAt_tok hcur, Run.bind_done, hty]
        rw [AST.parseOperator]
        simp only [AST.stateAt_tok hcur, Run.bind_done, hv, if_true, AST.stateAt_next, hg1]
        rw [AST.ParseExpression]
        have hdep : ({ AST.stateAt s toks (i + 1) d with
            depth := (AST.stateAt s toks (i + 1) d).depth + 1 } : AST) =
            AST.stateAt s toks (i + 1) (d + 1) := rfl
        rw [hdep, hA (g + 1 + k) (by omega)]
        simp only [Run.bind_done]
        rw [hB 0 (by decide) (g + 1) (by omega)]
        have hstop : AST.parseBinOpRHS reg (g + 1) 0 (OperatorExprNode ['%'] l r false)
            (AST.stateAt s toks (i + 1 + l.printKeys.length + 1 + r.printKeys.length)
              (d + 1)) =
            .done (OperatorExprNode ['%'] l r false,
              AST.stateAt s toks (i + 1 + l.printKeys.length + 1 + r.printKeys.length)
                (d + 1)) := by
          rw [AST.parseBinOpRHS]
          have hlt2 : precAt toks (i + 1 + l.printKeys.length + 1 + r.printKeys.length) < 0 := by
            rw [precAt_of_cur hcr hvr]
            decide
          simp only [AST.stateAt_prec hne hval, Run.bind_done, hlt2, if_true, Run.pure_eq]
        rw [hstop]
        simp only [Run.bind_done]
        have hleave : (AST.stateAt s toks (i + 1 + l.printKeys.length + 1 + r.printKeys.length)
            (d + 1)).leave =
            .done (AST.stateAt s toks (i + 1 + l.printKeys.length + 1 + r.printKeys.length)
              d) := by
          unfold AST.leave
          have hd0 : ¬ (d + 1 - 1 = 0) := by omega
          simp only [AST.stateAt, hd0, false_and, if_false, Run.pure_eq, Run.done.injEq,
            AST.mk.injEq, true_and, and_true]
          omega
        rw [hleave]
        simp only [Run.bind_done, Run.pure_eq, ExprNode.isNil, Bool.false_eq_true, if_false,
          AST.stateAt_tok hcr, hvr, ne_eq, not_true_eq_false, AST.stateAt_next, hjT]
      · intro e _ fuel _
        rw [printKeys_mod]
        simp only [List.length_cons, List.length_append, List.length_singleton,
          List.length_nil]
        rfl
      · simp [ExprNode.printPrec]
      · rw [printKeys_mod]
        simp only [List.length_cons, List.length_append, List.length_singleton,
          List.length_nil]
    · rw [printKeys_binary _ _ _ hm] at hkeys hfol hprec
      rw [printPrec_binary _ _ hm hl.notBlank] at hprec
      simp only [List.length_cons, List.length_append, List.cons_append, List.append_assoc]
        at hkeys hfol hprec
      have hdl := drop_append_left hkeys
      obtain ⟨tm, _, hcm, hvm, _, _, hdm⟩ := key_at hdl
      simp only at hvm
      have e1 : i + l.printKeys.length + 1 + r.printKeys.length =
          i + (l.printKeys.length + (r.printKeys.length + 1)) := by omega
      have pl := ihl i d _ hd hkeys
        (by intro t1 h1; rw [hcm] at h1; cases h1; rw [hvm]; exact hnb)
        (by rw [precAt_of_cur hcm hvm]; exact hpl)
      have pr := ihr (i + l.printKeys.length + 1) d _ hd hdm
        (by rw [e1]; exact hfol)
        (by rw [e1]; omega)
      obtain ⟨P, j, k, f0, hP, hA, hB, hC⟩ := parse_operands reg s toks hval o l r i d _ hkeys
        hr.keys_ne hr.nonNil pl pr hpl hpr (by rw [e1]; exact hprec)
      refine ⟨P, j, k, f0, hP, hA, ?_, Or.inr ?_⟩
      · intro e he fuel hf
        rw [printPrec_binary _ _ hm hl.notBlank] at he
        rw [hB e he fuel hf, printKeys_binary _ _ _ hm]
        simp only [List.length_cons, List.length_append, e1]
      · rw [printPrec_binary _ _ hm hl.notBlank]
        exact hC

/-! ## The printed form of a tree -/

theorem renderPieces_spaced {o : Char} (h : o = '+' ∨ o = '-' ∨ o = '*') (l r : ExprNode)
    (f : Bool) : renderPieces (OperatorExprNode [o] l r f) =
      renderPieces l ++ ([.ws ' ', .op o, .ws ' '] ++ renderPieces r) := by
  rw [renderPieces]
  rcases h with rfl | rfl | rfl <;> simp

theorem renderPieces_tight {o : Char} (h : o = '/' ∨ o = '^') (l r : ExprNode)
    (f : Bool) : renderPieces (OperatorExprNode [o] l r f) =
      renderPieces l ++ (.op o :: renderPieces r) := by
  rw [renderPieces]
  rcases h with rfl | rfl <;> simp

theorem renderPieces_mod (l r : ExprNode) (f : Bool) :
    renderPieces (OperatorExprNode ['%'] l r f) =
      .op '(' :: (renderPieces l ++ ([.ws ' ', .op '%', .ws ' '] ++
        (renderPieces r ++ [.op ')']))) := by
  rw [renderPieces]
  simp

theorem Breaks.literalStops {next : GoString} (h : Breaks next) (l : Char) :
    literalStops l next = true := by
  cases next with
  | nil => rfl
  | cons c rest =>
    show (((c == '-' || c == '+') && l != 'e') || !Parser.isDigitNum c) = true
    rw [(h c rest rfl).1]
    simp

theorem Breaks.wordStops {next : GoString} (h : Breaks next) : wordStops next = true := by
  cases next with
  | nil => rfl
  | cons c rest =>
    show (!Parser.isWordChar c) = true
    rw [(h c rest rfl).2]
    rfl

theorem Breaks.of_head {c : Char} (rest : GoString) (h1 : Parser.isDigitNum c = false)
    (h2 : Parser.isWordChar c = false) : Breaks (c :: rest) := by
  intro c1 r1 h
  cases h
  exact ⟨h1, h2⟩

theorem piecesOk_spaced {o : Char} (ho : (Operators o).isSome = true) {A B : List Piece}
    {next : GoString} (hA : ∀ nx, Breaks nx → piecesOk nx A) (hB : piecesOk next B)
    (hne : piecesText B ≠ []) :
    piecesOk next (A ++ ([.ws ' ', .op o, .ws ' '] ++ B)) := by
  rw [piecesOk_append]
  refine ⟨hA _ (Breaks.of_head _ (by decide) (by decide)), ?_⟩
  refine ⟨⟨by decide, by simp [piecesText, Piece.text]⟩, ho, ⟨by decide, ?_⟩, hB⟩
  intro hc
  exact hne (List.append_eq_nil.1 hc).1

theorem piecesOk_tight {o : Char} (ho : (Operators o).isSome = true)
    (h1 : Parser.isDigitNum o = false) (h2 : Parser.isWordChar o = false)
    {A B : List Piece} {next : GoString} (hA : ∀ nx, Breaks nx → piecesOk nx A)
    (hB : piecesOk next B) : piecesOk next (A ++ (.op o :: B)) := by
  rw [piecesOk_append]
  exact ⟨hA _ (Breaks.of_head _ h1 h2), ho, hB⟩

theorem Printable.render_keys {reg : Registry} {ctx : Context} {T : ExprNode}
    (hT : Printable reg ctx T) : piecesKeys (renderPieces T) = T.printKeys := by
  induction hT with
  | num v s hs _ =>
    obtain ⟨c, cs, rfl, _, _, hu⟩ := hs
    simp only [renderPieces, piecesKeys, ExprNode.printKeys, hu]
  | var c cs p _ _ _ _ _ => rfl
  | neg x _ _ ih =>
    rw [printKeys_binary _ _ _ (by decide), renderPieces_spaced (Or.inr (Or.inl rfl))]
    simp [renderPieces, piecesKeys_append, piecesKeys, ih, ExprNode.printKeys]
  | bin o l r ho _ _ _ _ ihl ihr =>
    simp only [binaryOps, List.mem_cons, List.mem_singleton, List.not_mem_nil,
      or_false] at ho
    rcases ho with rfl | rfl | rfl | rfl | rfl | rfl
    · rw [printKeys_binary _ _ _ (by decide), renderPieces_spaced (Or.inl rfl)]
      simp [piecesKeys_append, piecesKeys, ihl, ihr]
    · rw [printKeys_binary _ _ _ (by decide), renderPieces_spaced (Or.inr (Or.inl rfl))]
      simp [piecesKeys_append, piecesKeys, ihl, ihr]
    · rw [printKeys_binary _ _ _ (by decide), renderPieces_spaced (Or.inr (Or.inr rfl))]
      simp [piecesKeys_append, piecesKeys, ihl, ihr]
    · rw [printKeys_binary _ _ _ (by decide), renderPieces_tight (Or.inl rfl)]
      simp [piecesKeys_append, piecesKeys, ihl, ihr]
    · rw [printKeys_mod, renderPieces_mod]
      simp [piecesKeys_append, piecesKeys, ihl, ihr]
    · rw [printKeys_binary _ _ _ (by decide), renderPieces_tight (Or.inr rfl)]
      simp [piecesKeys_append, piecesKeys, ihl, ihr]

theorem Printable.render_text_ne {reg : Registry} {ctx : Context} {T : ExprNode}
    (hT : Printable reg ctx T) : piecesText (renderPieces T) ≠ [] := by
  cases hT with
  | num v s hs _ =>
    obtain ⟨c, cs, rfl, _⟩ := hs
    simp [renderPieces, piecesText, Piece.text]
  | var c cs p _ _ _ _ _ => simp [renderPieces, piecesText, Piece.text]
  | neg x _ _ =>
    rw [renderPieces_spaced (Or.inr (Or.inl rfl))]
    simp [renderPieces, piecesText, Piece.text, piecesText_append]
  | bin o l r ho _ _ _ _ =>
    simp only [binaryOps, List.mem_cons, List.mem_singleton, List.not_mem_nil,
      or_false] at ho
    rcases ho with rfl | rfl | rfl | rfl | rfl | rfl
    · rw [renderPieces_spaced (Or.inl rfl)]
      simp [piecesText, Piece.text, piecesText_append]
    · rw [renderPieces_spaced (Or.inr (Or.inl rfl))]
      simp [piecesText, Piece.text, piecesText_append]
    · rw [renderPieces_spaced (Or.inr (Or.inr rfl))]
      simp [piecesText, Piece.text, piecesText_append]
    · rw [renderPieces_tight (Or.inl rfl)]
      simp [piecesText, Piece.text, piecesText_append]
    · rw [renderPieces_mod]
      simp [piecesText, Piece.text, piecesText_append]
    · rw [renderPieces_tight (Or.inr rfl)]
      simp [piecesText, Piece.text, piecesText_append]

/-- The pieces of the printed form are what the lexer reads, in front of any text that
does not continue a literal or a word. -/
theorem Printable.render_ok {reg : Registry} {ctx : Context} {T : ExprNode}
    (hT : Printable reg ctx T) : ∀ next, Breaks next → piecesOk next (renderPieces T) := by
  induction hT with
  | num v s hs _ =>
    intro next hb
    obtain ⟨c, cs, rfl, hd, ht, _⟩ := hs
    exact ⟨⟨hd, ht, hb.literalStops _⟩, trivial⟩
  | var c cs p hc hcs _ _ _ =>
    intro next hb
    exact ⟨⟨hc, hcs, hb.wordStops⟩, trivial⟩
  | neg x hx _ ih =>
    intro next hb
    rw [renderPieces_spaced (Or.inr (Or.inl rfl))]
    exact piecesOk_spaced (by decide) (fun _ _ => trivial) (ih next hb) hx.render_text_ne
  | bin o l r ho hl hr _ _ ihl ihr =>
    intro next hb
    simp only [binaryOps, List.mem_cons, List.mem_singleton, List.not_mem_nil,
      or_false] at ho
    rcases ho with rfl | rfl | rfl | rfl | rfl | rfl
    · rw [renderPieces_spaced (Or.inl rfl)]
      exact piecesOk_spaced (by decide) ihl (ihr next hb) hr.render_text_ne
    · rw [renderPieces_spaced (Or.inr (Or.inl rfl))]
      exact piecesOk_spaced (by decide) ihl (ihr next hb) hr.render_text_ne
    · rw [renderPieces_spaced (Or.inr (Or.inr rfl))]
      exact piecesOk_spaced (by decide) ihl (ihr next hb) hr.render_text_ne
    · rw [renderPieces_tight (Or.inl rfl)]
      exact piecesOk_tight (by decide) (by decide) (by decide) ihl (ihr next hb)
    · rw [renderPieces_mod]
      refine ⟨(by decide : (Operators '(').isSome = true), ?_⟩
      refine piecesOk_spaced (by decide) ihl ?_ ?_
      · rw [piecesOk_append]
        exact ⟨ihr _ (Breaks.of_head _ (by decide) (by decide)),
          (by decide : (Operators ')').isSome = true), trivial⟩
      · rw [piecesText_append]
        intro hc
        exact hr.render_text_ne (List.append_eq_nil.1 hc).1
    · rw [renderPieces_tight (Or.inr rfl)]
      exact piecesOk_tight (by decide) (by decide) (by decide) ihl (ihr next hb)

/-- `ToExprStr` of a printable tree returns the text of its pieces. -/
theorem Printable.toExprStr {reg : Registry} {ctx : Context} {T : ExprNode}
    (hT : Printable reg ctx T) : ∀ fuel, T.height ≤ fuel →
      ToExprStr reg fuel T ctx = .done (piecesText (renderPieces T)) := by
  induction hT with
  | num v s hs _ =>
    intro fuel hf
    obtain ⟨c, cs, rfl, _⟩ := hs
    obtain ⟨g, rfl⟩ : ∃ g, fuel = g + 1 := ⟨fuel - 1, by simp [ExprNode.height] at hf; omega⟩
    simp [ToExprStr, renderPieces, piecesText, Piece.text]
  | var c cs p _ _ _ hctx hv =>
    intro fuel hf
    obtain ⟨g, rfl⟩ : ∃ g, fuel = g + 1 := ⟨fuel - 1, by simp [ExprNode.height] at hf; omega⟩
    rw [ToExprStr]
    simp only [GetCtxParameter, hctx]
    rcases hv with hv | hv <;> simp [hv, renderPieces, piecesText, Piece.text]
  | neg x hx _ ih =>
    intro fuel hf
    simp only [ExprNode.height] at hf
    have hx1 : 1 ≤ x.height := by cases x <;> simp [ExprNode.height]
    obtain ⟨g, rfl⟩ : ∃ g, fuel = g + 1 + 1 := ⟨fuel - 2, by omega⟩
    rw [ToExprStr, ih (g + 1) (by omega), renderPieces_spaced (Or.inr (Or.inl rfl))]
    simp [ToExprStr, GetOperator, Operators, OperatorItem.ToExprStr, renderPieces,
      piecesText, Piece.text, piecesText_append]
  | bin o l r ho _ _ _ _ ihl ihr =>
    intro fuel hf
    simp only [ExprNode.height] at hf
    obtain ⟨g, rfl⟩ : ∃ g, fuel = g + 1 := ⟨fuel - 1, by omega⟩
    rw [ToExprStr, ihl g (by omega), ihr g (by omega)]
    simp only [binaryOps, List.mem_cons, List.mem_singleton, List.not_mem_nil,
      or_false] at ho
    rcases ho with rfl | rfl | rfl | rfl | rfl | rfl
    · rw [renderPieces_spaced (Or.inl rfl)]
      simp [GetOperator, Operators, OperatorItem.ToExprStr, piecesText, Piece.text,
        piecesText_append]
    · rw [renderPieces_spaced (Or.inr (Or.inl rfl))]
      simp [GetOperator, Operators, OperatorItem.ToExprStr, piecesText, Piece.text,
        piecesText_append]
    · rw [renderPieces_spaced (Or.inr (Or.inr rfl))]
      simp [GetOperator, Operators, OperatorItem.ToExprStr, piecesText, Piece.text,
        piecesText_append]
    · rw [renderPieces_tight (Or.inl rfl)]
      simp [GetOperator, Operators, OperatorItem.ToExprStr, piecesText, Piece.text,
        piecesText_append]
    · rw [renderPieces_mod]
      simp [GetOperator, Operators, OperatorItem.ToExprStr, piecesText, Piece.text,
        piecesText_append]
    · rw [renderPieces_tight (Or.inr rfl)]
      simp [GetOperator, Operators, OperatorItem.ToExprStr, piecesText, Piece.text,
        piecesText_append]

theorem Printable.last_key {reg : Registry} {ctx : Context} {T : ExprNode}
    (hT : Printable reg ctx T) :
    ∃ init c cs ty, T.printKeys = init ++ [(c :: cs, ty)] ∧ c ≠ '(' ∧ precOf c = -1 := by
  induction hT with
  | num v s hs _ =>
    obtain ⟨c, cs, rfl, hd, _, _⟩ := hs
    refine ⟨[], c, cs, LiteralType, rfl, ?_, ?_⟩
    · rintro rfl
      exact absurd hd (by decide)
    · unfold precOf
      rw [Parser.digit_not_operator c hd]
  | var c cs p hc _ _ _ _ =>
    refine ⟨[], c, cs, IdentifierType, rfl, ?_, ?_⟩
    · rintro rfl
      exact absurd hc (by decide)
    · unfold precOf
      rw [Parser.char_not_operator hc]
  | neg x _ _ ih =>
    obtain ⟨init, c, cs, ty, hk, h1, h2⟩ := ih
    refine ⟨(['-'], OperatorType) :: init, c, cs, ty, ?_, h1, h2⟩
    rw [printKeys_binary _ _ _ (by decide), hk]
    rfl
  | bin o l r _ _ _ _ _ _ ihr =>
    obtain ⟨init, c, cs, ty, hk, h1, h2⟩ := ihr
    by_cases hm : o = '%'
    · subst hm
      refine ⟨(['('], OperatorType) :: (l.printKeys ++ (['%'], OperatorType) :: r.printKeys),
        ')', [], OperatorType, ?_, by decide, by decide⟩
      rw [printKeys_mod]
      simp
    · refine ⟨l.printKeys ++ ([o], OperatorType) :: init, c, cs, ty, ?_, h1, h2⟩
      rw [printKeys_binary _ _ _ hm, hk]
      simp

open AST in
/-- The parser on the tokens of the printed form of a tree returns that tree and has read
every token. -/
theorem Printable.parseExpression {reg : Registry} {ctx : Context} {T : ExprNode}
    (hT : Printable reg ctx T) (s : GoString) (toks : List Token)
    (hval : ∀ t ∈ toks, t.Value ≠ []) (hkeys : toks.map Token.key = T.printKeys) :
    ∃ f0, ∀ fuel, f0 ≤ fuel →
      AST.ParseExpression reg fuel (NewAST toks s) =
        .done (T, AST.stateAt s toks toks.length 0) := by
  obtain ⟨init, c, cs, ty, hk, hc, hp⟩ := hT.last_key
  have hlen : toks.length = T.printKeys.length := by rw [← hkeys, List.length_map]
  have hlen2 : toks.length = init.length + 1 := by rw [hlen, hk]; simp
  have hd0 : (toks.map Token.key).drop 0 = init ++ ([(c :: cs, ty)] ++ []) := by
    rw [List.drop_zero, hkeys, hk, List.append_nil]
  have hdl := drop_append_left hd0
  obtain ⟨tl, _, hcl, hvl, _, _, _⟩ := key_at hdl
  simp only at hvl
  have hcur : curAt toks toks.length = some tl := by
    have h1 : curAt toks toks.length = curAt toks (0 + init.length) := by
      unfold curAt
      congr 1
      rw [hlen2]
      omega
    rw [h1, hcl]
  have hne : toks ≠ [] := by
    rintro rfl
    simp at hlen2
  have hprec : precAt toks toks.length = -1 := by rw [precAt_of_cur hcur hvl, hp]
  have hpp : 20 ≤ T.printPrec := by
    cases hT with
    | num _ _ _ _ => simp [ExprNode.printPrec]
    | var _ _ _ _ _ _ _ _ => simp [ExprNode.printPrec]
    | neg _ _ _ => simp [ExprNode.printPrec, ExprNode.isBlank]
    | bin o l r ho _ _ _ _ =>
      have := binaryOps_prec ho
      unfold ExprNode.printPrec
      simp only [List.headD]
      split_ifs
      · decide
      · decide
      · exact this
  obtain ⟨P, j, k, f0, hP, hA, hB, _⟩ := hT.parsesAt s toks hval 0 1 [] (le_refl 1)
    (by rw [List.drop_zero, hkeys, List.append_nil])
    (by
      intro t ht
      rw [Nat.zero_add, ← hlen, hcur] at ht
      cases ht
      rw [hvl]
      intro hcon
      exact hc (by simpa using congrArg List.head? hcon))
    (by rw [Nat.zero_add, ← hlen, hprec]; omega)
  refine ⟨f0 + k + 2, ?_⟩
  intro fuel hf
  obtain ⟨g, rfl⟩ : ∃ g, fuel = g + 1 + k + 1 := ⟨fuel - k - 2, by omega⟩
  have hnew : NewAST toks s = AST.stateAt s toks 0 0 := by
    cases toks with
    | nil => exact absurd rfl hne
    | cons t0 rest =>
      unfold NewAST AST.stateAt curAt
      simp
  rw [hnew, AST.ParseExpression]
  have hdep : ({ AST.stateAt s toks 0 0 with
      depth := (AST.stateAt s toks 0 0).depth + 1 } : AST) = AST.stateAt s toks 0 1 := rfl
  rw [hdep, hA (g + 1 + k) (by omega)]
  simp only [Run.bind_done]
  rw [hB 0 (by omega) (g + 1) (by omega)]
  have hstop : AST.parseBinOpRHS reg (g + 1) 0 T
      (AST.stateAt s toks (0 + T.printKeys.length) 1) =
      .done (T, AST.stateAt s toks toks.length 1) := by
    rw [AST.parseBinOpRHS, Nat.zero_add, ← hlen]
    have hlt2 : precAt toks toks.length < 0 := by rw [hprec]; decide
    simp only [AST.stateAt_prec hne hval, Run.bind_done, hlt2, if_true, Run.pure_eq]
  rw [hstop]
  simp only [Run.bind_done]
  have hleave : (AST.stateAt s toks toks.length 1).leave =
      .done (AST.stateAt s toks toks.length 0) := by
    unfold AST.leave
    simp [AST.stateAt]
  rw [hleave]
  rfl

/-! ## The tree of a source without brackets -/

theorem Parse_formed {s : GoString} {toks : List Token} (h : Parse s = .done (.ok toks)) :
    ∀ t ∈ toks, t.Formed := by
  obtain ⟨ps, z, _, h2, _, _, rfl⟩ := Parse_ok_inv h
  intro t ht
  obtain ⟨ps1, p, ps2, rfl, hp⟩ := mem_piecesTokens ps 0 ht
  have hok := (piecesOk_append.1 h2).2.1
  cases p with
  | lit c cs =>
    simp only [Piece.token, Option.some.injEq] at hp
    subst hp
    obtain ⟨hd, htail, _⟩ := hok
    have hne := Parser.digit_ne_underscore c hd
    have hcons : Parser.removeUnderscores (c :: cs) = c :: Parser.removeUnderscores cs := by
      simp [Parser.removeUnderscores, hne]
    exact ⟨c, Parser.removeUnderscores cs, hcons, hd,
      literalTail_removeUnderscores cs c c htail (Or.inl rfl), removeUnderscores_idem _⟩
  | op c =>
    simp only [Piece.token, Option.some.injEq] at hp
    subst hp
    have hok1 : (Operators c).isSome = true := hok
    cases ho : Operators c with
    | none => rw [ho] at hok1; cases hok1
    | some o => exact ⟨c, o, rfl, ho⟩
  | comma =>
    simp only [Piece.token, Option.some.injEq] at hp
    subst hp
    rfl
  | ident c cs =>
    simp only [Piece.token, Option.some.injEq] at hp
    subst hp
    obtain ⟨hc, hall, _⟩ := hok
    exact ⟨c, cs, rfl, hc, hall⟩
  | ws c => simp [Piece.token] at hp

theorem Token.Formed.lexed {t : Token} (h : t.Formed) : t.Lexed := by
  unfold Token.Formed at h
  unfold Token.Lexed
  cases hty : t.Typ with
  | IdentifierType =>
    rw [hty] at h
    obtain ⟨c, cs, hv, hc, _⟩ := h
    exact ⟨c, cs, hv, hc⟩
  | LiteralType =>
    rw [hty] at h
    obtain ⟨c, cs, hv, hd, _, _⟩ := h
    exact ⟨c, cs, hv, hd⟩
  | OperatorType =>
    rw [hty] at h
    exact h
  | CommaType =>
    rw [hty] at h
    exact h

theorem ParseFloat_operator {c : Char} {o : OperatorItem} (h : Operators c = some o) :
    ParseFloat [c] = none := by
  obtain ⟨_, hc⟩ := Parser.operator_cases c o h
  rcases hc with h1 | h1 | h1 | h1 | h1 | h1 | h1 | h1 <;> (subst h1; decide)

theorem printPrec_ge_op (o : Char) (l r : ExprNode) (f : Bool) :
    precOf o ≤ (OperatorExprNode [o] l r f).printPrec := by
  have := precOf_le o
  unfold ExprNode.printPrec
  simp only [List.headD]
  split_ifs
  · omega
  · omega
  · exact le_refl _

theorem AST.prec_le_100 {a : AST} {q : Int} (h : a.getTokPrecedence = .done q) : q ≤ 100 := by
  obtain ⟨t, c, cs, _, _, rfl⟩ := AST.getTokPrecedence_inv h
  have := precOf_le c
  omega

/-- The tree that a run of the parser builds from tokens without brackets, when the run
ends without error: it is printable, an operand is printed as one operand, and the loop of
`parseBinOpRHS` stops in front of a token that binds less tightly than its level. -/
theorem Parsed.printable {reg : Registry} {ctx : Context} {c : Call} {a a1 : AST}
    {e : ExprNode} {es : List ExprNode} (h : Parsed reg c a e es a1) :
    (∀ t ∈ a.Tokens, t.Formed ∧ t.Bare reg ctx) → a.Sync → a1.Err = none →
    match c with
    | .args _ => True
    | .binOpRHS p lhs => 0 ≤ p → Printable reg ctx lhs →
        (∀ q, a.getTokPrecedence = .done q → q ≤ lhs.printPrec) →
        Printable reg ctx e ∧ (∀ q, a1.getTokPrecedence = .done q → q < p) ∧
          (e = lhs ∨ p ≤ e.printPrec)
    | .funCallerOrConst => (∀ t, a.currTok = some t → t.Typ = IdentifierType) →
        Printable reg ctx e ∧ e.printPrec = 100
    | .operator => (∀ t, a.currTok = some t → t.Typ = OperatorType) →
        Printable reg ctx e ∧ e.printPrec = 100
    | .primary => Printable reg ctx e ∧ e.printPrec = 100
    | .expression => Printable reg ctx e := by
  induction h with
  | expression a a2 a3 a4 lhs r h1 h2 hl ih1 ih2 =>
    intro htok hs h4
    rcases AST.leave_inv hl with ⟨rfl, _⟩ | ⟨t, _, _, rfl⟩
    · have e3 : a3.Err = none := h4
      have e2 := h2.err_none e3
      obtain ⟨f1, _⟩ := h1.follows
      obtain ⟨p1, p2⟩ := ih1 htok ⟨hs.1, hs.2⟩ e2
      exact (ih2 (by rw [f1.1]; exact htok) (f1.2.2 ⟨hs.1, hs.2⟩) e3 (le_refl 0) p1
        (by intro q hq; rw [p2]; exact AST.prec_le_100 hq)).1
    · cases h4
  | primary_identifier a a1 t e ht hty _ ih =>
    intro htok hs h1
    refine ih htok hs h1 ?_
    intro t1 ht1
    rw [ht] at ht1
    cases ht1
    exact hty
  | primary_literal a a1 t e ht hty hn =>
    intro htok hs h1
    obtain ⟨t1, ht1, ⟨v, hv, rfl, _⟩ | ⟨_, _, rfl⟩⟩ := AST.parseNumber_inv hn
    · rw [ht] at ht1
      cases ht1
      have hf := (htok t (hs.1 t ht)).1
      unfold Token.Formed at hf
      rw [hty] at hf
      exact ⟨Printable.num v t.Value hf hv, rfl⟩
    · cases h1
  | primary_operator a a1 t e ht hty _ ih =>
    intro htok hs h1
    refine ih htok hs h1 ?_
    intro t1 ht1
    rw [ht] at ht1
    cases ht1
    exact hty
  | primary_comma a t _ _ => intro _ _ h; cases h
  | call_const a t t1 ht _ _ =>
    intro htok hs _ hty
    obtain ⟨hf, _, _, hb⟩ := htok t (hs.1 t ht)
    obtain ⟨hconst, p, hctx, hv⟩ := hb (hty t ht)
    unfold Token.Formed at hf
    rw [hty t ht] at hf
    obtain ⟨c, cs, hval, hc, hcs⟩ := hf
    have he : AST.constOrVariable reg t.Value = VariableExprNode (c :: cs) := by
      unfold AST.constOrVariable
      rw [hconst, hval]
    rw [he]
    rw [hval] at hconst hv
    exact ⟨Printable.var c cs p hc hcs hconst hctx hv, rfl⟩
  | call_undefined a t t1 _ _ _ _ => intro _ _ h; cases h
  | call_noArgs a a1 t t1 t2 d e _ ht1 hv1 _ _ _ _ =>
    intro htok hs _ _
    have hm := hs.getNextToken_sync.1 t1 ht1
    rw [AST.getNextToken_Tokens] at hm
    exact absurd hv1 (htok t1 hm).2.1
  | call_args a a3 a4 a1 t t1 t2 d e0 e exprs _ ht1 hv1 _ _ _ _ _ _ _ _ =>
    intro htok hs _ _
    have hm := hs.getNextToken_sync.1 t1 ht1
    rw [AST.getNextToken_Tokens] at hm
    exact absurd hv1 (htok t1 hm).2.1
  | args_done exprs a t _ _ => intro _ _ _; trivial
  | args_eof exprs a t _ _ _ => intro _ _ _; trivial
  | args_comma exprs exprs1 a a1 t t1 _ _ _ _ _ _ => intro _ _ _; trivial
  | args_expression exprs exprs1 a a2 a1 t t1 e _ _ _ _ _ _ _ _ => intro _ _ _; trivial
  | bracket_eof a t t1 _ _ _ _ => intro _ _ h; cases h
  | bracket_nil a a2 t t1 e ht hv _ _ _ _ =>
    intro htok hs _ _
    exact absurd hv (htok t (hs.1 t ht)).2.1
  | bracket_unclosed a a2 t t1 t2 e _ _ _ _ _ _ _ _ => intro _ _ h; cases h
  | bracket a a2 t t1 t2 e ht hv _ _ _ _ _ _ =>
    intro htok hs _ _
    exact absurd hv (htok t (hs.1 t ht)).2.1
  | minus_eof a t t1 _ _ _ _ _ => intro _ _ h; cases h
  | minus a a2 t t1 rhs _ _ _ _ _ ih =>
    intro htok hs h _
    obtain ⟨p1, p2⟩ := ih (by rw [AST.getNextToken_Tokens]; exact htok)
      hs.getNextToken_sync h
    exact ⟨Printable.neg rhs p1 p2, rfl⟩
  | operator_number a a1 t e ht _ _ hn =>
    intro htok hs h1 hty
    obtain ⟨t1, ht1, ⟨v, hv, rfl, _⟩ | ⟨_, _, rfl⟩⟩ := AST.parseNumber_inv hn
    · rw [ht] at ht1
      cases ht1
      have hf := (htok t (hs.1 t ht)).1
      unfold Token.Formed at hf
      rw [hty t ht] at hf
      obtain ⟨c, o, hval, ho⟩ := hf
      rw [hval, ParseFloat_operator ho] at hv
      cases hv
    · cases h1
  | binOp_stop execPrec lhs a p hp hlt =>
    intro _ _ _ _ hl _
    refine ⟨hl, ?_, Or.inl rfl⟩
    intro q hq
    rw [hp] at hq
    cases hq
    exact hlt
  | binOp_eof execPrec lhs a p t1 _ _ _ _ => intro _ _ h; cases h
  | binOp_nil execPrec lhs rhs a a2 p t1 _ _ _ _ hnil ih =>
    intro htok hs h2 _ _ _
    have := (ih (by rw [AST.getNextToken_Tokens]; exact htok) hs.getNextToken_sync h2).1.nonNil
    rw [this] at hnil
    cases hnil
  | binOp_climb_nil execPrec lhs rhs rhs1 a a2 a3 p np t1 hp hge _ h1 _ hnp _ h2 hnil ih1
      ih2 =>
    intro htok hs h3 hpos _ _
    have e2 := h2.err_none h3
    obtain ⟨f1, _⟩ := h1.follows
    have hs1 := hs.getNextToken_sync
    obtain ⟨p1, p2⟩ := ih1 (by rw [AST.getNextToken_Tokens]; exact htok) hs1 e2
    have := (ih2 (by rw [f1.1, AST.getNextToken_Tokens]; exact htok) (f1.2.2 hs1) h3
      (by omega) p1 (by intro q hq; rw [p2]; exact AST.prec_le_100 hq)).1.nonNil
    rw [this] at hnil
    cases hnil
  | binOp_climb execPrec lhs rhs rhs1 r a a2 a3 a4 p np t t1 hprec hge ht hn h1 _ hnp hlt h2
      _ h3 ih1 ih2 ih3 =>
    intro htok hs h4 hpos hl hq0
    have e3 := h3.err_none h4
    have e2 := h2.err_none e3
    obtain ⟨f1, _⟩ := h1.follows
    obtain ⟨f2, _⟩ := h2.follows
    obtain ⟨t', c, cs, ht', hv, hpc⟩ := AST.getTokPrecedence_inv hprec
    rw [ht] at ht'
    cases ht'
    have hcs := (htok t (hs.1 t ht)).1.lexed.one_byte hv (by omega)
    subst hcs
    have hcb : c ∈ binaryOps := precOf_binaryOps (by omega)
    have hs1 := hs.getNextToken_sync
    have htok1 : ∀ t ∈ a.getNextToken.1.Tokens, t.Formed ∧ t.Bare reg ctx := by
      rw [AST.getNextToken_Tokens]; exact htok
    obtain ⟨p1, p2⟩ := ih1 htok1 hs1 e2
    obtain ⟨q1, q2, q3⟩ := ih2 (by rw [f1.1]; exact htok1) (f1.2.2 hs1) e3 (by omega) p1
      (by intro q hq; rw [p2]; exact AST.prec_le_100 hq)
    have hlt1 : precOf c < rhs1.printPrec := by
      rcases q3 with rfl | q3
      · rw [p2]
        have := precOf_le c
        omega
      · omega
    have hnew : Printable reg ctx (OperatorExprNode t.Value lhs rhs1 false) := by
      rw [hv]
      exact Printable.bin c lhs rhs1 hcb hl q1 (by rw [← hpc]; exact hq0 p hprec) hlt1
    have hge2 : precOf c ≤ (OperatorExprNode t.Value lhs rhs1 false).printPrec := by
      rw [hv]
      exact printPrec_ge_op c lhs rhs1 false
    obtain ⟨r1, r2, r3⟩ := ih3 (by rw [f2.1, f1.1]; exact htok1) (f2.2.2 (f1.2.2 hs1)) h4
      hpos hnew (by
        intro q hq
        have := q2 q hq
        omega)
    refine ⟨r1, r2, ?_⟩
    rcases r3 with r3 | r3
    · right
      rw [r3]
      omega
    · exact Or.inr r3
  | binOp_fold execPrec lhs rhs r a a2 a3 p np t t1 hprec hge ht hn h1 _ hnp hnlt h2 ih1 ih2 =>
    intro htok hs h3 hpos hl hq0
    have e2 := h2.err_none h3
    obtain ⟨f1, _⟩ := h1.follows
    obtain ⟨t', c, cs, ht', hv, hpc⟩ := AST.getTokPrecedence_inv hprec
    rw [ht] at ht'
    cases ht'
    have hcs := (htok t (hs.1 t ht)).1.lexed.one_byte hv (by omega)
    subst hcs
    have hcb : c ∈ binaryOps := precOf_binaryOps (by omega)
    have hs1 := hs.getNextToken_sync
    have htok1 : ∀ t ∈ a.getNextToken.1.Tokens, t.Formed ∧ t.Bare reg ctx := by
      rw [AST.getNextToken_Tokens]; exact htok
    obtain ⟨p1, p2⟩ := ih1 htok1 hs1 e2
    have hnew : Printable reg ctx (OperatorExprNode t.Value lhs rhs false) := by
      rw [hv]
      exact Printable.bin c lhs rhs hcb hl p1 (by rw [← hpc]; exact hq0 p hprec)
        (by rw [p2]; have := precOf_le c; omega)
    have hge2 : precOf c ≤ (OperatorExprNode t.Value lhs rhs false).printPrec := by
      rw [hv]
      exact printPrec_ge_op c lhs rhs false
    obtain ⟨r1, r2, r3⟩ := ih2 (by rw [f1.1]; exact htok1) (f1.2.2 hs1) h3 hpos hnew (by
        intro q hq
        rw [hnp] at hq
        cases hq
        omega)
    refine ⟨r1, r2, ?_⟩
    rcases r3 with r3 | r3
    · right
      rw [r3]
      omega
    · exact Or.inr r3

/-! ## The round trip for sources without brackets -/

/-- The printed form of a printable tree is accepted by `ParseExpression`, with the same
tree. -/
theorem Printable.reparse {reg : Registry} {ctx : Context} {T : ExprNode}
    (hT : Printable reg ctx T) :
    ParseExpression reg (piecesText (renderPieces T)) = .done (.ok T) := by
  have hP := Parse_pieces (renderPieces T) .done
    (hT.render_ok [] (fun c rest h => by cases h)) trivial
    (by simpa [SourceEnd.text] using hT.render_text_ne)
  simp only [SourceEnd.text, List.append_nil, SourceEnd.error] at hP
  have hkeys : (piecesTokens 0 (renderPieces T)).map Token.key = T.printKeys := by
    rw [piecesTokens_keys, hT.render_keys]
  have hsafe := Parse_safe hP
  have hval : ∀ t ∈ piecesTokens 0 (renderPieces T), t.Value ≠ [] := fun t ht => (hsafe t ht).1
  obtain ⟨f0, hrun⟩ := hT.parseExpression (piecesText (renderPieces T))
    (piecesTokens 0 (renderPieces T)) hval hkeys
  have hne : piecesTokens 0 (renderPieces T) ≠ [] := by
    intro hc
    rw [hc] at hkeys
    exact hT.keys_ne hkeys.symm
  unfold ParseExpression
  rw [hP]
  simp only [Run.bind_done]
  generalize piecesTokens 0 (renderPieces T) = toks at hsafe hval hrun hne
  generalize piecesText (renderPieces T) = s at hrun
  cases toks with
  | nil => exact absurd rfl hne
  | cons t0 rest =>
    have hlive : (NewAST (t0 :: rest) s).Live := ⟨t0, rfl, List.mem_cons_self _ _⟩
    have hrem : (NewAST (t0 :: rest) s).rem = (t0 :: rest).length := rfl
    obtain ⟨r1, a1, h1, _, _, _⟩ := (AST.returns reg (parseFuel (t0 :: rest).length)).1
      (NewAST (t0 :: rest) s) hsafe hlive (by rw [hrem]; unfold parseFuel; omega)
    have h2 := Run.below_done (AST.fuel_add reg (NewAST (t0 :: rest) s)
      (parseFuel (t0 :: rest).length) f0) h1
    rw [hrun _ (by omega)] at h2
    simp only [Run.done.injEq, Prod.mk.injEq] at h2
    obtain ⟨rfl, rfl⟩ := h2
    have hE : (NewAST (t0 :: rest) s).Err = none := rfl
    simp only [hE, h1, Run.bind_done]
    rfl

/-- The tree of a source without brackets that `ParseExpression` accepts is printable. -/
theorem ParseExpression_printable {reg : Registry} {ctx : Context} {s : GoString}
    {toks : List Token} {t : ExprNode} (hlex : Parse s = .done (.ok toks))
    (hbare : ∀ tk ∈ toks, tk.Bare reg ctx)
    (hparse : ParseExpression reg s = .done (.ok t)) : Printable reg ctx t := by
  obtain ⟨toks1, a1, hP, hne, hpar, _, hE, _, _⟩ := ParseExpression_index hparse
  rw [hlex] at hP
  simp only [Run.done.injEq, Except.ok.injEq] at hP
  subst hP
  have hform := Parse_formed hlex
  have hsync : (NewAST toks s).Sync := by
    cases toks with
    | nil => exact absurd rfl hne
    | cons t0 rest =>
      refine ⟨?_, ?_⟩
      · intro t1 h1
        simp only [NewAST, Option.some.injEq] at h1
        subst h1
        exact List.mem_cons_self _ _
      · intro _
        rfl
  have hT : (NewAST toks s).Tokens = toks := by cases toks <;> rfl
  exact hpar.printable (by
    intro tk htk
    rw [hT] at htk
    exact ⟨hform tk htk, hbare tk htk⟩) hsync hE

/-- C2, as amended. Round trip for sources without brackets: for every registry, every
source that `ParseExpression` accepts with tree `t` and whose tokens hold no bracket and no
name of a registered constant, and every context in which the names of the source are
printed as they are (the context carries bindings that have none for the name, or one of a
type that `ToExprStr` does not print; a source without names puts no condition on the
context), `ToExprStr(t, ctx)` returns a text `r`, `ParseExpression(r)` succeeds with the
same tree `t`, and so `Calculate` of the re-parsed tree equals `Calculate(t, ctx)`. The
source may hold all six operators `+ - * / ^ %`, the unary minus, names, and any
whitespace that the lexer accepts; `r` is the text of the pieces of `renderPieces`, where a
`%` node stands in its brackets. -/
theorem C2_round_trip (reg : Registry) (pow : F64 → F64 → F64) (s : GoString)
    (toks : List Token) (t : ExprNode) (ctx : Context) (fuel : Nat)
    (hlex : Parse s = .done (.ok toks))
    (hbare : ∀ tk ∈ toks, tk.Bare reg ctx)
    (hparse : ParseExpression reg s = .done (.ok t)) (hfuel : t.height ≤ fuel) :
    (∃ r, r = piecesText (renderPieces t) ∧ ToExprStr reg fuel t ctx = .done r ∧
      ParseExpression reg r = .done (.ok t) ∧
      CalculateSource reg pow fuel r ctx = CalculateSource reg pow fuel s ctx) ∧
    ParseExpression defaultRegistry "1+2%3".toList =
      .done (.ok (OperatorExprNode ['+'] (NumberExprNode (F64.ofInt 1) ['1'])
        (OperatorExprNode ['%'] (NumberExprNode (F64.ofInt 2) ['2'])
          (NumberExprNode (F64.ofInt 3) ['3']) false) false)) ∧
    ToExprStrSource defaultRegistry 3 "1+2%3".toList (some emptyParameter) =
      .done (.ok "1 + (2 % 3)".toList) ∧
    ParseExpression defaultRegistry "1 + (2 % 3)".toList =
      .done (.ok (OperatorExprNode ['+'] (NumberExprNode (F64.ofInt 1) ['1'])
        (OperatorExprNode ['%'] (NumberExprNode (F64.ofInt 2) ['2'])
          (NumberExprNode (F64.ofInt 3) ['3']) false) false)) ∧
    ParseExpression defaultRegistry "1 + 2\t*3".toList =
      .done (.ok (OperatorExprNode ['+'] (NumberExprNode (F64.ofInt 1) ['1'])
        (OperatorExprNode ['*'] (NumberExprNode (F64.ofInt 2) ['2'])
          (NumberExprNode (F64.ofInt 3) ['3']) false) false)) ∧
    ToExprStrSource defaultRegistry 3 "1 + 2\t*3".toList (some emptyParameter) =
      .done (.ok "1 + 2 * 3".toList) ∧
    ParseExpression defaultRegistry "1 + 2 * 3".toList =
      .done (.ok (OperatorExprNode ['+'] (NumberExprNode (F64.ofInt 1) ['1'])
        (OperatorExprNode ['*'] (NumberExprNode (F64.ofInt 2) ['2'])
          (NumberExprNode (F64.ofInt 3) ['3']) false) false)) := by
  have hT := ParseExpression_printable hlex hbare hparse
  refine ⟨⟨_, rfl, hT.toExprStr fuel hfuel, hT.reparse, ?_⟩, rfl, rfl, rfl, rfl, rfl, rfl⟩
  unfold CalculateSource
  rw [hT.reparse, hparse]

theorem C2_round_trip_witness :
    ∃ r, r = "x + (2 % 3)/ - y1".toList ∧
      ToExprStr defaultRegistry 4
        (OperatorExprNode ['+'] (VariableExprNode ['x'])
          (OperatorExprNode ['/']
            (OperatorExprNode ['%'] (NumberExprNode (F64.ofInt 2) ['2'])
              (NumberExprNode (F64.ofInt 3) ['3']) false)
            (OperatorExprNode ['-'] (NumberExprNode F64.zero [])
              (VariableExprNode ['y', '1']) false) false) false)
        (some emptyParameter) = .done r ∧
      ParseExpression defaultRegistry r =
        .done (.ok (OperatorExprNode ['+'] (VariableExprNode ['x'])
          (OperatorExprNode ['/']
            (OperatorExprNode ['%'] (NumberExprNode (F64.ofInt 2) ['2'])
              (NumberExprNode (F64.ofInt 3) ['3']) false)
            (OperatorExprNode ['-'] (NumberExprNode F64.zero [])
              (VariableExprNode ['y', '1']) false) false) false)) ∧
      CalculateSource defaultRegistry examplePow 4 r (some emptyParameter) =
        CalculateSource defaultRegistry examplePow 4 "x +2\t%3\n/-y1".toList
          (some emptyParameter) :=
  (C2_round_trip defaultRegistry examplePow "x +2\t%3\n/-y1".toList
    [{ Value := ['x'], Typ := IdentifierType, Offset := 0 },
      { Value := ['+'], Typ := OperatorType, Offset := 2 },
      { Value := ['2'], Typ := LiteralType, Offset := 3 },
      { Value := ['%'], Typ := OperatorType, Offset := 5 },
      { Value := ['3'], Typ := LiteralType, Offset := 6 },
      { Value := ['/'], Typ := OperatorType, Offset := 8 },
      { Value := ['-'], Typ := OperatorType, Offset := 9 },
      { Value := ['y', '1'], Typ := IdentifierType, Offset := 10 }]
    _ (some emptyParameter) 4 rfl
    (by
      intro tk htk
      simp only [List.mem_cons, List.mem_singleton, List.not_mem_nil, or_false] at htk
      rcases htk with rfl | rfl | rfl | rfl | rfl | rfl | rfl | rfl <;>
        exact ⟨by decide, by decide, fun _ => ⟨rfl, emptyParameter, rfl, Or.inl rfl⟩⟩)
    rfl (by decide)).1

/-- Names with a binding are outside the round trip: a name bound to the tree of `1+2`
prints as `1 + 2`, so `x*3` (9) prints as `1 + 2 * 3` (7); a name bound to the float64
`2^-30` prints with six decimals as `0.000000`, which evaluates to 0; a name bound to the integer 5
prints as `5`, so the printed form of `x+1` has another tree, with the same value. -/
theorem round_trip_bound_names :
    CalculateSource defaultRegistry examplePow 4 "x*3".toList (some treeParameter) =
        .done (.ok (F64.ofInt 9)) ∧
      ToExprStrSource defaultRegistry 4 "x*3".toList (some treeParameter) =
        .done (.ok "1 + 2 * 3".toList) ∧
      CalculateSource defaultRegistry examplePow 4 "1 + 2 * 3".toList (some treeParameter) =
        .done (.ok (F64.ofInt 7)) ∧
      CalculateSource defaultRegistry examplePow 4 "x".toList (some smallParameter) =
        .done (.ok (F64.fin 1 (-30))) ∧
      ToExprStrSource defaultRegistry 4 "x".toList (some smallParameter) =
        .done (.ok "0.000000".toList) ∧
      CalculateSource defaultRegistry examplePow 4 "0.000000".toList (some smallParameter) =
        .done (.ok F64.zero) ∧
      ToExprStrSource defaultRegistry 4 "x+1".toList (some exampleParameter) =
        .done (.ok "5 + 1".toList) ∧
      ParseExpression defaultRegistry "5 + 1".toList =
        .done (.ok (OperatorExprNode ['+'] (NumberExprNode (F64.ofInt 5) ['5'])
          (NumberExprNode (F64.ofInt 1) ['1']) false)) ∧
      ParseExpression defaultRegistry "x+1".toList =
        .done (.ok (OperatorExprNode ['+'] (VariableExprNode ['x'])
          (NumberExprNode (F64.ofInt 1) ['1']) false)) := by
  refine ⟨rfl, rfl, rfl, rfl, rfl, rfl, rfl, rfl, rfl⟩

end Mathastc
